import Mathlib

/-!
# Request normalisation and session-token recovery (`utility.c`)

A shallow embedding of the URL parser, path normaliser, query canonicaliser,
cookie value extractor and session token decoder of `utility.c`, followed by
theorems about them.

C strings are modelled as `List Char` holding the bytes before the terminating
NUL; a `char` is a `Char` whose code is the byte value.  Allocation always
succeeds in the model (the `AM_ENOMEM` branches are not taken).
-/

namespace WebAgents

/-! ## Status codes and sizes -/

/-- Modelled from the spec: the enumeration `am_status_t` of `am.h` (the header is
not among the source files), with the values the embedded functions use; the
specification names them InvalidInput, TooLarge, NoMatch, OutOfMemory, NotFound. -/
inductive am_status where
  | AM_SUCCESS
  | AM_ERROR
  | AM_EINVAL
  | AM_E2BIG
  | AM_EOF
  | AM_ENOMEM
  | AM_NOT_FOUND
  deriving DecidableEq, Repr

open am_status

/-- The size constants `AM_PROTO_SIZE`, `AM_HOST_SIZE`, `AM_URI_SIZE` of `am.h`; the
header is not among the source files, so the constants are parameters.  The
`struct url` fields `proto`, `host`, `path`, `query` are taken to be character
arrays one byte longer than the respective size, as the locals
`uri[AM_URI_SIZE + 1]` and `query[AM_URI_SIZE + 1]` of `parse_url` are. -/
structure Sizes where
  AM_PROTO_SIZE : Nat
  AM_HOST_SIZE : Nat
  AM_URI_SIZE : Nat
  deriving DecidableEq, Repr

/-- Sample values of the size constants, for evaluating the functions on concrete
inputs. -/
def amSizes : Sizes := ⟨5, 255, 4096⟩

/-! ## libc helpers -/

/-- The NUL character. -/
def NUL : Char := Char.ofNat 0

/-- Content of a character buffer read as a C string: the bytes before the first NUL. -/
def cstr (buf : List Char) : List Char := buf.takeWhile (fun c => c != NUL)

/-- The function `isspace` in the C locale. -/
def isspace (c : Char) : Bool :=
  c = ' ' || c = '\t' || c = '\n' || c = Char.ofNat 11 || c = Char.ofNat 12 || c = '\r'

/-- The function `isdigit`. -/
def isdigit (c : Char) : Bool := '0'.toNat ≤ c.toNat && c.toNat ≤ '9'.toNat

/-- The function `isxdigit`. -/
def isxdigit (c : Char) : Bool :=
  isdigit c || ('a'.toNat ≤ c.toNat && c.toNat ≤ 'f'.toNat)
    || ('A'.toNat ≤ c.toNat && c.toNat ≤ 'F'.toNat)

/-- The function `toupper` in the C locale. -/
def toupper (c : Char) : Char :=
  if 'a'.toNat ≤ c.toNat && c.toNat ≤ 'z'.toNat then Char.ofNat (c.toNat - 32) else c

/-- The function `tolower` in the C locale. -/
def tolower (c : Char) : Char :=
  if 'A'.toNat ≤ c.toNat && c.toNat ≤ 'Z'.toNat then Char.ofNat (c.toNat + 32) else c

/-- The function `strcmp`: the sign of the first differing byte pair, bytes compared unsigned. -/
def strcmp : List Char → List Char → Int
  | [], [] => 0
  | [], _ :: _ => -1
  | _ :: _, [] => 1
  | a :: as, b :: bs =>
    if a = b then strcmp as bs else if a.toNat < b.toNat then -1 else 1

/-- The test `strcasecmp(a, b) == 0`. -/
def strcaseeq (a b : List Char) : Bool := a.map tolower = b.map tolower

/-- Modelled from the spec: the macro `ISVALID` of `am.h` (the header is not among
the source files).  The specification calls an invalid argument empty or absent;
for a non-NULL buffer `ISVALID` says the string is not empty.  Its negation
`ISINVALID` on a pointer argument is written out as the NULL case and the empty
case where the functions test it. -/
def ISVALID (s : List Char) : Bool := !s.isEmpty

/-- The call `strncpy(dst, src, n)` into a zero-filled buffer longer than `n`: the first `n` bytes. -/
def strncpy (src : List Char) (n : Nat) : List Char := src.take n

/-- The call `strncat(dst, src, n)`: `dst` followed by at most `n` bytes of `src`. -/
def strncat (dst src : List Char) (n : Nat) : List Char := dst ++ src.take n

/-- The tokens returned by calling `am_strsep(&p, delim)` until it returns NULL:
each call returns the text up to the next character of `delim` and leaves `p`
after it; the call that reaches the end of the string returns the last token and
sets `p` to NULL. -/
def am_strsep (delim : List Char) : List Char → List (List Char)
  | [] => [[]]
  | c :: cs =>
    if delim.contains c then [] :: am_strsep delim cs
    else match am_strsep delim cs with
      | [] => [[c]]
      | t :: ts => (c :: t) :: ts

/-- The tokens returned by `strtok_r(s, delim, &save)` and its continuation calls
`strtok_r(NULL, delim, &save)`: the maximal non-empty runs free of the characters
of `delim`. -/
def strtok_r (delim : List Char) (s : List Char) : List (List Char) :=
  (am_strsep delim s).filter (fun t => !t.isEmpty)

/-- The test `strstr(a, b) != NULL`. -/
def strstr (b : List Char) : List Char → Bool
  | [] => b.isEmpty
  | c :: cs => b.isPrefixOf (c :: cs) || strstr b cs

/-- The macro `TRIM_TEST` of `trim`. -/
def TRIM_TEST (x y : Char) : Bool :=
  if x = NUL || isspace x then isspace y else y = x

/-- The call `trim(str, w)`: the new content of `str`. -/
def trim (str : List Char) (w : Char) : List Char :=
  ((str.dropWhile (TRIM_TEST w)).reverse.dropWhile (TRIM_TEST w)).reverse

/-- The call `char_count(string, c, NULL)`. -/
def char_count (s : List Char) (c : Char) : Nat := s.count c

/-! ## Path normaliser -/

/-- The double-dot loop of `uri_normalize`: `m` is the write index and `norm` is
`segment_list_norm` (a NULL slot is `none`). -/
def normLoop : List (List Char) → Nat → List (Option (List Char)) →
    Nat × List (Option (List Char))
  | [], m, norm => (m, norm)
  | s :: rest, m, norm =>
    if s = "..".toList then
      if m ≤ 1 then normLoop rest 1 norm
      else normLoop rest (m - 1) (norm.set (m - 1) none)
    else normLoop rest (m + 1) (norm.set m (some s))

/-- The join loop of `uri_normalize` from index `i` on; `first` tells whether `i = 0`
(where `strncpy` is used instead of `strncat`), `n` is `sizeof (u) - 1`. -/
def joinLoop (n : Nat) : Bool → List (Option (List Char)) → List Char → List Char
  | _, [], u => u
  | _, none :: _, u => u
  | first, some s :: rest, u =>
    let u1 := if first then strncpy s n else strncat u s n
    let u2 := match rest with
      | some _ :: _ => strncat u1 "/".toList n
      | _ => u1
    joinLoop n false rest u2

/-- The call `uri_normalize(url, path)` for a non-NULL `path`: the new content of `path`. -/
def uri_normalize (sz : Sizes) (path : List Char) : List Char :=
  let segment_list := (am_strsep "/".toList path).filter (fun s => s != ".".toList)
  let list_sz := segment_list.length
  if list_sz = 0 then path
  else
    let r := normLoop segment_list 0 (List.replicate list_sz none)
    joinLoop sz.AM_URI_SIZE true r.2 []

/-! ## `sscanf` with the formats `HD1` .. `HD4` -/

/-- The scan set of `URI_HTTP`: `[HTPShtps]`. -/
def inProtoSet (c : Char) : Bool := "HTPShtps".toList.contains c

/-- The scan set of `URI_HOST`. -/
def inHostSet (c : Char) : Bool :=
  "-_.abcdefghijklmnopqrstuvwxyzABCDEFGHIJKLMNOPQRSTUVWXYZ0123456789".toList.contains c

/-- A `%w[set]` directive: up to `w` leading characters of the set, at least one;
the result is the converted text and the unread input. -/
def scanSet (w : Nat) (set : Char → Bool) (inp : List Char) :
    Option (List Char × List Char) :=
  let tok := (inp.takeWhile set).take w
  if tok.isEmpty then none else some (tok, inp.drop tok.length)

/-- An ordinary (non-white-space) format character sequence: it must be next in the input. -/
def scanLit : List Char → List Char → Option (List Char)
  | [], inp => some inp
  | _ :: _, [] => none
  | c :: cs, x :: inp => if c = x then scanLit cs inp else none

/-- The value of a run of decimal digits. -/
def digitsVal (ds : List Char) : Nat :=
  ds.foldl (fun acc d => acc * 10 + (d.toNat - '0'.toNat)) 0

/-- The digits of a `%wd` directive once the sign is read: up to `w` digits, at least one. -/
def scanDigits (w : Nat) (inp : List Char) : Option (Nat × List Char) :=
  let ds := (inp.takeWhile isdigit).take w
  if ds.isEmpty then none else some (digitsVal ds, inp.drop ds.length)

/-- A `%wd` directive: white space is skipped, then an optional sign and decimal
digits are read, `w` characters at most in all. -/
def scanInt (w : Nat) (inp : List Char) : Option (Int × List Char) :=
  match inp.dropWhile isspace with
  | '-' :: r => (scanDigits (w - 1) r).map (fun p => (-(p.1 : Int), p.2))
  | '+' :: r => (scanDigits (w - 1) r).map (fun p => ((p.1 : Int), p.2))
  | r => (scanDigits w r).map (fun p => ((p.1 : Int), p.2))

/-- A `%ws` directive: white space is skipped, then up to `w` characters that are
not white space are read, at least one. -/
def scanStr (w : Nat) (inp : List Char) : Option (List Char × List Char) :=
  let r := inp.dropWhile isspace
  let tok := (r.takeWhile (fun c => !isspace c)).take w
  if tok.isEmpty then none else some (tok, r.drop tok.length)

/-- The variables the `sscanf` calls of `parse_url` assign: `url->proto`,
`url->host`, the local `port` and `url->path`. -/
structure ScanVars where
  proto : List Char
  host : List Char
  port : Int
  path : List Char
  deriving DecidableEq, Repr

/-- The common head `URI_HTTP "://" URI_HOST` of the four formats: the number of
assignments made, the variables, and the unread input when both conversions succeeded. -/
def scanHead (sz : Sizes) (u : List Char) (v : ScanVars) :
    Nat × ScanVars × Option (List Char) :=
  match scanSet sz.AM_PROTO_SIZE inProtoSet u with
  | none => (0, v, none)
  | some (proto, r1) =>
    let v1 := { v with proto := proto }
    match scanLit "://".toList r1 with
    | none => (1, v1, none)
    | some r2 =>
      match scanSet sz.AM_HOST_SIZE inHostSet r2 with
      | none => (1, v1, none)
      | some (host, r3) => (2, { v1 with host := host }, some r3)

/-- The tail `":" URI_PORT` after the head: assignments so far, variables, unread input. -/
def scanPort (h : Nat × ScanVars × Option (List Char)) :
    Nat × ScanVars × Option (List Char) :=
  match h with
  | (n, v, none) => (n, v, none)
  | (n, v, some r3) =>
    match scanLit ":".toList r3 with
    | none => (n, v, none)
    | some r4 =>
      match scanInt 6 r4 with
      | none => (n, v, none)
      | some (port, r5) => (n + 1, { v with port := port }, some r5)

/-- The tail `"/" URI_PATH`: assignments so far and variables. -/
def scanPath (sz : Sizes) (h : Nat × ScanVars × Option (List Char)) : Nat × ScanVars :=
  match h with
  | (n, v, none) => (n, v)
  | (n, v, some r) =>
    match scanLit "/".toList r with
    | none => (n, v)
    | some r1 =>
      match scanStr sz.AM_URI_SIZE r1 with
      | none => (n, v)
      | some (path, _) => (n + 1, { v with path := path })

/-- The call `sscanf(u, HD1, url->proto, url->host, &port, url->path)`: the number of
input items assigned (an input failure before the first conversion, for which
`sscanf` returns `EOF`, counts as 0) and the variables afterwards. -/
def sscanf_HD1 (sz : Sizes) (u : List Char) (v : ScanVars) : Nat × ScanVars :=
  scanPath sz (scanPort (scanHead sz u v))

/-- The call `sscanf(u, HD2, url->proto, url->host, url->path)`. -/
def sscanf_HD2 (sz : Sizes) (u : List Char) (v : ScanVars) : Nat × ScanVars :=
  scanPath sz (scanHead sz u v)

/-- The call `sscanf(u, HD3, url->proto, url->host, &port)`. -/
def sscanf_HD3 (sz : Sizes) (u : List Char) (v : ScanVars) : Nat × ScanVars :=
  let r := scanPort (scanHead sz u v)
  (r.1, r.2.1)

/-- The call `sscanf(u, HD4, url->proto, url->host)`. -/
def sscanf_HD4 (sz : Sizes) (u : List Char) (v : ScanVars) : Nat × ScanVars :=
  let r := scanHead sz u v
  (r.1, r.2.1)

/-! ## URL decoding and query canonicalisation -/

/-- The macro `BASE16_TO_BASE10`. -/
def BASE16_TO_BASE10 (x : Char) : Nat :=
  if isdigit x then x.toNat - '0'.toNat else (toupper x).toNat - 'A'.toNat + 10

/-- The bytes `url_decode` writes to `dest`, before the terminating NUL. -/
def url_decode_bytes : List Char → List Char
  | '%' :: h1 :: h2 :: rest =>
    if isxdigit h1 && isxdigit h2 then
      Char.ofNat ((BASE16_TO_BASE10 h1 * 16 + BASE16_TO_BASE10 h2) % 256) :: url_decode_bytes rest
    else '%' :: url_decode_bytes (h1 :: h2 :: rest)
  | c :: rest => (if c = '+' then ' ' else c) :: url_decode_bytes rest
  | [] => []

/-- The call `url_decode(str)` read back as a C string (a decoded `%00` ends it). -/
def url_decode (str : List Char) : List Char := cstr (url_decode_bytes str)

/-- The loop of `parse_url` that replaces consecutive slashes by one; `last` is the
previous character. -/
def collapseSlashes : Char → List Char → List Char
  | _, [] => []
  | last, c :: rest =>
    if c != '/' || (c == '/' && last != '/') then c :: collapseSlashes c rest
    else collapseSlashes c rest

/-- A `struct query_attribute`. -/
structure query_attribute where
  key : List Char
  key_value : List Char
  deriving DecidableEq, Repr

/-- The function `query_attribute_compare`. -/
def query_attribute_compare (a b : query_attribute) : Int :=
  let status := strcmp a.key b.key
  if status = 0 then strcmp a.key_value b.key_value else status

/-- The element built for one `strtok_r` token: `key_value` is the token, `key` a
copy of it cut at its first equals sign. -/
def mkAttribute (token : List Char) : query_attribute :=
  ⟨token.takeWhile (fun c => c != '='), token⟩

/-- The order `qsort` sorts by: `a` may precede `b` when the comparison is not positive. -/
def attrLe (a b : query_attribute) : Prop := query_attribute_compare a b ≤ 0

instance : DecidableRel attrLe := fun a b => by unfold attrLe; infer_instance

/-- The call `qsort(list, n, sizeof (struct query_attribute), query_attribute_compare)`.
The C library leaves the algorithm open; insertion sort stands for it. -/
def qsort (list : List query_attribute) : List query_attribute :=
  list.insertionSort attrLe

/-- The query rebuilt from the sorted list: a question mark, then the `key_value`
texts separated by ampersands. -/
def rebuildQuery (list : List query_attribute) : List Char :=
  '?' :: "&".toList.intercalate (list.map (fun e => e.key_value))

/-- The query handling of `parse_url` for the text `p` starting at the first
question mark of the path: the new `url->query`. -/
def sortQuery (sz : Sizes) (p : List Char) : List Char :=
  let q0 := strncpy p sz.AM_URI_SIZE
  let query := strncpy (q0.drop 1) sz.AM_URI_SIZE
  if char_count query '&' > 0 then
    rebuildQuery (qsort ((strtok_r "&".toList query).map mkAttribute))
  else q0

/-! ## URL parser -/

/-- Modelled from the spec: the `struct url` of `am.h` (the header is not among the
source files), with the members `parse_url` assigns. -/
structure url where
  error : am_status
  ssl : Nat
  port : Nat
  proto : List Char
  host : List Char
  path : List Char
  query : List Char
  deriving DecidableEq, Repr

/-- What a call `parse_url(u, url)` with a non-NULL `url` does. -/
inductive parse_result where
  /-- Returns `AM_SUCCESS` and leaves `url` with the given content. -/
  | success (r : url)
  /-- Returns `AM_ERROR` after setting `url->error`. -/
  | failure (error : am_status)
  /-- Undefined behaviour: `url->path` is read after it has lost its terminating NUL. -/
  | undefined
  deriving DecidableEq, Repr

/-- The four `sscanf` attempts of `parse_url` in their order: the variables after
the first call that assigns all its items, `none` when no call does.  The
variables a failed call has assigned are kept for the next call. -/
def scanUrl (sz : Sizes) (u : List Char) : Option ScanVars :=
  let v0 : ScanVars := ⟨[], [], 0, []⟩
  let s1 := sscanf_HD1 sz u v0
  let s2 := sscanf_HD2 sz u s1.2
  let s3 := sscanf_HD3 sz u s2.2
  let s4 := sscanf_HD4 sz u s3.2
  if s1.1 = 4 then some s1.2
  else if s2.1 = 3 then some s2.2
  else if s3.1 = 3 then some s3.2
  else if s4.1 = 2 then some s4.2
  else none

/-- The part of `parse_url` from the query split on, for the path with its leading
slash in place. -/
def parseTail (sz : Sizes) (v : ScanVars) (ssl port : Nat) (path : List Char) :
    parse_result :=
  let p := path.dropWhile (fun c => c != '?')
  let query := if p.isEmpty then [] else sortQuery sz p
  let path1 := path.takeWhile (fun c => c != '?')
  let d := url_decode path1
  let uri := collapseSlashes NUL d
  let uri1 := uri_normalize sz uri
  .success ⟨AM_SUCCESS, ssl, port, v.proto, v.host, strncpy uri1 sz.AM_URI_SIZE, query⟩

/-- The `ssl` flag `parse_url` derives from the scheme. -/
def sslOf (v : ScanVars) : Nat := if strcaseeq v.proto "https".toList then 1 else 0

/-- The port `parse_url` stores: the absolute value of the scanned one, or the
default of the scheme when that is 0. -/
def portOf (v : ScanVars) : Nat :=
  let port0 := v.port.natAbs
  if strcaseeq v.proto "https".toList && port0 = 0 then 443
  else if strcaseeq v.proto "http".toList && port0 = 0 then 80
  else port0

/-- The part of `parse_url` after a successful `sscanf`: the port and `ssl`
defaults and the leading slash.  A scanned path of `ul` characters without a
leading slash is moved up by one with `memmove(url->path + 1, url->path, ul)`;
when `ul` is `AM_URI_SIZE` the `AM_URI_SIZE + 1` bytes of the array are then all
in use and the terminating NUL is gone, so the reads of `url->path` that follow
are undefined. -/
def parseScanned (sz : Sizes) (v : ScanVars) : parse_result :=
  if !ISVALID v.path then
    parseTail sz v (sslOf v) (portOf v) "/".toList
  else if v.path.head? != some '/' then
    if v.path.length + 1 > sz.AM_URI_SIZE then .undefined
    else parseTail sz v (sslOf v) (portOf v) ('/' :: v.path)
  else parseTail sz v (sslOf v) (portOf v) v.path

/-- The call `parse_url(u, url)`; `u = none` is a NULL pointer. -/
def parse_url (sz : Sizes) (u : Option (List Char)) : parse_result :=
  match u with
  | none => .failure AM_EINVAL
  | some u =>
    if u.length > sz.AM_PROTO_SIZE + sz.AM_HOST_SIZE + 6 + sz.AM_URI_SIZE then
      .failure AM_E2BIG
    else
      match scanUrl sz u with
      | none => .failure AM_EOF
      | some v => parseScanned sz v

/-! ## Cookie value extractor -/

/-- The loop body of `get_cookie_value` for the separators `=` and `~`, run over the
tokens; the state is `found` and `*value`. -/
def pairedLoop (cookie_name : List Char) :
    List (List Char) → am_status → Option (List Char) → am_status × Option (List Char)
  | [], found, value => (found, value)
  | a :: rest, found, value =>
    let a1 := trim a ' '
    if found != AM_SUCCESS && strcmp a1 cookie_name = 0 then
      pairedLoop cookie_name rest AM_SUCCESS value
    else if found = AM_SUCCESS && !a1.isEmpty then
      pairedLoop cookie_name rest found (some (trim a1 '"'))
    else pairedLoop cookie_name rest found value

/-- Whether `separator` is `=` or `~`. -/
def isPairSeparator (separator : List Char) : Bool :=
  strcmp separator "=".toList = 0 || strcmp separator "~".toList = 0

/-- The function `get_cookie_value` called with the separator `=` or `~`, as the nested calls
are: the returned status and the string `*value` is left pointing to (`none` is
NULL). -/
def get_cookie_value_paired (separator : List Char) (cookie_name : List Char)
    (cookie_header_val : List Char) : am_status × Option (List Char) :=
  if cookie_name.isEmpty then (AM_EINVAL, none)
  else if cookie_header_val.isEmpty then (AM_NOT_FOUND, none)
  else pairedLoop cookie_name (strtok_r separator cookie_header_val) AM_NOT_FOUND none

/-- The token with its first equals sign replaced by a tilde. -/
def tildeFirstEq : List Char → List Char
  | [] => []
  | c :: cs => if c = '=' then '~' :: cs else c :: tildeFirstEq cs

/-- The loop body of `get_cookie_value` for any other separator, run over the tokens. -/
def outerLoop (cookie_name : List Char) :
    List (List Char) → am_status → Option (List Char) → am_status × Option (List Char)
  | [], found, value => (found, value)
  | a :: rest, found, value =>
    if !strstr cookie_name a then outerLoop cookie_name rest found value
    else
      let ec := a.count '='
      let r :=
        if ec > 1 then get_cookie_value_paired "~".toList cookie_name (tildeFirstEq a)
        else get_cookie_value_paired "=".toList cookie_name a
      if r.1 = AM_SUCCESS then r else outerLoop cookie_name rest r.1 r.2

/-- The call `get_cookie_value(rq, separator, cookie_name, cookie_header_val, value)`: the
returned status and the string `*value` is left pointing to; `none` is a NULL
pointer, and where the function returns before assigning `*value` the model
gives `none`. -/
def get_cookie_value (separator : List Char) (cookie_name : Option (List Char))
    (cookie_header_val : Option (List Char)) : am_status × Option (List Char) :=
  match cookie_name with
  | none => (AM_EINVAL, none)
  | some name =>
    if name.isEmpty then (AM_EINVAL, none)
    else match cookie_header_val with
      | none => (AM_NOT_FOUND, none)
      | some header =>
        if header.isEmpty then (AM_NOT_FOUND, none)
        else if isPairSeparator separator then
          pairedLoop name (strtok_r separator header) AM_NOT_FOUND none
        else outerLoop name (strtok_r separator header) AM_NOT_FOUND none

/-! ## Base64 -/

/-- The array `base64_table`. -/
def base64_table : List Char :=
  "ABCDEFGHIJKLMNOPQRSTUVWXYZabcdefghijklmnopqrstuvwxyz0123456789+/".toList

/-- The local `table` of `base64_decode`: 64 for a character outside `base64_table`. -/
def b64table (c : Char) : Nat := base64_table.indexOf c

/-- The three output bytes `base64_decode` computes from table values. -/
def b64byte1 (a b : Nat) : Nat := (a <<< 2 ||| b >>> 4) % 256

/-- Second output byte of a group. -/
def b64byte2 (b c : Nat) : Nat := (b <<< 4 ||| c >>> 2) % 256

/-- Third output byte of a group. -/
def b64byte3 (c d : Nat) : Nat := (c <<< 6 ||| d) % 256

/-- The decoding loop and the three trailing `if`s of `base64_decode`, run over
the table values of the `i` leading base64 characters. -/
def b64groups : List Nat → List Nat
  | a :: b :: c :: d :: e :: rest =>
    b64byte1 a b :: b64byte2 b c :: b64byte3 c d :: b64groups (e :: rest)
  | [a, b, c, d] => [b64byte1 a b, b64byte2 b c, b64byte3 c d]
  | [a, b, c] => [b64byte1 a b, b64byte2 b c]
  | [a, b] => [b64byte1 a b]
  | _ => []

/-- The call `base64_decode(src, &sz)` for a non-NULL `src`: the `*sz` bytes written before
the terminating NUL. -/
def base64_decode (src : List Char) : List Nat :=
  b64groups ((src.takeWhile (fun c => b64table c ≤ 63)).map b64table)

/-! ## Session token decoder -/

/-- The c66 substitution loop of `am_session_decode`. -/
def c66decode : Bool → List Char → List Char
  | _, [] => []
  | first_star, c :: cs =>
    if c = '-' then '+' :: c66decode first_star cs
    else if c = '_' then '/' :: c66decode first_star cs
    else if c = '.' then '=' :: c66decode first_star cs
    else if c = '*' then
      if first_star then '@' :: c66decode false cs else '#' :: c66decode first_star cs
    else c :: c66decode first_star cs

/-- The local enumeration of `am_session_decode`. -/
inductive session_type where
  | AM_NA
  | AM_SI
  | AM_SK
  | AM_S1
  deriving DecidableEq, Repr, Fintype

open session_type

/-- Modelled from the spec: the `struct am_session_info` of `am.h` (the header is
not among the source files), with the members `am_session_decode` assigns.  Each
field holds the `sz` bytes copied into its
buffer before the terminating NUL, `none` is a NULL pointer. -/
structure am_session_info where
  si : Option (List Nat)
  sk : Option (List Nat)
  s1 : Option (List Nat)
  error : am_status
  deriving DecidableEq, Repr

/-- The state of the record loop of `am_session_decode`: `l` (a `size_t` of 64
bits), `raw` as an offset from the decoded buffer `c`, `nv`, `ty`, the session
info, and the accesses made to the buffer so far, each as first offset and
number of bytes. -/
structure WalkState where
  l : Nat
  raw : Nat
  nv : Nat
  ty : session_type
  info : am_session_info
  reads : List (Nat × Nat)
  deriving DecidableEq, Repr

/-- The byte at offset `i` of the buffer returned by `base64_decode`: the payload,
its terminating NUL, and after that whatever the heap holds. -/
def bufByte (payload : List Nat) (heap : Nat → Nat) (i : Nat) : Nat :=
  if i < payload.length then payload.getD i 0
  else if i = payload.length then 0 else heap i % 256

/-- The `n` bytes from offset `raw`. -/
def bufBytes (payload : List Nat) (heap : Nat → Nat) (raw n : Nat) : List Nat :=
  (List.range n).map (fun k => bufByte payload heap (raw + k))

/-- Subtraction of `size_t` values. -/
def sizeSub (a b : Nat) : Nat := (a + 2 ^ 64 - b % 2 ^ 64) % 2 ^ 64

/-- One iteration of the record loop: the next state, and whether the loop goes on
(`false` after a `break`). -/
def walkStep (payload : List Nat) (heap : Nat → Nat) (s : WalkState) : WalkState × Bool :=
  let len0 := bufByte payload heap s.raw
  let len1 := bufByte payload heap (s.raw + 1)
  let sz := (len1 ||| len0 <<< 8) % 2 ^ 16
  let l1 := sizeSub s.l 2
  let raw1 := s.raw + 2
  let reads1 := s.reads ++ [(s.raw, 2)]
  if s.nv % 2 = 0 then
    let tag := bufBytes payload heap raw1 2
    let reads2 := reads1 ++ [(raw1, 2)]
    let next (ty : session_type) : WalkState × Bool :=
      (⟨sizeSub l1 sz, raw1 + sz, s.nv + 1, ty, s.info, reads2⟩, true)
    if tag = "SI".toList.map Char.toNat then next AM_SI
    else if tag = "SK".toList.map Char.toNat then next AM_SK
    else if tag = "S1".toList.map Char.toNat then next AM_S1
    else (⟨l1, raw1, s.nv, s.ty, s.info, reads2⟩, false)
  else
    let val := bufBytes payload heap raw1 sz
    let reads2 := reads1 ++ [(raw1, sz)]
    match s.ty with
    | AM_SI =>
      (⟨sizeSub l1 sz, raw1 + sz, s.nv + 1, s.ty, { s.info with si := some val }, reads2⟩, true)
    | AM_SK =>
      (⟨sizeSub l1 sz, raw1 + sz, s.nv + 1, s.ty, { s.info with sk := some val }, reads2⟩, true)
    | AM_S1 =>
      (⟨sizeSub l1 sz, raw1 + sz, s.nv + 1, s.ty, { s.info with s1 := some val }, reads2⟩, true)
    | AM_NA => (⟨sizeSub l1 sz, raw1 + sz, s.nv + 1, s.ty, s.info, reads1⟩, true)

/-- The loop `while (l > 0)` run for at most `fuel` iterations: `none` when it has
not ended by then. -/
def walkLoop (payload : List Nat) (heap : Nat → Nat) : Nat → WalkState → Option WalkState
  | 0, s => if s.l > 0 then none else some s
  | fuel + 1, s =>
    if s.l > 0 then
      let r := walkStep payload heap s
      if r.2 then walkLoop payload heap fuel r.1 else some r.1
    else some s

/-- The empty session info `memset` leaves. -/
def emptyInfo : am_session_info := ⟨none, none, none, AM_SUCCESS⟩

/-- The text between the first `@` of the token and the end of the token, when the
token has an `@`, a later `#`, and at least one character between the two. -/
def sessionSpan (token : List Char) : Option (List Char) :=
  match token.dropWhile (fun c => c != '@') with
  | [] => none
  | _ :: afterAt =>
    if (afterAt.dropWhile (fun c => c != '#')).isEmpty then none
    else if (afterAt.takeWhile (fun c => c != '#')).isEmpty then none
    else some afterAt

/-- The token after the c66 step of `am_session_decode`. -/
def sessionToken (token : List Char) : List Char :=
  if token.contains '*' then c66decode true token else token

/-- The record loop of `am_session_decode` on the decoded payload, from its initial state. -/
def sessionWalk (payload : List Nat) (heap : Nat → Nat) (fuel : Nat) : Option WalkState :=
  walkLoop payload heap fuel ⟨payload.length % 2 ^ 64, 0, 0, AM_NA, emptyInfo, []⟩

/-- The call `am_session_decode(r)`, with `token` the value of `r->token` (`none` is NULL):
the returned status and `r->session_info`.  `heap` gives the bytes found after
the decoded buffer; the result is `none` when the record loop has not ended
after `fuel` iterations. -/
def am_session_decode (heap : Nat → Nat) (fuel : Nat) (token : Option (List Char)) :
    Option (am_status × am_session_info) :=
  match token with
  | none => some (AM_EINVAL, emptyInfo)
  | some t =>
    if t.isEmpty then some (AM_EINVAL, emptyInfo)
    else
      match sessionSpan (sessionToken t) with
      | none => some (AM_SUCCESS, emptyInfo)
      | some span =>
        (sessionWalk (base64_decode span) heap fuel).map (fun s => (AM_SUCCESS, s.info))

/-! ## Auxiliary definitions for the statements -/

/-- The kept segments of the double-dot loop as a list: a double dot removes the
last kept segment when at least two are kept, any other segment is appended. -/
def stackWalk : List (List Char) → List (List Char) → List (List Char)
  | [], st => st
  | s :: rest, st =>
    if s = "..".toList then
      if st.length ≤ 1 then stackWalk rest st else stackWalk rest st.dropLast
    else stackWalk rest (st ++ [s])

/-- The reference walk of the specification of the path normaliser: keep a stack of
segments; a double dot removes the most recently kept segment unless the stack holds
only the leading empty (root) segment, any other segment is pushed. -/
def refWalk : List (List Char) → List (List Char) → List (List Char)
  | [], st => st
  | s :: rest, st =>
    if s = "..".toList then
      if st = [[]] then refWalk rest st else refWalk rest st.dropLast
    else refWalk rest (st ++ [s])

/-- The reference normalisation of the specification: split on the slash, skip the
single-dot segments, walk the rest with a stack that starts empty, join the kept
segments by slashes. -/
def refNormalize (path : List Char) : List Char :=
  "/".toList.intercalate (refWalk ((path.splitOn '/').filter (fun s => s != ".".toList)) [])

/-- Two neighbouring characters are not both slashes. -/
def noSlashPair (a b : Char) : Prop := ¬ (a = '/' ∧ b = '/')

/-- Every segment but the last one is non-empty. -/
def InteriorNonempty : List (List Char) → Prop
  | [] => True
  | [_] => True
  | a :: b :: t => a ≠ [] ∧ InteriorNonempty (b :: t)

/-- The number of characters a list of segments takes when each is followed by one
separator. -/
def segWeight (st : List (List Char)) : Nat := (st.map (fun s => s.length + 1)).sum

/-- The sort key of a query token: its text before the first equals sign, the whole
token when it has none. -/
def tokenKey (t : List Char) : List Char := t.takeWhile (fun c => c != '=')

/-- The order of the query tokens in the specification: byte-wise order of the sort
keys, ties broken by the byte-wise order of the full token text (`strcmp` is the
byte-wise comparison). -/
def tokenLe (a b : List Char) : Prop :=
  strcmp (tokenKey a) (tokenKey b) < 0 ∨
    (strcmp (tokenKey a) (tokenKey b) = 0 ∧ strcmp a b ≤ 0)

/-- The head `URI_HTTP "://" URI_HOST` of the formats read from `u`: the scheme,
the host and the unread input. -/
def headParts (sz : Sizes) (u : List Char) : Option (List Char × List Char × List Char) :=
  match scanSet sz.AM_PROTO_SIZE inProtoSet u with
  | none => none
  | some (proto, r1) =>
    match scanLit "://".toList r1 with
    | none => none
    | some r2 =>
      match scanSet sz.AM_HOST_SIZE inHostSet r2 with
      | none => none
      | some (host, r3) => some (proto, host, r3)

/-- The tail `":" URI_PORT` read from `r`: the port and the unread input. -/
def portPart (r : List Char) : Option (Int × List Char) :=
  match scanLit ":".toList r with
  | none => none
  | some r4 => scanInt 6 r4

/-- The tail `"/" URI_PATH` read from `r`: the path. -/
def pathPart (sz : Sizes) (r : List Char) : Option (List Char) :=
  match scanLit "/".toList r with
  | none => none
  | some r1 => (scanStr sz.AM_URI_SIZE r1).map (fun p => p.1)

/-- The function `isalnum` in the C locale: a letter or a digit. -/
def isalnum (c : Char) : Bool :=
  isdigit c || ('a'.toNat ≤ c.toNat && c.toNat ≤ 'z'.toNat)
    || ('A'.toNat ≤ c.toNat && c.toNat ≤ 'Z'.toNat)

/-- The text `name=value` of one cookie pair. -/
def pairText (p : List Char × List Char) : List Char := p.1 ++ '=' :: p.2

/-- A Cookie header built from name and value pairs joined by a semicolon and a blank. -/
def cookieHeader (pairs : List (List Char × List Char)) : List Char :=
  "; ".toList.intercalate (pairs.map pairText)

/-- A pair whose name and value are non-empty strings of letters and digits. -/
def alnumPair (p : List Char × List Char) : Prop :=
  p.1 ≠ [] ∧ (∀ c ∈ p.1, isalnum c = true) ∧ p.2 ≠ [] ∧ (∀ c ∈ p.2, isalnum c = true)

instance : DecidablePred alnumPair := fun p => by
  unfold alnumPair
  infer_instance

/-- The outcome the specification gives for a header of pairs: success with the
value of the first pair whose name is the sought one, not found when there is none. -/
def firstValue (name : List Char) :
    List (List Char × List Char) → am_status × Option (List Char)
  | [] => (AM_NOT_FOUND, none)
  | p :: ps => if p.1 = name then (AM_SUCCESS, some p.2) else firstValue name ps

/-- The base64 character of a 6-bit value. -/
def b64char (v : Nat) : Char := base64_table.getD v 'A'

/-- Standard base64 (RFC 4648, with padding) of a byte sequence. -/
def stdBase64 : List Nat → List Char
  | [] => []
  | [a] => [b64char (a / 4), b64char (a % 4 * 16), '=', '=']
  | [a, b] => [b64char (a / 4), b64char (a % 4 * 16 + b / 16), b64char (b % 16 * 4), '=']
  | a :: b :: c :: rest =>
    b64char (a / 4) :: b64char (a % 4 * 16 + b / 16) :: b64char (b % 16 * 4 + c / 64) ::
      b64char (c % 64) :: stdBase64 rest

/-- The 6-bit values standard base64 writes for a byte sequence, padding left out. -/
def b64vals : List Nat → List Nat
  | [] => []
  | [a] => [a / 4, a % 4 * 16]
  | [a, b] => [a / 4, a % 4 * 16 + b / 16, b % 16 * 4]
  | a :: b :: c :: rest =>
    a / 4 :: (a % 4 * 16 + b / 16) :: (b % 16 * 4 + c / 64) :: c % 64 :: b64vals rest

/-- A record of the session payload: a 2-byte big-endian length, then the body. -/
def encodeRecord (body : List Nat) : List Nat :=
  body.length / 256 :: body.length % 256 :: body

/-- The two ASCII bytes of a tag. -/
def tagBytes : session_type → List Nat
  | AM_SI => "SI".toList.map Char.toNat
  | AM_SK => "SK".toList.map Char.toNat
  | AM_S1 => "S1".toList.map Char.toNat
  | AM_NA => []

/-- The payload of a sequence of tag and value pairs: for each pair the tag record
and then the value record. -/
def encodePairs : List (session_type × List Nat) → List Nat
  | [] => []
  | p :: ps => encodeRecord (tagBytes p.1) ++ encodeRecord p.2 ++ encodePairs ps

/-- The token that wraps the pairs: an at sign, the standard base64 of the payload,
a hash sign. -/
def pairsToken (pairs : List (session_type × List Nat)) : List Char :=
  '@' :: (stdBase64 (encodePairs pairs) ++ ['#'])

/-- A field of the session info set by a value record of the given tag. -/
def setField (info : am_session_info) (p : session_type × List Nat) : am_session_info :=
  match p.1 with
  | AM_SI => { info with si := some p.2 }
  | AM_SK => { info with sk := some p.2 }
  | AM_S1 => { info with s1 := some p.2 }
  | AM_NA => info

/-- The field of the session info that belongs to a tag. -/
def getField (t : session_type) (info : am_session_info) : Option (List Nat) :=
  match t with
  | AM_SI => info.si
  | AM_SK => info.sk
  | AM_S1 => info.s1
  | AM_NA => none

/-- The two checks `parse_url` makes before it touches anything else (lines 451 to
458), run on the content `old` of `*url`: the status returned and the new content
of `*url` when a check fails, `none` when both pass and the call goes on. -/
def parse_url_checks (sz : Sizes) (u : Option (List Char)) (old : url) :
    Option (am_status × url) :=
  match u with
  | none => some (AM_ERROR, { old with error := AM_EINVAL })
  | some u =>
    if u.length > sz.AM_PROTO_SIZE + sz.AM_HOST_SIZE + 6 + sz.AM_URI_SIZE then
      some (AM_ERROR, { old with error := AM_E2BIG })
    else none

/-- Modelled from the spec: a hexadecimal digit of either case. -/
def isHexDigit (c : Char) : Bool := "0123456789abcdefABCDEF".toList.contains c

/-- Modelled from the spec: the value of a hexadecimal digit of either case, its
place among the sixteen digits. -/
def hexValue (c : Char) : Nat :=
  min ("0123456789abcdef".toList.indexOf c) ("0123456789ABCDEF".toList.indexOf c)

/-- Modelled from the spec: the text after a percent sign starts with two
hexadecimal digits. -/
def isEscape : List Char → Bool
  | a :: b :: _ => isHexDigit a && isHexDigit b
  | _ => false

/-- Modelled from the spec: the byte value written by the two hexadecimal digits
that start the text. -/
def escapeValue : List Char → Nat
  | a :: b :: _ => 16 * hexValue a + hexValue b
  | _ => 0

/-- Modelled from the spec: the left-to-right rewrite of a percent-encoded text.
With `skip` characters of an escape still to pass over, each percent sign followed
by two hexadecimal digits is replaced by the byte with that value (and the two
digits are passed over), each plus sign by a space, and every other character is
copied. -/
def rewriteFrom : Nat → List Char → List Char
  | _, [] => []
  | skip + 1, _ :: rest => rewriteFrom skip rest
  | 0, c :: rest =>
    if c = '%' && isEscape rest then Char.ofNat (escapeValue rest) :: rewriteFrom 2 rest
    else if c = '+' then ' ' :: rewriteFrom 0 rest
    else c :: rewriteFrom 0 rest

/-- Modelled from the spec: the percent-decoding of a text. -/
def percentRewrite (s : List Char) : List Char := rewriteFrom 0 s

/-- Modelled from the spec: a letter of the scheme whitelist `{h,t,p,s,H,T,P,S}`. -/
def isSchemeLetter (c : Char) : Bool := "htpsHTPS".toList.contains c

/-- Modelled from the spec: a host character, that is a letter, a digit, a hyphen,
an underscore or a dot. -/
def isHostChar (c : Char) : Bool := isalnum c || c = '-' || c = '_' || c = '.'

/-- Modelled from the spec: the raw URL begins with `n` scheme letters for some
`n` between 1 and `AM_PROTO_SIZE`, immediately followed by `://` and at least one
host character. -/
def beginsWithSchemeAndHost (sz : Sizes) (raw : List Char) : Bool :=
  (List.range sz.AM_PROTO_SIZE).any (fun k =>
    decide ((raw.take (k + 1)).length = k + 1) && (raw.take (k + 1)).all isSchemeLetter &&
      (match raw.drop (k + 1) with
        | ':' :: '/' :: '/' :: c :: _ => isHostChar c
        | _ => false))

/-- Modelled from the spec: the URL rebuilt from a parse result, the scheme, `://`,
the host, a colon, the port in decimal, the path and the query. -/
def rebuildUrl (r : url) : List Char :=
  r.proto ++ "://".toList ++ r.host ++ ":".toList ++ Nat.toDigits 10 r.port ++ r.path ++ r.query

/-- The call `uri_normalize(url, path)` with a non-NULL `url`: the value left in
`url->error` and the new content of `path`; `none` is a NULL `path`, which gets
`AM_EINVAL`.  Both the early return for an empty segment list and the end of the
function store `AM_SUCCESS`. -/
def uri_normalize_url (sz : Sizes) (path : Option (List Char)) : am_status × Option (List Char) :=
  match path with
  | none => (AM_EINVAL, none)
  | some p => (AM_SUCCESS, some (uri_normalize sz p))

/-- The two argument checks of `get_cookie_value` (lines 1038 to 1043), which come
before the first assignment to `*value`, run with `*value` holding `old`: the
status returned and the content of `*value` when a check fails, `none` when both
pass and the call goes on. -/
def get_cookie_value_checks (cookie_name cookie_header_val : Option (List Char))
    (old : Option (List Char)) : Option (am_status × Option (List Char)) :=
  match cookie_name with
  | none => some (AM_EINVAL, old)
  | some name =>
    if name.isEmpty then some (AM_EINVAL, old)
    else match cookie_header_val with
      | none => some (AM_NOT_FOUND, old)
      | some header => if header.isEmpty then some (AM_NOT_FOUND, old) else none

/-- The loop of `get_cookie_value` (lines 1054 to 1082) with the nested calls made
through `call`, a function from separator and header to the outcome of the nested
call.  The state is `found`, `*value` and the greatest nesting depth reached by
the nested calls made so far; an outcome is a status, `*value` and the nesting
depth of the call that returned it, and it is `none` when a nested call has not
returned. -/
def cookieLoop (call : List Char → List Char → Option (am_status × Option (List Char) × Nat))
    (separator cookie_name : List Char) :
    List (List Char) → am_status → Option (List Char) → Nat →
      Option (am_status × Option (List Char) × Nat)
  | [], found, value, depth => some (found, value, depth)
  | a :: rest, found, value, depth =>
    if isPairSeparator separator then
      let a1 := trim a ' '
      if found != AM_SUCCESS && strcmp a1 cookie_name = 0 then
        cookieLoop call separator cookie_name rest AM_SUCCESS value depth
      else if found = AM_SUCCESS && !a1.isEmpty then
        cookieLoop call separator cookie_name rest found (some (trim a1 '"')) depth
      else cookieLoop call separator cookie_name rest found value depth
    else if !strstr cookie_name a then
      cookieLoop call separator cookie_name rest found value depth
    else
      match (if a.count '=' > 1 then call "~".toList (tildeFirstEq a)
          else call "=".toList a) with
      | none => none
      | some (status, v, d) =>
        if status = AM_SUCCESS then some (status, v, max depth (d + 1))
        else cookieLoop call separator cookie_name rest status v (max depth (d + 1))

/-- The function `get_cookie_value` with its recursion written out as in the source: the nested
calls are calls of the function itself.  `fuel` bounds the number of calls that
may be active at once; the outcome is `none` when that is not enough, and
otherwise the status, `*value` and the nesting depth of calls reached below this
call. -/
def get_cookie_value_rec : Nat → List Char → Option (List Char) → Option (List Char) →
    Option (am_status × Option (List Char) × Nat)
  | 0, _, _, _ => none
  | fuel + 1, separator, cookie_name, cookie_header_val =>
    match cookie_name with
    | none => some (AM_EINVAL, none, 0)
    | some name =>
      if name.isEmpty then some (AM_EINVAL, none, 0)
      else match cookie_header_val with
        | none => some (AM_NOT_FOUND, none, 0)
        | some header =>
          if header.isEmpty then some (AM_NOT_FOUND, none, 0)
          else cookieLoop (fun sep h => get_cookie_value_rec fuel sep (some name) (some h))
            separator name (strtok_r separator header) AM_NOT_FOUND none 0

/-- Modelled from the spec: the character the c66 step writes at position `i` for
the input character `c`, where `firstStar` is the position of the first asterisk
of the token. -/
def c66Char (firstStar i : Nat) (c : Char) : Char :=
  if c = '-' then '+'
  else if c = '_' then '/'
  else if c = '.' then '='
  else if c = '*' then (if i = firstStar then '@' else '#')
  else c

/-- The string `hex_chars`. -/
def hex_chars : List Char := "0123456789ABCDEF".toList

/-- The bytes `url_encode` writes for one character of `str`; `rfc3986` says whether
`AM_URL_ENCODE_RFC3986` is defined. -/
def url_encode_char (rfc3986 : Bool) (c : Char) : List Char :=
  if isalnum c || c = '-' || c = '_' || c = '.' || c = (if rfc3986 then '~' else '*') then [c]
  else if c = ' ' then ['%', '2', '0']
  else ['%', hex_chars.getD ((c.toNat >>> 4) &&& 0xF) NUL, hex_chars.getD (c.toNat &&& 0xF) NUL]

/-- The call `url_encode(str)` for a non-NULL `str`. -/
def url_encode (rfc3986 : Bool) (str : List Char) : List Char :=
  str.flatMap (url_encode_char rfc3986)

/-- The source of the call `memmove(str, in, in - str)` of `trim`, as first offset
and number of bytes read from `str`; `none` when the call is not reached (the
string is empty, holds trim characters only, or starts with none). -/
def trim_memmove (str : List Char) (w : Char) : Option (Nat × Nat) :=
  let k := (str.takeWhile (TRIM_TEST w)).length
  if str.isEmpty then none
  else if k = str.length then none
  else if k = 0 then none
  else some (k, k)

/-- What a call `base64_encode(in, &sz)` does. -/
inductive encode_result where
  /-- Returns the text; `*sz` is set to its length. -/
  | text (out : List Char)
  /-- Undefined behaviour: the loop writes past the bytes allocated for the result. -/
  | overflow
  /-- The loop has not ended within the given number of iterations. -/
  | unfinished
  deriving DecidableEq, Repr

/-- The statements after the loop of `base64_encode`: the last one or two bytes
and the padding. -/
def encodeTail (src : Nat → Nat) (sz i : Nat) (out : List Char) : List Char :=
  if i < sz then
    let out1 := out ++ [b64char (((src i % 256) >>> 2) &&& 0x3F)]
    let out2 :=
      if i = sizeSub sz 1 then
        out1 ++ [b64char (((src i % 256) &&& 0x3) <<< 4), '=']
      else
        out1 ++ [b64char ((((src i % 256) &&& 0x3) <<< 4) ||| (((src (i + 1) % 256) &&& 0xF0) >>> 4)),
          b64char (((src (i + 1) % 256) &&& 0xF) <<< 2)]
    out2 ++ ['=']
  else out

/-- The loop `for (i = 0; i < *sz - 2; i += 3)` of `base64_encode` from index `i`,
with `out` the text written so far, for at most `fuel` iterations, and the
statements after it.  `src` gives the bytes at `in`, `cap` is the number of
bytes allocated for the result; `*sz - 2` is a `size_t`. -/
def encodeLoop (src : Nat → Nat) (sz cap : Nat) : Nat → Nat → List Char → encode_result
  | 0, _, _ => .unfinished
  | fuel + 1, i, out =>
    if i < sizeSub sz 2 then
      if cap < out.length + 4 then .overflow
      else
        encodeLoop src sz cap fuel ((i + 3) % 2 ^ 64)
          (out ++ [b64char (((src i % 256) >>> 2) &&& 0x3F),
            b64char ((((src i % 256) &&& 0x3) <<< 4) ||| (((src (i + 1) % 256) &&& 0xF0) >>> 4)),
            b64char ((((src (i + 1) % 256) &&& 0xF) <<< 2) ||| (((src (i + 2) % 256) &&& 0xC0) >>> 6)),
            b64char ((src (i + 2) % 256) &&& 0x3F)])
    else
      if cap < (encodeTail src sz i out).length + 1 then .overflow
      else .text (encodeTail src sz i out)

/-- The call `base64_encode(in, &sz)` for non-NULL arguments, with `src k` the byte
`in[k]` and `sz` the incoming `*sz`: the result buffer has `((*sz + 2) / 3 * 4) + 1`
bytes, and `sz + 2` iterations are more than the loop can make without leaving
that buffer. -/
def base64_encode (src : Nat → Nat) (sz : Nat) : encode_result :=
  encodeLoop src sz ((sz + 2) / 3 * 4 + 1) (sz + 2) 0 []

/-- The `int` value of a `char` holding the byte `b`: where plain `char` is a signed
type the bytes from 128 on are negative. -/
def charValue (char_signed : Bool) (b : Nat) : Int :=
  if char_signed && 128 ≤ b % 256 then (b % 256 : Int) - 256 else (b % 256 : Int)

/-- The three statements `x = box[i]; box[i] = box[j]; box[j] = x;` of `rc4`. -/
def boxSwap (box : List Nat) (i j : Nat) : List Nat :=
  (box.set i (box.getD j 0)).set j (box.getD i 0)

/-- One iteration of the key loop of `rc4` on the state `box`, `j`: `none` when the
new `j` is negative, so that `box[j]` lies before the array. -/
def rc4_key_step (char_signed : Bool) (key : List Nat) (st : Option (List Nat × Nat))
    (i : Nat) : Option (List Nat × Nat) :=
  match st with
  | none => none
  | some (box, j) =>
    let j1 : Int :=
      Int.tmod (charValue char_signed (key.getD (i % key.length) 0) + box.getD i 0 + j) 256
    if j1 < 0 then none else some (boxSwap box i j1.toNat, j1.toNat)

/-- The output loop of `rc4` from index `i` on the remaining input bytes. -/
def rc4_stream (box : List Nat) (j : Nat) : Nat → List Nat → List Nat
  | _, [] => []
  | i, b :: rest =>
    let y := (i + 1) % 256
    let j1 := (box.getD y 0 + j) % 256
    let box1 := boxSwap box y j1
    ((b ^^^ box1.getD ((box1.getD y 0 + box1.getD j1 0) % 256) 0) % 256) ::
      rc4_stream box1 j1 (i + 1) rest

/-- The call `rc4(input, input_sz, key, key_sz)` on the bytes of `input` and `key`:
the `input_sz` bytes written to the result, `none` where the behaviour is
undefined or not modelled (an empty key divides by zero, an `input_sz` that does
not fit an `int`, a negative index into `box`). -/
def rc4 (char_signed : Bool) (input key : List Nat) : Option (List Nat) :=
  if key.isEmpty then none
  else if 2 ^ 31 ≤ input.length then none
  else
    match (List.range 256).foldl (rc4_key_step char_signed key) (some (List.range 256, 0)) with
    | none => none
    | some (box, j) => some (rc4_stream box j 0 input)

/-- What a call of `encrypt_password` or `decrypt_password` with non-NULL `key` and
`password` does. -/
inductive crypt_result (α : Type) where
  /-- Returns the status and leaves `*password` alone. -/
  | error (e : am_status)
  /-- Sets `*password` to the given content and returns `ret`. -/
  | done (password : α) (ret : Nat)
  /-- Undefined behaviour in `rc4` or `base64_encode`. -/
  | undefined
  deriving DecidableEq, Repr

/-- The end of `encrypt_password` after the call of `base64_encode`: the text becomes
the new `*password` and its length is returned. -/
def encoded_password : encode_result → crypt_result (List Char)
  | .text out => .done out out.length
  | _ => .undefined

/-- The call `encrypt_password(key, &password)`: the new `*password` is a text. -/
def encrypt_password (char_signed : Bool) (key password : List Char) :
    crypt_result (List Char) :=
  if !ISVALID password then .error AM_EINVAL
  else if password.length < 2 then .error AM_EINVAL
  else
    match rc4 char_signed (password.map Char.toNat) (base64_decode key) with
    | none => .undefined
    | some pass_enc =>
      encoded_password (base64_encode (fun k => pass_enc.getD k 0) pass_enc.length)

/-- The call `decrypt_password(key, &password)`: the new `*password` as the `pass_sz`
bytes `rc4` wrote before the terminating NUL. -/
def decrypt_password (char_signed : Bool) (key password : List Char) :
    crypt_result (List Nat) :=
  if !ISVALID password then .error AM_EINVAL
  else if password.length < 2 then .error AM_EINVAL
  else
    match rc4 char_signed (base64_decode password) (base64_decode key) with
    | none => .undefined
    | some clear => .done clear (base64_decode password).length

/-- The macro `ISVALID` on a pointer that may be NULL. -/
def ISVALID_ptr (s : Option (List Char)) : Bool :=
  match s with
  | none => false
  | some t => ISVALID t

/-- The text at `strstr(a, b) + b_len`, the part of `a` after the first occurrence of
`b`; `none` when `strstr` returns NULL. -/
def strstr_after (b : List Char) : List Char → Option (List Char)
  | [] => if b.isEmpty then some [] else none
  | c :: cs => if b.isPrefixOf (c :: cs) then some ((c :: cs).drop b.length)
    else strstr_after b cs

/-- The loop of `get_token_from_url` over the tokens `am_strsep` returns, with
`cdsso_enable` off: the final `rq->token` and the local `query`. -/
def tokenLoop (cookie_name : List Char) :
    List (List Char) → Option (List Char) → Option (List Char) →
      Option (List Char) × Option (List Char)
  | [], token, query => (token, query)
  | tok :: rest, token, query =>
    if !ISVALID_ptr token && tok.take cookie_name.length = cookie_name then
      match strstr_after "=".toList tok with
      | some v1 =>
        if v1.head? != some '\n' then tokenLoop cookie_name rest (some v1) query
        else tokenLoop cookie_name rest token query
      | none => tokenLoop cookie_name rest token query
    else
      match query with
      | none => tokenLoop cookie_name rest token (some ('?' :: (tok ++ ['&'])))
      | some q => tokenLoop cookie_name rest token (some (q ++ (tok ++ ['&'])))

/-- The call `get_token_from_url(rq)` with `rq->conf->cdsso_enable` off, on the
incoming `rq->url.query`, `rq->token` and `rq->conf->cookie_name`: the status
returned, `rq->token` and `rq->url.query` (an array of `AM_URI_SIZE + 1` bytes)
afterwards. -/
def get_token_from_url (sz : Sizes) (query : List Char) (token cookie_name : Option (List Char)) :
    am_status × Option (List Char) × List Char :=
  if !ISVALID query then (AM_ENOMEM, token, query)
  else
    match cookie_name with
    | none => (AM_EINVAL, token, query)
    | some cn =>
      if !ISVALID cn then (AM_EINVAL, token, query)
      else
        let r := tokenLoop cn (am_strsep "&".toList (query.drop 1)) token none
        let query1 :=
          match r.2 with
          | some q => strncpy q.dropLast sz.AM_URI_SIZE
          | none => if ISVALID_ptr r.1 then [] else query
        (if ISVALID_ptr r.1 then AM_SUCCESS else AM_NOT_FOUND, r.1, query1)

/-- The offset `strstr(a, b) - a` of the first occurrence of `b` in `a`; `none` when
`strstr` returns NULL. -/
def strstr_pos (b : List Char) : List Char → Option Nat
  | [] => if b.isEmpty then some 0 else none
  | c :: cs => if b.isPrefixOf (c :: cs) then some 0 else (strstr_pos b cs).map (· + 1)

/-- The call `memmove(buf + dest, buf + src, n)` inside the buffer `buf`; `none` when
an access leaves the buffer. -/
def memmove (buf : List Char) (dest src n : Nat) : Option (List Char) :=
  if src + n ≤ buf.length ∧ dest + n ≤ buf.length then
    some (buf.take dest ++ ((buf.drop src).take n ++ buf.drop (dest + n)))
  else none

/-- The call `memcpy(buf + p, data, data_len)`; `none` when it writes past the buffer. -/
def memcpy (buf : List Char) (p : Nat) (data : List Char) : Option (List Char) :=
  if p + data.length ≤ buf.length then some (buf.take p ++ (data ++ buf.drop (p + data.length)))
  else none

/-- The counting loop of `string_replace` from the text at `p`, for at most `fuel`
iterations: the number of times it adds one to `pcnt`. -/
def countLoop (pattern : List Char) : Nat → List Char → Option Nat
  | 0, s => if (strstr_pos pattern s).isSome then none else some 0
  | fuel + 1, s =>
    match strstr_pos pattern s with
    | none => some 0
    | some k => (countLoop pattern fuel (s.drop (k + pattern.length))).map (· + 1)

/-- The replacing loop of `string_replace` on the buffer `buf` of `new_str`, with `p`
as offset from `new_str` and the `size_t` variable `e`, for at most `fuel`
iterations: the final buffer, `none` when the loop has not ended or an access
leaves the buffer. -/
def replaceLoop (pattern replace : List Char) : Nat → List Char → Nat → Nat → Option (List Char)
  | 0, buf, p, _ => if (strstr_pos pattern (cstr (buf.drop p))).isSome then none else some buf
  | fuel + 1, buf, p, e =>
    match strstr_pos pattern (cstr (buf.drop p)) with
    | none => some buf
    | some k =>
      let p1 := p + k
      let src := p1 + pattern.length
      let dest := p1 + replace.length
      match memmove buf dest src (sizeSub e src) with
      | none => none
      | some buf1 =>
        match memcpy buf1 p1 replace with
        | none => none
        | some buf2 =>
          replaceLoop pattern replace fuel buf2 (p1 + replace.length)
            ((e + sizeSub replace.length pattern.length) % 2 ^ 64)

/-- What a call `string_replace(&original, pattern, replace, &sz)` with non-NULL
arguments does. -/
inductive replace_result where
  /-- Returns the status and leaves `*original` and `*sz` alone. -/
  | status (e : am_status)
  /-- Returns `AM_SUCCESS` with the new string and the new `*sz`. -/
  | replaced (str : List Char) (sz : Nat)
  /-- Undefined behaviour, or a loop that has not ended. -/
  | undefined
  deriving DecidableEq, Repr

/-- The part of `string_replace` after the counting loop has counted `pcnt`
occurrences. -/
def replaceCounted (original pattern replace : List Char) (junk : Nat → Char) (pcnt : Nat) :
    replace_result :=
  if pcnt = 0 then .status AM_NOT_FOUND
  else
    let new_sz :=
      (original.length + pcnt * sizeSub replace.length pattern.length) % 2 ^ 64
    let spare :=
      if original.length < new_sz then (List.range (new_sz - original.length)).map junk else []
    match replaceLoop pattern replace original.length (original ++ NUL :: spare) 0
        ((original.length + 1) % 2 ^ 64) with
    | none => .undefined
    | some buf => .replaced (cstr buf) new_sz

/-- The call `string_replace(&original, pattern, replace, &sz)` with non-NULL
arguments, on a string held in a buffer of `original.length + 1` bytes and with
`*sz` equal to the length of the string.  When the buffer is reallocated to
`new_sz + 1` bytes, `junk` gives the content of the bytes added to it.  The loops
are given `original.length` iterations. -/
def string_replace (original pattern replace : List Char) (junk : Nat → Char) :
    replace_result :=
  if pattern.length = 0 then .status AM_NOT_FOUND
  else
    match countLoop pattern original.length original with
    | none => .undefined
    | some pcnt => replaceCounted original pattern replace junk pcnt

/-- Modelled from the spec: the string obtained from `s` by replacing each
non-overlapping occurrence of `pattern` found scanning left to right by
`replace`, the inserted text not being scanned again; `skip` counts the
characters of the occurrence at hand still to be passed over. -/
def replaceScan (pattern replace : List Char) : Nat → List Char → List Char
  | _, [] => []
  | skip + 1, _ :: cs => replaceScan pattern replace skip cs
  | 0, c :: cs =>
    if pattern.isPrefixOf (c :: cs) then replace ++ replaceScan pattern replace (pattern.length - 1) cs
    else c :: replaceScan pattern replace 0 cs

/-- Modelled from the spec: the number of non-overlapping occurrences of `pattern`
found scanning left to right. -/
def occurrences (pattern : List Char) : Nat → List Char → Nat
  | _, [] => 0
  | skip + 1, _ :: cs => occurrences pattern skip cs
  | 0, c :: cs =>
    if pattern.isPrefixOf (c :: cs) then occurrences pattern (pattern.length - 1) cs + 1
    else occurrences pattern 0 cs

/-- The accesses of the record loop stay inside the payload: an access of `n > 0`
bytes from offset `o` ends at or before the end of the payload. -/
def readsInBounds (payload : List Nat) (reads : List (Nat × Nat)) : Prop :=
  ∀ r ∈ reads, r.2 = 0 ∨ r.1 + r.2 ≤ payload.length

/-! # Theorems -/

/-! ## Session token decoder: the record loop -/

theorem walkStep_reads (payload : List Nat) (heap : Nat → Nat) (s : WalkState) :
    ∃ t, (walkStep payload heap s).1.reads = s.reads ++ t := by
  unfold walkStep
  simp only []
  split_ifs
  · exact ⟨_, List.append_assoc _ _ _⟩
  · exact ⟨_, List.append_assoc _ _ _⟩
  · exact ⟨_, List.append_assoc _ _ _⟩
  · exact ⟨_, List.append_assoc _ _ _⟩
  · split
    · exact ⟨_, List.append_assoc _ _ _⟩
    · exact ⟨_, List.append_assoc _ _ _⟩
    · exact ⟨_, List.append_assoc _ _ _⟩
    · exact ⟨_, rfl⟩

theorem walkLoop_reads (payload : List Nat) (heap : Nat → Nat) :
    ∀ (fuel : Nat) (s r : WalkState), walkLoop payload heap fuel s = some r →
      ∃ t, r.reads = s.reads ++ t := by
  intro fuel
  induction fuel with
  | zero =>
    intro s r h
    unfold walkLoop at h
    split_ifs at h
    cases h
    exact ⟨[], (List.append_nil _).symm⟩
  | succ n ih =>
    intro s r h
    unfold walkLoop at h
    by_cases h1 : s.l > 0
    · rw [if_pos h1] at h
      simp only [] at h
      by_cases h2 : (walkStep payload heap s).2 = true
      · rw [if_pos h2] at h
        obtain ⟨t1, ht1⟩ := walkStep_reads payload heap s
        obtain ⟨t2, ht2⟩ := ih _ _ h
        exact ⟨t1 ++ t2, by rw [ht2, ht1, List.append_assoc]⟩
      · rw [if_neg h2] at h
        cases h
        exact walkStep_reads payload heap s
    · rw [if_neg h1] at h
      cases h
      exact ⟨[], (List.append_nil _).symm⟩

theorem bufByte_lt (payload : List Nat) (heap : Nat → Nat) (i : Nat)
    (h : i < payload.length) : bufByte payload heap i = payload.getD i 0 := by
  unfold bufByte
  rw [if_pos h]

theorem walkLoop_continue (payload : List Nat) (heap : Nat → Nat) (n : Nat)
    (s t : WalkState) (hl : s.l > 0) (hs : walkStep payload heap s = (t, true)) :
    walkLoop payload heap (n + 1) s = walkLoop payload heap n t := by
  rw [walkLoop, if_pos hl]
  simp only [hs, if_true]

theorem walkLoop_break (payload : List Nat) (heap : Nat → Nat) (n : Nat)
    (s t : WalkState) (hl : s.l > 0) (hs : walkStep payload heap s = (t, false)) :
    walkLoop payload heap (n + 1) s = some t := by
  rw [walkLoop, if_pos hl]
  simp [hs]

theorem walkLoop_out_of_fuel (payload : List Nat) (heap : Nat → Nat) (s : WalkState)
    (hl : s.l > 0) : walkLoop payload heap 0 s = none := by
  rw [walkLoop, if_pos hl]

theorem walkLoop_done (payload : List Nat) (heap : Nat → Nat) (n : Nat) (s : WalkState)
    (hl : s.l = 0) : walkLoop payload heap n s = some s := by
  cases n <;> simp [walkLoop, hl]

theorem walk_tag_step (heap : Nat → Nat) :
    walkStep [0, 2, 83, 73, 0, 5] heap ⟨6, 0, 0, AM_NA, emptyInfo, []⟩ =
      (⟨2, 4, 1, AM_SI, emptyInfo, [(0, 2), (2, 2)]⟩, true) := by
  have b0 : bufByte [0, 2, 83, 73, 0, 5] heap 0 = 0 := bufByte_lt _ _ _ (by decide)
  have b1 : bufByte [0, 2, 83, 73, 0, 5] heap (0 + 1) = 2 := bufByte_lt _ _ _ (by decide)
  have b2 : bufBytes [0, 2, 83, 73, 0, 5] heap (0 + 2) 2 = [83, 73] := by
    show [bufByte _ heap (0 + 2 + 0), bufByte _ heap (0 + 2 + 1)] = _
    rw [bufByte_lt _ _ _ (by decide), bufByte_lt _ _ _ (by decide)]
    rfl
  unfold walkStep
  simp only [b0, b1, b2]
  decide

theorem walk_value_step (heap : Nat → Nat) :
    walkStep [0, 2, 83, 73, 0, 5] heap ⟨2, 4, 1, AM_SI, emptyInfo, [(0, 2), (2, 2)]⟩ =
      (⟨sizeSub 0 5, 11, 2, AM_SI,
        ⟨some (bufBytes [0, 2, 83, 73, 0, 5] heap 6 5), none, none, AM_SUCCESS⟩,
        [(0, 2), (2, 2), (4, 2), (6, 5)]⟩, true) := by
  have b0 : bufByte [0, 2, 83, 73, 0, 5] heap 4 = 0 := bufByte_lt _ _ _ (by decide)
  have b1 : bufByte [0, 2, 83, 73, 0, 5] heap (4 + 1) = 5 := bufByte_lt _ _ _ (by decide)
  have e5 : (5 ||| 0 <<< 8) % 2 ^ 16 = 5 := by decide
  have e0 : sizeSub 2 2 = 0 := by decide
  unfold walkStep
  simp only [b0, b1, e5, e0]
  rfl

theorem overread_walk (heap : Nat → Nat) (fuel : Nat) (s : WalkState)
    (h : sessionWalk [0, 2, 83, 73, 0, 5] heap fuel = some s) : (6, 5) ∈ s.reads := by
  have start : sessionWalk [0, 2, 83, 73, 0, 5] heap fuel =
      walkLoop [0, 2, 83, 73, 0, 5] heap fuel ⟨6, 0, 0, AM_NA, emptyInfo, []⟩ := rfl
  rw [start] at h
  match fuel with
  | 0 =>
    rw [walkLoop_out_of_fuel _ _ _ (by decide)] at h
    cases h
  | 1 =>
    rw [walkLoop_continue _ _ _ _ _ (by decide) (walk_tag_step heap),
      walkLoop_out_of_fuel _ _ _ (by decide)] at h
    cases h
  | n + 2 =>
    rw [walkLoop_continue _ _ _ _ _ (by decide) (walk_tag_step heap),
      walkLoop_continue _ _ _ _ _ (by decide) (walk_value_step heap)] at h
    obtain ⟨t, ht⟩ := walkLoop_reads _ _ _ _ _ h
    rw [ht]
    simp

/-- C1 (fails on the code): the token `@AAJTSQAF#` decodes to the six payload bytes
`00 02 'S' 'I' 00 05`, a tag record `SI` followed by a length prefix announcing
five bytes of which none is left.  Whatever the heap holds, every run of the
record loop that ends has read the five bytes from offset 6, the end of the
payload; with a heap of `0xAA` bytes the loop ends after three iterations, `si`
is set to the terminating NUL and four heap bytes, and later accesses reach
offset 14. -/
theorem session_decode_reads_past_payload :
    base64_decode "AAJTSQAF#".toList = [0, 2, 83, 73, 0, 5] ∧
    (∀ (heap : Nat → Nat) (fuel : Nat) (s : WalkState),
      sessionWalk [0, 2, 83, 73, 0, 5] heap fuel = some s →
        (6, 5) ∈ s.reads ∧ ¬ readsInBounds [0, 2, 83, 73, 0, 5] s.reads) ∧
    am_session_decode (fun _ => 170) 3 (some "@AAJTSQAF#".toList) =
      some (AM_SUCCESS, ⟨some [0, 170, 170, 170, 170], none, none, AM_SUCCESS⟩) ∧
    (sessionWalk [0, 2, 83, 73, 0, 5] (fun _ => 170) 3).map (fun s => s.reads) =
      some [(0, 2), (2, 2), (4, 2), (6, 5), (11, 2), (13, 2)] := by
  refine ⟨by decide, ?_, by decide, by decide⟩
  intro heap fuel s h
  have hm := overread_walk heap fuel s h
  refine ⟨hm, fun hb => ?_⟩
  have h6 := hb _ hm
  simp at h6

/-! ## URL parser: evaluations -/

/-- C2 (fails on the code): `parse_url` returns `AM_SUCCESS` on `http://h/.` and on
`http://h/a/..` and leaves `url->path` empty: after the single-dot segment is
dropped, or the double-dot segment has removed `a`, the only segment kept is the
empty one before the leading slash, and joining one segment writes no slash.  The
normaliser gives the empty path for `/.` and `/a/..` whatever the size constants. -/
theorem parse_url_empty_path :
    parse_url amSizes (some "http://h/.".toList) =
      .success ⟨AM_SUCCESS, 0, 80, "http".toList, "h".toList, [], []⟩ ∧
    parse_url amSizes (some "http://h/a/..".toList) =
      .success ⟨AM_SUCCESS, 0, 80, "http".toList, "h".toList, [], []⟩ ∧
    (∀ sz : Sizes, uri_normalize sz "/.".toList = [] ∧ uri_normalize sz "/a/..".toList = []) := by
  refine ⟨by decide, by decide, fun sz => ⟨?_, ?_⟩⟩
  · have h1 : (am_strsep "/".toList "/.".toList).filter (fun s => s != ".".toList) = [[]] := by
      decide
    unfold uri_normalize
    simp only [h1]
    simp [normLoop, joinLoop, strncpy]
  · have h1 : (am_strsep "/".toList "/a/..".toList).filter (fun s => s != ".".toList) =
        [[], "a".toList, "..".toList] := by
      decide
    have h2 : normLoop [[], "a".toList, "..".toList] 0 (List.replicate 3 none) =
        (1, [some [], none, none]) := by
      decide
    unfold uri_normalize
    simp only [h1]
    rw [if_neg (by decide)]
    simp only [List.length_cons, List.length_nil, h2]
    simp [joinLoop, strncpy]

theorem parse_url_too_big (sz : Sizes) (u : List Char)
    (h : u.length > sz.AM_PROTO_SIZE + sz.AM_HOST_SIZE + 6 + sz.AM_URI_SIZE) :
    parse_url sz (some u) = .failure AM_E2BIG := by
  unfold parse_url
  simp only []
  rw [if_pos h]

/-! ## Path normaliser -/

theorem am_strsep_ne_nil (delim l : List Char) : am_strsep delim l ≠ [] := by
  cases l with
  | nil => simp [am_strsep]
  | cons c cs =>
    unfold am_strsep
    split_ifs
    · simp
    · split <;> simp

theorem am_strsep_eq_splitOn (d : Char) (l : List Char) :
    am_strsep [d] l = l.splitOn d := by
  induction l with
  | nil => rfl
  | cons c cs ih =>
    unfold am_strsep
    rw [List.splitOn, List.splitOnP_cons, ← List.splitOn, ← ih]
    by_cases h : c = d
    · subst h
      simp
    · have h1 : ([d].contains c) = false := by simp [h]
      have h2 : (c == d) = false := by simp [h]
      rw [h1, h2]
      simp only [Bool.false_eq_true, if_false]
      cases h3 : am_strsep [d] cs with
      | nil => exact absurd h3 (am_strsep_ne_nil _ _)
      | cons t ts => rfl

theorem set_map_some_append_last (st : List (List Char)) (k : Nat) (h : 2 ≤ st.length) :
    (st.map some ++ List.replicate k none).set (st.length - 1) none =
      st.dropLast.map some ++ List.replicate (k + 1) none := by
  induction st with
  | nil => simp at h
  | cons a t ih =>
    cases t with
    | nil => simp at h
    | cons b t2 =>
      cases t2 with
      | nil => simp [List.replicate_succ]
      | cons c t3 =>
        have := ih (by simp)
        simp only [List.length_cons, Nat.add_sub_cancel] at this ⊢
        simp only [List.map_cons, List.cons_append, List.set_cons_succ, List.dropLast_cons₂]
        rw [List.cons.injEq]
        refine ⟨rfl, ?_⟩
        simpa using this

theorem set_map_some_append_push (st : List (List Char)) (s : List Char) (k : Nat) :
    (st.map some ++ List.replicate (k + 1) none).set st.length (some s) =
      (st ++ [s]).map some ++ List.replicate k none := by
  induction st with
  | nil => simp [List.replicate_succ]
  | cons a t ih => simpa using ih

theorem normLoop_eq : ∀ (segs st : List (List Char)) (k : Nat), st ≠ [] → segs.length ≤ k →
    normLoop segs st.length (st.map some ++ List.replicate k none) =
      ((stackWalk segs st).length, (stackWalk segs st).map some ++
        List.replicate (st.length + k - (stackWalk segs st).length) none) := by
  intro segs
  induction segs with
  | nil =>
    intro st k _ _
    simp [normLoop, stackWalk]
  | cons s rest ih =>
    intro st k hst hk
    simp only [List.length_cons] at hk
    unfold normLoop stackWalk
    by_cases hs : s = "..".toList
    · rw [if_pos hs, if_pos hs]
      by_cases hm : st.length ≤ 1
      · rw [if_pos hm, if_pos hm]
        have h1 : st.length = 1 := by
          cases st with
          | nil => exact absurd rfl hst
          | cons a t => simp at hm ⊢; exact hm
        have := ih st k hst (by omega)
        rw [h1] at this
        rw [h1]
        exact this
      · rw [if_neg hm, if_neg hm]
        rw [set_map_some_append_last st k (by omega)]
        have hd : st.dropLast.length = st.length - 1 := by simp
        have hne : st.dropLast ≠ [] := by
          intro h0
          rw [h0] at hd
          simp at hd
          omega
        have := ih st.dropLast (k + 1) hne (by omega)
        rw [hd] at this
        rw [this]
        congr 3
        omega
    · rw [if_neg hs, if_neg hs]
      obtain ⟨k1, rfl⟩ : ∃ k1, k = k1 + 1 := ⟨k - 1, by omega⟩
      rw [set_map_some_append_push]
      have := ih (st ++ [s]) k1 (by simp) (by omega)
      simp only [List.length_append, List.length_singleton] at this
      rw [this]
      congr 3
      omega
theorem intercalate_cons_cons (sep a b : List Char) (t : List (List Char)) :
    sep.intercalate (a :: b :: t) = a ++ sep ++ sep.intercalate (b :: t) := by
  simp [List.intercalate, List.intersperse]

theorem intercalate_single (sep a : List Char) : sep.intercalate [a] = a := by
  simp [List.intercalate, List.intersperse]

theorem joinLoop_none (n : Nat) (first : Bool) (k : Nat) (u : List Char) :
    joinLoop n first (List.replicate k none) u = u := by
  cases k with
  | zero => simp [joinLoop]
  | succ k => simp [List.replicate_succ, joinLoop]

theorem joinLoop_eq (n : Nat) (hn : 0 < n) : ∀ (st : List (List Char)) (k : Nat)
    (first : Bool) (u : List Char), st ≠ [] → (first = true → u = []) →
    (∀ s ∈ st, s.length ≤ n) →
    joinLoop n first (st.map some ++ List.replicate k none) u =
      u ++ "/".toList.intercalate st := by
  intro st
  induction st with
  | nil => intro k first u h; exact absurd rfl h
  | cons a t ih =>
    intro k first u _ hu hlen
    have ha : a.take n = a := List.take_of_length_le (hlen a (List.mem_cons_self _ _))
    have hu1 : (if first = true then strncpy a n else strncat u a n) = u ++ a := by
      cases first with
      | true => simp [strncpy, ha, hu rfl]
      | false => simp [strncat, ha]
    cases t with
    | nil =>
      simp only [List.map_cons, List.map_nil, List.cons_append, List.nil_append]
      rw [intercalate_single]
      cases k with
      | zero =>
        simp only [List.replicate_zero]
        unfold joinLoop
        simp only [hu1]
        simp [joinLoop]
      | succ k =>
        simp only [List.replicate_succ]
        unfold joinLoop
        simp only [hu1]
        simp [joinLoop]
    | cons b t2 =>
      rw [intercalate_cons_cons]
      simp only [List.map_cons, List.cons_append]
      unfold joinLoop
      simp only [hu1]
      have hs : strncat (u ++ a) "/".toList n = u ++ a ++ "/".toList := by
        simp only [strncat]
        rw [List.take_of_length_le]
        exact hn
      rw [hs]
      have := ih k false (u ++ a ++ "/".toList) (by simp) (by simp)
        (fun s hs => hlen s (List.mem_cons_of_mem _ hs))
      simp only [List.map_cons, List.cons_append] at this
      rw [this]
      simp [List.append_assoc]

theorem am_strsep_length_le (delim : List Char) : ∀ (l : List Char),
    ∀ s ∈ am_strsep delim l, s.length ≤ l.length := by
  intro l
  induction l with
  | nil => intro s hs; simp [am_strsep] at hs; simp [hs]
  | cons c cs ih =>
    intro s hs
    unfold am_strsep at hs
    split_ifs at hs
    · rcases List.mem_cons.1 hs with h | h
      · simp [h]
      · have := ih s h
        simp only [List.length_cons]
        omega
    · cases h3 : am_strsep delim cs with
      | nil => exact absurd h3 (am_strsep_ne_nil _ _)
      | cons t ts =>
        rw [h3] at hs ih
        simp only [] at hs
        rcases List.mem_cons.1 hs with h | h
        · have := ih t (List.mem_cons_self _ _)
          simp only [h, List.length_cons]
          omega
        · have := ih s (List.mem_cons_of_mem _ h)
          simp only [List.length_cons]
          omega

theorem stackWalk_mem : ∀ (segs st : List (List Char)),
    ∀ x ∈ stackWalk segs st, x ∈ st ∨ x ∈ segs := by
  intro segs
  induction segs with
  | nil => intro st x hx; exact Or.inl hx
  | cons s rest ih =>
    intro st x hx
    unfold stackWalk at hx
    split_ifs at hx
    · rcases ih _ x hx with h | h
      · exact Or.inl h
      · exact Or.inr (List.mem_cons_of_mem _ h)
    · rcases ih _ x hx with h | h
      · exact Or.inl (List.mem_of_mem_dropLast h)
      · exact Or.inr (List.mem_cons_of_mem _ h)
    · rcases ih _ x hx with h | h
      · rcases List.mem_append.1 h with h1 | h1
        · exact Or.inl h1
        · simp at h1
          exact Or.inr (by simp [h1])
      · exact Or.inr (List.mem_cons_of_mem _ h)

theorem stackWalk_ne_nil : ∀ (segs st : List (List Char)), st ≠ [] →
    stackWalk segs st ≠ [] := by
  intro segs
  induction segs with
  | nil => intro st h; exact h
  | cons s rest ih =>
    intro st h
    unfold stackWalk
    split_ifs with h1 h2
    · exact ih _ h
    · apply ih
      intro h0
      have : st.dropLast.length = st.length - 1 := by simp
      rw [h0] at this
      simp at this
      omega
    · exact ih _ (by simp)

/-- The segments `uri_normalize` keeps for a path with a leading slash. -/
theorem uri_normalize_eq (sz : Sizes) (p : List Char)
    (hlen : p.length + 1 ≤ sz.AM_URI_SIZE) :
    uri_normalize sz ('/' :: p) = "/".toList.intercalate
      (stackWalk ((am_strsep "/".toList p).filter (fun s => s != ".".toList)) [[]]) := by
  have hsplit : am_strsep "/".toList ('/' :: p) = [] :: am_strsep "/".toList p := by
    rw [am_strsep]
    simp
  unfold uri_normalize
  simp only [hsplit]
  have hf : ([] :: am_strsep "/".toList p).filter (fun s => s != ".".toList) =
      [] :: (am_strsep "/".toList p).filter (fun s => s != ".".toList) := by
    rw [List.filter_cons_of_pos]
    decide
  rw [hf]
  set rest := (am_strsep "/".toList p).filter (fun s => s != ".".toList) with hrest
  rw [if_neg (by simp)]
  have h1 : normLoop ([] :: rest) 0 (List.replicate ([] :: rest).length none) =
      normLoop rest ([[]] : List (List Char)).length
        (([[]] : List (List Char)).map some ++ List.replicate rest.length none) := by
    rw [normLoop, if_neg (by decide)]
    simp [List.replicate_succ]
  simp only [h1]
  rw [normLoop_eq rest [[]] rest.length (by simp) (le_refl _)]
  simp only []
  apply (joinLoop_eq sz.AM_URI_SIZE (by omega) _ _ true [] (stackWalk_ne_nil _ _ (by simp))
    (fun _ => rfl) _).trans
  · simp
  · intro s hs
    rcases stackWalk_mem _ _ s hs with h | h
    · simp at h
      simp [h]
    · have h2 : s ∈ am_strsep "/".toList p := (List.mem_filter.1 h).1
      have := am_strsep_length_le _ p s h2
      omega
theorem refWalk_eq_stackWalk : ∀ (segs t : List (List Char)),
    refWalk segs ([] :: t) = stackWalk segs ([] :: t) := by
  intro segs
  induction segs with
  | nil => intro t; rfl
  | cons s rest ih =>
    intro t
    unfold refWalk stackWalk
    by_cases hs : s = "..".toList
    · rw [if_pos hs, if_pos hs]
      cases t with
      | nil => simp [ih]
      | cons a t2 =>
        rw [if_neg (by simp), if_neg (by simp)]
        rw [List.dropLast_cons₂]
        exact ih _
    · rw [if_neg hs, if_neg hs]
      exact ih _

/-- C7: for every path that begins with a slash and fits the `AM_URI_SIZE + 1` byte
buffer `uri_normalize` works on, `uri_normalize` returns the result of the
reference walk of the specification (split on the slash, skip the single-dot
segments, pop on a double dot unless only the root segment is kept, push any other
segment, join by slashes). -/
theorem uri_normalize_refines_reference (sz : Sizes) (path : List Char)
    (hslash : path.head? = some '/') (hlen : path.length ≤ sz.AM_URI_SIZE) :
    uri_normalize sz path = refNormalize path := by
  cases path with
  | nil => simp at hslash
  | cons c p =>
    simp only [List.head?_cons, Option.some.injEq] at hslash
    subst hslash
    simp only [List.length_cons] at hlen
    rw [uri_normalize_eq sz p hlen]
    unfold refNormalize
    have hsplit : ('/' :: p).splitOn '/' = [] :: am_strsep "/".toList p := by
      rw [← am_strsep_eq_splitOn]
      show am_strsep "/".toList ('/' :: p) = _
      rw [am_strsep]
      simp
    rw [hsplit, List.filter_cons_of_pos (by decide)]
    rw [refWalk, if_neg (by decide)]
    simp only [List.nil_append]
    rw [refWalk_eq_stackWalk]

/-- Witness of C7 and its example: `/a/./b/../c` begins with a slash and fits the
buffer, it normalises to `/a/c`, and that is what the reference walk gives. -/
theorem uri_normalize_refines_reference_witness :
    "/a/./b/../c".toList.head? = some '/' ∧
    "/a/./b/../c".toList.length ≤ amSizes.AM_URI_SIZE ∧
    uri_normalize amSizes "/a/./b/../c".toList = "/a/c".toList ∧
    uri_normalize amSizes "/a/./b/../c".toList = refNormalize "/a/./b/../c".toList :=
  ⟨by decide, by decide, by decide,
    uri_normalize_refines_reference amSizes "/a/./b/../c".toList (by decide) (by decide)⟩

/-! ## URL parser: the shape of a successful result -/

theorem scanStr_length (w : Nat) (inp tok rest : List Char)
    (h : scanStr w inp = some (tok, rest)) : tok.length ≤ w ∧ tok ≠ [] := by
  unfold scanStr at h
  simp only [] at h
  split_ifs at h with h1
  simp only [Option.some.injEq, Prod.mk.injEq] at h
  rw [← h.1]
  refine ⟨by simp, ?_⟩
  intro h0
  rw [h0] at h1
  simp at h1

theorem scanPath_path_length (sz : Sizes) (h : Nat × ScanVars × Option (List Char))
    (hp : h.2.1.path.length ≤ sz.AM_URI_SIZE) :
    (scanPath sz h).2.path.length ≤ sz.AM_URI_SIZE := by
  obtain ⟨n, v, r⟩ := h
  cases r with
  | none => exact hp
  | some r =>
    unfold scanPath
    simp only []
    split
    · exact hp
    · split
      · exact hp
      · rename_i path rest hs
        exact (scanStr_length _ _ _ _ hs).1

theorem scanHead_path (sz : Sizes) (u : List Char) (v : ScanVars) :
    (scanHead sz u v).2.1.path = v.path := by
  unfold scanHead
  split
  · rfl
  · split
    · rfl
    · split <;> rfl

theorem scanPort_path (h : Nat × ScanVars × Option (List Char)) :
    (scanPort h).2.1.path = h.2.1.path := by
  obtain ⟨n, v, r⟩ := h
  cases r with
  | none => rfl
  | some r =>
    unfold scanPort
    simp only []
    split
    · rfl
    · split <;> rfl

theorem sscanf_path_length (sz : Sizes) (u : List Char) (v : ScanVars)
    (hp : v.path.length ≤ sz.AM_URI_SIZE) :
    (sscanf_HD1 sz u v).2.path.length ≤ sz.AM_URI_SIZE ∧
    (sscanf_HD2 sz u v).2.path.length ≤ sz.AM_URI_SIZE ∧
    (sscanf_HD3 sz u v).2.path.length ≤ sz.AM_URI_SIZE ∧
    (sscanf_HD4 sz u v).2.path.length ≤ sz.AM_URI_SIZE := by
  refine ⟨?_, ?_, ?_, ?_⟩
  · exact scanPath_path_length sz _ (by rw [scanPort_path, scanHead_path]; exact hp)
  · exact scanPath_path_length sz _ (by rw [scanHead_path]; exact hp)
  · show (scanPort (scanHead sz u v)).2.1.path.length ≤ _
    rw [scanPort_path, scanHead_path]; exact hp
  · show (scanHead sz u v).2.1.path.length ≤ _
    rw [scanHead_path]; exact hp

theorem scanUrl_path_length (sz : Sizes) (u : List Char) (v : ScanVars)
    (h : scanUrl sz u = some v) : v.path.length ≤ sz.AM_URI_SIZE := by
  unfold scanUrl at h
  simp only [] at h
  have l1 := (sscanf_path_length sz u ⟨[], [], 0, []⟩ (Nat.zero_le _)).1
  have l2 := (sscanf_path_length sz u _ l1).2.1
  have l3 := (sscanf_path_length sz u _ l2).2.2.1
  have l4 := (sscanf_path_length sz u _ l3).2.2.2
  split_ifs at h <;> simp only [Option.some.injEq] at h <;> subst h <;> assumption

theorem parseScanned_success (sz : Sizes) (v : ScanVars) (r : url)
    (hv : v.path.length ≤ sz.AM_URI_SIZE) (h : parseScanned sz v = .success r) :
    ∃ p : List Char, parseTail sz v (sslOf v) (portOf v) ('/' :: p) = .success r ∧
      (0 < sz.AM_URI_SIZE → p.length + 1 ≤ sz.AM_URI_SIZE) := by
  unfold parseScanned at h
  split_ifs at h with h1 h2 h3
  · exact ⟨[], h, fun h0 => by simpa using h0⟩
  · exact ⟨v.path, h, fun _ => by omega⟩
  · cases hp : v.path with
    | nil => simp [ISVALID, hp] at h1
    | cons c p =>
      rw [hp] at h2 h hv
      simp only [List.head?_cons, bne_iff_ne, ne_eq, Option.some.injEq, not_not] at h2
      subst h2
      exact ⟨p, h, fun _ => by simpa using hv⟩

/-- On success `parse_url` has scanned some variables and run `parseTail` on a path
with a leading slash that fits the path buffer. -/
theorem parse_url_success (sz : Sizes) (u : List Char) (r : url)
    (h : parse_url sz (some u) = .success r) :
    ∃ (v : ScanVars) (p : List Char), scanUrl sz u = some v ∧
      parseTail sz v (sslOf v) (portOf v) ('/' :: p) = .success r ∧
      (0 < sz.AM_URI_SIZE → p.length + 1 ≤ sz.AM_URI_SIZE) := by
  unfold parse_url at h
  simp only [] at h
  split_ifs at h
  cases hs : scanUrl sz u with
  | none => rw [hs] at h; cases h
  | some v =>
    rw [hs] at h
    obtain ⟨p, hp1, hp2⟩ := parseScanned_success sz v r (scanUrl_path_length sz u v hs) h
    exact ⟨v, p, rfl, hp1, hp2⟩

theorem cstr_length_le (l : List Char) : (cstr l).length ≤ l.length := by
  unfold cstr
  exact (List.takeWhile_sublist _).length_le

theorem url_decode_bytes_length_le (l : List Char) :
    (url_decode_bytes l).length ≤ l.length := by
  induction l using url_decode_bytes.induct with
  | case1 h1 h2 rest hx ih =>
    rw [url_decode_bytes, if_pos hx]
    simp only [List.length_cons]
    omega
  | case2 h1 h2 rest hx ih =>
    rw [url_decode_bytes, if_neg hx]
    simp only [List.length_cons] at ih ⊢
    omega
  | case3 c rest hne ih =>
    rw [url_decode_bytes]
    · simp only [List.length_cons]
      omega
    · exact hne
  | case4 => simp [url_decode_bytes]
theorem collapseSlashes_length_le : ∀ (l : List Char) (last : Char),
    (collapseSlashes last l).length ≤ l.length := by
  intro l
  induction l with
  | nil => intro last; simp [collapseSlashes]
  | cons c rest ih =>
    intro last
    unfold collapseSlashes
    split_ifs
    · simp only [List.length_cons]
      have := ih c
      omega
    · simp only [List.length_cons]
      have := ih c
      omega

theorem collapseSlashes_chain : ∀ (l : List Char) (last : Char),
    List.Chain noSlashPair last (collapseSlashes last l) := by
  intro l
  induction l with
  | nil => intro last; simp [collapseSlashes]
  | cons c rest ih =>
    intro last
    unfold collapseSlashes
    split_ifs with h
    · refine List.Chain.cons ?_ (ih c)
      intro hh
      simp [hh.1, hh.2] at h
    · have hc : c = '/' ∧ last = '/' := by
        by_cases h1 : c = '/'
        · by_cases h2 : last = '/'
          · exact ⟨h1, h2⟩
          · simp [h1, h2] at h
        · simp [h1] at h
      have := ih c
      rw [hc.1] at this ⊢
      rw [hc.2]
      exact this

theorem segWeight_cons (a : List Char) (t : List (List Char)) :
    segWeight (a :: t) = a.length + 1 + segWeight t := by
  simp [segWeight]

theorem segWeight_append (s t : List (List Char)) :
    segWeight (s ++ t) = segWeight s + segWeight t := by
  simp [segWeight]

theorem segWeight_dropLast_le (st : List (List Char)) :
    segWeight st.dropLast ≤ segWeight st := by
  induction st with
  | nil => simp
  | cons a t ih =>
    cases t with
    | nil => simp [segWeight]
    | cons b t2 =>
      rw [List.dropLast_cons₂, segWeight_cons, segWeight_cons a]
      omega

theorem segWeight_filter_le (p : List Char → Bool) (st : List (List Char)) :
    segWeight (st.filter p) ≤ segWeight st := by
  induction st with
  | nil => simp
  | cons a t ih =>
    rw [List.filter_cons]
    split_ifs
    · rw [segWeight_cons, segWeight_cons]
      omega
    · rw [segWeight_cons]
      omega

theorem segWeight_am_strsep (delim l : List Char) :
    segWeight (am_strsep delim l) = l.length + 1 := by
  induction l with
  | nil => simp [am_strsep, segWeight]
  | cons c cs ih =>
    unfold am_strsep
    split_ifs
    · rw [segWeight_cons, ih]
      simp only [List.length_nil, List.length_cons]
      omega
    · cases h3 : am_strsep delim cs with
      | nil => exact absurd h3 (am_strsep_ne_nil _ _)
      | cons t ts =>
        rw [h3, segWeight_cons] at ih
        simp only [segWeight_cons, List.length_cons]
        omega

theorem segWeight_stackWalk_le : ∀ (segs st : List (List Char)),
    segWeight (stackWalk segs st) ≤ segWeight st + segWeight segs := by
  intro segs
  induction segs with
  | nil => intro st; simp [stackWalk]
  | cons s rest ih =>
    intro st
    unfold stackWalk
    rw [segWeight_cons]
    split_ifs
    · have := ih st
      omega
    · have := ih st.dropLast
      have := segWeight_dropLast_le st
      omega
    · have := ih (st ++ [s])
      rw [segWeight_append] at this
      simp only [segWeight_cons] at this
      have h0 : segWeight [] = 0 := rfl
      omega

theorem intercalate_length (st : List (List Char)) (h : st ≠ []) :
    ("/".toList.intercalate st).length + 1 = segWeight st := by
  induction st with
  | nil => exact absurd rfl h
  | cons a t ih =>
    cases t with
    | nil => simp [intercalate_single, segWeight]
    | cons b t2 =>
      rw [intercalate_cons_cons, segWeight_cons]
      have := ih (by simp)
      simp only [List.length_append]
      have h1 : "/".toList.length = 1 := rfl
      omega

/-- The path `parse_url` stores for a decoded, collapsed path `'/' :: c` that fits
the buffer: the kept segments joined by slashes. -/
theorem normalized_path_eq (sz : Sizes) (c : List Char)
    (hlen : c.length + 1 ≤ sz.AM_URI_SIZE) :
    strncpy (uri_normalize sz ('/' :: c)) sz.AM_URI_SIZE = "/".toList.intercalate
      (stackWalk ((am_strsep "/".toList c).filter (fun s => s != ".".toList)) [[]]) := by
  rw [uri_normalize_eq sz c hlen]
  unfold strncpy
  apply List.take_of_length_le
  have h1 := intercalate_length _ (stackWalk_ne_nil
    ((am_strsep "/".toList c).filter (fun s => s != ".".toList)) [[]] (by simp))
  have h2 := segWeight_stackWalk_le
    ((am_strsep "/".toList c).filter (fun s => s != ".".toList)) [[]]
  have h3 := segWeight_filter_le (fun s => s != ".".toList) (am_strsep "/".toList c)
  have h4 := segWeight_am_strsep "/".toList c
  have h5 : segWeight [[]] = 1 := rfl
  omega

/-- The path of a successful `parseTail`: for some text `c` without two
neighbouring slashes and not starting with a slash, the kept segments of
`'/' :: c` joined by slashes (or the empty path when `AM_URI_SIZE` is 0). -/
theorem parseTail_path (sz : Sizes) (v : ScanVars) (ssl port : Nat) (p : List Char)
    (r : url) (h : parseTail sz v ssl port ('/' :: p) = .success r)
    (hlen : 0 < sz.AM_URI_SIZE → p.length + 1 ≤ sz.AM_URI_SIZE) :
    r.path = [] ∨ ∃ c : List Char, List.Chain noSlashPair '/' c ∧
      r.path = "/".toList.intercalate
        (stackWalk ((am_strsep "/".toList c).filter (fun s => s != ".".toList)) [[]]) := by
  unfold parseTail at h
  simp only [parse_result.success.injEq] at h
  subst h
  simp only []
  by_cases h0 : 0 < sz.AM_URI_SIZE
  · right
    have e1 : ('/' :: p).takeWhile (fun c => c != '?') = '/' :: p.takeWhile (fun c => c != '?') := by
      rw [List.takeWhile_cons_of_pos]
      decide
    have e2 : url_decode ('/' :: p.takeWhile (fun c => c != '?')) =
        '/' :: cstr (url_decode_bytes (p.takeWhile (fun c => c != '?'))) := by
      unfold url_decode
      rw [url_decode_bytes]
      · simp only [show ('/' = '+') = False from by decide, if_false]
        unfold cstr
        rw [List.takeWhile_cons_of_pos]
        decide
      · intro h1 h2 rest hh
        cases hh
    have e3 : ∀ d, collapseSlashes NUL ('/' :: d) = '/' :: collapseSlashes '/' d := by
      intro d
      rw [collapseSlashes, if_pos (by decide)]
    rw [e1, e2, e3]
    refine ⟨_, collapseSlashes_chain _ '/', normalized_path_eq sz _ ?_⟩
    have a1 := collapseSlashes_length_le
      (cstr (url_decode_bytes (p.takeWhile (fun c => c != '?')))) '/'
    have a2 := cstr_length_le (url_decode_bytes (p.takeWhile (fun c => c != '?')))
    have a3 := url_decode_bytes_length_le (p.takeWhile (fun c => c != '?'))
    have a4 : (p.takeWhile (fun c => c != '?')).length ≤ p.length :=
      (List.takeWhile_sublist _).length_le
    have := hlen h0
    omega
  · left
    have : sz.AM_URI_SIZE = 0 := by omega
    rw [this]
    simp [strncpy]
theorem am_strsep_no_delim (delim : List Char) : ∀ (l : List Char),
    ∀ s ∈ am_strsep delim l, ∀ c ∈ s, delim.contains c = false := by
  intro l
  induction l with
  | nil => intro s hs; simp [am_strsep] at hs; simp [hs]
  | cons x cs ih =>
    intro s hs
    unfold am_strsep at hs
    split_ifs at hs with hx
    · rcases List.mem_cons.1 hs with h | h
      · simp [h]
      · exact ih s h
    · cases h3 : am_strsep delim cs with
      | nil => exact absurd h3 (am_strsep_ne_nil _ _)
      | cons t ts =>
        rw [h3] at hs ih
        simp only [] at hs
        rcases List.mem_cons.1 hs with h | h
        · intro c hc
          rw [h] at hc
          rcases List.mem_cons.1 hc with h1 | h1
          · rw [h1]
            simpa using hx
          · exact ih t (List.mem_cons_self _ _) c h1
        · exact ih s (List.mem_cons_of_mem _ h)

theorem kept_segments_spec (c : List Char) :
    ∀ s ∈ stackWalk ((am_strsep "/".toList c).filter (fun s => s != ".".toList)) [[]],
      '/' ∉ s ∧ s ≠ ".".toList := by
  intro s hs
  rcases stackWalk_mem _ _ s hs with h | h
  · simp only [List.mem_singleton] at h
    subst h
    exact ⟨by simp, by decide⟩
  · rw [List.mem_filter] at h
    refine ⟨fun hc => ?_, by simpa using h.2⟩
    have := am_strsep_no_delim "/".toList c s h.1 '/' hc
    simp at this

/-- C8: for every URL accepted by `parse_url`, no slash-separated segment of the
resulting path equals the single dot. -/
theorem parse_url_path_no_dot_segment (sz : Sizes) (u : List Char) (r : url)
    (h : parse_url sz (some u) = .success r) :
    ∀ s ∈ r.path.splitOn '/', s ≠ ".".toList := by
  obtain ⟨v, p, _, hp, hlen⟩ := parse_url_success sz u r h
  rcases parseTail_path sz v _ _ p r hp hlen with h0 | ⟨c, _, hc⟩
  · rw [h0]
    intro s hs
    simp only [List.splitOn_nil, List.mem_singleton] at hs
    subst hs
    decide
  · rw [hc]
    have hsp := List.splitOn_intercalate _ '/' (fun l hl => (kept_segments_spec c l hl).1)
      (stackWalk_ne_nil ((am_strsep "/".toList c).filter (fun s => s != ".".toList)) [[]]
        (by simp))
    intro s hs
    have hs2 : s ∈ stackWalk ((am_strsep "/".toList c).filter (fun s => s != ".".toList))
        [[]] := by
      rw [← hsp]
      exact hs
    exact (kept_segments_spec c s hs2).2

/-- Witness of C8: `http://h/a/./b/.` is accepted with the path `/a/b`, whose
segments are the empty one, `a` and `b`. -/
theorem parse_url_path_no_dot_segment_witness :
    parse_url amSizes (some "http://h/a/./b/.".toList) =
      .success ⟨AM_SUCCESS, 0, 80, "http".toList, "h".toList, "/a/b".toList, []⟩ ∧
    ∀ s ∈ "/a/b".toList.splitOn '/', s ≠ ".".toList :=
  ⟨by decide, parse_url_path_no_dot_segment amSizes "http://h/a/./b/.".toList
    ⟨AM_SUCCESS, 0, 80, "http".toList, "h".toList, "/a/b".toList, []⟩ (by decide)⟩
theorem interiorNonempty_of_all (t : List (List Char)) (h : ∀ x ∈ t, x ≠ []) :
    InteriorNonempty t := by
  induction t with
  | nil => trivial
  | cons a t ih =>
    cases t with
    | nil => trivial
    | cons b t2 =>
      exact ⟨h a (List.mem_cons_self _ _), ih (fun x hx => h x (List.mem_cons_of_mem _ hx))⟩

theorem interiorNonempty_snoc (t : List (List Char)) (s : List Char)
    (h : ∀ x ∈ t, x ≠ []) : InteriorNonempty (t ++ [s]) := by
  induction t with
  | nil => trivial
  | cons a t ih =>
    have ha := h a (List.mem_cons_self _ _)
    have iht := ih (fun x hx => h x (List.mem_cons_of_mem _ hx))
    cases t with
    | nil => exact ⟨ha, trivial⟩
    | cons b t2 => exact ⟨ha, iht⟩

theorem interiorNonempty_filter (p : List Char → Bool) (l : List (List Char))
    (h : InteriorNonempty l) : InteriorNonempty (l.filter p) := by
  induction l with
  | nil => trivial
  | cons a t ih =>
    cases t with
    | nil =>
      rw [List.filter_cons]
      split_ifs <;> trivial
    | cons b t2 =>
      have iht := ih h.2
      rw [List.filter_cons]
      split_ifs
      · cases hf : (b :: t2).filter p with
        | nil => trivial
        | cons x xs =>
          rw [hf] at iht
          exact ⟨h.1, iht⟩
      · exact iht

theorem am_strsep_interior : ∀ (c : List Char), List.Chain' noSlashPair c →
    InteriorNonempty (am_strsep "/".toList c).tail ∧
    (c.head? ≠ some '/' → InteriorNonempty (am_strsep "/".toList c)) := by
  intro c
  induction c with
  | nil => intro _; exact ⟨trivial, fun _ => trivial⟩
  | cons x cs ih =>
    intro hch
    have hcs : List.Chain' noSlashPair cs := hch.tail
    obtain ⟨ih1, ih2⟩ := ih hcs
    by_cases hx : x = '/'
    · subst hx
      have e : am_strsep "/".toList ('/' :: cs) = [] :: am_strsep "/".toList cs := by
        rw [am_strsep]
        simp
      rw [e]
      refine ⟨?_, fun hh => absurd rfl hh⟩
      apply ih2
      cases cs with
      | nil => simp
      | cons y ys =>
        simp only [List.head?_cons, ne_eq, Option.some.injEq]
        intro hy
        have := List.chain'_cons.1 hch
        exact this.1 ⟨rfl, hy⟩
    · have hx2 : ("/".toList.contains x) = false := by
        simp [hx]
      cases h3 : am_strsep "/".toList cs with
      | nil => exact absurd h3 (am_strsep_ne_nil _ _)
      | cons t ts =>
        have e : am_strsep "/".toList (x :: cs) = (x :: t) :: ts := by
          rw [am_strsep, hx2, h3]
          simp
        rw [e]
        rw [h3] at ih1
        simp only [List.tail_cons] at ih1 ⊢
        refine ⟨ih1, fun _ => ?_⟩
        cases ts with
        | nil => trivial
        | cons b ts2 => exact ⟨by simp, ih1⟩

theorem stackWalk_interior : ∀ (segs t : List (List Char)), (∀ x ∈ t, x ≠ []) →
    InteriorNonempty segs →
    ∃ t2, stackWalk segs ([] :: t) = [] :: t2 ∧ InteriorNonempty t2 := by
  intro segs
  induction segs with
  | nil => intro t ht _; exact ⟨t, rfl, interiorNonempty_of_all t ht⟩
  | cons s rest ih =>
    intro t ht hin
    have hdrop : ∀ x ∈ t.dropLast, x ≠ [] := fun x hx => ht x (List.mem_of_mem_dropLast hx)
    cases rest with
    | nil =>
      unfold stackWalk
      split_ifs with h1 h2
      · exact ⟨t, rfl, interiorNonempty_of_all t ht⟩
      · cases t with
        | nil => simp at h2
        | cons a t3 =>
          rw [List.dropLast_cons₂]
          exact ⟨(a :: t3).dropLast, rfl, interiorNonempty_of_all _ hdrop⟩
      · exact ⟨t ++ [s], rfl, interiorNonempty_snoc t s ht⟩
    | cons s2 rest2 =>
      have hs : s ≠ [] := hin.1
      have hin2 : InteriorNonempty (s2 :: rest2) := hin.2
      unfold stackWalk
      split_ifs with h1 h2
      · exact ih t ht hin2
      · cases t with
        | nil => simp at h2
        | cons a t3 =>
          rw [List.dropLast_cons₂]
          exact ih _ hdrop hin2
      · have := ih (t ++ [s]) (by
          intro x hx
          rcases List.mem_append.1 hx with h | h
          · exact ht x h
          · simp only [List.mem_singleton] at h
            rw [h]
            exact hs) hin2
        simpa using this

theorem chain_slash_intercalate : ∀ (t : List (List Char)), t ≠ [] →
    (∀ x ∈ t, '/' ∉ x) → InteriorNonempty t →
    List.Chain' noSlashPair ('/' :: "/".toList.intercalate t) := by
  intro t
  induction t with
  | nil => intro h; exact absurd rfl h
  | cons a t ih =>
    intro _ hsl hin
    have ha : '/' ∉ a := hsl a (List.mem_cons_self _ _)
    have hchain : ∀ (l : List Char) (x : Char), '/' ∉ l → List.Chain noSlashPair x l := by
      intro l
      induction l with
      | nil => intro x _; exact List.Chain.nil
      | cons y ys ihl =>
        intro x hy
        refine List.Chain.cons ?_ (ihl y (fun h => hy (List.mem_cons_of_mem _ h)))
        intro hh
        exact hy (by rw [hh.2]; exact List.mem_cons_self _ _)
    cases t with
    | nil =>
      rw [intercalate_single]
      exact hchain a '/' ha
    | cons b t2 =>
      have hne : a ≠ [] := hin.1
      have ih2 := ih (by simp) (fun x hx => hsl x (List.mem_cons_of_mem _ hx)) hin.2
      rw [intercalate_cons_cons]
      have e : '/' :: (a ++ "/".toList ++ "/".toList.intercalate (b :: t2)) =
          ('/' :: a) ++ ('/' :: "/".toList.intercalate (b :: t2)) := by
        simp
      rw [e, List.chain'_append]
      refine ⟨hchain a '/' ha, ih2, ?_⟩
      intro x hx y hy
      simp only [List.head?_cons, Option.mem_def, Option.some.injEq] at hy
      intro hh
      have hxa : x ∈ a := by
        obtain ⟨a0, as, rfl⟩ := List.exists_cons_of_ne_nil hne
        rw [List.getLast?_cons_cons] at hx
        exact List.mem_of_getLast?_eq_some hx
      exact ha (by rw [← hh.1]; exact hxa)
/-- C9: for every URL accepted by `parse_url`, the resulting path never contains two
consecutive slashes, however the slashes arrive (written in the URL,
percent-encoded, or made neighbours by the removal of dot segments). -/
theorem parse_url_path_no_double_slash (sz : Sizes) (u : List Char) (r : url)
    (h : parse_url sz (some u) = .success r) :
    ¬ ("//".toList <:+: r.path) := by
  obtain ⟨v, p, _, hp, hlen⟩ := parse_url_success sz u r h
  have hbad : ¬ List.Chain' noSlashPair "//".toList := by
    intro hc
    exact (List.chain'_cons.1 hc).1 ⟨rfl, rfl⟩
  rcases parseTail_path sz v _ _ p r hp hlen with h0 | ⟨c, hchain, hc⟩
  · rw [h0]
    intro hi
    have := List.eq_nil_of_infix_nil hi
    exact absurd this (by decide)
  · intro hi
    apply hbad
    refine List.Chain'.infix ?_ hi
    rw [hc]
    have hc1 : List.Chain' noSlashPair ('/' :: c) := hchain
    have hc2 : List.Chain' noSlashPair c := hc1.tail
    have hhead : c.head? ≠ some '/' := by
      cases c with
      | nil => simp
      | cons y ys =>
        simp only [List.head?_cons, ne_eq, Option.some.injEq]
        intro hy
        exact (List.chain'_cons.1 hc1).1 ⟨rfl, hy⟩
    have hin := interiorNonempty_filter (fun s => s != ".".toList) _
      ((am_strsep_interior c hc2).2 hhead)
    obtain ⟨t2, ht2, hin2⟩ := stackWalk_interior _ [] (by simp) hin
    have hmem := kept_segments_spec c
    rw [ht2] at hmem ⊢
    cases t2 with
    | nil =>
      rw [intercalate_single]
      exact List.chain'_nil
    | cons b t3 =>
      rw [intercalate_cons_cons]
      have := chain_slash_intercalate (b :: t3) (by simp)
        (fun x hx => (hmem x (List.mem_cons_of_mem _ hx)).1) hin2
      simpa using this

/-- Witness of C9 and its example: `http://h/a//b` gives the path `/a/b`, and the
percent-encoded and dot-segment forms `http://h/a%2F%2f./x/../b` give it too. -/
theorem parse_url_path_no_double_slash_witness :
    parse_url amSizes (some "http://h/a//b".toList) =
      .success ⟨AM_SUCCESS, 0, 80, "http".toList, "h".toList, "/a/b".toList, []⟩ ∧
    parse_url amSizes (some "http://h/a%2F%2f./x/../b".toList) =
      .success ⟨AM_SUCCESS, 0, 80, "http".toList, "h".toList, "/a/b".toList, []⟩ ∧
    ¬ ("//".toList <:+: "/a/b".toList) :=
  ⟨by decide, by decide, parse_url_path_no_double_slash amSizes "http://h/a//b".toList
    ⟨AM_SUCCESS, 0, 80, "http".toList, "h".toList, "/a/b".toList, []⟩ (by decide)⟩
/-! ## Query canonicaliser -/

theorem char_eq_of_toNat_eq (a b : Char) (h : a.toNat = b.toNat) : a = b := by
  apply Char.ext
  apply UInt32.ext
  exact h

theorem strcmp_range : ∀ (a b : List Char),
    strcmp a b = -1 ∨ strcmp a b = 0 ∨ strcmp a b = 1 := by
  intro a
  induction a with
  | nil => intro b; cases b <;> simp [strcmp]
  | cons x xs ih =>
    intro b
    cases b with
    | nil => simp [strcmp]
    | cons y ys =>
      unfold strcmp
      split_ifs
      · exact ih ys
      · simp
      · simp

theorem strcmp_eq_zero_iff : ∀ (a b : List Char), strcmp a b = 0 ↔ a = b := by
  intro a
  induction a with
  | nil => intro b; cases b <;> simp [strcmp]
  | cons x xs ih =>
    intro b
    cases b with
    | nil => simp [strcmp]
    | cons y ys =>
      unfold strcmp
      split_ifs with h1 h2
      · rw [ih ys]
        simp [h1]
      · simp [h1]
      · simp [h1]

theorem strcmp_swap : ∀ (a b : List Char), strcmp b a = - strcmp a b := by
  intro a
  induction a with
  | nil => intro b; cases b <;> simp [strcmp]
  | cons x xs ih =>
    intro b
    cases b with
    | nil => simp [strcmp]
    | cons y ys =>
      unfold strcmp
      by_cases h1 : x = y
      · subst h1
        simp only [if_true]
        exact ih ys
      · have h2 : ¬ y = x := fun h => h1 h.symm
        rw [if_neg h1, if_neg h2]
        have h3 : x.toNat ≠ y.toNat := fun h => h1 (char_eq_of_toNat_eq _ _ h)
        by_cases h4 : x.toNat < y.toNat
        · rw [if_pos h4, if_neg (by omega)]
          rfl
        · rw [if_neg h4, if_pos (by omega)]

theorem strcmp_lt_trans : ∀ (a b c : List Char),
    strcmp a b < 0 → strcmp b c < 0 → strcmp a c < 0 := by
  intro a
  induction a with
  | nil =>
    intro b c h1 h2
    cases c with
    | nil =>
      cases b with
      | nil => simp [strcmp] at h1
      | cons y ys => simp [strcmp] at h2
    | cons z zs => simp [strcmp]
  | cons x xs ih =>
    intro b c h1 h2
    cases b with
    | nil => simp [strcmp] at h1
    | cons y ys =>
      cases c with
      | nil => simp [strcmp] at h2
      | cons z zs =>
        unfold strcmp at h1 h2 ⊢
        by_cases hxy : x = y
        · subst hxy
          simp only [if_true] at h1
          by_cases hxz : x = z
          · subst hxz
            simp only [if_true] at h2 ⊢
            exact ih ys zs h1 h2
          · rw [if_neg hxz] at h2 ⊢
            exact h2
        · rw [if_neg hxy] at h1
          by_cases hlt : x.toNat < y.toNat
          · by_cases hyz : y = z
            · subst hyz
              rw [if_neg hxy, if_pos hlt]
              decide
            · rw [if_neg hyz] at h2
              by_cases hlt2 : y.toNat < z.toNat
              · have hxz : ¬ x = z := by
                  intro h
                  subst h
                  omega
                rw [if_neg hxz, if_pos (by omega)]
                decide
              · rw [if_neg hlt2] at h2
                simp at h2
          · rw [if_neg hlt] at h1
            simp at h1

theorem strcmp_le_trans (a b c : List Char) (h1 : strcmp a b ≤ 0) (h2 : strcmp b c ≤ 0) :
    strcmp a c ≤ 0 := by
  by_cases e1 : strcmp a b = 0
  · rw [(strcmp_eq_zero_iff a b).1 e1]
    exact h2
  · by_cases e2 : strcmp b c = 0
    · rw [← (strcmp_eq_zero_iff b c).1 e2]
      exact h1
    · exact le_of_lt (strcmp_lt_trans a b c (lt_of_le_of_ne h1 e1) (lt_of_le_of_ne h2 e2))

theorem attrLe_total (a b : query_attribute) : attrLe a b ∨ attrLe b a := by
  unfold attrLe query_attribute_compare
  simp only []
  have hk := strcmp_swap a.key b.key
  have hv := strcmp_swap a.key_value b.key_value
  by_cases e : strcmp a.key b.key = 0
  · have e2 : strcmp b.key a.key = 0 := by rw [hk, e]; rfl
    rw [if_pos e, if_pos e2]
    omega
  · have e2 : ¬ strcmp b.key a.key = 0 := by
      rw [hk]
      omega
    rw [if_neg e, if_neg e2]
    omega

theorem attrLe_trans (a b c : query_attribute) (h1 : attrLe a b) (h2 : attrLe b c) :
    attrLe a c := by
  unfold attrLe query_attribute_compare at *
  simp only [] at *
  by_cases e1 : strcmp a.key b.key = 0
  · rw [if_pos e1] at h1
    have ek := (strcmp_eq_zero_iff _ _).1 e1
    rw [ek]
    by_cases e2 : strcmp b.key c.key = 0
    · rw [if_pos e2] at h2 ⊢
      exact strcmp_le_trans _ _ _ h1 h2
    · rw [if_neg e2] at h2 ⊢
      exact h2
  · rw [if_neg e1] at h1
    by_cases e2 : strcmp b.key c.key = 0
    · have ek := (strcmp_eq_zero_iff _ _).1 e2
      rw [← ek, if_neg e1]
      exact h1
    · rw [if_neg e2] at h2
      have := strcmp_lt_trans _ _ _ (lt_of_le_of_ne h1 e1) (lt_of_le_of_ne h2 e2)
      rw [if_neg (ne_of_lt this)]
      exact le_of_lt this

theorem attrLe_antisymm (a b : query_attribute) (h1 : attrLe a b) (h2 : attrLe b a) :
    a = b := by
  unfold attrLe query_attribute_compare at *
  simp only [] at *
  have hk := strcmp_swap a.key b.key
  have hv := strcmp_swap a.key_value b.key_value
  by_cases e : strcmp a.key b.key = 0
  · have e2 : strcmp b.key a.key = 0 := by rw [hk, e]; rfl
    rw [if_pos e] at h1
    rw [if_pos e2] at h2
    have ev : strcmp a.key_value b.key_value = 0 := by omega
    have k1 := (strcmp_eq_zero_iff _ _).1 e
    have k2 := (strcmp_eq_zero_iff _ _).1 ev
    cases a
    cases b
    simp only [] at k1 k2
    rw [k1, k2]
  · have e2 : ¬ strcmp b.key a.key = 0 := by
      rw [hk]
      omega
    rw [if_neg e] at h1
    rw [if_neg e2] at h2
    omega

instance : IsTotal query_attribute attrLe := ⟨attrLe_total⟩

instance : IsTrans query_attribute attrLe := ⟨attrLe_trans⟩

instance : IsAntisymm query_attribute attrLe := ⟨attrLe_antisymm⟩

theorem qsort_sorted (l : List query_attribute) : List.Sorted attrLe (qsort l) :=
  List.sorted_insertionSort attrLe l

theorem qsort_perm (l : List query_attribute) : (qsort l).Perm l :=
  List.perm_insertionSort attrLe l

/-- Whatever sorting algorithm `qsort` uses, its result is the one of the model:
a list sorted by the comparator that is a rearrangement of the input is unique. -/
theorem qsort_unique (l s : List query_attribute) (hp : s.Perm l)
    (hs : List.Sorted attrLe s) : s = qsort l :=
  List.eq_of_perm_of_sorted (hp.trans (qsort_perm l).symm) hs (qsort_sorted l)

theorem attrLe_mkAttribute (a b : List Char) :
    attrLe (mkAttribute a) (mkAttribute b) ↔ tokenLe a b := by
  unfold attrLe query_attribute_compare mkAttribute tokenLe tokenKey
  simp only []
  have := strcmp_range (a.takeWhile (fun c => c != '=')) (b.takeWhile (fun c => c != '='))
  split_ifs with h
  · rw [h]
    simp
  · constructor
    · intro h1
      exact Or.inl (lt_of_le_of_ne h1 h)
    · rintro (h1 | ⟨h1, _⟩)
      · exact le_of_lt h1
      · exact absurd h1 h
theorem strtok_r_no_delim (d : Char) (s : List Char) :
    ∀ t ∈ strtok_r [d] s, d ∉ t ∧ t ≠ [] := by
  intro t ht
  unfold strtok_r at ht
  rw [List.mem_filter] at ht
  refine ⟨fun hd => ?_, ?_⟩
  · have := am_strsep_no_delim [d] s t ht.1 d hd
    simp at this
  · intro h0
    rw [h0] at ht
    simp at ht

theorem parseTail_query (sz : Sizes) (v : ScanVars) (ssl port : Nat) (path : List Char)
    (r : url) (h : parseTail sz v ssl port path = .success r) :
    r.query = if (path.dropWhile (fun c => c != '?')).isEmpty then []
      else sortQuery sz (path.dropWhile (fun c => c != '?')) := by
  unfold parseTail at h
  simp only [parse_result.success.injEq] at h
  subst h
  rfl

theorem mkAttribute_key_value (toks : List (List Char)) :
    (toks.map mkAttribute).map (fun e => e.key_value) = toks := by
  induction toks with
  | nil => rfl
  | cons t ts ih =>
    rw [List.map_cons, List.map_cons, ih]
    rfl

/-- The tokens of the query `sortQuery` builds are in the order of the specification. -/
theorem sortQuery_sorted (sz : Sizes) (p : List Char) :
    List.Sorted tokenLe (((sortQuery sz p).drop 1).splitOn '&') := by
  unfold sortQuery
  simp only []
  split_ifs with hc
  · unfold rebuildQuery
    rw [List.drop_succ_cons, List.drop_zero]
    set toks := strtok_r "&".toList
      (strncpy (List.drop 1 (strncpy p sz.AM_URI_SIZE)) sz.AM_URI_SIZE) with htoks
    have hperm : ((qsort (toks.map mkAttribute)).map (fun e => e.key_value)).Perm toks := by
      have := (qsort_perm (toks.map mkAttribute)).map (fun e => e.key_value)
      rw [mkAttribute_key_value] at this
      exact this
    have hsorted : List.Sorted tokenLe
        ((qsort (toks.map mkAttribute)).map (fun e => e.key_value)) := by
      unfold List.Sorted
      rw [List.pairwise_map]
      refine List.Pairwise.imp_of_mem ?_ (qsort_sorted (toks.map mkAttribute))
      intro a b ha hb hab
      have ha2 := (qsort_perm (toks.map mkAttribute)).mem_iff.1 ha
      have hb2 := (qsort_perm (toks.map mkAttribute)).mem_iff.1 hb
      obtain ⟨ta, _, rfl⟩ := List.mem_map.1 ha2
      obtain ⟨tb, _, rfl⟩ := List.mem_map.1 hb2
      exact (attrLe_mkAttribute ta tb).1 hab
    cases hL : (qsort (toks.map mkAttribute)).map (fun e => e.key_value) with
    | nil =>
      show List.Sorted tokenLe (([] : List Char).splitOn '&')
      rw [List.splitOn_nil]
      exact List.sorted_singleton _
    | cons x xs =>
      rw [hL] at hperm hsorted
      have hsp := List.splitOn_intercalate (x :: xs) '&' (fun l hl =>
        (strtok_r_no_delim '&' _ l (hperm.mem_iff.1 hl)).1) (by simp)
      have e : "&".toList = ['&'] := rfl
      rw [e, hsp]
      exact hsorted
  · have hcount : List.count '&'
        (strncpy (List.drop 1 (strncpy p sz.AM_URI_SIZE)) sz.AM_URI_SIZE) = 0 := by
      unfold char_count at hc
      omega
    have htake : strncpy (List.drop 1 (strncpy p sz.AM_URI_SIZE)) sz.AM_URI_SIZE =
        List.drop 1 (strncpy p sz.AM_URI_SIZE) := by
      unfold strncpy
      apply List.take_of_length_le
      simp only [List.length_drop, List.length_take]
      omega
    rw [htake] at hcount
    have hno : '&' ∉ List.drop 1 (strncpy p sz.AM_URI_SIZE) := List.count_eq_zero.1 hcount
    have : (List.drop 1 (strncpy p sz.AM_URI_SIZE)).splitOn '&' =
        [List.drop 1 (strncpy p sz.AM_URI_SIZE)] := by
      unfold List.splitOn
      apply List.splitOnP_eq_single
      intro x hx hx2
      rw [eq_of_beq hx2] at hx
      exact hno hx
    rw [this]
    exact List.sorted_singleton _

/-- C5: for every URL accepted by `parse_url`, the ampersand-separated tokens of the
resulting query (after its leading question mark) are in non-decreasing order:
byte-wise order of the sort keys, ties broken by the byte-wise order of the full
token text.  (A query without an ampersand has a single token.) -/
theorem parse_url_query_sorted (sz : Sizes) (u : List Char) (r : url)
    (h : parse_url sz (some u) = .success r) :
    List.Sorted tokenLe ((r.query.drop 1).splitOn '&') := by
  obtain ⟨v, p, _, hp, _⟩ := parse_url_success sz u r h
  rw [parseTail_query sz v _ _ _ r hp]
  split_ifs
  · show List.Sorted tokenLe (([] : List Char).splitOn '&')
    rw [List.splitOn_nil]
    exact List.sorted_singleton _
  · exact sortQuery_sorted sz _

/-- Witness of C5 and its example: `http://h/p?a=2&a=1` is accepted with the query
`?a=1&a=2`, whose tokens `a=1`, `a=2` have equal keys and are ordered by their
full text. -/
theorem parse_url_query_sorted_witness :
    parse_url amSizes (some "http://h/p?a=2&a=1".toList) =
      .success ⟨AM_SUCCESS, 0, 80, "http".toList, "h".toList, "/p".toList,
        "?a=1&a=2".toList⟩ ∧
    List.Sorted tokenLe (("?a=1&a=2".toList.drop 1).splitOn '&') :=
  ⟨by decide, parse_url_query_sorted amSizes "http://h/p?a=2&a=1".toList
    ⟨AM_SUCCESS, 0, 80, "http".toList, "h".toList, "/p".toList, "?a=1&a=2".toList⟩
    (by decide)⟩
/-! ## The four `sscanf` attempts without the threading of variables -/

theorem scanHead_of_some (sz : Sizes) (u : List Char) (v : ScanVars)
    (pr ho r3 : List Char) (h : headParts sz u = some (pr, ho, r3)) :
    scanHead sz u v = (2, { v with proto := pr, host := ho }, some r3) := by
  unfold headParts at h
  unfold scanHead
  cases h1 : scanSet sz.AM_PROTO_SIZE inProtoSet u with
  | none => rw [h1] at h; cases h
  | some p1 =>
    obtain ⟨proto, r1⟩ := p1
    rw [h1] at h
    simp only [] at h ⊢
    cases h2 : scanLit "://".toList r1 with
    | none => rw [h2] at h; cases h
    | some r2 =>
      rw [h2] at h
      simp only [] at h ⊢
      cases h3 : scanSet sz.AM_HOST_SIZE inHostSet r2 with
      | none => rw [h3] at h; cases h
      | some p3 =>
        obtain ⟨host, r3b⟩ := p3
        rw [h3] at h
        simp only [Option.some.injEq, Prod.mk.injEq] at h
        obtain ⟨rfl, rfl, rfl⟩ := h
        rfl

theorem scanHead_of_none (sz : Sizes) (u : List Char) (v : ScanVars)
    (h : headParts sz u = none) :
    ∃ n v2, n < 2 ∧ scanHead sz u v = (n, v2, none) := by
  unfold headParts at h
  unfold scanHead
  cases h1 : scanSet sz.AM_PROTO_SIZE inProtoSet u with
  | none => exact ⟨0, v, by decide, rfl⟩
  | some p1 =>
    obtain ⟨proto, r1⟩ := p1
    rw [h1] at h
    simp only [] at h ⊢
    cases h2 : scanLit "://".toList r1 with
    | none => exact ⟨1, _, by decide, rfl⟩
    | some r2 =>
      rw [h2] at h
      simp only [] at h ⊢
      cases h3 : scanSet sz.AM_HOST_SIZE inHostSet r2 with
      | none => exact ⟨1, _, by decide, rfl⟩
      | some p3 =>
        rw [h3] at h
        cases h

theorem scanPort_some (n : Nat) (v : ScanVars) (r3 : List Char) :
    scanPort (n, v, some r3) =
      match portPart r3 with
      | none => (n, v, none)
      | some (port, r5) => (n + 1, { v with port := port }, some r5) := by
  unfold scanPort portPart
  simp only []
  cases scanLit ":".toList r3 with
  | none => rfl
  | some r4 =>
    simp only []

theorem scanPath_some (sz : Sizes) (n : Nat) (v : ScanVars) (r : List Char) :
    scanPath sz (n, v, some r) =
      match pathPart sz r with
      | none => (n, v)
      | some path => (n + 1, { v with path := path }) := by
  unfold scanPath pathPart
  simp only []
  cases scanLit "/".toList r with
  | none => rfl
  | some r1 =>
    simp only []
    cases scanStr sz.AM_URI_SIZE r1 with
    | none => rfl
    | some p => rfl

theorem scanLit_cons_ne (c d : Char) (r : List Char) (r4 : List Char)
    (h : scanLit [c] r = some r4) (hne : c ≠ d) : scanLit [d] r = none := by
  cases r with
  | nil => rfl
  | cons x xs =>
    unfold scanLit at h ⊢
    split_ifs at h with h1
    subst h1
    rw [if_neg (fun h2 => hne h2.symm)]

theorem pathPart_none_of_portPart (sz : Sizes) (r3 : List Char) (p : Int × List Char)
    (h : portPart r3 = some p) : pathPart sz r3 = none := by
  unfold portPart at h
  unfold pathPart
  cases h1 : scanLit ":".toList r3 with
  | none => rw [h1] at h; cases h
  | some r4 =>
    have : scanLit "/".toList r3 = none := scanLit_cons_ne ':' '/' r3 r4 h1 (by decide)
    rw [this]

theorem sscanf_HD1_eq (sz : Sizes) (u : List Char) (v : ScanVars) (pr ho r3 : List Char)
    (h : headParts sz u = some (pr, ho, r3)) :
    sscanf_HD1 sz u v =
      match portPart r3 with
      | none => (2, { v with proto := pr, host := ho })
      | some (port, r5) =>
        match pathPart sz r5 with
        | none => (3, { v with proto := pr, host := ho, port := port })
        | some path => (4, { v with proto := pr, host := ho, port := port, path := path }) := by
  unfold sscanf_HD1
  rw [scanHead_of_some sz u v pr ho r3 h, scanPort_some]
  cases portPart r3 with
  | none => rfl
  | some p =>
    obtain ⟨port, r5⟩ := p
    simp only []
    rw [scanPath_some]

theorem sscanf_HD2_eq (sz : Sizes) (u : List Char) (v : ScanVars) (pr ho r3 : List Char)
    (h : headParts sz u = some (pr, ho, r3)) :
    sscanf_HD2 sz u v =
      match pathPart sz r3 with
      | none => (2, { v with proto := pr, host := ho })
      | some path => (3, { v with proto := pr, host := ho, path := path }) := by
  unfold sscanf_HD2
  rw [scanHead_of_some sz u v pr ho r3 h, scanPath_some]

theorem sscanf_HD3_eq (sz : Sizes) (u : List Char) (v : ScanVars) (pr ho r3 : List Char)
    (h : headParts sz u = some (pr, ho, r3)) :
    sscanf_HD3 sz u v =
      match portPart r3 with
      | none => (2, { v with proto := pr, host := ho })
      | some (port, _) => (3, { v with proto := pr, host := ho, port := port }) := by
  unfold sscanf_HD3
  rw [scanHead_of_some sz u v pr ho r3 h, scanPort_some]
  cases portPart r3 with
  | none => rfl
  | some p => rfl

theorem sscanf_HD4_eq (sz : Sizes) (u : List Char) (v : ScanVars) (pr ho r3 : List Char)
    (h : headParts sz u = some (pr, ho, r3)) :
    sscanf_HD4 sz u v = (2, { v with proto := pr, host := ho }) := by
  unfold sscanf_HD4
  rw [scanHead_of_some sz u v pr ho r3 h]

theorem sscanf_head_fails (sz : Sizes) (u : List Char) (v : ScanVars)
    (h : headParts sz u = none) :
    (sscanf_HD1 sz u v).1 < 2 ∧ (sscanf_HD2 sz u v).1 < 2 ∧
    (sscanf_HD3 sz u v).1 < 2 ∧ (sscanf_HD4 sz u v).1 < 2 := by
  obtain ⟨n, v2, hn, he⟩ := scanHead_of_none sz u v h
  unfold sscanf_HD1 sscanf_HD2 sscanf_HD3 sscanf_HD4
  rw [he]
  exact ⟨hn, hn, hn, hn⟩

/-- The result of the four `sscanf` attempts in terms of the parts of the URL. -/
theorem scanUrl_eq (sz : Sizes) (u : List Char) :
    scanUrl sz u =
      match headParts sz u with
      | none => none
      | some (pr, ho, r3) =>
        match portPart r3 with
        | some (port, r5) =>
          (match pathPart sz r5 with
            | some path => some ⟨pr, ho, port, path⟩
            | none => some ⟨pr, ho, port, []⟩)
        | none =>
          (match pathPart sz r3 with
            | some path => some ⟨pr, ho, 0, path⟩
            | none => some ⟨pr, ho, 0, []⟩) := by
  unfold scanUrl
  simp only []
  cases hh : headParts sz u with
  | none =>
    simp only []
    have a1 := (sscanf_head_fails sz u ⟨[], [], 0, []⟩ hh).1
    have a2 := (sscanf_head_fails sz u (sscanf_HD1 sz u ⟨[], [], 0, []⟩).2 hh).2.1
    have a3 := (sscanf_head_fails sz u
      (sscanf_HD2 sz u (sscanf_HD1 sz u ⟨[], [], 0, []⟩).2).2 hh).2.2.1
    have a4 := (sscanf_head_fails sz u (sscanf_HD3 sz u
      (sscanf_HD2 sz u (sscanf_HD1 sz u ⟨[], [], 0, []⟩).2).2).2 hh).2.2.2
    rw [if_neg (by omega), if_neg (by omega), if_neg (by omega), if_neg (by omega)]
  | some t =>
    obtain ⟨pr, ho, r3⟩ := t
    simp only [sscanf_HD1_eq sz u _ pr ho r3 hh, sscanf_HD2_eq sz u _ pr ho r3 hh,
      sscanf_HD3_eq sz u _ pr ho r3 hh, sscanf_HD4_eq sz u _ pr ho r3 hh]
    cases hp : portPart r3 with
    | some p =>
      obtain ⟨port, r5⟩ := p
      simp only []
      cases hq : pathPart sz r5 with
      | some path => simp
      | none => simp [pathPart_none_of_portPart sz r3 _ hp]
    | none =>
      simp only []
      cases hq : pathPart sz r3 with
      | some path => simp
      | none => simp
/-! ## Scanning a URL up to its first question mark -/

theorem takeWhile_append_stop (p : Char → Bool) (a : List Char) (x : Char) (q : List Char)
    (hx : p x = false) : (a ++ x :: q).takeWhile p = a.takeWhile p := by
  induction a with
  | nil => simp [List.takeWhile, hx]
  | cons c cs ih =>
    simp only [List.cons_append, List.takeWhile_cons]
    split_ifs
    · rw [ih]
    · rfl

theorem dropWhile_append_stop (p : Char → Bool) (a : List Char) (x : Char) (q : List Char)
    (hx : p x = false) : (a ++ x :: q).dropWhile p = a.dropWhile p ++ x :: q := by
  induction a with
  | nil => simp [List.dropWhile, hx]
  | cons c cs ih =>
    simp only [List.cons_append, List.dropWhile_cons]
    split_ifs
    · rw [ih]
    · rfl

theorem scanSet_sentinel (w : Nat) (set : Char → Bool) (a : List Char) (x : Char)
    (q : List Char) (hx : set x = false) :
    scanSet w set (a ++ x :: q) =
      (scanSet w set a).map (fun t => (t.1, t.2 ++ x :: q)) := by
  unfold scanSet
  simp only [takeWhile_append_stop set a x q hx]
  split_ifs
  · rfl
  · simp only [Option.map_some', Option.some.injEq, Prod.mk.injEq, true_and]
    rw [List.drop_append_of_le_length]
    rw [List.length_take]
    exact le_trans (Nat.min_le_right _ _) (List.takeWhile_sublist _).length_le

theorem scanLit_sentinel : ∀ (lit a : List Char) (x : Char) (q : List Char), x ∉ lit →
    scanLit lit (a ++ x :: q) = (scanLit lit a).map (fun r => r ++ x :: q) := by
  intro lit
  induction lit with
  | nil => intro a x q _; simp [scanLit]
  | cons c cs ih =>
    intro a x q hx
    cases a with
    | nil =>
      simp only [List.nil_append, scanLit]
      rw [if_neg]
      · rfl
      · intro h
        exact hx (by rw [h]; exact List.mem_cons_self _ _)
    | cons y ys =>
      simp only [List.cons_append, scanLit]
      split_ifs
      · exact ih ys x q (fun h => hx (List.mem_cons_of_mem _ h))
      · rfl

theorem scanDigits_sentinel (w : Nat) (a : List Char) (q : List Char) :
    scanDigits w (a ++ '?' :: q) =
      (scanDigits w a).map (fun t => (t.1, t.2 ++ '?' :: q)) := by
  unfold scanDigits
  simp only [takeWhile_append_stop isdigit a '?' q (by decide)]
  split_ifs
  · rfl
  · simp only [Option.map_some', Option.some.injEq, Prod.mk.injEq, true_and]
    rw [List.drop_append_of_le_length]
    rw [List.length_take]
    exact le_trans (Nat.min_le_right _ _) (List.takeWhile_sublist _).length_le

theorem scanInt_sentinel (w : Nat) (a : List Char) (q : List Char) :
    scanInt w (a ++ '?' :: q) = (scanInt w a).map (fun t => (t.1, t.2 ++ '?' :: q)) := by
  unfold scanInt
  rw [dropWhile_append_stop isspace a '?' q (by decide)]
  cases hd : a.dropWhile isspace with
  | nil =>
    simp only [List.nil_append]
    have e1 : scanDigits w ('?' :: q) = none := by
      have := scanDigits_sentinel w [] q
      simpa [scanDigits] using this
    have e2 : scanDigits w [] = none := by simp [scanDigits]
    split
    · rename_i heq; cases heq
    · rename_i heq; cases heq
    · rw [e1, e2]
      rfl
  | cons c cs =>
    simp only [List.cons_append]
    by_cases h1 : c = '-'
    · subst h1
      simp only [scanDigits_sentinel]
      cases scanDigits (w - 1) cs <;> rfl
    · by_cases h2 : c = '+'
      · subst h2
        simp only [scanDigits_sentinel]
        cases scanDigits (w - 1) cs <;> rfl
      · have e : ∀ (l : List Char),
            (match c :: l with
              | '-' :: r => (scanDigits (w - 1) r).map (fun p => (-(p.1 : Int), p.2))
              | '+' :: r => (scanDigits (w - 1) r).map (fun p => ((p.1 : Int), p.2))
              | r => (scanDigits w r).map (fun p => ((p.1 : Int), p.2))) =
            (scanDigits w (c :: l)).map (fun p => ((p.1 : Int), p.2)) := by
          intro l
          split
          · rename_i heq
            simp only [List.cons.injEq] at heq
            exact absurd heq.1 h1
          · rename_i heq
            simp only [List.cons.injEq] at heq
            exact absurd heq.1 h2
          · rfl
        rw [e, e]
        have := scanDigits_sentinel w (c :: cs) q
        simp only [List.cons_append] at this
        rw [this]
        cases scanDigits w (c :: cs) <;> rfl
theorem headParts_sentinel (sz : Sizes) (a q : List Char) :
    headParts sz (a ++ '?' :: q) =
      (headParts sz a).map (fun t => (t.1, t.2.1, t.2.2 ++ '?' :: q)) := by
  unfold headParts
  rw [scanSet_sentinel _ _ a '?' q (by decide)]
  cases scanSet sz.AM_PROTO_SIZE inProtoSet a with
  | none => rfl
  | some p1 =>
    obtain ⟨proto, r1⟩ := p1
    simp only [Option.map_some']
    rw [scanLit_sentinel _ r1 '?' q (by decide)]
    cases scanLit "://".toList r1 with
    | none => rfl
    | some r2 =>
      simp only [Option.map_some']
      rw [scanSet_sentinel _ _ r2 '?' q (by decide)]
      cases scanSet sz.AM_HOST_SIZE inHostSet r2 with
      | none => rfl
      | some p3 => rfl

theorem portPart_sentinel (r q : List Char) :
    portPart (r ++ '?' :: q) = (portPart r).map (fun t => (t.1, t.2 ++ '?' :: q)) := by
  unfold portPart
  rw [scanLit_sentinel _ r '?' q (by decide)]
  cases scanLit ":".toList r with
  | none => rfl
  | some r4 =>
    simp only [Option.map_some']
    exact scanInt_sentinel 6 r4 q

theorem scanStr_no_space (w : Nat) (l : List Char) (hw : 0 < w) (hl : l ≠ [])
    (hns : ∀ c ∈ l, isspace c = false) :
    (scanStr w l).map (fun p => p.1) = some (l.take w) := by
  unfold scanStr
  have e1 : l.dropWhile isspace = l := by
    cases l with
    | nil => rfl
    | cons c cs =>
      rw [List.dropWhile_cons_of_neg]
      simp [hns c (List.mem_cons_self _ _)]
  have e2 : l.takeWhile (fun c => !isspace c) = l := by
    rw [List.takeWhile_eq_self_iff]
    intro c hc
    simp [hns c hc]
  simp only [e1, e2]
  rw [if_neg]
  · rfl
  · cases l with
    | nil => exact absurd rfl hl
    | cons c cs =>
      obtain ⟨w1, rfl⟩ : ∃ w1, w = w1 + 1 := ⟨w - 1, by omega⟩
      simp

theorem scanLit_suffix : ∀ (lit a r : List Char), scanLit lit a = some r → r <:+ a := by
  intro lit
  induction lit with
  | nil =>
    intro a r h
    simp only [scanLit, Option.some.injEq] at h
    rw [h]
  | cons c cs ih =>
    intro a r h
    cases a with
    | nil => simp [scanLit] at h
    | cons y ys =>
      simp only [scanLit] at h
      split_ifs at h
      exact (ih ys r h).trans (List.suffix_cons _ _)

theorem scanSet_suffix (w : Nat) (set : Char → Bool) (a tok r : List Char)
    (h : scanSet w set a = some (tok, r)) : r <:+ a := by
  unfold scanSet at h
  simp only [] at h
  split_ifs at h
  simp only [Option.some.injEq, Prod.mk.injEq] at h
  rw [← h.2]
  exact List.drop_suffix _ _

theorem scanDigits_suffix (w : Nat) (a r : List Char) (n : Nat)
    (h : scanDigits w a = some (n, r)) : r <:+ a := by
  unfold scanDigits at h
  simp only [] at h
  split_ifs at h
  simp only [Option.some.injEq, Prod.mk.injEq] at h
  rw [← h.2]
  exact List.drop_suffix _ _

theorem scanInt_suffix (w : Nat) (a r : List Char) (n : Int)
    (h : scanInt w a = some (n, r)) : r <:+ a := by
  unfold scanInt at h
  have hs : a.dropWhile isspace <:+ a := List.dropWhile_suffix _
  split at h
  · rename_i r0 heq
    rw [heq] at hs
    cases hd : scanDigits (w - 1) r0 with
    | none => rw [hd] at h; cases h
    | some p =>
      rw [hd] at h
      simp only [Option.map_some', Option.some.injEq, Prod.mk.injEq] at h
      have := scanDigits_suffix _ _ p.2 p.1 hd
      rw [h.2] at this
      exact (this.trans (List.suffix_cons _ _)).trans hs
  · rename_i r0 heq
    rw [heq] at hs
    cases hd : scanDigits (w - 1) r0 with
    | none => rw [hd] at h; cases h
    | some p =>
      rw [hd] at h
      simp only [Option.map_some', Option.some.injEq, Prod.mk.injEq] at h
      have := scanDigits_suffix _ _ p.2 p.1 hd
      rw [h.2] at this
      exact (this.trans (List.suffix_cons _ _)).trans hs
  · cases hd : scanDigits w (a.dropWhile isspace) with
    | none => rw [hd] at h; cases h
    | some p =>
      rw [hd] at h
      simp only [Option.map_some', Option.some.injEq, Prod.mk.injEq] at h
      have := scanDigits_suffix _ _ p.2 p.1 hd
      rw [h.2] at this
      exact this.trans hs

theorem headParts_suffix (sz : Sizes) (u pr ho r3 : List Char)
    (h : headParts sz u = some (pr, ho, r3)) : r3 <:+ u := by
  unfold headParts at h
  cases h1 : scanSet sz.AM_PROTO_SIZE inProtoSet u with
  | none => rw [h1] at h; cases h
  | some p1 =>
    obtain ⟨proto, r1⟩ := p1
    rw [h1] at h
    simp only [] at h
    cases h2 : scanLit "://".toList r1 with
    | none => rw [h2] at h; cases h
    | some r2 =>
      rw [h2] at h
      simp only [] at h
      cases h3 : scanSet sz.AM_HOST_SIZE inHostSet r2 with
      | none => rw [h3] at h; cases h
      | some p3 =>
        obtain ⟨host, r3b⟩ := p3
        rw [h3] at h
        simp only [Option.some.injEq, Prod.mk.injEq] at h
        obtain ⟨_, _, rfl⟩ := h
        exact ((scanSet_suffix _ _ _ _ _ h3).trans (scanLit_suffix _ _ _ h2)).trans
          (scanSet_suffix _ _ _ _ _ h1)

theorem portPart_suffix (r r5 : List Char) (port : Int)
    (h : portPart r = some (port, r5)) : r5 <:+ r := by
  unfold portPart at h
  cases h1 : scanLit ":".toList r with
  | none => rw [h1] at h; cases h
  | some r4 =>
    rw [h1] at h
    exact (scanInt_suffix _ _ _ _ h).trans (scanLit_suffix _ _ _ h1)

theorem pathPart_sentinel (sz : Sizes) (r q : List Char) (hw : 0 < sz.AM_URI_SIZE)
    (hns : ∀ c ∈ r ++ '?' :: q, isspace c = false) :
    pathPart sz (r ++ '?' :: q) =
      (scanLit "/".toList r).map (fun r1 => (r1 ++ '?' :: q).take sz.AM_URI_SIZE) := by
  unfold pathPart
  rw [scanLit_sentinel _ r '?' q (by decide)]
  cases h1 : scanLit "/".toList r with
  | none => rfl
  | some r1 =>
    simp only [Option.map_some']
    apply scanStr_no_space _ _ hw (by simp)
    intro c hc
    apply hns
    rcases List.mem_append.1 hc with h | h
    · exact List.mem_append_left _ ((scanLit_suffix _ _ _ h1).subset h)
    · exact List.mem_append_right _ h
/-! ## Independence of the parameter order -/

theorem intercalate_append_sep (sep : List Char) : ∀ (ts : List (List Char)), ts ≠ [] →
    sep.intercalate ts ++ sep = (ts.map (fun t => t ++ sep)).flatten := by
  intro ts
  induction ts with
  | nil => intro h; exact absurd rfl h
  | cons a t ih =>
    intro _
    cases t with
    | nil => simp [intercalate_single]
    | cons b t2 =>
      rw [intercalate_cons_cons, List.map_cons, List.flatten_cons, ← ih (by simp)]
      simp [List.append_assoc]

theorem intercalate_perm (sep : List Char) (ts1 ts2 : List (List Char))
    (h : ts1.Perm ts2) : (sep.intercalate ts1).Perm (sep.intercalate ts2) := by
  by_cases h1 : ts1 = []
  · subst h1
    rw [← h.nil_eq]
  · have h2 : ts2 ≠ [] := fun h0 => h1 (by rw [h0] at h; exact h.eq_nil)
    have := (h.map (fun t => t ++ sep)).flatten
    rw [← intercalate_append_sep sep ts1 h1, ← intercalate_append_sep sep ts2 h2] at this
    exact (List.perm_append_right_iff sep).1 this

theorem qsort_congr (l1 l2 : List query_attribute) (h : l1.Perm l2) :
    qsort l1 = qsort l2 :=
  qsort_unique l2 (qsort l1) ((qsort_perm l1).trans h) (qsort_sorted l1)

theorem strtok_r_intercalate (ts : List (List Char)) (hne : ts ≠ [])
    (hamp : ∀ t ∈ ts, '&' ∉ t) :
    strtok_r "&".toList ("&".toList.intercalate ts) = ts.filter (fun t => !t.isEmpty) := by
  unfold strtok_r
  have e : "&".toList = ['&'] := rfl
  rw [e, am_strsep_eq_splitOn, List.splitOn_intercalate _ '&' hamp hne]

theorem sortQuery_perm (sz : Sizes) (ts1 ts2 : List (List Char)) (h : ts1.Perm ts2)
    (h2 : 2 ≤ ts1.length) (hamp : ∀ t ∈ ts1, '&' ∉ t)
    (hlen : ("&".toList.intercalate ts1).length + 1 ≤ sz.AM_URI_SIZE) :
    sortQuery sz ('?' :: "&".toList.intercalate ts1) =
      sortQuery sz ('?' :: "&".toList.intercalate ts2) := by
  have key : ∀ ts : List (List Char), 2 ≤ ts.length → (∀ t ∈ ts, '&' ∉ t) →
      ("&".toList.intercalate ts).length + 1 ≤ sz.AM_URI_SIZE →
      sortQuery sz ('?' :: "&".toList.intercalate ts) =
        rebuildQuery (qsort ((ts.filter (fun t => !t.isEmpty)).map mkAttribute)) := by
    intro ts hts ha hl
    unfold sortQuery
    have e1 : strncpy ('?' :: "&".toList.intercalate ts) sz.AM_URI_SIZE =
        '?' :: "&".toList.intercalate ts := by
      unfold strncpy
      apply List.take_of_length_le
      simpa using hl
    have e2 : strncpy ("&".toList.intercalate ts) sz.AM_URI_SIZE =
        "&".toList.intercalate ts := by
      unfold strncpy
      apply List.take_of_length_le
      omega
    simp only [e1, List.drop_succ_cons, List.drop_zero, e2]
    have hne : ts ≠ [] := by
      intro h0
      rw [h0] at hts
      simp at hts
    have hmem : '&' ∈ "&".toList.intercalate ts := by
      cases ts with
      | nil => exact absurd rfl hne
      | cons a t =>
        cases t with
        | nil => simp at hts
        | cons b t2 =>
          rw [intercalate_cons_cons]
          simp
    rw [if_pos]
    · rw [strtok_r_intercalate ts hne ha]
    · unfold char_count
      exact List.count_pos_iff.2 hmem
  have hl2 : ("&".toList.intercalate ts2).length + 1 ≤ sz.AM_URI_SIZE := by
    rw [← (intercalate_perm "&".toList ts1 ts2 h).length_eq]
    exact hlen
  rw [key ts1 h2 hamp hlen, key ts2 (by rw [← h.length_eq]; exact h2)
    (fun t ht => hamp t (h.mem_iff.2 ht)) hl2]
  rw [qsort_congr _ _ ((h.filter _).map mkAttribute)]

theorem parseScanned_query_indep (sz : Sizes) (pr ho : List Char) (port : Int)
    (r1 q1 q2 : List Char) (hq : '?' ∉ r1) (hl : q1.length = q2.length)
    (hs : sortQuery sz ('?' :: q1) = sortQuery sz ('?' :: q2)) :
    parseScanned sz ⟨pr, ho, port, r1 ++ '?' :: q1⟩ =
      parseScanned sz ⟨pr, ho, port, r1 ++ '?' :: q2⟩ := by
  have htail : ∀ (x : List Char), '?' ∉ x → ∀ (v1 v2 : ScanVars) (ssl po : Nat),
      v1.proto = v2.proto → v1.host = v2.host →
      parseTail sz v1 ssl po (x ++ '?' :: q1) = parseTail sz v2 ssl po (x ++ '?' :: q2) := by
    intro x hx v1 v2 ssl po hp hh
    have hf : ∀ c ∈ x, (fun c => c != '?') c = true := by
      intro c hc
      simp only [bne_iff_ne, ne_eq]
      intro h0
      exact hx (by rw [← h0]; exact hc)
    have d1 : ∀ q : List Char, (x ++ '?' :: q).dropWhile (fun c => c != '?') = '?' :: q := by
      intro q
      rw [List.dropWhile_append_of_pos hf]
      rw [List.dropWhile_cons_of_neg]
      simp
    have t1 : ∀ q : List Char, (x ++ '?' :: q).takeWhile (fun c => c != '?') = x := by
      intro q
      rw [List.takeWhile_append_of_pos hf]
      rw [List.takeWhile_cons_of_neg]
      · simp
      · simp
    unfold parseTail
    simp only [d1, t1, hs, hp, hh, List.isEmpty_cons]
  unfold parseScanned
  have hssl : ∀ a : List Char, sslOf ⟨pr, ho, port, a⟩ = sslOf ⟨pr, ho, port, []⟩ :=
    fun _ => rfl
  have hport : ∀ a : List Char, portOf ⟨pr, ho, port, a⟩ = portOf ⟨pr, ho, port, []⟩ :=
    fun _ => rfl
  have hv : ∀ q : List Char, ISVALID (r1 ++ '?' :: q) = true := by
    intro q
    cases r1 <;> simp [ISVALID]
  have hhead : ∀ q : List Char, (r1 ++ '?' :: q).head? = (r1 ++ ['?']).head? := by
    intro q
    cases r1 <;> simp
  simp only [hv, hhead q1, hhead q2, List.length_append, List.length_cons, hl,
    hssl (r1 ++ '?' :: q1), hssl (r1 ++ '?' :: q2), hport (r1 ++ '?' :: q1),
    hport (r1 ++ '?' :: q2)]
  simp only [Bool.not_true, Bool.false_eq_true, if_false]
  split_ifs
  · rfl
  · exact htail ('/' :: r1) (by simp [hq]) ⟨pr, ho, port, r1 ++ '?' :: q1⟩
      ⟨pr, ho, port, r1 ++ '?' :: q2⟩ _ _ rfl rfl
  · exact htail r1 hq ⟨pr, ho, port, r1 ++ '?' :: q1⟩ ⟨pr, ho, port, r1 ++ '?' :: q2⟩ _ _
      rfl rfl

theorem scanUrl_sentinel (sz : Sizes) (pre q : List Char)
    (hns : ∀ c ∈ pre ++ '?' :: q, isspace c = false)
    (hlen : (pre ++ '?' :: q).length ≤ sz.AM_URI_SIZE) :
    scanUrl sz (pre ++ '?' :: q) =
      match headParts sz pre with
      | none => none
      | some (pr, ho, r3) =>
        match portPart r3 with
        | some (port, r5) =>
          (match scanLit "/".toList r5 with
            | some r1 => some ⟨pr, ho, port, r1 ++ '?' :: q⟩
            | none => some ⟨pr, ho, port, []⟩)
        | none =>
          (match scanLit "/".toList r3 with
            | some r1 => some ⟨pr, ho, 0, r1 ++ '?' :: q⟩
            | none => some ⟨pr, ho, 0, []⟩) := by
  have hw : 0 < sz.AM_URI_SIZE := by
    simp only [List.length_append, List.length_cons] at hlen
    omega
  have hpath : ∀ r : List Char, r <:+ pre →
      pathPart sz (r ++ '?' :: q) = (scanLit "/".toList r).map (fun r1 => r1 ++ '?' :: q) := by
    intro r hr
    rw [pathPart_sentinel sz r q hw]
    · cases h1 : scanLit "/".toList r with
      | none => rfl
      | some r1 =>
        simp only [Option.map_some', Option.some.injEq]
        apply List.take_of_length_le
        have a1 := (scanLit_suffix _ _ _ h1).length_le
        have a2 := hr.length_le
        simp only [List.length_append, List.length_cons] at hlen ⊢
        omega
    · intro c hc
      apply hns
      rcases List.mem_append.1 hc with h | h
      · exact List.mem_append_left _ (hr.subset h)
      · exact List.mem_append_right _ h
  rw [scanUrl_eq, headParts_sentinel]
  cases hh : headParts sz pre with
  | none => rfl
  | some t =>
    obtain ⟨pr, ho, r3⟩ := t
    have s3 := headParts_suffix sz pre pr ho r3 hh
    simp only [Option.map_some']
    rw [portPart_sentinel]
    cases hp : portPart r3 with
    | some p =>
      obtain ⟨port, r5⟩ := p
      have s5 := (portPart_suffix r3 r5 port hp).trans s3
      simp only [Option.map_some']
      rw [hpath r5 s5]
      cases scanLit "/".toList r5 <;> rfl
    | none =>
      simp only [Option.map_none']
      rw [hpath r3 s3]
      cases scanLit "/".toList r3 <;> rfl

/-- C6 (as amended): two URLs without white space and no longer than `AM_URI_SIZE`
characters that are the same text up to the first question mark and whose
ampersand-separated parameters after it are a rearrangement of one another get
the same result of `parse_url`, query string included. -/
theorem parse_url_param_order (sz : Sizes) (pre : List Char) (ts1 ts2 : List (List Char))
    (hq : '?' ∉ pre) (hperm : ts1.Perm ts2) (hamp : ∀ t ∈ ts1, '&' ∉ t)
    (hns : ∀ c ∈ pre ++ '?' :: "&".toList.intercalate ts1, isspace c = false)
    (hlen : (pre ++ '?' :: "&".toList.intercalate ts1).length ≤ sz.AM_URI_SIZE) :
    parse_url sz (some (pre ++ '?' :: "&".toList.intercalate ts1)) =
      parse_url sz (some (pre ++ '?' :: "&".toList.intercalate ts2)) := by
  by_cases hsmall : ts1.length ≤ 1
  · have : ts1 = ts2 := by
      cases ts1 with
      | nil => exact hperm.nil_eq
      | cons a t =>
        cases t with
        | nil => exact (List.perm_singleton.1 hperm.symm).symm
        | cons b t2 => simp at hsmall
    rw [this]
  · have h2 : 2 ≤ ts1.length := by omega
    have hip := intercalate_perm "&".toList ts1 ts2 hperm
    have hl : ("&".toList.intercalate ts1).length = ("&".toList.intercalate ts2).length :=
      hip.length_eq
    have hns2 : ∀ c ∈ pre ++ '?' :: "&".toList.intercalate ts2, isspace c = false := by
      intro c hc
      apply hns
      rcases List.mem_append.1 hc with h | h
      · exact List.mem_append_left _ h
      · rcases List.mem_cons.1 h with h3 | h3
        · rw [h3]
          simp
        · exact List.mem_append_right _ (List.mem_cons_of_mem _ (hip.mem_iff.2 h3))
    have hlen2 : (pre ++ '?' :: "&".toList.intercalate ts2).length ≤ sz.AM_URI_SIZE := by
      simp only [List.length_append, List.length_cons] at hlen ⊢
      omega
    have hsq := sortQuery_perm sz ts1 ts2 hperm h2 hamp (by
      simp only [List.length_append, List.length_cons] at hlen
      omega)
    have hpar : ∀ (pr ho : List Char) (port : Int) (r : List Char), r <:+ pre →
        ∀ r1, scanLit "/".toList r = some r1 →
        parseScanned sz ⟨pr, ho, port, r1 ++ '?' :: "&".toList.intercalate ts1⟩ =
          parseScanned sz ⟨pr, ho, port, r1 ++ '?' :: "&".toList.intercalate ts2⟩ := by
      intro pr ho port r hr r1 h1
      apply parseScanned_query_indep sz pr ho port r1 _ _ _ hl hsq
      intro hc
      exact hq (hr.subset ((scanLit_suffix _ _ _ h1).subset hc))
    unfold parse_url
    simp only [List.length_append, List.length_cons, hl]
    split_ifs
    · rfl
    · rw [scanUrl_sentinel sz pre _ hns hlen, scanUrl_sentinel sz pre _ hns2 hlen2]
      cases hh : headParts sz pre with
      | none => rfl
      | some t =>
        obtain ⟨pr, ho, r3⟩ := t
        have s3 := headParts_suffix sz pre pr ho r3 hh
        simp only []
        cases hp : portPart r3 with
        | some p =>
          obtain ⟨port, r5⟩ := p
          have s5 := (portPart_suffix r3 r5 port hp).trans s3
          simp only []
          cases h1 : scanLit "/".toList r5 with
          | none => rfl
          | some r1 => exact hpar pr ho port r5 s5 r1 h1
        | none =>
          simp only []
          cases h1 : scanLit "/".toList r3 with
          | none => rfl
          | some r1 => exact hpar pr ho 0 r3 s3 r1 h1
/-- Witness of C6 as amended: `http://h/p?b=2&a=1` and `http://h/p?a=1&b=2`. -/
theorem parse_url_param_order_witness :
    '?' ∉ "http://h/p".toList ∧
    ["b=2".toList, "a=1".toList].Perm ["a=1".toList, "b=2".toList] ∧
    parse_url amSizes (some ("http://h/p".toList ++
        '?' :: "&".toList.intercalate ["b=2".toList, "a=1".toList])) =
      parse_url amSizes (some ("http://h/p".toList ++
        '?' :: "&".toList.intercalate ["a=1".toList, "b=2".toList])) :=
  ⟨by decide, by decide,
    parse_url_param_order amSizes "http://h/p".toList ["b=2".toList, "a=1".toList]
      ["a=1".toList, "b=2".toList] (by decide) (by decide) (by decide) (by decide)
      (by decide)⟩

/-- C6 (fails as stated): `http://h/p?a b&c` and `http://h/p?c&a b` differ only in
the order of the parameters `a b` and `c`; both are accepted, but `%s` stops at
the blank, so the first gets the query `?a` and the second `?a&c`.  Likewise, with
a path limit of 8 characters, `http://h//p?bbbb&aaa` and `http://h//p?aaa&bbbb` are
cut after the 8 characters `/p?bbbb&` and `/p?aaa&b` and get the queries `?bbbb`
and `?aaa&b`. -/
theorem parse_url_param_order_counterexample :
    ["a b".toList, "c".toList].Perm ["c".toList, "a b".toList] ∧
    parse_url amSizes (some ("http://h/p".toList ++
        '?' :: "&".toList.intercalate ["a b".toList, "c".toList])) =
      .success ⟨AM_SUCCESS, 0, 80, "http".toList, "h".toList, "/p".toList, "?a".toList⟩ ∧
    parse_url amSizes (some ("http://h/p".toList ++
        '?' :: "&".toList.intercalate ["c".toList, "a b".toList])) =
      .success ⟨AM_SUCCESS, 0, 80, "http".toList, "h".toList, "/p".toList, "?a&c".toList⟩ ∧
    ["bbbb".toList, "aaa".toList].Perm ["aaa".toList, "bbbb".toList] ∧
    parse_url ⟨5, 255, 8⟩ (some ("http://h//p".toList ++
        '?' :: "&".toList.intercalate ["bbbb".toList, "aaa".toList])) =
      .success ⟨AM_SUCCESS, 0, 80, "http".toList, "h".toList, "/p".toList,
        "?bbbb".toList⟩ ∧
    parse_url ⟨5, 255, 8⟩ (some ("http://h//p".toList ++
        '?' :: "&".toList.intercalate ["aaa".toList, "bbbb".toList])) =
      .success ⟨AM_SUCCESS, 0, 80, "http".toList, "h".toList, "/p".toList,
        "?aaa&b".toList⟩ := by
  refine ⟨by decide, by decide, by decide, by decide, by decide, by decide⟩

/-! ## URLs of the shape scheme, host, port, path -/

theorem digitChar_spec (m : Nat) (h : m < 10) :
    isdigit (Nat.digitChar m) = true ∧ (Nat.digitChar m).toNat - '0'.toNat = m := by
  interval_cases m <;> decide

theorem digitsVal_snoc (xs : List Char) (d : Char) :
    digitsVal (xs ++ [d]) = digitsVal xs * 10 + (d.toNat - '0'.toNat) := by
  unfold digitsVal
  rw [List.foldl_append]
  rfl

theorem toDigitsCore_spec : ∀ (fuel n : Nat) (ds : List Char), n < fuel →
    ∃ xs : List Char, Nat.toDigitsCore 10 fuel n ds = xs ++ ds ∧ xs ≠ [] ∧
      (∀ c ∈ xs, isdigit c = true) ∧ digitsVal xs = n ∧
      (∀ k, 0 < k → n < 10 ^ k → xs.length ≤ k) := by
  intro fuel
  induction fuel with
  | zero => intro n ds h; omega
  | succ f ih =>
    intro n ds h
    unfold Nat.toDigitsCore
    simp only []
    have hd := digitChar_spec (n % 10) (Nat.mod_lt _ (by decide))
    by_cases h0 : n / 10 = 0
    · rw [if_pos h0]
      refine ⟨[Nat.digitChar (n % 10)], rfl, by simp, ?_, ?_, ?_⟩
      · intro c hc
        simp only [List.mem_singleton] at hc
        rw [hc]
        exact hd.1
      · have := digitsVal_snoc [] (Nat.digitChar (n % 10))
        simp only [List.nil_append] at this
        rw [this, hd.2]
        have : digitsVal [] = 0 := rfl
        rw [this]
        omega
      · intro k hk _
        simpa using hk
    · rw [if_neg h0]
      obtain ⟨xs, e, hne, hdig, hval, hlen⟩ :=
        ih (n / 10) (Nat.digitChar (n % 10) :: ds) (by omega)
      refine ⟨xs ++ [Nat.digitChar (n % 10)], ?_, by simp, ?_, ?_, ?_⟩
      · rw [e]
        simp
      · intro c hc
        rcases List.mem_append.1 hc with h1 | h1
        · exact hdig c h1
        · simp only [List.mem_singleton] at h1
          rw [h1]
          exact hd.1
      · rw [digitsVal_snoc, hval, hd.2]
        omega
      · intro k hk hn
        obtain ⟨k1, rfl⟩ : ∃ k1, k = k1 + 1 := ⟨k - 1, by omega⟩
        have hk1 : 0 < k1 := by
          by_contra hc
          have : k1 = 0 := by omega
          subst this
          simp at hn
          omega
        have := hlen k1 hk1 (by
          rw [Nat.pow_succ] at hn
          omega)
        simp only [List.length_append, List.length_singleton]
        omega

theorem toDigits_spec (n : Nat) :
    Nat.toDigits 10 n ≠ [] ∧ (∀ c ∈ Nat.toDigits 10 n, isdigit c = true) ∧
    digitsVal (Nat.toDigits 10 n) = n ∧
    (∀ k, 0 < k → n < 10 ^ k → (Nat.toDigits 10 n).length ≤ k) := by
  obtain ⟨xs, e, hne, hdig, hval, hlen⟩ := toDigitsCore_spec (n + 1) n [] (by omega)
  unfold Nat.toDigits
  rw [e, List.append_nil]
  exact ⟨hne, hdig, hval, hlen⟩

theorem takeWhile_append_all (p : Char → Bool) (a rest : List Char)
    (ha : ∀ c ∈ a, p c = true) (hr : ∀ x ∈ rest.head?, p x = false) :
    (a ++ rest).takeWhile p = a := by
  rw [List.takeWhile_append_of_pos ha]
  cases rest with
  | nil => simp
  | cons x xs =>
    rw [List.takeWhile_cons_of_neg]
    · simp
    · simp [hr x (by simp)]

theorem scanSet_exact (w : Nat) (set : Char → Bool) (tok rest : List Char)
    (hne : tok ≠ []) (hw : tok.length ≤ w) (ha : ∀ c ∈ tok, set c = true)
    (hr : ∀ x ∈ rest.head?, set x = false) :
    scanSet w set (tok ++ rest) = some (tok, rest) := by
  unfold scanSet
  simp only [takeWhile_append_all set tok rest ha hr, List.take_of_length_le hw]
  rw [if_neg (by simpa using hne)]
  simp

theorem scanLit_exact : ∀ (lit rest : List Char), scanLit lit (lit ++ rest) = some rest := by
  intro lit
  induction lit with
  | nil => intro rest; cases rest <;> rfl
  | cons c cs ih =>
    intro rest
    simp only [List.cons_append, scanLit, if_true]
    exact ih rest

theorem scanInt_of_plain_head (w : Nat) (c : Char) (l : List Char)
    (h1 : c ≠ '-') (h2 : c ≠ '+') (h3 : isspace c = false) :
    scanInt w (c :: l) = (scanDigits w (c :: l)).map (fun p => ((p.1 : Int), p.2)) := by
  unfold scanInt
  rw [List.dropWhile_cons_of_neg (by simp [h3])]
  split
  · rename_i heq
    simp only [List.cons.injEq] at heq
    exact absurd heq.1 h1
  · rename_i heq
    simp only [List.cons.injEq] at heq
    exact absurd heq.1 h2
  · rfl

theorem isdigit_plain (c : Char) (h : isdigit c = true) :
    c ≠ '-' ∧ c ≠ '+' ∧ isspace c = false ∧ c ≠ '/' := by
  refine ⟨?_, ?_, ?_, ?_⟩
  · intro h0; rw [h0] at h; exact absurd h (by decide)
  · intro h0; rw [h0] at h; exact absurd h (by decide)
  · unfold isspace
    have : ∀ d : Char, isdigit d = false → ¬ c = d := by
      intro d hd h0
      rw [h0, hd] at h
      cases h
    simp [this ' ' (by decide), this '\t' (by decide), this '\n' (by decide),
      this (Char.ofNat 11) (by decide), this (Char.ofNat 12) (by decide),
      this '\r' (by decide)]
  · intro h0; rw [h0] at h; exact absurd h (by decide)

theorem scanInt_decimal (n : Nat) (hn : n ≤ 65535) (rest : List Char)
    (hr : ∀ x ∈ rest.head?, isdigit x = false) :
    scanInt 6 (Nat.toDigits 10 n ++ rest) = some ((n : Int), rest) := by
  obtain ⟨hne, hdig, hval, hlen⟩ := toDigits_spec n
  have hl : (Nat.toDigits 10 n).length ≤ 5 := hlen 5 (by decide) (by omega)
  obtain ⟨c, cs, hc⟩ := List.exists_cons_of_ne_nil hne
  have hcd := isdigit_plain c (hdig c (by rw [hc]; exact List.mem_cons_self _ _))
  have e : scanDigits 6 (Nat.toDigits 10 n ++ rest) = some (n, rest) := by
    unfold scanDigits
    simp only [takeWhile_append_all isdigit _ rest hdig hr,
      List.take_of_length_le (show (Nat.toDigits 10 n).length ≤ 6 by omega)]
    rw [if_neg (by simpa using hne), hval]
    simp
  rw [hc] at e ⊢
  rw [List.cons_append] at e ⊢
  rw [scanInt_of_plain_head 6 c _ hcd.1 hcd.2.1 hcd.2.2.1, e]
  rfl
theorem parseScanned_fields (sz : Sizes) (v : ScanVars)
    (hv : v.path = [] ∨ v.path.head? = some '/' ∨ v.path.length + 1 ≤ sz.AM_URI_SIZE) :
    ∃ r : url, parseScanned sz v = .success r ∧ r.proto = v.proto ∧ r.host = v.host ∧
      r.port = portOf v ∧ r.ssl = sslOf v := by
  unfold parseScanned
  split_ifs with h1 h2 h3
  · exact ⟨_, rfl, rfl, rfl, rfl, rfl⟩
  · exfalso
    rcases hv with h | h | h
    · simp [ISVALID, h] at h1
    · simp [h] at h2
    · omega
  · exact ⟨_, rfl, rfl, rfl, rfl, rfl⟩
  · exact ⟨_, rfl, rfl, rfl, rfl, rfl⟩

theorem headParts_exact (sz : Sizes) (s h rest : List Char)
    (hs1 : s ≠ []) (hs2 : s.length ≤ sz.AM_PROTO_SIZE) (hs3 : ∀ c ∈ s, inProtoSet c = true)
    (hh1 : h ≠ []) (hh2 : h.length ≤ sz.AM_HOST_SIZE) (hh3 : ∀ c ∈ h, inHostSet c = true)
    (hr : ∀ x ∈ rest.head?, inHostSet x = false) :
    headParts sz (s ++ ("://".toList ++ (h ++ rest))) = some (s, h, rest) := by
  unfold headParts
  rw [scanSet_exact _ _ s _ hs1 hs2 hs3 (by
    intro x hx
    have : x = ':' := by
      simpa [eq_comm] using hx
    rw [this]
    decide)]
  simp only []
  rw [scanLit_exact]
  simp only []
  rw [scanSet_exact _ _ h _ hh1 hh2 hh3 hr]

/-- C10 (as amended): for every scheme of 1 to `AM_PROTO_SIZE` letters of
`HTPShtps`, every host of 1 to `AM_HOST_SIZE` host characters, every port `n` in
1..65535 written in decimal, and every suffix that is empty or a slash followed by
any text, of at most `AM_URI_SIZE` characters in all, `parse_url` succeeds on
scheme `://` host `:` port suffix with `proto`, `host` and `port` equal to the
scheme, the host and `n`, provided the whole URL is no longer than
`AM_PROTO_SIZE + AM_HOST_SIZE + 6 + AM_URI_SIZE` characters.  (White space in the
suffix only shortens the path that is read.) -/
theorem parse_url_scheme_host_port (sz : Sizes) (s h : List Char) (n : Nat)
    (suffix : List Char)
    (hs1 : s ≠ []) (hs2 : s.length ≤ sz.AM_PROTO_SIZE) (hs3 : ∀ c ∈ s, inProtoSet c = true)
    (hh1 : h ≠ []) (hh2 : h.length ≤ sz.AM_HOST_SIZE) (hh3 : ∀ c ∈ h, inHostSet c = true)
    (hn1 : 1 ≤ n) (hn2 : n ≤ 65535)
    (hsuf : suffix = [] ∨ ∃ rest, suffix = '/' :: rest)
    (hsl : suffix.length ≤ sz.AM_URI_SIZE)
    (hlen : (s ++ "://".toList ++ h ++ ":".toList ++ Nat.toDigits 10 n ++ suffix).length ≤
      sz.AM_PROTO_SIZE + sz.AM_HOST_SIZE + 6 + sz.AM_URI_SIZE) :
    ∃ r : url,
      parse_url sz (some (s ++ "://".toList ++ h ++ ":".toList ++ Nat.toDigits 10 n ++ suffix))
        = .success r ∧ r.proto = s ∧ r.host = h ∧ r.port = n := by
  have hport : ∀ path : List Char, portOf ⟨s, h, (n : Int), path⟩ = n := by
    intro path
    unfold portOf
    simp only [Int.natAbs_ofNat]
    have : ¬ n = 0 := by omega
    simp [this]
  have hscan : ∃ path : List Char,
      scanUrl sz (s ++ "://".toList ++ h ++ ":".toList ++ Nat.toDigits 10 n ++ suffix) =
        some ⟨s, h, (n : Int), path⟩ ∧
      (path = [] ∨ path.head? = some '/' ∨ path.length + 1 ≤ sz.AM_URI_SIZE) := by
    have hu : s ++ "://".toList ++ h ++ ":".toList ++ Nat.toDigits 10 n ++ suffix =
        s ++ ("://".toList ++ (h ++ (":".toList ++ (Nat.toDigits 10 n ++ suffix)))) := by
      simp only [List.append_assoc]
    have hhead := headParts_exact sz s h (":".toList ++ (Nat.toDigits 10 n ++ suffix))
      hs1 hs2 hs3 hh1 hh2 hh3 (by
        intro x hx
        have : x = ':' := by
          simpa [eq_comm] using hx
        rw [this]
        decide)
    have hpp : portPart (":".toList ++ (Nat.toDigits 10 n ++ suffix)) =
        some ((n : Int), suffix) := by
      unfold portPart
      rw [scanLit_exact]
      simp only []
      apply scanInt_decimal n hn2
      rcases hsuf with h0 | ⟨rest, h0⟩
      · rw [h0]
        simp
      · rw [h0]
        intro x hx
        have : x = '/' := by
          simpa [eq_comm] using hx
        rw [this]
        decide
    rw [hu, scanUrl_eq, hhead]
    simp only [hpp]
    cases hq : pathPart sz suffix with
    | none => exact ⟨[], rfl, Or.inl rfl⟩
    | some path =>
      refine ⟨path, rfl, Or.inr (Or.inr ?_)⟩
      unfold pathPart at hq
      rcases hsuf with h0 | ⟨rest, h0⟩
      · rw [h0] at hq
        simp [scanLit] at hq
      · rw [h0] at hq hsl
        have e : scanLit "/".toList ('/' :: rest) = some rest := scanLit_exact "/".toList rest
        rw [e] at hq
        simp only [Option.map_eq_some'] at hq
        obtain ⟨p, hp, hp2⟩ := hq
        have := (scanStr_length _ _ p.1 p.2 hp).1
        have hle : p.1.length ≤ rest.length := by
          unfold scanStr at hp
          simp only [] at hp
          split_ifs at hp
          simp only [Option.some.injEq] at hp
          rw [← hp]
          simp only [List.length_take]
          have a1 : (List.takeWhile (fun c => !isspace c)
              (List.dropWhile isspace rest)).length ≤ (List.dropWhile isspace rest).length :=
            (List.takeWhile_sublist _).length_le
          have a2 : (List.dropWhile isspace rest).length ≤ rest.length :=
            (List.dropWhile_suffix _).length_le
          omega
        rw [← hp2]
        simp only [List.length_cons] at hsl
        omega
  obtain ⟨path, hsc, hpath⟩ := hscan
  obtain ⟨r, hr, h1, h2, h3, _⟩ := parseScanned_fields sz ⟨s, h, (n : Int), path⟩ hpath
  refine ⟨r, ?_, h1, h2, by rw [h3, hport]⟩
  unfold parse_url
  simp only []
  rw [if_neg (by omega), hsc]
  exact hr
/-- Witness of C10 as amended, and the example of the claim:
`http://example.com:8080/x?b=2&a=1` gives host `example.com`, port 8080, path `/x`
and query `?a=1&b=2`. -/
theorem parse_url_scheme_host_port_witness :
    parse_url amSizes (some "http://example.com:8080/x?b=2&a=1".toList) =
      .success ⟨AM_SUCCESS, 0, 8080, "http".toList, "example.com".toList, "/x".toList,
        "?a=1&b=2".toList⟩ ∧
    "http".toList ++ "://".toList ++ "example.com".toList ++ ":".toList ++
      Nat.toDigits 10 8080 ++ "/x?b=2&a=1".toList = "http://example.com:8080/x?b=2&a=1".toList ∧
    ∃ r : url,
      parse_url amSizes (some ("http".toList ++ "://".toList ++ "example.com".toList ++
        ":".toList ++ Nat.toDigits 10 8080 ++ "/x?b=2&a=1".toList)) = .success r ∧
      r.proto = "http".toList ∧ r.host = "example.com".toList ∧ r.port = 8080 :=
  ⟨by decide, by decide,
    parse_url_scheme_host_port amSizes "http".toList "example.com".toList 8080
      "/x?b=2&a=1".toList (by decide) (by decide) (by decide) (by decide) (by decide)
      (by decide) (by decide) (by decide) (Or.inr ⟨_, rfl⟩) (by decide) (by decide)⟩

/-- C10 (fails as stated): with the sizes 5, 255 and 4096, the URL made of the
scheme `hhhhh`, `://`, a host of 255 letters `a`, `:65535` and a suffix of a slash
and 4095 letters `a` has a scheme, a host, a port and a suffix within their
limits, and is refused with `AM_E2BIG`: it is 4366 characters long and the length
test allows 5 + 255 + 6 + 4096 = 4362. -/
theorem parse_url_scheme_host_port_counterexample :
    (List.replicate 5 'h').length ≤ amSizes.AM_PROTO_SIZE ∧
    (∀ c ∈ List.replicate 5 'h', inProtoSet c = true) ∧
    (List.replicate 255 'a').length ≤ amSizes.AM_HOST_SIZE ∧
    (∀ c ∈ List.replicate 255 'a', inHostSet c = true) ∧
    ('/' :: List.replicate 4095 'a').length ≤ amSizes.AM_URI_SIZE ∧
    (∀ c ∈ '/' :: List.replicate 4095 'a', isspace c = false) ∧
    parse_url amSizes (some (List.replicate 5 'h' ++ "://".toList ++
        List.replicate 255 'a' ++ ":".toList ++ Nat.toDigits 10 65535 ++
        ('/' :: List.replicate 4095 'a'))) = .failure AM_E2BIG := by
  refine ⟨by rw [List.length_replicate]; decide, ?_,
    by rw [List.length_replicate]; decide, ?_,
    by rw [List.length_cons, List.length_replicate]; decide, ?_, ?_⟩
  · intro c hc
    rw [List.eq_of_mem_replicate hc]
    decide
  · intro c hc
    rw [List.eq_of_mem_replicate hc]
    decide
  · intro c hc
    rcases List.mem_cons.1 hc with h | h
    · rw [h]
      decide
    · rw [List.eq_of_mem_replicate h]
      decide
  · apply parse_url_too_big
    have h5 : (Nat.toDigits 10 65535).length = 5 := by decide
    have h3 : "://".toList.length = 3 := rfl
    have h1 : ":".toList.length = 1 := rfl
    simp only [List.length_append, List.length_replicate, List.length_cons, h5, h3, h1,
      amSizes]
    decide

/-! ## Cookie value extractor -/

theorem isalnum_ne (c d : Char) (hc : isalnum c = true) (hd : isalnum d = false) : c ≠ d := by
  intro h
  rw [h, hd] at hc
  cases hc

theorem isalnum_not_space (c : Char) (hc : isalnum c = true) : isspace c = false := by
  unfold isspace
  simp [isalnum_ne c ' ' hc (by decide), isalnum_ne c '\t' hc (by decide),
    isalnum_ne c '\n' hc (by decide), isalnum_ne c (Char.ofNat 11) hc (by decide),
    isalnum_ne c (Char.ofNat 12) hc (by decide), isalnum_ne c '\r' hc (by decide)]

theorem trim_of_all_false (x : List Char) (w : Char)
    (h : ∀ c ∈ x, TRIM_TEST w c = false) : trim x w = x := by
  unfold trim
  have e1 : x.dropWhile (TRIM_TEST w) = x := by
    cases x with
    | nil => rfl
    | cons c cs =>
      rw [List.dropWhile_cons_of_neg]
      simp [h c (List.mem_cons_self _ _)]
  rw [e1]
  have e2 : x.reverse.dropWhile (TRIM_TEST w) = x.reverse := by
    cases hx : x.reverse with
    | nil => rfl
    | cons c cs =>
      rw [List.dropWhile_cons_of_neg]
      have : c ∈ x := by
        rw [← List.mem_reverse, hx]
        exact List.mem_cons_self _ _
      simp [h c this]
  rw [e2, List.reverse_reverse]

theorem trim_alnum_space (x : List Char) (h : ∀ c ∈ x, isalnum c = true) :
    trim x ' ' = x := by
  apply trim_of_all_false
  intro c hc
  unfold TRIM_TEST
  rw [if_pos (by decide)]
  exact isalnum_not_space c (h c hc)

theorem trim_alnum_quote (x : List Char) (h : ∀ c ∈ x, isalnum c = true) :
    trim x '"' = x := by
  apply trim_of_all_false
  intro c hc
  unfold TRIM_TEST
  rw [if_neg (by decide)]
  simpa using isalnum_ne c '"' (h c hc) (by decide)

theorem trim_blank_cons (x : List Char) : trim (' ' :: x) ' ' = trim x ' ' := by
  unfold trim
  rw [List.dropWhile_cons_of_pos]
  decide

theorem strstr_infix (b : List Char) (hb : b ≠ []) : ∀ (pre post : List Char),
    strstr b (pre ++ b ++ post) = true := by
  intro pre
  induction pre with
  | nil =>
    intro post
    obtain ⟨c, cs, rfl⟩ := List.exists_cons_of_ne_nil hb
    simp only [List.nil_append, List.cons_append]
    unfold strstr
    have : (c :: cs).isPrefixOf (c :: (cs ++ post)) = true := by
      rw [List.isPrefixOf_iff_prefix]
      exact List.prefix_append (c :: cs) post
    rw [this]
    rfl
  | cons x xs ih =>
    intro post
    simp only [List.cons_append]
    unfold strstr
    rw [ih post]
    simp

theorem strtok_r_pair (x v : List Char) (hx1 : x ≠ []) (hv1 : v ≠ [])
    (hx : '=' ∉ x) (hv : '=' ∉ v) :
    strtok_r "=".toList (x ++ '=' :: v) = [x, v] := by
  unfold strtok_r
  have e : "=".toList = ['='] := rfl
  have e2 : x ++ '=' :: v = ['='].intercalate [x, v] := by
    simp [List.intercalate, List.intersperse]
  rw [e, am_strsep_eq_splitOn, e2, List.splitOn_intercalate _ '=' (by
    intro l hl
    simp only [List.mem_cons, List.mem_singleton, List.not_mem_nil, or_false] at hl
    rcases hl with h | h
    · rw [h]; exact hx
    · rw [h]; exact hv) (by simp)]
  rw [List.filter_cons_of_pos (by simpa using hx1), List.filter_cons_of_pos (by simpa using hv1)]
  rfl

/-- The nested call of `get_cookie_value` on one token ` name=value` (with or
without the leading blank). -/
theorem cookie_pair_result (name : List Char) (hname : name ≠ [])
    (p : List Char × List Char) (hp : alnumPair p) (hv : p.2 ≠ name) (pad : List Char)
    (hpad : pad = [] ∨ pad = [' ']) :
    get_cookie_value_paired "=".toList name (pad ++ pairText p) =
      if p.1 = name then (AM_SUCCESS, some p.2) else (AM_NOT_FOUND, none) := by
  obtain ⟨hn1, hn2, hv1, hv2⟩ := hp
  have hneq : ∀ x : List Char, (∀ c ∈ x, isalnum c = true) → '=' ∉ x := by
    intro x hx hm
    exact isalnum_ne '=' '=' (hx _ hm) (by decide) rfl
  have hpadeq : '=' ∉ pad ++ p.1 := by
    intro hm
    rcases List.mem_append.1 hm with h | h
    · rcases hpad with h0 | h0
      · rw [h0] at h
        simp at h
      · rw [h0] at h
        simp at h
    · exact hneq _ hn2 h
  have htrim : trim (pad ++ p.1) ' ' = p.1 := by
    rcases hpad with h0 | h0
    · rw [h0]
      exact trim_alnum_space _ hn2
    · rw [h0]
      show trim (' ' :: p.1) ' ' = p.1
      rw [trim_blank_cons]
      exact trim_alnum_space _ hn2
  unfold get_cookie_value_paired
  rw [if_neg (by simpa using hname), if_neg (by
    unfold pairText
    cases pad <;> cases p.1 <;> simp)]
  have htok : strtok_r "=".toList (pad ++ pairText p) = [pad ++ p.1, p.2] := by
    unfold pairText
    rw [← List.append_assoc]
    exact strtok_r_pair _ _ (by simp [hn1]) hv1 hpadeq (hneq _ hv2)
  rw [htok]
  unfold pairedLoop
  simp only [htrim]
  by_cases hnm : p.1 = name
  · have hz : strcmp p.1 name = 0 := (strcmp_eq_zero_iff _ _).2 hnm
    rw [if_pos (by simp [hz]), if_pos hnm]
    unfold pairedLoop
    simp only [trim_alnum_space _ hv2]
    rw [if_neg (by simp), if_pos (by simpa using hv1)]
    simp only [trim_alnum_quote _ hv2]
    rfl
  · have hz : ¬ strcmp p.1 name = 0 := fun h => hnm ((strcmp_eq_zero_iff _ _).1 h)
    rw [if_neg (by simp [hz]), if_neg (by simp), if_neg hnm]
    unfold pairedLoop
    simp only [trim_alnum_space _ hv2]
    have hz2 : ¬ strcmp p.2 name = 0 := fun h => hv ((strcmp_eq_zero_iff _ _).1 h)
    rw [if_neg (by simp [hz2]), if_neg (by simp)]
    rfl

theorem intercalate_cons_head (sep : List Char) (c : Char) (b : List Char)
    (rest : List (List Char)) :
    sep.intercalate ((c :: b) :: rest) = c :: sep.intercalate (b :: rest) := by
  cases rest with
  | nil => simp [intercalate_single]
  | cons x xs => simp [intercalate_cons_cons]

theorem intercalate_semi_blank : ∀ (ts : List (List Char)) (t : List Char),
    "; ".toList.intercalate (t :: ts) =
      [';'].intercalate (t :: ts.map (fun x => ' ' :: x)) := by
  intro ts
  induction ts with
  | nil => intro t; simp [intercalate_single]
  | cons b t2 ih =>
    intro t
    rw [intercalate_cons_cons, ih b, List.map_cons, intercalate_cons_cons,
      intercalate_cons_head]
    have : "; ".toList = [';', ' '] := rfl
    rw [this]
    simp

theorem pairText_no_semi (p : List Char × List Char) (hp : alnumPair p) :
    ';' ∉ pairText p ∧ ';' ∉ ' ' :: pairText p ∧ pairText p ≠ [] := by
  obtain ⟨_, hn2, _, hv2⟩ := hp
  have h1 : ';' ∉ pairText p := by
    unfold pairText
    intro hm
    rcases List.mem_append.1 hm with h | h
    · exact isalnum_ne ';' ';' (hn2 _ h) (by decide) rfl
    · rcases List.mem_cons.1 h with h3 | h3
      · exact absurd h3 (by decide)
      · exact isalnum_ne ';' ';' (hv2 _ h3) (by decide) rfl
  refine ⟨h1, ?_, ?_⟩
  · intro hm
    rcases List.mem_cons.1 hm with h | h
    · exact absurd h (by decide)
    · exact h1 h
  · unfold pairText
    simp

theorem strtok_r_cookieHeader (p : List Char × List Char)
    (ps : List (List Char × List Char)) (hp : ∀ q ∈ p :: ps, alnumPair q) :
    strtok_r ";".toList (cookieHeader (p :: ps)) =
      pairText p :: ps.map (fun q => ' ' :: pairText q) := by
  unfold strtok_r cookieHeader
  have e : ";".toList = [';'] := rfl
  rw [List.map_cons, intercalate_semi_blank, e, am_strsep_eq_splitOn,
    List.splitOn_intercalate _ ';' ?_ (by simp)]
  · have hf : ∀ L : List (List Char), (∀ a ∈ L, a ≠ []) →
        L.filter (fun t => !t.isEmpty) = L := by
      intro L hL
      rw [List.filter_eq_self]
      intro a ha
      simpa using hL a ha
    rw [hf, List.map_map]
    · rfl
    · intro a ha
      rcases List.mem_cons.1 ha with h | h
      · rw [h]
        exact (pairText_no_semi p (hp p (List.mem_cons_self _ _))).2.2
      · simp only [List.map_map, List.mem_map, Function.comp] at h
        obtain ⟨q, _, rfl⟩ := h
        simp
  · intro l hl
    rcases List.mem_cons.1 hl with h | h
    · rw [h]
      exact (pairText_no_semi p (hp p (List.mem_cons_self _ _))).1
    · simp only [List.map_map, List.mem_map, Function.comp] at h
      obtain ⟨q, hq, rfl⟩ := h
      exact (pairText_no_semi q (hp q (List.mem_cons_of_mem _ hq))).2.1

theorem outerLoop_pairs (name : List Char) (hname : name ≠ []) :
    ∀ (l : List (List Char × (List Char × List Char))),
      (∀ t ∈ l, (t.1 = [] ∨ t.1 = [' ']) ∧ alnumPair t.2 ∧ t.2.2 ≠ name) →
      outerLoop name (l.map (fun t => t.1 ++ pairText t.2)) AM_NOT_FOUND none =
        firstValue name (l.map (fun t => t.2)) := by
  intro l
  induction l with
  | nil => intro _; rfl
  | cons t ts ih =>
    intro h
    obtain ⟨hpad, hp, hv⟩ := h t (List.mem_cons_self _ _)
    have iht := ih (fun x hx => h x (List.mem_cons_of_mem _ hx))
    simp only [List.map_cons]
    unfold outerLoop firstValue
    by_cases hs : strstr name (t.1 ++ pairText t.2) = true
    · rw [if_neg (by simp [hs])]
      have hcount : List.count '=' (t.1 ++ pairText t.2) = 1 := by
        obtain ⟨_, hn2, _, hv2⟩ := hp
        have c1 : List.count '=' t.1 = 0 := by
          rcases hpad with h0 | h0 <;> rw [h0] <;> decide
        have c2 : List.count '=' t.2.1 = 0 :=
          List.count_eq_zero.2 (fun hm => isalnum_ne '=' '=' (hn2 _ hm) (by decide) rfl)
        have c3 : List.count '=' t.2.2 = 0 :=
          List.count_eq_zero.2 (fun hm => isalnum_ne '=' '=' (hv2 _ hm) (by decide) rfl)
        unfold pairText
        rw [List.count_append, List.count_append, List.count_cons_self, c1, c2, c3]
      have hr : (if List.count '=' (t.1 ++ pairText t.2) > 1 then
            get_cookie_value_paired "~".toList name (tildeFirstEq (t.1 ++ pairText t.2))
          else get_cookie_value_paired "=".toList name (t.1 ++ pairText t.2)) =
          (if t.2.1 = name then (AM_SUCCESS, some t.2.2) else (AM_NOT_FOUND, none)) := by
        rw [hcount, if_neg (by decide), cookie_pair_result name hname t.2 hp hv t.1 hpad]
      simp only [hr]
      by_cases hnm : t.2.1 = name
      · simp only [if_pos hnm, if_true]
      · simp only [if_neg hnm]
        rw [if_neg (by decide)]
        exact iht
    · rw [if_pos (by simp [hs])]
      have hnm : ¬ t.2.1 = name := by
        intro h0
        apply hs
        have := strstr_infix name hname t.1 ('=' :: t.2.2)
        unfold pairText
        rw [h0]
        simpa [List.append_assoc] using this
      rw [if_neg hnm]
      exact iht

/-- C4 (as amended): for every non-empty sought name and every Cookie header built
as name=value pairs joined by a semicolon and a blank, in which every name and
every value is a non-empty string of letters and digits and no value equals the
sought name, `get_cookie_value` with the separator `;` returns `AM_SUCCESS` with
the value of the first pair whose name is the sought one, and `AM_NOT_FOUND` (with
no value) when no pair has that name. -/
theorem get_cookie_value_pairs (name : List Char) (pairs : List (List Char × List Char))
    (hname : name ≠ []) (hp : ∀ p ∈ pairs, alnumPair p) (hv : ∀ p ∈ pairs, p.2 ≠ name) :
    get_cookie_value ";".toList (some name) (some (cookieHeader pairs)) =
      firstValue name pairs := by
  unfold get_cookie_value
  simp only []
  rw [if_neg (by simpa using hname)]
  cases pairs with
  | nil => rfl
  | cons p ps =>
    have hp0 := hp p (List.mem_cons_self _ _)
    have hne : cookieHeader (p :: ps) ≠ [] := by
      unfold cookieHeader
      rw [List.map_cons, intercalate_semi_blank]
      obtain ⟨c, cs, hc⟩ := List.exists_cons_of_ne_nil (pairText_no_semi p hp0).2.2
      rw [hc, intercalate_cons_head]
      simp
    rw [if_neg (by simpa using hne), if_neg (by decide), strtok_r_cookieHeader p ps hp]
    have := outerLoop_pairs name hname (([], p) :: ps.map (fun q => ([' '], q))) (by
      intro t ht
      rcases List.mem_cons.1 ht with h | h
      · rw [h]
        exact ⟨Or.inl rfl, hp0, hv p (List.mem_cons_self _ _)⟩
      · simp only [List.mem_map] at h
        obtain ⟨q, hq, rfl⟩ := h
        exact ⟨Or.inr rfl, hp q (List.mem_cons_of_mem _ hq), hv q (List.mem_cons_of_mem _ hq)⟩)
    have e1 : ((fun t : List Char × (List Char × List Char) => t.1 ++ pairText t.2) ∘
        fun q => ([' '], q)) = fun q => ' ' :: pairText q := rfl
    have e2 : ((fun t : List Char × (List Char × List Char) => t.2) ∘
        fun q => ([' '], q)) = id := rfl
    simp only [List.map_cons, List.map_map, List.nil_append, e1, e2, List.map_id] at this
    exact this
/-- Witness of C4 as amended, and the example of the claim: in the header
`foo=bar; sid=XYZ123; baz=qux` the name `sid` has the value `XYZ123`. -/
theorem get_cookie_value_pairs_witness :
    cookieHeader [("foo".toList, "bar".toList), ("sid".toList, "XYZ123".toList),
      ("baz".toList, "qux".toList)] = "foo=bar; sid=XYZ123; baz=qux".toList ∧
    get_cookie_value ";".toList (some "sid".toList)
      (some "foo=bar; sid=XYZ123; baz=qux".toList) = (AM_SUCCESS, some "XYZ123".toList) ∧
    get_cookie_value ";".toList (some "sid".toList)
      (some (cookieHeader [("foo".toList, "bar".toList), ("sid".toList, "XYZ123".toList),
        ("baz".toList, "qux".toList)])) =
      firstValue "sid".toList [("foo".toList, "bar".toList),
        ("sid".toList, "XYZ123".toList), ("baz".toList, "qux".toList)] :=
  ⟨by decide, by decide,
    get_cookie_value_pairs "sid".toList [("foo".toList, "bar".toList),
      ("sid".toList, "XYZ123".toList), ("baz".toList, "qux".toList)] (by decide) (by decide)
      (by decide)⟩

/-- C4 (fails as stated): for the empty sought name and the header `a=b`, whose
single pair is made of letters, whose value differs from the sought name and in
which no pair has the sought name, `get_cookie_value` returns `AM_EINVAL`, not
`AM_NOT_FOUND`. -/
theorem get_cookie_value_pairs_counterexample :
    (∀ p ∈ [("a".toList, "b".toList)], alnumPair p ∧ p.2 ≠ []) ∧
    firstValue [] [("a".toList, "b".toList)] = (AM_NOT_FOUND, none) ∧
    get_cookie_value ";".toList (some []) (some (cookieHeader [("a".toList, "b".toList)])) =
      (AM_EINVAL, none) := by
  refine ⟨by decide, by decide, by decide⟩

/-! ## Base64 -/

theorem shift_or_eq (a b i : Nat) (hb : b < 2 ^ i) : a <<< i ||| b = a * 2 ^ i + b := by
  rw [Nat.shiftLeft_eq, Nat.mul_comm, Nat.mul_add_lt_is_or hb]

theorem b64byte1_eq (x y : Nat) (hx : x < 64) (hy : y < 64) :
    b64byte1 x y = x * 4 + y / 16 := by
  unfold b64byte1
  rw [Nat.shiftRight_eq_div_pow, shift_or_eq x (y / 2 ^ 4) 2 (by
    norm_num
    omega)]
  norm_num
  omega

theorem b64byte2_eq (y z : Nat) (hz : z < 64) :
    b64byte2 y z = y % 16 * 16 + z / 4 := by
  unfold b64byte2
  rw [Nat.shiftRight_eq_div_pow, shift_or_eq y (z / 2 ^ 2) 4 (by
    norm_num
    omega)]
  norm_num
  omega

theorem b64byte3_eq (z w : Nat) (hw : w < 64) :
    b64byte3 z w = z % 4 * 64 + w := by
  unfold b64byte3
  rw [shift_or_eq z w 6 (by norm_num; omega)]
  norm_num
  omega

theorem b64groups_vals : ∀ (n : Nat) (bs : List Nat), bs.length = n → (∀ b ∈ bs, b < 256) →
    b64groups (b64vals bs) = bs := by
  intro n
  induction n using Nat.strong_induction_on with
  | _ n ih =>
    intro bs hn hb
    match bs, hn, hb with
    | [], _, _ => rfl
    | [a], _, hb =>
      have ha : a < 256 := hb a (by simp)
      show [b64byte1 (a / 4) (a % 4 * 16)] = [a]
      rw [b64byte1_eq _ _ (by omega) (by omega)]
      congr 1
      omega
    | [a, b], _, hb =>
      have ha : a < 256 := hb a (by simp)
      have hb2 : b < 256 := hb b (by simp)
      show [b64byte1 (a / 4) (a % 4 * 16 + b / 16),
        b64byte2 (a % 4 * 16 + b / 16) (b % 16 * 4)] = [a, b]
      rw [b64byte1_eq _ _ (by omega) (by omega), b64byte2_eq _ _ (by omega)]
      congr 1
      · omega
      · congr 1
        omega
    | a :: b :: c :: rest, hn, hb =>
      have ha : a < 256 := hb a (by simp)
      have hb2 : b < 256 := hb b (by simp)
      have hc : c < 256 := hb c (by simp)
      have ihr := ih rest.length (by simp at hn; omega) rest rfl
        (fun x hx => hb x (by simp [hx]))
      have e : b64groups (b64vals (a :: b :: c :: rest)) =
          b64byte1 (a / 4) (a % 4 * 16 + b / 16) ::
          b64byte2 (a % 4 * 16 + b / 16) (b % 16 * 4 + c / 64) ::
          b64byte3 (b % 16 * 4 + c / 64) (c % 64) :: b64groups (b64vals rest) := by
        show b64groups (a / 4 :: (a % 4 * 16 + b / 16) :: (b % 16 * 4 + c / 64) :: c % 64 ::
          b64vals rest) = _
        cases hv : b64vals rest with
        | nil => rfl
        | cons e es => rfl
      rw [e, ihr, b64byte1_eq _ _ (by omega) (by omega), b64byte2_eq _ _ (by omega),
        b64byte3_eq _ _ (by omega)]
      congr 1
      · omega
      · congr 1
        · omega
        · congr 1
          omega
theorem b64table_b64char : ∀ v, v < 64 → b64table (b64char v) = v := by
  decide

theorem takeWhile_b64_cons (v : Nat) (hv : v < 64) (l : List Char) :
    (b64char v :: l).takeWhile (fun c => b64table c ≤ 63) =
      b64char v :: l.takeWhile (fun c => b64table c ≤ 63) := by
  rw [List.takeWhile_cons_of_pos]
  rw [decide_eq_true_eq, b64table_b64char v hv]
  omega

theorem takeWhile_b64_stop (x : Char) (hx : b64table x = 64) (l : List Char) :
    (x :: l).takeWhile (fun c => b64table c ≤ 63) = [] := by
  rw [List.takeWhile_cons_of_neg]
  rw [decide_eq_true_eq, hx]
  omega

theorem base64_prefix_vals : ∀ (n : Nat) (bs : List Nat), bs.length = n →
    (∀ b ∈ bs, b < 256) → ∀ (rest : List Char),
    ((stdBase64 bs ++ '#' :: rest).takeWhile (fun c => b64table c ≤ 63)).map b64table =
      b64vals bs := by
  intro n
  induction n using Nat.strong_induction_on with
  | _ n ih =>
    intro bs hn hb rest
    match bs, hn, hb with
    | [], _, _ =>
      show (('#' :: rest).takeWhile _).map b64table = []
      rw [takeWhile_b64_stop '#' (by decide)]
      rfl
    | [a], _, hb =>
      have ha : a < 256 := hb a (by simp)
      show ((b64char (a / 4) :: b64char (a % 4 * 16) :: '=' :: '=' :: '#' :: rest).takeWhile
        _).map b64table = [a / 4, a % 4 * 16]
      rw [takeWhile_b64_cons _ (by omega), takeWhile_b64_cons _ (by omega),
        takeWhile_b64_stop '=' (by decide)]
      simp only [List.map_cons, List.map_nil]
      rw [b64table_b64char _ (by omega), b64table_b64char _ (by omega)]
    | [a, b], _, hb =>
      have ha : a < 256 := hb a (by simp)
      have hb2 : b < 256 := hb b (by simp)
      show ((b64char (a / 4) :: b64char (a % 4 * 16 + b / 16) :: b64char (b % 16 * 4) ::
        '=' :: '#' :: rest).takeWhile _).map b64table =
          [a / 4, a % 4 * 16 + b / 16, b % 16 * 4]
      rw [takeWhile_b64_cons _ (by omega), takeWhile_b64_cons _ (by omega),
        takeWhile_b64_cons _ (by omega), takeWhile_b64_stop '=' (by decide)]
      simp only [List.map_cons, List.map_nil]
      rw [b64table_b64char _ (by omega), b64table_b64char _ (by omega),
        b64table_b64char _ (by omega)]
    | a :: b :: c :: bs2, hn, hb =>
      have ha : a < 256 := hb a (by simp)
      have hb2 : b < 256 := hb b (by simp)
      have hc : c < 256 := hb c (by simp)
      have ihr := ih bs2.length (by simp at hn; omega) bs2 rfl
        (fun x hx => hb x (by simp [hx])) rest
      show ((b64char (a / 4) :: b64char (a % 4 * 16 + b / 16) ::
        b64char (b % 16 * 4 + c / 64) :: b64char (c % 64) ::
        (stdBase64 bs2 ++ '#' :: rest)).takeWhile _).map b64table =
          a / 4 :: (a % 4 * 16 + b / 16) :: (b % 16 * 4 + c / 64) :: c % 64 :: b64vals bs2
      rw [takeWhile_b64_cons _ (by omega), takeWhile_b64_cons _ (by omega),
        takeWhile_b64_cons _ (by omega), takeWhile_b64_cons _ (by omega)]
      simp only [List.map_cons]
      rw [b64table_b64char _ (by omega), b64table_b64char _ (by omega),
        b64table_b64char _ (by omega), b64table_b64char _ (by omega), ihr]

/-- The function `base64_decode` inverts standard base64: decoding the encoding of a byte
sequence, whatever follows the hash sign after it, gives the bytes back. -/
theorem base64_decode_stdBase64 (bs : List Nat) (hb : ∀ b ∈ bs, b < 256)
    (rest : List Char) : base64_decode (stdBase64 bs ++ '#' :: rest) = bs := by
  unfold base64_decode
  rw [base64_prefix_vals bs.length bs rfl hb rest]
  exact b64groups_vals bs.length bs rfl hb

/-! ## Session token decoder on well-formed tokens -/

theorem walkStep_tag (payload : List Nat) (heap : Nat → Nat) (l raw nv : Nat)
    (ty : session_type) (info : am_session_info) (reads : List (Nat × Nat))
    (t : session_type) (ht : t ≠ AM_NA) (hnv : nv % 2 = 0)
    (h0 : bufByte payload heap raw = 0) (h1 : bufByte payload heap (raw + 1) = 2)
    (h2 : bufBytes payload heap (raw + 2) 2 = tagBytes t) :
    walkStep payload heap ⟨l, raw, nv, ty, info, reads⟩ =
      (⟨sizeSub (sizeSub l 2) 2, raw + 2 + 2, nv + 1, t, info,
        reads ++ [(raw, 2)] ++ [(raw + 2, 2)]⟩, true) := by
  have e2 : (2 ||| 0 <<< 8) % 2 ^ 16 = 2 := by decide
  unfold walkStep
  simp only [h0, h1, h2, e2, hnv, if_true]
  cases t with
  | AM_NA => exact absurd rfl ht
  | AM_SI => rfl
  | AM_SK => rfl
  | AM_S1 => rfl

theorem walkStep_value (payload : List Nat) (heap : Nat → Nat) (l raw nv : Nat)
    (info : am_session_info) (reads : List (Nat × Nat))
    (t : session_type) (ht : t ≠ AM_NA) (hnv : nv % 2 = 1) (v : List Nat)
    (hv : v.length < 65536)
    (h0 : bufByte payload heap raw = v.length / 256)
    (h1 : bufByte payload heap (raw + 1) = v.length % 256)
    (h2 : bufBytes payload heap (raw + 2) v.length = v) :
    walkStep payload heap ⟨l, raw, nv, t, info, reads⟩ =
      (⟨sizeSub (sizeSub l 2) v.length, raw + 2 + v.length, nv + 1, t, setField info (t, v),
        reads ++ [(raw, 2)] ++ [(raw + 2, v.length)]⟩, true) := by
  have e : (v.length % 256 ||| (v.length / 256) <<< 8) % 2 ^ 16 = v.length := by
    rw [Nat.lor_comm, shift_or_eq _ _ 8 (by norm_num; omega)]
    norm_num
    omega
  unfold walkStep
  simp only [h0, h1, e, h2, hnv]
  rw [if_neg (by decide)]
  cases t with
  | AM_NA => exact absurd rfl ht
  | AM_SI => rfl
  | AM_SK => rfl
  | AM_S1 => rfl
theorem bufByte_mid (pre body post : List Nat) (heap : Nat → Nat) (k : Nat)
    (hk : k < body.length) :
    bufByte (pre ++ (body ++ post)) heap (pre.length + k) = body.getD k 0 := by
  unfold bufByte
  rw [if_pos (by simp only [List.length_append]; omega)]
  rw [List.getD_eq_getElem?_getD, List.getD_eq_getElem?_getD,
    List.getElem?_append_right (by omega), Nat.add_sub_cancel_left,
    List.getElem?_append_left hk]

theorem bufByte_head (pre : List Nat) (b : Nat) (post : List Nat) (heap : Nat → Nat) :
    bufByte (pre ++ b :: post) heap pre.length = b := by
  have := bufByte_mid pre [b] post heap 0 (by simp)
  simpa using this

theorem bufBytes_head (pre body post : List Nat) (heap : Nat → Nat) :
    bufBytes (pre ++ (body ++ post)) heap pre.length body.length = body := by
  unfold bufBytes
  apply List.ext_getElem
  · simp
  · intro k h1 h2
    simp only [List.getElem_map, List.getElem_range]
    rw [bufByte_mid pre body post heap k h2, List.getD_eq_getElem?_getD,
      List.getElem?_eq_getElem h2]
    rfl

theorem sizeSub_eq (a b : Nat) (hb : b ≤ a) (ha : a < 2 ^ 64) : sizeSub a b = a - b := by
  unfold sizeSub
  have hb2 : b % 2 ^ 64 = b := Nat.mod_eq_of_lt (by omega)
  rw [hb2]
  have : a + 2 ^ 64 - b = (a - b) + 2 ^ 64 := by omega
  rw [this, Nat.add_mod_right]
  exact Nat.mod_eq_of_lt (by omega)

theorem tagBytes_spec (t : session_type) (ht : t ≠ AM_NA) :
    encodeRecord (tagBytes t) = 0 :: 2 :: tagBytes t ∧ (tagBytes t).length = 2 := by
  cases t with
  | AM_NA => exact absurd rfl ht
  | AM_SI => exact ⟨rfl, rfl⟩
  | AM_SK => exact ⟨rfl, rfl⟩
  | AM_S1 => exact ⟨rfl, rfl⟩

/-- The record loop on a payload that continues with the records of `ps`: with
enough fuel it ends, having set the field of each pair in turn. -/
theorem walkLoop_pairs (heap : Nat → Nat) : ∀ (ps : List (session_type × List Nat))
    (pre : List Nat) (nv : Nat) (ty : session_type) (info : am_session_info)
    (reads : List (Nat × Nat)) (fuel : Nat),
    nv % 2 = 0 → (encodePairs ps).length < 2 ^ 64 →
    (∀ p ∈ ps, p.1 ≠ AM_NA ∧ p.2.length < 65536) → 2 * ps.length ≤ fuel →
    ∃ s2 : WalkState,
      walkLoop (pre ++ encodePairs ps) heap fuel
        ⟨(encodePairs ps).length, pre.length, nv, ty, info, reads⟩ = some s2 ∧
      s2.info = ps.foldl setField info := by
  intro ps
  induction ps with
  | nil =>
    intro pre nv ty info reads fuel _ _ _ _
    exact ⟨_, walkLoop_done _ _ _ _ rfl, rfl⟩
  | cons p ps ih =>
    intro pre nv ty info reads fuel hnv hlen hp hfuel
    obtain ⟨t, v⟩ := p
    obtain ⟨ht, hv⟩ := hp (t, v) (List.mem_cons_self _ _)
    simp only [] at ht hv
    obtain ⟨f, rfl⟩ : ∃ f, fuel = f + 1 + 1 := ⟨fuel - 2, by simp at hfuel; omega⟩
    obtain ⟨etag, ltag⟩ := tagBytes_spec t ht
    have hpay : encodePairs ((t, v) :: ps) =
        0 :: 2 :: (tagBytes t ++ (v.length / 256 :: v.length % 256 :: (v ++ encodePairs ps))) := by
      show encodeRecord (tagBytes t) ++ encodeRecord v ++ encodePairs ps = _
      rw [etag]
      simp [encodeRecord]
    have hL : (encodePairs ((t, v) :: ps)).length = 6 + v.length + (encodePairs ps).length := by
      rw [hpay]
      simp only [List.length_cons, List.length_append, ltag]
      omega
    have hlen2 : 6 + v.length + (encodePairs ps).length < 2 ^ 64 := by
      rw [← hL]
      exact hlen
    rw [hL, hpay]
    -- the tag record
    have a0 : bufByte (pre ++ 0 :: 2 :: (tagBytes t ++ (v.length / 256 :: v.length % 256 ::
        (v ++ encodePairs ps)))) heap pre.length = 0 := bufByte_head _ _ _ _
    have a1 : bufByte (pre ++ 0 :: 2 :: (tagBytes t ++ (v.length / 256 :: v.length % 256 ::
        (v ++ encodePairs ps)))) heap (pre.length + 1) = 2 := by
      have := bufByte_head (pre ++ [0]) 2 (tagBytes t ++ (v.length / 256 :: v.length % 256 ::
        (v ++ encodePairs ps))) heap
      simpa using this
    have a2 : bufBytes (pre ++ 0 :: 2 :: (tagBytes t ++ (v.length / 256 :: v.length % 256 ::
        (v ++ encodePairs ps)))) heap (pre.length + 2) 2 = tagBytes t := by
      have := bufBytes_head (pre ++ [0, 2]) (tagBytes t) (v.length / 256 :: v.length % 256 ::
        (v ++ encodePairs ps)) heap
      rw [ltag] at this
      simpa using this
    have s1 := walkStep_tag _ heap (6 + v.length + (encodePairs ps).length) pre.length nv ty
      info reads t ht hnv a0 a1 a2
    rw [walkLoop_continue _ _ _ _ _ (by simp only []; omega) s1]
    -- the value record
    have b0 : bufByte (pre ++ 0 :: 2 :: (tagBytes t ++ (v.length / 256 :: v.length % 256 ::
        (v ++ encodePairs ps)))) heap (pre.length + 2 + 2) = v.length / 256 := by
      have := bufByte_head (pre ++ 0 :: 2 :: tagBytes t) (v.length / 256)
        (v.length % 256 :: (v ++ encodePairs ps)) heap
      simp only [List.length_append, List.length_cons, ltag, List.append_assoc,
        List.cons_append] at this
      exact this
    have b1 : bufByte (pre ++ 0 :: 2 :: (tagBytes t ++ (v.length / 256 :: v.length % 256 ::
        (v ++ encodePairs ps)))) heap (pre.length + 2 + 2 + 1) = v.length % 256 := by
      have := bufByte_head (pre ++ 0 :: 2 :: (tagBytes t ++ [v.length / 256])) (v.length % 256)
        (v ++ encodePairs ps) heap
      simp only [List.length_append, List.length_cons, ltag, List.append_assoc,
        List.cons_append, List.length_nil, List.nil_append] at this
      exact this
    have b2 : bufBytes (pre ++ 0 :: 2 :: (tagBytes t ++ (v.length / 256 :: v.length % 256 ::
        (v ++ encodePairs ps)))) heap (pre.length + 2 + 2 + 2) v.length = v := by
      have := bufBytes_head (pre ++ 0 :: 2 :: (tagBytes t ++ [v.length / 256, v.length % 256]))
        v (encodePairs ps) heap
      simp only [List.length_append, List.length_cons, ltag, List.append_assoc,
        List.cons_append, List.length_nil, List.nil_append] at this
      exact this
    have s2 := walkStep_value _ heap (sizeSub (sizeSub (6 + v.length + (encodePairs ps).length) 2) 2)
      (pre.length + 2 + 2) (nv + 1) info (reads ++ [(pre.length, 2)] ++ [(pre.length + 2, 2)])
      t ht (by omega) v hv b0 b1 b2
    have i1 : sizeSub (6 + v.length + (encodePairs ps).length) 2 =
        4 + v.length + (encodePairs ps).length := by
      rw [sizeSub_eq _ _ (by omega) hlen2]
      omega
    have l1 : sizeSub (sizeSub (6 + v.length + (encodePairs ps).length) 2) 2 =
        2 + v.length + (encodePairs ps).length := by
      rw [i1, sizeSub_eq _ _ (by omega) (by omega)]
      omega
    have i2 : sizeSub (2 + v.length + (encodePairs ps).length) 2 =
        v.length + (encodePairs ps).length := by
      rw [sizeSub_eq _ _ (by omega) (by omega)]
      omega
    have l2 : sizeSub (sizeSub (2 + v.length + (encodePairs ps).length) 2) v.length =
        (encodePairs ps).length := by
      rw [i2, sizeSub_eq _ _ (by omega) (by omega)]
      omega
    rw [l1] at s2
    rw [l2] at s2
    rw [l1, walkLoop_continue _ _ _ _ _ (by simp only []; omega) s2]
    have hpre : pre ++ 0 :: 2 :: (tagBytes t ++ (v.length / 256 :: v.length % 256 ::
        (v ++ encodePairs ps))) =
        (pre ++ 0 :: 2 :: (tagBytes t ++ (v.length / 256 :: v.length % 256 :: v))) ++
          encodePairs ps := by
      simp
    have hraw : pre.length + 2 + 2 + 2 + v.length =
        (pre ++ 0 :: 2 :: (tagBytes t ++ (v.length / 256 :: v.length % 256 :: v))).length := by
      simp only [List.length_append, List.length_cons, ltag]
      omega
    rw [hpre, hraw]
    obtain ⟨s3, h3, h4⟩ := ih (pre ++ 0 :: 2 :: (tagBytes t ++ (v.length / 256 ::
      v.length % 256 :: v))) (nv + 1 + 1) t (setField info (t, v))
      (reads ++ [(pre.length, 2)] ++ [(pre.length + 2, 2)] ++ [(pre.length + 2 + 2, 2)] ++
        [(pre.length + 2 + 2 + 2, v.length)]) f (by omega) (by omega)
      (fun q hq => hp q (List.mem_cons_of_mem _ hq)) (by simp at hfuel; omega)
    exact ⟨s3, h3, h4⟩

theorem getField_setField (t : session_type) (ht : t ≠ AM_NA) (info : am_session_info)
    (p : session_type × List Nat) :
    getField t (setField info p) = if p.1 = t then some p.2 else getField t info := by
  obtain ⟨k, v⟩ := p
  cases t <;> cases k <;> first | exact absurd rfl ht | rfl

theorem setField_error (info : am_session_info) (p : session_type × List Nat) :
    (setField info p).error = info.error := by
  obtain ⟨k, v⟩ := p
  cases k <;> rfl

theorem foldl_setField_error : ∀ (ps : List (session_type × List Nat))
    (info : am_session_info), (ps.foldl setField info).error = info.error := by
  intro ps
  induction ps with
  | nil => intro info; rfl
  | cons p ps ih =>
    intro info
    rw [List.foldl_cons, ih, setField_error]

theorem lookup_none_of_not_mem (t : session_type) :
    ∀ (ps : List (session_type × List Nat)), t ∉ ps.map Prod.fst → ps.lookup t = none := by
  intro ps
  induction ps with
  | nil => intro _; rfl
  | cons p ps ih =>
    intro h
    obtain ⟨k, v⟩ := p
    simp only [List.map_cons, List.mem_cons, not_or] at h
    rw [List.lookup_cons]
    have : (t == k) = false := by simpa using h.1
    rw [this]
    exact ih h.2

theorem foldl_setField_getField (t : session_type) (ht : t ≠ AM_NA) :
    ∀ (ps : List (session_type × List Nat)) (info : am_session_info),
      (ps.map Prod.fst).Nodup →
      getField t (ps.foldl setField info) = (ps.lookup t).orElse (fun _ => getField t info) := by
  intro ps
  induction ps with
  | nil => intro info _; rfl
  | cons p ps ih =>
    intro info hnd
    obtain ⟨k, v⟩ := p
    simp only [List.map_cons, List.nodup_cons] at hnd
    rw [List.foldl_cons, ih _ hnd.2, getField_setField t ht, List.lookup_cons]
    by_cases hk : k = t
    · subst hk
      simp only [beq_self_eq_true, if_true]
      rw [lookup_none_of_not_mem k ps hnd.1]
      rfl
    · have : (t == k) = false := by simpa using fun h => hk h.symm
      rw [this, if_neg hk]

theorem b64char_mem (v : Nat) : b64char v ∈ base64_table := by
  by_cases h : v < 64
  · have : ∀ w, w < 64 → b64char w ∈ base64_table := by decide
    exact this v h
  · unfold b64char
    rw [List.getD_eq_default _ _ (by
      have : base64_table.length = 64 := by decide
      omega)]
    decide

theorem stdBase64_mem : ∀ (n : Nat) (bs : List Nat), bs.length = n →
    ∀ c ∈ stdBase64 bs, c ∈ '=' :: base64_table := by
  intro n
  induction n using Nat.strong_induction_on with
  | _ n ih =>
    intro bs hn c hc
    match bs, hn, hc with
    | [], _, hc => simp [stdBase64] at hc
    | [a], _, hc =>
      simp only [stdBase64, List.mem_cons, List.mem_singleton, List.not_mem_nil,
        or_false] at hc
      rcases hc with h | h | h | h
      · rw [h]; exact List.mem_cons_of_mem _ (b64char_mem _)
      · rw [h]; exact List.mem_cons_of_mem _ (b64char_mem _)
      · rw [h]; exact List.mem_cons_self _ _
      · rw [h]; exact List.mem_cons_self _ _
    | [a, b], _, hc =>
      simp only [stdBase64, List.mem_cons, List.mem_singleton, List.not_mem_nil,
        or_false] at hc
      rcases hc with h | h | h | h
      · rw [h]; exact List.mem_cons_of_mem _ (b64char_mem _)
      · rw [h]; exact List.mem_cons_of_mem _ (b64char_mem _)
      · rw [h]; exact List.mem_cons_of_mem _ (b64char_mem _)
      · rw [h]; exact List.mem_cons_self _ _
    | a :: b :: c2 :: rest, hn, hc =>
      simp only [stdBase64, List.mem_cons] at hc
      rcases hc with h | h | h | h | h
      · rw [h]; exact List.mem_cons_of_mem _ (b64char_mem _)
      · rw [h]; exact List.mem_cons_of_mem _ (b64char_mem _)
      · rw [h]; exact List.mem_cons_of_mem _ (b64char_mem _)
      · rw [h]; exact List.mem_cons_of_mem _ (b64char_mem _)
      · exact ih rest.length (by simp at hn; omega) rest rfl c h

theorem stdBase64_eq_nil (bs : List Nat) (h : stdBase64 bs = []) : bs = [] := by
  match bs, h with
  | [], _ => rfl
  | [a], h => simp [stdBase64] at h
  | [a, b], h => simp [stdBase64] at h
  | a :: b :: c :: rest, h => simp [stdBase64] at h
theorem tagBytes_lt (t : session_type) : ∀ b ∈ tagBytes t, b < 256 := by
  cases t <;> decide

theorem encodePairs_bytes : ∀ (ps : List (session_type × List Nat)),
    (∀ p ∈ ps, p.1 ≠ AM_NA ∧ p.2.length < 65536 ∧ ∀ b ∈ p.2, b < 256) →
    ∀ b ∈ encodePairs ps, b < 256 := by
  intro ps
  induction ps with
  | nil => intro _ b hb; simp [encodePairs] at hb
  | cons p ps ih =>
    intro h b hb
    obtain ⟨ht, hl, hv⟩ := h p (List.mem_cons_self _ _)
    obtain ⟨etag, ltag⟩ := tagBytes_spec p.1 ht
    unfold encodePairs at hb
    rw [etag] at hb
    simp only [encodeRecord, List.cons_append, List.mem_cons, List.mem_append] at hb
    rcases hb with h0 | h0 | (h0 | h0 | h0 | h0) | h0
    · omega
    · omega
    · exact tagBytes_lt _ b h0
    · omega
    · omega
    · exact hv b h0
    · exact ih (fun q hq => h q (List.mem_cons_of_mem _ hq)) b h0

theorem encodePairs_length_le : ∀ (ps : List (session_type × List Nat)),
    (∀ p ∈ ps, p.1 ≠ AM_NA ∧ p.2.length < 65536) →
    (encodePairs ps).length ≤ ps.length * 65541 := by
  intro ps
  induction ps with
  | nil => intro _; simp [encodePairs]
  | cons p ps ih =>
    intro h
    obtain ⟨ht, hl⟩ := h p (List.mem_cons_self _ _)
    obtain ⟨etag, ltag⟩ := tagBytes_spec p.1 ht
    have := ih (fun q hq => h q (List.mem_cons_of_mem _ hq))
    unfold encodePairs
    rw [etag]
    simp only [encodeRecord, List.cons_append, List.length_cons, List.length_append, ltag]
    omega

theorem encodePairs_eq_nil (ps : List (session_type × List Nat))
    (h : encodePairs ps = []) : ps = [] := by
  cases ps with
  | nil => rfl
  | cons p ps => simp [encodePairs, encodeRecord] at h

theorem sessionSpan_pairsToken (enc : List Char) (hne : enc ≠ [])
    (hmem : ∀ c ∈ enc, c ∈ '=' :: base64_table) :
    sessionSpan ('@' :: (enc ++ ['#'])) = some (enc ++ ['#']) := by
  have hh : ∀ c ∈ enc, (fun c => c != '#') c = true := by
    intro c hc
    have : c ≠ '#' := by
      intro h0
      rw [h0] at hc
      exact absurd (hmem _ hc) (by decide)
    simpa using this
  unfold sessionSpan
  rw [List.dropWhile_cons_of_neg (by decide)]
  simp only []
  rw [List.dropWhile_append_of_pos hh, List.takeWhile_append_of_pos hh]
  rw [List.dropWhile_cons_of_neg (by decide), List.takeWhile_cons_of_neg (by decide)]
  rw [if_neg (by simp), if_neg (by simpa using hne)]

theorem sessionToken_pairsToken (enc : List Char)
    (hmem : ∀ c ∈ enc, c ∈ '=' :: base64_table) :
    sessionToken ('@' :: (enc ++ ['#'])) = '@' :: (enc ++ ['#']) := by
  unfold sessionToken
  rw [if_neg]
  simp only [List.contains_eq_any_beq, List.any_cons, List.any_append, List.any_nil,
    Bool.or_false, Bool.or_eq_true, List.any_eq_true, beq_iff_eq, not_or, not_exists, not_and]
  refine ⟨by decide, ?_, by decide⟩
  intro c hc h0
  rw [← h0] at hc
  exact absurd (hmem _ hc) (by decide)

/-- C3: for every sequence of (tag, value) pairs with pairwise distinct tags drawn
from `SI`, `SK`, `S1` and byte values of fewer than 65536 bytes, encoded as
records and wrapped as an at sign, standard base64 and a hash sign,
`am_session_decode` returns `AM_SUCCESS` (whatever lies after the decoded
buffer, as soon as the loop may run twice per pair) and sets `si`, `sk`, `s1` to
the value given for the tag, leaving the fields of absent tags NULL. -/
theorem am_session_decode_pairs (pairs : List (session_type × List Nat))
    (htag : ∀ p ∈ pairs, p.1 ≠ AM_NA) (hnd : (pairs.map Prod.fst).Nodup)
    (hval : ∀ p ∈ pairs, p.2.length < 65536 ∧ ∀ b ∈ p.2, b < 256)
    (heap : Nat → Nat) (fuel : Nat) (hfuel : 2 * pairs.length ≤ fuel) :
    am_session_decode heap fuel (some (pairsToken pairs)) =
      some (AM_SUCCESS, ⟨pairs.lookup AM_SI, pairs.lookup AM_SK, pairs.lookup AM_S1,
        AM_SUCCESS⟩) := by
  have hall : ∀ p ∈ pairs, p.1 ≠ AM_NA ∧ p.2.length < 65536 ∧ ∀ b ∈ p.2, b < 256 :=
    fun p hp => ⟨htag p hp, (hval p hp).1, (hval p hp).2⟩
  have hbytes := encodePairs_bytes pairs hall
  have hmem := stdBase64_mem _ (encodePairs pairs) rfl
  unfold am_session_decode pairsToken
  simp only []
  rw [if_neg (by simp), sessionToken_pairsToken _ hmem]
  by_cases hemp : pairs = []
  · subst hemp
    rfl
  · have hne : stdBase64 (encodePairs pairs) ≠ [] := by
      intro h0
      exact hemp (encodePairs_eq_nil _ (stdBase64_eq_nil _ h0))
    rw [sessionSpan_pairsToken _ hne hmem]
    simp only []
    rw [base64_decode_stdBase64 _ hbytes []]
    have hcard : pairs.length ≤ 4 := by
      have := List.Nodup.length_le_card hnd
      rw [List.length_map] at this
      exact this
    have hlen : (encodePairs pairs).length < 2 ^ 64 := by
      have := encodePairs_length_le pairs (fun p hp => ⟨htag p hp, (hval p hp).1⟩)
      have h2 : pairs.length * 65541 ≤ 4 * 65541 := Nat.mul_le_mul_right _ hcard
      have h3 : 4 * 65541 < 2 ^ 64 := by decide
      omega
    obtain ⟨s2, hs2, hinfo⟩ := walkLoop_pairs heap pairs [] 0 AM_NA emptyInfo [] fuel rfl hlen
      (fun p hp => ⟨htag p hp, (hval p hp).1⟩) hfuel
    unfold sessionWalk
    rw [Nat.mod_eq_of_lt hlen]
    simp only [List.nil_append, List.length_nil] at hs2
    rw [hs2]
    simp only [Option.map_some', Option.some.injEq, Prod.mk.injEq, true_and]
    rw [hinfo]
    have f1 := foldl_setField_getField AM_SI (by decide) pairs emptyInfo hnd
    have f2 := foldl_setField_getField AM_SK (by decide) pairs emptyInfo hnd
    have f3 := foldl_setField_getField AM_S1 (by decide) pairs emptyInfo hnd
    have f4 := foldl_setField_error pairs emptyInfo
    have g : ∀ o : Option (List Nat), o.orElse (fun _ => none) = o := by
      intro o
      cases o <;> rfl
    simp only [getField, emptyInfo, g] at f1 f2 f3 f4
    cases hf : List.foldl setField emptyInfo pairs with
    | mk si sk s1 error =>
      simp only [emptyInfo] at hf
      rw [hf] at f1 f2 f3 f4
      simp only [] at f1 f2 f3 f4
      rw [f1, f2, f3, f4]
/-- Witness of C3 and its example: the pairs (`SI`, `abc`), (`SK`, `def`) make the
token `@AAJTSQADYWJjAAJTSwADZGVm#`, which decodes to `si = abc`, `sk = def` and no
`s1`. -/
theorem am_session_decode_pairs_witness :
    pairsToken [(AM_SI, "abc".toList.map Char.toNat), (AM_SK, "def".toList.map Char.toNat)] =
      "@AAJTSQADYWJjAAJTSwADZGVm#".toList ∧
    am_session_decode (fun _ => 0) 4 (some "@AAJTSQADYWJjAAJTSwADZGVm#".toList) =
      some (AM_SUCCESS, ⟨some ("abc".toList.map Char.toNat),
        some ("def".toList.map Char.toNat), none, AM_SUCCESS⟩) ∧
    am_session_decode (fun _ => 0) 4 (some (pairsToken
        [(AM_SI, "abc".toList.map Char.toNat), (AM_SK, "def".toList.map Char.toNat)])) =
      some (AM_SUCCESS,
        ⟨[(AM_SI, "abc".toList.map Char.toNat), (AM_SK, "def".toList.map Char.toNat)].lookup
            AM_SI,
          [(AM_SI, "abc".toList.map Char.toNat), (AM_SK, "def".toList.map Char.toNat)].lookup
            AM_SK,
          [(AM_SI, "abc".toList.map Char.toNat), (AM_SK, "def".toList.map Char.toNat)].lookup
            AM_S1, AM_SUCCESS⟩) :=
  ⟨by decide, by decide,
    am_session_decode_pairs
      [(AM_SI, "abc".toList.map Char.toNat), (AM_SK, "def".toList.map Char.toNat)]
      (by decide) (by decide) (by decide) (fun _ => 0) 4 (by decide)⟩
/-! ## URL parser: the error returns -/

/-- A call that passes the length check ends in `AM_EOF`, in success or in the
undefined case, never in another error. -/
theorem parse_url_in_bound (sz : Sizes) (u : List Char)
    (hb : u.length ≤ sz.AM_PROTO_SIZE + sz.AM_HOST_SIZE + 6 + sz.AM_URI_SIZE) :
    parse_url sz (some u) = (match scanUrl sz u with
      | none => .failure AM_EOF
      | some v => parseScanned sz v) := by
  unfold parse_url
  simp only []
  rw [if_neg (by omega)]

theorem parseTail_is_success (sz : Sizes) (v : ScanVars) (ssl port : Nat) (path : List Char) :
    ∃ r : url, parseTail sz v ssl port path = .success r ∧ r.error = AM_SUCCESS ∧
      r.ssl = ssl ∧ r.port = port ∧ r.proto = v.proto ∧ r.host = v.host :=
  ⟨_, rfl, rfl, rfl, rfl, rfl, rfl⟩

theorem parseScanned_ne_failure (sz : Sizes) (v : ScanVars) (e : am_status) :
    parseScanned sz v ≠ .failure e := by
  unfold parseScanned
  split_ifs
  · obtain ⟨r, hr, _⟩ := parseTail_is_success sz v (sslOf v) (portOf v) "/".toList
    rw [hr]
    exact fun h => by cases h
  · exact fun h => by cases h
  · obtain ⟨r, hr, _⟩ := parseTail_is_success sz v (sslOf v) (portOf v) ('/' :: v.path)
    rw [hr]
    exact fun h => by cases h
  · obtain ⟨r, hr, _⟩ := parseTail_is_success sz v (sslOf v) (portOf v) v.path
    rw [hr]
    exact fun h => by cases h

/-- C13 (as amended): `parse_url` fails with `url.error = AM_EINVAL` when the raw
URL is absent (NULL); when the raw URL is the empty string it fails too, but with
`url.error = AM_EOF`, the code of a URL that matches no accepted shape. -/
theorem parse_url_absent_or_empty (sz : Sizes) :
    parse_url sz none = .failure AM_EINVAL ∧ parse_url sz (some []) = .failure AM_EOF := by
  refine ⟨rfl, ?_⟩
  have hh : headParts sz [] = none := by simp [headParts, scanSet]
  rw [parse_url_in_bound sz [] (Nat.zero_le _), scanUrl_eq, hh]

/-- Witness of C13 as amended, with the sizes 5, 255 and 4096. -/
theorem parse_url_absent_or_empty_witness :
    parse_url amSizes none = .failure AM_EINVAL ∧
    parse_url amSizes (some []) = .failure AM_EOF :=
  parse_url_absent_or_empty amSizes

/-- Counterexample to C13 as stated: for the empty string the error code is
`AM_EOF`, not `AM_EINVAL`. -/
theorem parse_url_absent_or_empty_counterexample :
    parse_url amSizes (some "".toList) = .failure AM_EOF ∧
    parse_url amSizes (some "".toList) ≠ .failure AM_EINVAL := by
  decide

/-- C14: a non-NULL raw URL fails with `url.error = AM_E2BIG` if and only if it is
longer than `AM_PROTO_SIZE + AM_HOST_SIZE + 6 + AM_URI_SIZE`, whatever its content
(so also when its prefix matches an accepted shape); the check comes first, and
when it fails the call returns `AM_ERROR` with every member of `*url` other than
`error` left as it was. -/
theorem parse_url_too_large_iff (sz : Sizes) (u : List Char) (old : url) :
    (parse_url sz (some u) = .failure AM_E2BIG ↔
      sz.AM_PROTO_SIZE + sz.AM_HOST_SIZE + 6 + sz.AM_URI_SIZE < u.length) ∧
    (parse_url_checks sz (some u) old =
      if sz.AM_PROTO_SIZE + sz.AM_HOST_SIZE + 6 + sz.AM_URI_SIZE < u.length then
        some (AM_ERROR, ⟨AM_E2BIG, old.ssl, old.port, old.proto, old.host, old.path,
          old.query⟩)
      else none) := by
  refine ⟨⟨fun h => ?_, fun h => parse_url_too_big sz u h⟩, rfl⟩
  by_contra hb
  rw [parse_url_in_bound sz u (by omega)] at h
  cases hs : scanUrl sz u with
  | none => rw [hs] at h; cases h
  | some v =>
    rw [hs] at h
    exact parseScanned_ne_failure sz v _ h

/-- Witness of C14: with the sizes 5, 255 and 4096 the bound is 4362; `http://h/`
followed by 4400 letters `a` begins like an accepted URL and fails with `AM_E2BIG`,
and the members of `*url` other than `error` keep their values. -/
theorem parse_url_too_large_iff_witness :
    parse_url amSizes (some ("http://h/".toList ++ List.replicate 4400 'a')) =
      .failure AM_E2BIG ∧
    parse_url_checks amSizes (some ("http://h/".toList ++ List.replicate 4400 'a'))
        ⟨AM_SUCCESS, 1, 443, "https".toList, "old".toList, "/p".toList, "?q".toList⟩ =
      some (AM_ERROR, ⟨AM_E2BIG, 1, 443, "https".toList, "old".toList, "/p".toList,
        "?q".toList⟩) := by
  have h := parse_url_too_large_iff amSizes ("http://h/".toList ++ List.replicate 4400 'a')
    ⟨AM_SUCCESS, 1, 443, "https".toList, "old".toList, "/p".toList, "?q".toList⟩
  have hl : amSizes.AM_PROTO_SIZE + amSizes.AM_HOST_SIZE + 6 + amSizes.AM_URI_SIZE <
      ("http://h/".toList ++ List.replicate 4400 'a').length := by
    rw [List.length_append, List.length_replicate]
    decide
  refine ⟨h.1.2 hl, ?_⟩
  rw [h.2, if_pos hl]

/-! ## URL parser: port, `ssl` flag and default path -/

/-- The fields of an accepted URL in terms of the scanned variables. -/
theorem parse_url_scanned (sz : Sizes) (u : List Char) (r : url)
    (h : parse_url sz (some u) = .success r) :
    ∃ v : ScanVars, scanUrl sz u = some v ∧ parseScanned sz v = .success r ∧
      r.proto = v.proto ∧ r.host = v.host ∧ r.port = portOf v ∧ r.ssl = sslOf v := by
  unfold parse_url at h
  simp only [] at h
  split_ifs at h
  cases hs : scanUrl sz u with
  | none => rw [hs] at h; cases h
  | some v =>
    rw [hs] at h
    refine ⟨v, rfl, h, ?_⟩
    obtain ⟨p, hp, _⟩ := parseScanned_success sz v r (scanUrl_path_length sz u v hs) h
    obtain ⟨r2, hr2, _, e1, e2, e3, e4⟩ :=
      parseTail_is_success sz v (sslOf v) (portOf v) ('/' :: p)
    rw [hr2] at hp
    simp only [parse_result.success.injEq] at hp
    subst hp
    exact ⟨e3, e4, e2, e1⟩

/-- The scanned variables of a URL whose head and port are read. -/
theorem scanUrl_with_port (sz : Sizes) (u pr ho r3 r5 : List Char) (p : Int)
    (hh : headParts sz u = some (pr, ho, r3)) (hp : portPart r3 = some (p, r5)) :
    ∃ path, scanUrl sz u = some ⟨pr, ho, p, path⟩ ∧
      (path = [] ∨ pathPart sz r5 = some path) := by
  rw [scanUrl_eq, hh]
  simp only [hp]
  cases hq : pathPart sz r5 with
  | some path => exact ⟨path, rfl, Or.inr rfl⟩
  | none => exact ⟨[], rfl, Or.inl rfl⟩

/-- The scanned variables of a URL whose head is read and that has no port. -/
theorem scanUrl_without_port (sz : Sizes) (u pr ho r3 : List Char)
    (hh : headParts sz u = some (pr, ho, r3)) (hp : portPart r3 = none) :
    ∃ path, scanUrl sz u = some ⟨pr, ho, 0, path⟩ ∧
      (path = [] ∨ pathPart sz r3 = some path) := by
  rw [scanUrl_eq, hh]
  simp only [hp]
  cases hq : pathPart sz r3 with
  | some path => exact ⟨path, rfl, Or.inr rfl⟩
  | none => exact ⟨[], rfl, Or.inl rfl⟩

theorem digitsVal_lt (ds : List Char) (hd : ∀ d ∈ ds, isdigit d = true) :
    digitsVal ds < 10 ^ ds.length := by
  induction ds using List.reverseRecOn with
  | nil => decide
  | append_singleton xs d ih =>
    rw [digitsVal_snoc, List.length_append, List.length_singleton, Nat.pow_succ]
    have h1 := ih (fun x hx => hd x (List.mem_append_left _ hx))
    have h2 := hd d (by simp)
    unfold isdigit at h2
    simp only [Bool.and_eq_true, decide_eq_true_eq] at h2
    have h3 : '0'.toNat = 48 := rfl
    have h4 : '9'.toNat = 57 := rfl
    omega

theorem scanDigits_lt (w : Nat) (inp r : List Char) (n : Nat)
    (h : scanDigits w inp = some (n, r)) : n < 10 ^ w := by
  unfold scanDigits at h
  simp only [] at h
  split_ifs at h
  simp only [Option.some.injEq, Prod.mk.injEq] at h
  rw [← h.1]
  have h1 := digitsVal_lt ((inp.takeWhile isdigit).take w) (fun d hd =>
    List.mem_takeWhile_imp (List.mem_of_mem_take hd))
  have h2 : ((inp.takeWhile isdigit).take w).length ≤ w := by
    rw [List.length_take]
    exact Nat.min_le_left _ _
  exact lt_of_lt_of_le h1 (Nat.pow_le_pow_right (by decide) h2)

/-- A port read by the directive of `URI_PORT` has at most six digits. -/
theorem scanInt_natAbs_lt (inp r : List Char) (p : Int)
    (h : scanInt 6 inp = some (p, r)) : p.natAbs < 1000000 := by
  unfold scanInt at h
  split at h
  · cases hd : scanDigits (6 - 1) ‹List Char› with
    | none => rw [hd] at h; cases h
    | some q =>
      rw [hd] at h
      simp only [Option.map_some', Option.some.injEq, Prod.mk.injEq] at h
      have := scanDigits_lt _ _ q.2 q.1 hd
      rw [← h.1, Int.natAbs_neg, Int.natAbs_ofNat]
      have e : 10 ^ (6 - 1) = 100000 := by norm_num
      omega
  · cases hd : scanDigits (6 - 1) ‹List Char› with
    | none => rw [hd] at h; cases h
    | some q =>
      rw [hd] at h
      simp only [Option.map_some', Option.some.injEq, Prod.mk.injEq] at h
      have := scanDigits_lt _ _ q.2 q.1 hd
      rw [← h.1, Int.natAbs_ofNat]
      have e : 10 ^ (6 - 1) = 100000 := by norm_num
      omega
  · cases hd : scanDigits 6 (inp.dropWhile isspace) with
    | none => rw [hd] at h; cases h
    | some q =>
      rw [hd] at h
      simp only [Option.map_some', Option.some.injEq, Prod.mk.injEq] at h
      have := scanDigits_lt _ _ q.2 q.1 hd
      rw [← h.1, Int.natAbs_ofNat]
      have e : 10 ^ 6 = 1000000 := by norm_num
      omega

theorem portPart_natAbs_lt (r3 r5 : List Char) (p : Int)
    (h : portPart r3 = some (p, r5)) : p.natAbs < 1000000 := by
  unfold portPart at h
  cases hl : scanLit ":".toList r3 with
  | none => rw [hl] at h; cases h
  | some r4 =>
    rw [hl] at h
    exact scanInt_natAbs_lt r4 r5 p h

/-- C16 (as amended): for every URL accepted by `parse_url` in which a port number
`p` is captured, the resulting port is the absolute value of `p` when `p` is not 0;
a captured 0 is replaced by the default of the scheme, 443 for `https` and 80 for
`http` (ignoring case), and stays 0 for every other scheme.  The resulting port is
never negative and has at most six digits. -/
theorem parse_url_port_captured (sz : Sizes) (u pr ho r3 r5 : List Char) (p : Int) (r : url)
    (h : parse_url sz (some u) = .success r)
    (hh : headParts sz u = some (pr, ho, r3)) (hp : portPart r3 = some (p, r5)) :
    (p ≠ 0 → (r.port : Int) = |p|) ∧
    (p = 0 → r.port = if pr.map tolower = "https".toList then 443
      else if pr.map tolower = "http".toList then 80 else 0) ∧
    r.port ≤ 999999 := by
  obtain ⟨v, hv, _, _, _, hport, _⟩ := parse_url_scanned sz u r h
  obtain ⟨path, hs, _⟩ := scanUrl_with_port sz u pr ho r3 r5 p hh hp
  rw [hs] at hv
  simp only [Option.some.injEq] at hv
  subst hv
  have hlt := portPart_natAbs_lt r3 r5 p hp
  rw [hport]
  unfold portOf strcaseeq
  simp only [Bool.and_eq_true, decide_eq_true_eq]
  have e1 : "https".toList.map tolower = "https".toList := by decide
  have e2 : "http".toList.map tolower = "http".toList := by decide
  rw [e1, e2]
  refine ⟨fun hp0 => ?_, fun hp0 => ?_, ?_⟩
  · have : p.natAbs ≠ 0 := by simpa using hp0
    rw [if_neg (fun hc => this hc.2), if_neg (fun hc => this hc.2)]
    simp
  · subst hp0
    simp
  · split_ifs <;> omega

/-- Witness of C16: `http://h:-8080/x` captures the port -8080 and gives the port
8080. -/
theorem parse_url_port_captured_witness :
    parse_url amSizes (some "http://h:-8080/x".toList) =
      .success ⟨AM_SUCCESS, 0, 8080, "http".toList, "h".toList, "/x".toList, []⟩ ∧
    ((-8080 : Int) ≠ 0 → ((8080 : Nat) : Int) = |(-8080 : Int)|) ∧
    ((-8080 : Int) = 0 → 8080 = if "http".toList.map tolower = "https".toList then 443
      else if "http".toList.map tolower = "http".toList then 80 else 0) ∧
    8080 ≤ 999999 :=
  ⟨by decide, parse_url_port_captured amSizes "http://h:-8080/x".toList "http".toList
    "h".toList ":-8080/x".toList "/x".toList (-8080)
    ⟨AM_SUCCESS, 0, 8080, "http".toList, "h".toList, "/x".toList, []⟩
    (by decide) (by decide) (by decide)⟩

/-- Counterexample to C16 as stated: `http://h:0/x` captures the port 0 and gives
the port 80, not the absolute value 0. -/
theorem parse_url_port_captured_counterexample :
    headParts amSizes "http://h:0/x".toList =
      some ("http".toList, "h".toList, ":0/x".toList) ∧
    portPart ":0/x".toList = some (0, "/x".toList) ∧
    parse_url amSizes (some "http://h:0/x".toList) =
      .success ⟨AM_SUCCESS, 0, 80, "http".toList, "h".toList, "/x".toList, []⟩ := by
  decide

/-- C17: for every URL accepted by `parse_url` in which no port is written, the
resulting port is 443 when the scheme equals `https` ignoring case, 80 when it
equals `http` ignoring case, and 0 for every other accepted scheme. -/
theorem parse_url_port_default (sz : Sizes) (u pr ho r3 : List Char) (r : url)
    (h : parse_url sz (some u) = .success r)
    (hh : headParts sz u = some (pr, ho, r3)) (hp : portPart r3 = none) :
    r.proto = pr ∧
    r.port = if pr.map tolower = "https".toList then 443
      else if pr.map tolower = "http".toList then 80 else 0 := by
  obtain ⟨v, hv, _, hproto, _, hport, _⟩ := parse_url_scanned sz u r h
  obtain ⟨path, hs, _⟩ := scanUrl_without_port sz u pr ho r3 hh hp
  rw [hs] at hv
  simp only [Option.some.injEq] at hv
  subst hv
  refine ⟨hproto, ?_⟩
  rw [hport]
  unfold portOf strcaseeq
  have e1 : "https".toList.map tolower = "https".toList := by decide
  have e2 : "http".toList.map tolower = "http".toList := by decide
  rw [e1, e2]
  simp

/-- Witness of C17: `HTTPS://h/x`, `Http://h` and `h://x` have no port written and
give the ports 443, 80 and 0. -/
theorem parse_url_port_default_witness :
    parse_url amSizes (some "Http://h".toList) =
      .success ⟨AM_SUCCESS, 0, 80, "Http".toList, "h".toList, "/".toList, []⟩ ∧
    parse_url amSizes (some "h://x".toList) =
      .success ⟨AM_SUCCESS, 0, 0, "h".toList, "x".toList, "/".toList, []⟩ ∧
    ("HTTPS".toList = "HTTPS".toList ∧
    443 = if "HTTPS".toList.map tolower = "https".toList then 443
      else if "HTTPS".toList.map tolower = "http".toList then 80 else 0) :=
  ⟨by decide, by decide, parse_url_port_default amSizes "HTTPS://h/x".toList "HTTPS".toList
    "h".toList "/x".toList
    ⟨AM_SUCCESS, 1, 443, "HTTPS".toList, "h".toList, "/x".toList, []⟩
    (by decide) (by decide) (by decide)⟩

/-- C18: for every URL accepted by `parse_url`, the `ssl` flag is 1 if the
captured scheme equals `https` ignoring letter case, and 0 otherwise. -/
theorem parse_url_ssl_flag (sz : Sizes) (u : List Char) (r : url)
    (h : parse_url sz (some u) = .success r) :
    r.ssl = if r.proto.map tolower = "https".toList then 1 else 0 := by
  obtain ⟨v, _, _, hproto, _, _, hssl⟩ := parse_url_scanned sz u r h
  rw [hssl, hproto]
  unfold sslOf strcaseeq
  have e1 : "https".toList.map tolower = "https".toList := by decide
  rw [e1]
  simp

/-- Witness of C18: `hTTpS://h` gives `ssl = 1`, and `http://h` gives `ssl = 0`. -/
theorem parse_url_ssl_flag_witness :
    parse_url amSizes (some "http://h".toList) =
      .success ⟨AM_SUCCESS, 0, 80, "http".toList, "h".toList, "/".toList, []⟩ ∧
    1 = if "hTTpS".toList.map tolower = "https".toList then 1 else 0 :=
  ⟨by decide, parse_url_ssl_flag amSizes "hTTpS://h".toList
    ⟨AM_SUCCESS, 1, 443, "hTTpS".toList, "h".toList, "/".toList, []⟩ (by decide)⟩

/-- The tail of `parse_url` on the default path: the path stays a single slash and
the query is empty. -/
theorem parseTail_root (sz : Sizes) (hU : 0 < sz.AM_URI_SIZE) (v : ScanVars) (ssl port : Nat) :
    parseTail sz v ssl port "/".toList =
      .success ⟨AM_SUCCESS, ssl, port, v.proto, v.host, "/".toList, []⟩ := by
  have h1 := normalized_path_eq sz [] (by simpa using hU)
  have h2 : "/".toList.intercalate
      (stackWalk ((am_strsep "/".toList []).filter (fun s => s != ".".toList)) [[]]) =
      "/".toList := by decide
  rw [h2] at h1
  unfold parseTail
  have e1 : "/".toList.dropWhile (fun c => c != '?') = [] := by decide
  have e2 : "/".toList.takeWhile (fun c => c != '?') = "/".toList := by decide
  have e3 : collapseSlashes NUL (url_decode "/".toList) = "/".toList := by decide
  simp only [e1, e2, e3]
  rw [show "/".toList = ['/'] from rfl] at h1 ⊢
  rw [h1]
  rfl

theorem parseScanned_no_path (sz : Sizes) (hU : 0 < sz.AM_URI_SIZE) (pr ho : List Char)
    (p : Int) :
    parseScanned sz ⟨pr, ho, p, []⟩ = .success ⟨AM_SUCCESS, sslOf ⟨pr, ho, p, []⟩,
      portOf ⟨pr, ho, p, []⟩, pr, ho, "/".toList, []⟩ := by
  unfold parseScanned
  rw [if_pos (by rfl), parseTail_root sz hU]

/-- C19: for every accepted URL that ends right after the host or right after
host, colon and port, the resulting path is exactly `/` and the query is empty
(`AM_URI_SIZE` is taken to be positive). -/
theorem parse_url_default_path (sz : Sizes) (u pr ho r3 : List Char) (r : url)
    (hU : 0 < sz.AM_URI_SIZE)
    (h : parse_url sz (some u) = .success r)
    (hh : headParts sz u = some (pr, ho, r3))
    (hend : r3 = [] ∨ ∃ p : Int, portPart r3 = some (p, [])) :
    r.path = "/".toList ∧ r.query = [] := by
  obtain ⟨v, hv, hps, _⟩ := parse_url_scanned sz u r h
  have hnone : pathPart sz [] = none := rfl
  have key : ∃ p : Int, v = ⟨pr, ho, p, []⟩ := by
    rcases hend with h0 | ⟨p, hp⟩
    · subst h0
      obtain ⟨path, hs, hpath⟩ := scanUrl_without_port sz u pr ho [] hh rfl
      rw [hs] at hv
      simp only [Option.some.injEq] at hv
      refine ⟨0, ?_⟩
      rcases hpath with h1 | h1
      · rw [← hv, h1]
      · rw [hnone] at h1
        cases h1
    · obtain ⟨path, hs, hpath⟩ := scanUrl_with_port sz u pr ho r3 [] p hh hp
      rw [hs] at hv
      simp only [Option.some.injEq] at hv
      refine ⟨p, ?_⟩
      rcases hpath with h1 | h1
      · rw [← hv, h1]
      · rw [hnone] at h1
        cases h1
  obtain ⟨p, hp⟩ := key
  rw [hp, parseScanned_no_path sz hU] at hps
  simp only [parse_result.success.injEq] at hps
  rw [← hps]
  exact ⟨rfl, rfl⟩

/-- Witness of C19 and its example: `https://example.com` ends right after the
host and gives `ssl = 1`, `port = 443`, `path = "/"` and an empty query;
`http://example.com:8080` ends right after the port and gives the path `/` too. -/
theorem parse_url_default_path_witness :
    parse_url amSizes (some "https://example.com".toList) =
      .success ⟨AM_SUCCESS, 1, 443, "https".toList, "example.com".toList, "/".toList, []⟩ ∧
    parse_url amSizes (some "http://example.com:8080".toList) =
      .success ⟨AM_SUCCESS, 0, 8080, "http".toList, "example.com".toList, "/".toList, []⟩ ∧
    ("/".toList = "/".toList ∧ ([] : List Char) = []) :=
  ⟨by decide, by decide, parse_url_default_path amSizes "https://example.com".toList
    "https".toList "example.com".toList []
    ⟨AM_SUCCESS, 1, 443, "https".toList, "example.com".toList, "/".toList, []⟩
    (by decide) (by decide) (by decide) (Or.inl rfl)⟩

/-! ## Percent-decoding -/

theorem isxdigit_mem (c : Char) (h : isxdigit c = true) :
    c ∈ "0123456789abcdefABCDEF".toList := by
  unfold isxdigit isdigit at h
  simp only [Bool.or_eq_true, Bool.and_eq_true, decide_eq_true_eq] at h
  have e0 : '0'.toNat = 48 := rfl
  have e9 : '9'.toNat = 57 := rfl
  have ea : 'a'.toNat = 97 := rfl
  have ef : 'f'.toNat = 102 := rfl
  have eA : 'A'.toNat = 65 := rfl
  have eF : 'F'.toNat = 70 := rfl
  rw [e0, e9, ea, ef, eA, eF] at h
  have key : ∀ n : Nat, c.toNat = n → c = Char.ofNat n := by
    intro n hn
    rw [← hn]
    exact char_eq_of_toNat_eq _ _ (by simp)
  generalize hn : c.toNat = n at h
  have hc := key n hn
  rcases h with (⟨h1, h2⟩ | ⟨h1, h2⟩) | ⟨h1, h2⟩ <;> interval_cases n <;> rw [hc] <;> decide

theorem isHexDigit_eq_isxdigit (c : Char) : isHexDigit c = isxdigit c := by
  cases hx : isxdigit c with
  | true =>
    have := isxdigit_mem c hx
    unfold isHexDigit
    simpa using this
  | false =>
    cases hh : isHexDigit c with
    | false => rfl
    | true =>
      exfalso
      unfold isHexDigit at hh
      have hm : c ∈ "0123456789abcdefABCDEF".toList := by simpa using hh
      have hall : ∀ d ∈ "0123456789abcdefABCDEF".toList, isxdigit d = true := by decide
      rw [hall c hm] at hx
      cases hx

theorem hexValue_eq (c : Char) (h : isxdigit c = true) :
    hexValue c = BASE16_TO_BASE10 c ∧ hexValue c < 16 := by
  have hall : ∀ d ∈ "0123456789abcdefABCDEF".toList,
      hexValue d = BASE16_TO_BASE10 d ∧ hexValue d < 16 := by decide
  exact hall c (isxdigit_mem c h)

theorem url_decode_bytes_eq_rewrite (s : List Char) :
    url_decode_bytes s = percentRewrite s := by
  unfold percentRewrite
  induction s using url_decode_bytes.induct with
  | case1 h1 h2 rest hx ih =>
    rw [url_decode_bytes, if_pos hx, ih]
    simp only [Bool.and_eq_true] at hx
    have a1 := hexValue_eq h1 hx.1
    have a2 := hexValue_eq h2 hx.2
    have e : isEscape (h1 :: h2 :: rest) = true := by
      simp [isEscape, isHexDigit_eq_isxdigit, hx.1, hx.2]
    rw [rewriteFrom, e]
    simp only [decide_True, Bool.and_self, if_true, escapeValue, rewriteFrom]
    rw [← a1.1, ← a2.1, Nat.mod_eq_of_lt (by omega), Nat.mul_comm]
  | case2 h1 h2 rest hx ih =>
    rw [url_decode_bytes, if_neg hx, ih]
    have e : isEscape (h1 :: h2 :: rest) = false := by
      simpa [isEscape, isHexDigit_eq_isxdigit] using hx
    rw [rewriteFrom.eq_3 '%' (h1 :: h2 :: rest), e]
    simp
  | case3 c rest hne ih =>
    rw [url_decode_bytes, ih]
    · rw [rewriteFrom.eq_3]
      have e : (decide (c = '%') && isEscape rest) = false := by
        by_cases hc : c = '%'
        · subst hc
          cases rest with
          | nil => rfl
          | cons a t =>
            cases t with
            | nil => rfl
            | cons b t2 => exact absurd rfl (hne a b t2 rfl)
        · simp [hc]
      rw [e]
      by_cases hp : c = '+'
      · simp [hp]
      · simp [hp]
    · exact hne
  | case4 => rfl

/-- C20: for every string `s`, the bytes `url_decode` writes are the left-to-right
rewrite of `s` in which each percent sign followed by two hexadecimal digits (of
either case) is replaced by the single byte with that value, each plus sign by a
space, and every other character, a percent sign not followed by two hexadecimal
digits included, is copied; the result, both as written and as read back as a C
string (which a decoded `%00` ends), is never longer than `s`. -/
theorem url_decode_rewrite (s : List Char) :
    url_decode_bytes s = percentRewrite s ∧
    url_decode s = cstr (percentRewrite s) ∧
    (NUL ∉ percentRewrite s → url_decode s = percentRewrite s) ∧
    (url_decode_bytes s).length ≤ s.length ∧ (url_decode s).length ≤ s.length := by
  have h1 := url_decode_bytes_eq_rewrite s
  have h2 := url_decode_bytes_length_le s
  have h3 := cstr_length_le (url_decode_bytes s)
  refine ⟨h1, by unfold url_decode; rw [h1], fun hn => ?_, h2, ?_⟩
  · unfold url_decode cstr
    rw [h1, List.takeWhile_eq_self_iff]
    intro c hc
    simp only [bne_iff_ne, ne_eq]
    intro h0
    exact hn (h0 ▸ hc)
  · unfold url_decode
    omega

/-- Witness of C20: `a%2Fb+c%zz%4` is decoded to `a/b c%zz%4`. -/
theorem url_decode_rewrite_witness :
    url_decode "a%2Fb+c%zz%4".toList = "a/b c%zz%4".toList ∧
    percentRewrite "a%2Fb+c%zz%4".toList = "a/b c%zz%4".toList ∧
    (url_decode "a%2Fb+c%zz%4".toList).length ≤ "a%2Fb+c%zz%4".toList.length :=
  ⟨by decide, by decide, (url_decode_rewrite "a%2Fb+c%zz%4".toList).2.2.2.2⟩

/-! ## URL parser: which URLs are accepted -/

theorem isSchemeLetter_eq (c : Char) : isSchemeLetter c = inProtoSet c := by
  unfold isSchemeLetter inProtoSet
  cases h : "HTPShtps".toList.contains c with
  | true =>
    have hm : c ∈ "HTPShtps".toList := by simpa using h
    have hall : ∀ d ∈ "HTPShtps".toList, "htpsHTPS".toList.contains d = true := by decide
    exact hall c hm
  | false =>
    cases h2 : "htpsHTPS".toList.contains c with
    | false => rfl
    | true =>
      have hm : c ∈ "htpsHTPS".toList := by simpa using h2
      have hall : ∀ d ∈ "htpsHTPS".toList, "HTPShtps".toList.contains d = true := by decide
      rw [hall c hm] at h
      cases h

theorem isalnum_mem (c : Char) (h : isalnum c = true) :
    c ∈ "abcdefghijklmnopqrstuvwxyzABCDEFGHIJKLMNOPQRSTUVWXYZ0123456789".toList := by
  unfold isalnum isdigit at h
  simp only [Bool.or_eq_true, Bool.and_eq_true, decide_eq_true_eq] at h
  have e0 : '0'.toNat = 48 := rfl
  have e9 : '9'.toNat = 57 := rfl
  have ea : 'a'.toNat = 97 := rfl
  have ez : 'z'.toNat = 122 := rfl
  have eA : 'A'.toNat = 65 := rfl
  have eZ : 'Z'.toNat = 90 := rfl
  rw [e0, e9, ea, ez, eA, eZ] at h
  have key : ∀ n : Nat, c.toNat = n → c = Char.ofNat n := by
    intro n hn
    rw [← hn]
    exact char_eq_of_toNat_eq _ _ (by simp)
  generalize hn : c.toNat = n at h
  have hc := key n hn
  rcases h with (⟨h1, h2⟩ | ⟨h1, h2⟩) | ⟨h1, h2⟩ <;> interval_cases n <;> rw [hc] <;> decide

theorem isHostChar_eq (c : Char) : isHostChar c = inHostSet c := by
  cases h : inHostSet c with
  | true =>
    unfold inHostSet at h
    have hm : c ∈
        "-_.abcdefghijklmnopqrstuvwxyzABCDEFGHIJKLMNOPQRSTUVWXYZ0123456789".toList := by
      simpa using h
    have hall : ∀ d ∈
        "-_.abcdefghijklmnopqrstuvwxyzABCDEFGHIJKLMNOPQRSTUVWXYZ0123456789".toList,
        isHostChar d = true := by decide
    exact hall c hm
  | false =>
    cases h2 : isHostChar c with
    | false => rfl
    | true =>
      exfalso
      have hall : ∀ d ∈
          "abcdefghijklmnopqrstuvwxyzABCDEFGHIJKLMNOPQRSTUVWXYZ0123456789".toList,
          inHostSet d = true := by decide
      unfold isHostChar at h2
      simp only [Bool.or_eq_true, decide_eq_true_eq] at h2
      rcases h2 with ((h3 | h3) | h3) | h3
      · rw [hall c (isalnum_mem c h3)] at h
        cases h
      · rw [h3] at h
        exact absurd h (by decide)
      · rw [h3] at h
        exact absurd h (by decide)
      · rw [h3] at h
        exact absurd h (by decide)

theorem scanSet_spec (w : Nat) (set : Char → Bool) (inp tok r : List Char)
    (h : scanSet w set inp = some (tok, r)) :
    inp = tok ++ r ∧ tok ≠ [] ∧ tok.length ≤ w ∧ ∀ x ∈ tok, set x = true := by
  unfold scanSet at h
  simp only [] at h
  split_ifs at h with h0
  simp only [Option.some.injEq, Prod.mk.injEq] at h
  obtain ⟨h1, h2⟩ := h
  have hpre : tok <+: inp := by
    rw [← h1]
    exact (List.take_prefix _ _).trans (List.takeWhile_prefix _)
  obtain ⟨x, hx⟩ := hpre
  refine ⟨?_, ?_, ?_, ?_⟩
  · rw [← h2, h1, ← hx, List.drop_left]
  · rw [← h1]
    simpa using h0
  · rw [← h1, List.length_take]
    exact Nat.min_le_left _ _
  · intro y hy
    rw [← h1] at hy
    exact List.mem_takeWhile_imp (List.mem_of_mem_take hy)

theorem scanLit_spec : ∀ (lit a r : List Char), scanLit lit a = some r → a = lit ++ r := by
  intro lit
  induction lit with
  | nil =>
    intro a r h
    cases a <;> simp only [scanLit, Option.some.injEq] at h <;> rw [← h] <;> rfl
  | cons c cs ih =>
    intro a r h
    cases a with
    | nil => cases h
    | cons x xs =>
      simp only [scanLit] at h
      split_ifs at h with hc
      rw [hc, ih xs r h]
      rfl

theorem scanSet_head (w : Nat) (hw : 0 < w) (set : Char → Bool) (c : Char) (t : List Char)
    (hc : set c = true) : ∃ tok r, scanSet w set (c :: t) = some (tok, r) := by
  obtain ⟨w1, rfl⟩ : ∃ w1, w = w1 + 1 := ⟨w - 1, by omega⟩
  unfold scanSet
  simp only [List.takeWhile_cons_of_pos hc, List.take_succ_cons]
  rw [if_neg (by simp)]
  exact ⟨_, _, rfl⟩

/-- A URL whose head is read consists of 1 to `AM_PROTO_SIZE` scheme letters,
`://`, a host character and any text. -/
theorem headParts_shape (sz : Sizes) (u : List Char)
    (t : List Char × List Char × List Char) (h : headParts sz u = some t) :
    ∃ s c rest, u = s ++ ':' :: '/' :: '/' :: c :: rest ∧ s ≠ [] ∧
      s.length ≤ sz.AM_PROTO_SIZE ∧ (∀ x ∈ s, inProtoSet x = true) ∧ inHostSet c = true := by
  obtain ⟨pr, ho, r3⟩ := t
  unfold headParts at h
  cases h1 : scanSet sz.AM_PROTO_SIZE inProtoSet u with
  | none => rw [h1] at h; cases h
  | some p1 =>
    obtain ⟨pr1, r1⟩ := p1
    rw [h1] at h
    simp only [] at h
    cases h2 : scanLit "://".toList r1 with
    | none => rw [h2] at h; cases h
    | some r2 =>
      rw [h2] at h
      simp only [] at h
      cases h3 : scanSet sz.AM_HOST_SIZE inHostSet r2 with
      | none => rw [h3] at h; cases h
      | some p3 =>
        obtain ⟨ho1, r31⟩ := p3
        obtain ⟨a1, a2, a3, a4⟩ := scanSet_spec _ _ _ _ _ h1
        have b1 := scanLit_spec _ _ _ h2
        obtain ⟨c1, c2, _, c4⟩ := scanSet_spec _ _ _ _ _ h3
        obtain ⟨c, ho2, hc⟩ := List.exists_cons_of_ne_nil c2
        refine ⟨pr1, c, ho2 ++ r31, ?_, a2, a3, a4, c4 c (by rw [hc]; simp)⟩
        rw [a1, b1, c1, hc]
        rfl

/-- The head is read from every URL that consists of 1 to `AM_PROTO_SIZE` scheme
letters, `://`, a host character and any text. -/
theorem headParts_of_shape (sz : Sizes) (hH : 0 < sz.AM_HOST_SIZE) (s : List Char) (c : Char)
    (rest : List Char) (hs1 : s ≠ []) (hs2 : s.length ≤ sz.AM_PROTO_SIZE)
    (hs3 : ∀ x ∈ s, inProtoSet x = true) (hc : inHostSet c = true) :
    ∃ t, headParts sz (s ++ ':' :: '/' :: '/' :: c :: rest) = some t := by
  unfold headParts
  have e1 : scanSet sz.AM_PROTO_SIZE inProtoSet (s ++ ':' :: '/' :: '/' :: c :: rest) =
      some (s, "://".toList ++ (c :: rest)) :=
    scanSet_exact _ _ s _ hs1 hs2 hs3 (by
      intro x hx
      have : x = ':' := by
        simpa [eq_comm] using hx
      rw [this]
      decide)
  rw [e1]
  simp only []
  rw [scanLit_exact]
  simp only []
  obtain ⟨tok, r, hr⟩ := scanSet_head sz.AM_HOST_SIZE hH inHostSet c rest hc
  rw [hr]
  exact ⟨_, rfl⟩

theorem beginsWithSchemeAndHost_iff (sz : Sizes) (u : List Char) :
    beginsWithSchemeAndHost sz u = true ↔
      ∃ s c rest, u = s ++ ':' :: '/' :: '/' :: c :: rest ∧ s ≠ [] ∧
        s.length ≤ sz.AM_PROTO_SIZE ∧ (∀ x ∈ s, inProtoSet x = true) ∧ inHostSet c = true := by
  unfold beginsWithSchemeAndHost
  rw [List.any_eq_true]
  constructor
  · rintro ⟨k, hk, h⟩
    rw [List.mem_range] at hk
    simp only [Bool.and_eq_true, decide_eq_true_eq, List.all_eq_true] at h
    obtain ⟨⟨h1, h2⟩, h3⟩ := h
    split at h3
    · rename_i c rest heq
      refine ⟨u.take (k + 1), c, rest, ?_, ?_, by omega, ?_, ?_⟩
      · rw [← heq, List.take_append_drop]
      · intro h0
        rw [h0] at h1
        simp at h1
      · intro x hx
        rw [← isSchemeLetter_eq]
        exact h2 x hx
      · rw [← isHostChar_eq]
        exact h3
    · cases h3
  · rintro ⟨s, c, rest, hu, hs1, hs2, hs3, hc⟩
    have hpos : 0 < s.length := List.length_pos.2 hs1
    refine ⟨s.length - 1, by rw [List.mem_range]; omega, ?_⟩
    have e : s.length - 1 + 1 = s.length := by omega
    rw [e, hu, List.take_left, List.drop_left]
    simp only [Bool.and_eq_true, decide_eq_true_eq, List.all_eq_true, true_and]
    refine ⟨fun x hx => ?_, ?_⟩
    · rw [isSchemeLetter_eq]
      exact hs3 x hx
    · rw [isHostChar_eq]
      exact hc

theorem scanUrl_isSome_of_head (sz : Sizes) (u : List Char)
    (t : List Char × List Char × List Char) (h : headParts sz u = some t) :
    ∃ v, scanUrl sz u = some v := by
  obtain ⟨pr, ho, r3⟩ := t
  rw [scanUrl_eq, h]
  simp only []
  cases portPart r3 with
  | none =>
    simp only []
    cases pathPart sz r3 <;> exact ⟨_, rfl⟩
  | some p =>
    obtain ⟨port, r5⟩ := p
    simp only []
    cases pathPart sz r5 <;> exact ⟨_, rfl⟩

theorem scanUrl_none_of_head (sz : Sizes) (u : List Char) (h : headParts sz u = none) :
    scanUrl sz u = none := by
  rw [scanUrl_eq, h]


/-- A path of `AM_URI_SIZE` or more characters without white space and without a
leading slash: the scanned path fills the whole array, the move by one place
overwrites the terminating NUL, and the call runs into the undefined case. -/
theorem parse_url_path_fills_buffer (sz : Sizes) (s h t : List Char)
    (hs1 : s ≠ []) (hs2 : s.length ≤ sz.AM_PROTO_SIZE) (hs3 : ∀ c ∈ s, inProtoSet c = true)
    (hh1 : h ≠ []) (hh2 : h.length ≤ sz.AM_HOST_SIZE) (hh3 : ∀ c ∈ h, inHostSet c = true)
    (hU : 0 < sz.AM_URI_SIZE) (ht1 : sz.AM_URI_SIZE ≤ t.length)
    (ht2 : ∀ c ∈ t, isspace c = false) (ht3 : t.head? ≠ some '/')
    (hlen : (s ++ ("://".toList ++ (h ++ '/' :: t))).length ≤
      sz.AM_PROTO_SIZE + sz.AM_HOST_SIZE + 6 + sz.AM_URI_SIZE) :
    parse_url sz (some (s ++ ("://".toList ++ (h ++ '/' :: t)))) = .undefined := by
  have hhead := headParts_exact sz s h ('/' :: t) hs1 hs2 hs3 hh1 hh2 hh3 (by
    intro x hx
    have : x = '/' := by
      simpa [eq_comm] using hx
    rw [this]
    decide)
  have hne : t ≠ [] := by
    intro h0
    rw [h0] at ht1
    simp at ht1
    omega
  have hpp : portPart ('/' :: t) = none := rfl
  have hpath : pathPart sz ('/' :: t) = some (t.take sz.AM_URI_SIZE) := by
    unfold pathPart
    simp only [scanLit, if_true]
    exact scanStr_no_space sz.AM_URI_SIZE t hU hne ht2
  rw [parse_url_in_bound sz _ hlen, scanUrl_eq, hhead]
  simp only [hpp, hpath]
  unfold parseScanned
  obtain ⟨c, t2, rfl⟩ := List.exists_cons_of_ne_nil hne
  obtain ⟨w1, hw1⟩ : ∃ w1, sz.AM_URI_SIZE = w1 + 1 := ⟨sz.AM_URI_SIZE - 1, by omega⟩
  have hc : c ≠ '/' := by
    intro h0
    rw [h0] at ht3
    exact ht3 rfl
  have hl : ((c :: t2).take sz.AM_URI_SIZE).length = sz.AM_URI_SIZE := by
    rw [List.length_take]
    omega
  simp only [hl]
  rw [hw1, List.take_succ_cons]
  rw [if_neg (by simp [ISVALID]), if_pos (by simpa using hc), if_pos (by omega)]

/-- C12: a raw URL within the length bound that does not begin with 1 to
`AM_PROTO_SIZE` scheme letters, `://` and a host character fails with
`url.error = AM_EOF`; every accepted URL begins so; a URL within the bound that
begins so is accepted, unless the call runs into undefined behaviour; and it does
run into it on `http://h/` followed by `AM_URI_SIZE` letters `x`, where the scanned
path fills the array `url->path` and the move that makes room for the leading
slash overwrites the terminating NUL. -/
theorem parse_url_accepts_scheme_and_host :
    (∀ (sz : Sizes) (u : List Char),
      u.length ≤ sz.AM_PROTO_SIZE + sz.AM_HOST_SIZE + 6 + sz.AM_URI_SIZE →
      beginsWithSchemeAndHost sz u = false → parse_url sz (some u) = .failure AM_EOF) ∧
    (∀ (sz : Sizes) (u : List Char) (r : url),
      parse_url sz (some u) = .success r → beginsWithSchemeAndHost sz u = true) ∧
    (∀ (sz : Sizes) (u : List Char), 0 < sz.AM_HOST_SIZE →
      u.length ≤ sz.AM_PROTO_SIZE + sz.AM_HOST_SIZE + 6 + sz.AM_URI_SIZE →
      beginsWithSchemeAndHost sz u = true →
      (∃ r, parse_url sz (some u) = .success r) ∨ parse_url sz (some u) = .undefined) ∧
    (∀ a b c : Nat,
      ("http://h/".toList ++ List.replicate (1 + c) 'x').length ≤ 4 + a + (1 + b) + 6 + (1 + c) ∧
      beginsWithSchemeAndHost ⟨4 + a, 1 + b, 1 + c⟩
        ("http://h/".toList ++ List.replicate (1 + c) 'x') = true ∧
      parse_url ⟨4 + a, 1 + b, 1 + c⟩
        (some ("http://h/".toList ++ List.replicate (1 + c) 'x')) = .undefined) := by
  refine ⟨fun sz u hb hn => ?_, fun sz u r h => ?_, fun sz u hH hb hy => ?_, fun a b c => ?_⟩
  · rw [parse_url_in_bound sz u hb]
    cases hh : headParts sz u with
    | none => rw [scanUrl_none_of_head sz u hh]
    | some t =>
      have := (beginsWithSchemeAndHost_iff sz u).2 (headParts_shape sz u t hh)
      rw [this] at hn
      cases hn
  · obtain ⟨v, hv, _⟩ := parse_url_scanned sz u r h
    cases hh : headParts sz u with
    | none =>
      rw [scanUrl_none_of_head sz u hh] at hv
      cases hv
    | some t => exact (beginsWithSchemeAndHost_iff sz u).2 (headParts_shape sz u t hh)
  · obtain ⟨s, c, rest, hu, hs1, hs2, hs3, hc⟩ := (beginsWithSchemeAndHost_iff sz u).1 hy
    obtain ⟨t, ht⟩ := headParts_of_shape sz hH s c rest hs1 hs2 hs3 hc
    rw [← hu] at ht
    obtain ⟨v, hv⟩ := scanUrl_isSome_of_head sz u t ht
    rw [parse_url_in_bound sz u hb, hv]
    simp only []
    cases hp : parseScanned sz v with
    | success r => exact Or.inl ⟨r, rfl⟩
    | failure e => exact absurd hp (parseScanned_ne_failure sz v e)
    | undefined => exact Or.inr rfl
  · have hl : ("http://h/".toList ++ List.replicate (1 + c) 'x').length = 9 + (1 + c) := by
      rw [List.length_append, List.length_replicate]
      rfl
    have hrep : ∀ y ∈ List.replicate (1 + c) 'x', y = 'x' := fun y hy =>
      List.eq_of_mem_replicate hy
    have hund := parse_url_path_fills_buffer ⟨4 + a, 1 + b, 1 + c⟩ "http".toList "h".toList
      (List.replicate (1 + c) 'x') (by decide) (by simp) (by decide) (by decide)
      (by simp) (by decide) (by simp) (by simp)
      (fun y hy => by rw [hrep y hy]; decide)
      (by rw [Nat.add_comm 1 c, List.replicate_succ]; simp)
      (by
        simp only [List.length_append, List.length_cons, List.length_replicate,
          String.toList, String.length]
        simp
        omega)
    have hu : "http".toList ++ ("://".toList ++ ("h".toList ++ '/' ::
        List.replicate (1 + c) 'x')) = "http://h/".toList ++ List.replicate (1 + c) 'x' := rfl
    rw [hu] at hund
    refine ⟨by rw [hl]; omega, ?_, hund⟩
    rw [beginsWithSchemeAndHost_iff]
    exact ⟨"http".toList, 'h', '/' :: List.replicate (1 + c) 'x', rfl, by decide, by simp,
      by decide, by decide⟩

/-! ## URL parser: components longer than their arrays -/

theorem scanSet_cut (w : Nat) (hw : 0 < w) (set : Char → Bool) (tok rest : List Char)
    (hl : w ≤ tok.length) (ha : ∀ c ∈ tok, set c = true) :
    scanSet w set (tok ++ rest) = some (tok.take w, tok.drop w ++ rest) := by
  unfold scanSet
  have e1 : ((tok ++ rest).takeWhile set).take w = tok.take w := by
    rw [List.takeWhile_append_of_pos ha, List.take_append_of_le_length hl]
  have e2 : (tok.take w).length = w := by
    rw [List.length_take]
    omega
  simp only [e1, e2]
  rw [if_neg, List.drop_append_of_le_length hl]
  intro h0
  have : (tok.take w).length = 0 := by
    rw [List.isEmpty_iff] at h0
    rw [h0]
    rfl
  omega

theorem scanLit_head_ne (c x : Char) (r : List Char) (h : x ≠ c) :
    scanLit [c] (x :: r) = none := by
  simp only [scanLit]
  rw [if_neg (fun h0 => h h0.symm)]

/-- The head read from a URL whose run of host characters is longer than
`AM_HOST_SIZE`: the host is cut after `AM_HOST_SIZE` characters. -/
theorem headParts_long_host (sz : Sizes) (s h rest : List Char)
    (hs1 : s ≠ []) (hs2 : s.length ≤ sz.AM_PROTO_SIZE) (hs3 : ∀ c ∈ s, inProtoSet c = true)
    (hH : 0 < sz.AM_HOST_SIZE) (hh2 : sz.AM_HOST_SIZE < h.length)
    (hh3 : ∀ c ∈ h, inHostSet c = true) :
    headParts sz (s ++ ("://".toList ++ (h ++ rest))) =
      some (s, h.take sz.AM_HOST_SIZE, h.drop sz.AM_HOST_SIZE ++ rest) := by
  unfold headParts
  rw [scanSet_exact _ _ s _ hs1 hs2 hs3 (by
    intro x hx
    have : x = ':' := by
      simpa [eq_comm] using hx
    rw [this]
    decide)]
  simp only []
  rw [scanLit_exact]
  simp only []
  rw [scanSet_cut _ hH _ h rest (by omega) hh3]

/-- A run of host characters longer than `AM_HOST_SIZE` is accepted with the host
cut after `AM_HOST_SIZE` characters; what follows them is dropped. -/
theorem parse_url_host_cut (sz : Sizes) (s h rest : List Char)
    (hs1 : s ≠ []) (hs2 : s.length ≤ sz.AM_PROTO_SIZE) (hs3 : ∀ c ∈ s, inProtoSet c = true)
    (hH : 0 < sz.AM_HOST_SIZE) (hh2 : sz.AM_HOST_SIZE < h.length)
    (hh3 : ∀ c ∈ h, inHostSet c = true) (hU : 0 < sz.AM_URI_SIZE)
    (hlen : (s ++ ("://".toList ++ (h ++ rest))).length ≤
      sz.AM_PROTO_SIZE + sz.AM_HOST_SIZE + 6 + sz.AM_URI_SIZE) :
    parse_url sz (some (s ++ ("://".toList ++ (h ++ rest)))) =
      .success ⟨AM_SUCCESS, sslOf ⟨s, h.take sz.AM_HOST_SIZE, 0, []⟩,
        portOf ⟨s, h.take sz.AM_HOST_SIZE, 0, []⟩, s, h.take sz.AM_HOST_SIZE,
        "/".toList, []⟩ := by
  have hhead := headParts_long_host sz s h rest hs1 hs2 hs3 hH hh2 hh3
  obtain ⟨c, t, hct⟩ : ∃ c t, h.drop sz.AM_HOST_SIZE = c :: t := by
    cases hd : h.drop sz.AM_HOST_SIZE with
    | nil =>
      have := congrArg List.length hd
      rw [List.length_drop] at this
      simp at this
      omega
    | cons c t => exact ⟨c, t, rfl⟩
  have hc : inHostSet c = true := by
    apply hh3
    apply List.mem_of_mem_drop (n := sz.AM_HOST_SIZE)
    rw [hct]
    exact List.mem_cons_self _ _
  have hc1 : c ≠ ':' := by
    intro h0
    rw [h0] at hc
    exact absurd hc (by decide)
  have hc2 : c ≠ '/' := by
    intro h0
    rw [h0] at hc
    exact absurd hc (by decide)
  have hpp : portPart (h.drop sz.AM_HOST_SIZE ++ rest) = none := by
    unfold portPart
    rw [hct, List.cons_append, show ":".toList = [':'] from rfl, scanLit_head_ne _ _ _ hc1]
  have hpath : pathPart sz (h.drop sz.AM_HOST_SIZE ++ rest) = none := by
    unfold pathPart
    rw [hct, List.cons_append, show "/".toList = ['/'] from rfl, scanLit_head_ne _ _ _ hc2]
  rw [parse_url_in_bound sz _ hlen, scanUrl_eq, hhead]
  simp only [hpp, hpath]
  exact parseScanned_no_path sz hU s _ 0

/-- A path that starts with a slash, has no white space and is longer than
`AM_URI_SIZE`: the URL is accepted with the result of the URL whose path is cut
after `AM_URI_SIZE` characters. -/
theorem parse_url_path_cut (sz : Sizes) (s h t : List Char)
    (hs1 : s ≠ []) (hs2 : s.length ≤ sz.AM_PROTO_SIZE) (hs3 : ∀ c ∈ s, inProtoSet c = true)
    (hh1 : h ≠ []) (hh2 : h.length ≤ sz.AM_HOST_SIZE) (hh3 : ∀ c ∈ h, inHostSet c = true)
    (hU : 0 < sz.AM_URI_SIZE) (ht : ∀ c ∈ t, isspace c = false)
    (hlen : (s ++ ("://".toList ++ (h ++ '/' :: '/' :: t))).length ≤
      sz.AM_PROTO_SIZE + sz.AM_HOST_SIZE + 6 + sz.AM_URI_SIZE) :
    ∃ r : url, parse_url sz (some (s ++ ("://".toList ++ (h ++ '/' :: '/' :: t)))) =
        .success r ∧ r.host = h ∧
      parse_url sz (some (s ++ ("://".toList ++
        (h ++ '/' :: ('/' :: t).take sz.AM_URI_SIZE)))) = .success r := by
  have hsl : ∀ rest : List Char, ∀ x ∈ ('/' :: rest).head?, inHostSet x = false := by
    intro rest x hx
    have : x = '/' := by
      simpa [eq_comm] using hx
    rw [this]
    decide
  have hhead1 := headParts_exact sz s h ('/' :: '/' :: t) hs1 hs2 hs3 hh1 hh2 hh3 (hsl _)
  have hhead2 := headParts_exact sz s h ('/' :: ('/' :: t).take sz.AM_URI_SIZE)
    hs1 hs2 hs3 hh1 hh2 hh3 (hsl _)
  have hns : ∀ c ∈ '/' :: t, isspace c = false := by
    intro c hc
    rcases List.mem_cons.1 hc with h0 | h0
    · rw [h0]
      decide
    · exact ht c h0
  have hpp : ∀ rest : List Char, portPart ('/' :: rest) = none := fun _ => rfl
  have hpath1 : pathPart sz ('/' :: '/' :: t) = some (('/' :: t).take sz.AM_URI_SIZE) := by
    unfold pathPart
    simp only [scanLit, if_true]
    exact scanStr_no_space sz.AM_URI_SIZE ('/' :: t) hU (by simp) hns
  obtain ⟨w1, hw1⟩ : ∃ w1, sz.AM_URI_SIZE = w1 + 1 := ⟨sz.AM_URI_SIZE - 1, by omega⟩
  have hpath2 : pathPart sz ('/' :: ('/' :: t).take sz.AM_URI_SIZE) =
      some (('/' :: t).take sz.AM_URI_SIZE) := by
    unfold pathPart
    simp only [scanLit, if_true]
    have := scanStr_no_space sz.AM_URI_SIZE (('/' :: t).take sz.AM_URI_SIZE) hU
      (by rw [hw1]; simp) (fun c hc => hns c (List.mem_of_mem_take hc))
    rw [List.take_take, Nat.min_self] at this
    exact this
  have hlen2 : (s ++ ("://".toList ++ (h ++ '/' :: ('/' :: t).take sz.AM_URI_SIZE))).length ≤
      sz.AM_PROTO_SIZE + sz.AM_HOST_SIZE + 6 + sz.AM_URI_SIZE := by
    have h1 : (('/' :: t).take sz.AM_URI_SIZE).length ≤ ('/' :: t).length := by
      rw [List.length_take]
      exact Nat.min_le_right _ _
    simp only [List.length_append, List.length_cons] at hlen h1 ⊢
    omega
  rw [parse_url_in_bound sz _ hlen, parse_url_in_bound sz _ hlen2, scanUrl_eq, scanUrl_eq,
    hhead1, hhead2]
  simp only [hpp, hpath1, hpath2]
  obtain ⟨r, hr, e1, e2, _⟩ := parseScanned_fields sz
    ⟨s, h, 0, ('/' :: t).take sz.AM_URI_SIZE⟩ (Or.inr (Or.inl (by rw [hw1]; rfl)))
  exact ⟨r, hr, e2, hr⟩

/-- C15 (as amended): an over-long component is not rejected but cut.  For every
URL within the total length bound that consists of 1 to `AM_PROTO_SIZE` scheme
letters, `://`, a run `h` of host characters and a rest: when `h` is longer than
`AM_HOST_SIZE`, `parse_url` returns `AM_SUCCESS` with the host cut to the first
`AM_HOST_SIZE` characters of `h`, the path `/` and an empty query; when `h` fits
and the rest is a slash followed by a path that starts with a slash and has no
white space, `parse_url` returns `AM_SUCCESS` with the very result of the URL
whose path is cut after `AM_URI_SIZE` characters. -/
theorem parse_url_cuts_long_component (sz : Sizes) (s h rest : List Char)
    (hs1 : s ≠ []) (hs2 : s.length ≤ sz.AM_PROTO_SIZE) (hs3 : ∀ c ∈ s, inProtoSet c = true)
    (hh1 : h ≠ []) (hh3 : ∀ c ∈ h, inHostSet c = true)
    (hH : 0 < sz.AM_HOST_SIZE) (hU : 0 < sz.AM_URI_SIZE)
    (hlen : (s ++ ("://".toList ++ (h ++ rest))).length ≤
      sz.AM_PROTO_SIZE + sz.AM_HOST_SIZE + 6 + sz.AM_URI_SIZE) :
    (sz.AM_HOST_SIZE < h.length →
      ∃ r : url, parse_url sz (some (s ++ ("://".toList ++ (h ++ rest)))) = .success r ∧
        r.host = h.take sz.AM_HOST_SIZE ∧ r.path = "/".toList ∧ r.query = []) ∧
    (h.length ≤ sz.AM_HOST_SIZE → ∀ t : List Char, rest = '/' :: '/' :: t →
      (∀ c ∈ t, isspace c = false) →
      ∃ r : url, parse_url sz (some (s ++ ("://".toList ++ (h ++ rest)))) = .success r ∧
        r.host = h ∧
        parse_url sz (some (s ++ ("://".toList ++
          (h ++ '/' :: ('/' :: t).take sz.AM_URI_SIZE)))) = .success r) := by
  refine ⟨fun hh2 => ?_, fun hh2 t ht hns => ?_⟩
  · exact ⟨_, parse_url_host_cut sz s h rest hs1 hs2 hs3 hH hh2 hh3 hU hlen, rfl, rfl, rfl⟩
  · subst ht
    exact parse_url_path_cut sz s h t hs1 hs2 hs3 hh1 hh2 hh3 hU hns hlen

/-- Witness of C15 as amended: with the sizes 5, 255 and 4096, the URL `http://`,
256 letters `a`, `/x` is accepted with a host of 255 letters `a`, the path `/` and
an empty query. -/
theorem parse_url_cuts_long_component_witness :
    ∃ r : url, parse_url amSizes (some ("http".toList ++ ("://".toList ++
        (List.replicate 256 'a' ++ "/x".toList)))) = .success r ∧
      r.host = (List.replicate 256 'a').take 255 ∧ r.path = "/".toList ∧ r.query = [] :=
  (parse_url_cuts_long_component amSizes "http".toList (List.replicate 256 'a') "/x".toList
    (by decide) (by decide) (by decide)
    (fun h0 => absurd (congrArg List.length h0) (by rw [List.length_replicate]; decide))
    (fun c hc => by rw [List.eq_of_mem_replicate hc]; decide) (by decide) (by decide)
    (by
      simp only [List.length_append, List.length_replicate]
      decide)).1
    (by rw [List.length_replicate]; decide)

/-- Counterexample to C15 as stated: with the sizes 5, 255 and 4096, the URL
`http://` followed by 256 letters `a` and `/x` has a run of host characters longer
than `AM_HOST_SIZE`, yet `parse_url` returns `AM_SUCCESS`, with the host cut to 255
letters and the path `/x` dropped. -/
theorem parse_url_cuts_long_component_counterexample :
    parse_url amSizes (some ("http://".toList ++ (List.replicate 256 'a' ++ "/x".toList))) =
      .success ⟨AM_SUCCESS, 0, 80, "http".toList, List.replicate 255 'a', "/".toList, []⟩ := by
  have h := parse_url_host_cut amSizes "http".toList (List.replicate 256 'a') "/x".toList
    (by decide) (by decide) (by decide) (by decide)
    (by rw [List.length_replicate]; decide)
    (fun c hc => by rw [List.eq_of_mem_replicate hc]; decide) (by decide)
    (by
      simp only [List.length_append, List.length_replicate]
      decide)
  have e : (List.replicate 256 'a').take amSizes.AM_HOST_SIZE = List.replicate 255 'a' := by
    rw [List.take_replicate]
    rfl
  rw [e] at h
  exact h

/-! ## Rebuilding a URL from its parse result -/

theorem intercalate_length_sep (sep : List Char) (hsep : sep.length = 1)
    (st : List (List Char)) (h : st ≠ []) :
    (sep.intercalate st).length + 1 = segWeight st := by
  induction st with
  | nil => exact absurd rfl h
  | cons a t ih =>
    cases t with
    | nil => simp [intercalate_single, segWeight]
    | cons b t2 =>
      rw [intercalate_cons_cons, segWeight_cons]
      have := ih (by simp)
      simp only [List.length_append]
      omega

theorem mem_intercalate (sep : List Char) : ∀ (st : List (List Char)) (c : Char),
    c ∈ sep.intercalate st → c ∈ sep ∨ ∃ t ∈ st, c ∈ t := by
  intro st
  induction st with
  | nil => intro c hc; simp [List.intercalate] at hc
  | cons a t ih =>
    intro c hc
    cases t with
    | nil =>
      rw [intercalate_single] at hc
      exact Or.inr ⟨a, List.mem_cons_self _ _, hc⟩
    | cons b t2 =>
      rw [intercalate_cons_cons] at hc
      rcases List.mem_append.1 hc with h1 | h1
      · rcases List.mem_append.1 h1 with h2 | h2
        · exact Or.inr ⟨a, List.mem_cons_self _ _, h2⟩
        · exact Or.inl h2
      · rcases ih c h1 with h2 | ⟨x, hx, hcx⟩
        · exact Or.inl h2
        · exact Or.inr ⟨x, List.mem_cons_of_mem _ hx, hcx⟩

theorem am_strsep_mem_chars (delim : List Char) : ∀ (l : List Char),
    ∀ s ∈ am_strsep delim l, ∀ c ∈ s, c ∈ l := by
  intro l
  induction l with
  | nil =>
    intro s hs c hc
    simp only [am_strsep, List.mem_singleton] at hs
    rw [hs] at hc
    exact hc
  | cons x xs ih =>
    intro s hs c hc
    unfold am_strsep at hs
    split_ifs at hs
    · rcases List.mem_cons.1 hs with h | h
      · rw [h] at hc
        cases hc
      · exact List.mem_cons_of_mem _ (ih s h c hc)
    · cases h3 : am_strsep delim xs with
      | nil => exact absurd h3 (am_strsep_ne_nil _ _)
      | cons t ts =>
        rw [h3] at hs ih
        simp only [] at hs
        rcases List.mem_cons.1 hs with h | h
        · rw [h] at hc
          rcases List.mem_cons.1 hc with h1 | h1
          · rw [h1]
            exact List.mem_cons_self _ _
          · exact List.mem_cons_of_mem _ (ih t (List.mem_cons_self _ _) c h1)
        · exact List.mem_cons_of_mem _ (ih s (List.mem_cons_of_mem _ h) c hc)

theorem segWeight_perm (a b : List (List Char)) (h : a.Perm b) : segWeight a = segWeight b := by
  unfold segWeight
  exact (h.map _).sum_eq

/-- The tokens of a rebuilt query: a rearrangement of the `strtok_r` tokens of the
text, each the `key_value` of its own element. -/
theorem rebuilt_tokens (qq : List Char) :
    ∃ T : List (List Char), T.Perm (strtok_r "&".toList qq) ∧
      (qsort ((strtok_r "&".toList qq).map mkAttribute)).map (fun e => e.key_value) = T ∧
      T.map mkAttribute = qsort ((strtok_r "&".toList qq).map mkAttribute) := by
  refine ⟨_, ?_, rfl, ?_⟩
  · have := (qsort_perm ((strtok_r "&".toList qq).map mkAttribute)).map (fun e => e.key_value)
    rw [mkAttribute_key_value] at this
    exact this
  · rw [List.map_map]
    have hm : ∀ e ∈ qsort ((strtok_r "&".toList qq).map mkAttribute),
        (mkAttribute ∘ fun e => e.key_value) e = id e := by
      intro e he
      have he2 := (qsort_perm _).mem_iff.1 he
      obtain ⟨t, _, rfl⟩ := List.mem_map.1 he2
      rfl
    rw [List.map_congr_left hm, List.map_id]

theorem sortQuery_cons (sz : Sizes) (n : Nat) (hn : sz.AM_URI_SIZE = n + 1) (rest : List Char) :
    sortQuery sz ('?' :: rest) =
      if char_count (rest.take n) '&' > 0 then
        rebuildQuery (qsort ((strtok_r "&".toList (rest.take n)).map mkAttribute))
      else '?' :: rest.take n := by
  unfold sortQuery strncpy
  simp only [hn, List.take_succ_cons, List.drop_succ_cons, List.drop_zero, List.take_take]
  rw [Nat.min_eq_right (Nat.le_succ n)]

theorem sortQuery_zero (sz : Sizes) (h0 : sz.AM_URI_SIZE = 0) (p : List Char) :
    sortQuery sz p = [] := by
  unfold sortQuery strncpy char_count
  simp [h0]

/-- The query `parse_url` builds from the text that starts at the question mark is
left as it is when it is canonicalised again; it is no longer than the text and
than `AM_URI_SIZE`, is empty or starts with the question mark, and holds no
character that the text does not hold. -/
theorem sortQuery_idem (sz : Sizes) (rest : List Char) :
    sortQuery sz (sortQuery sz ('?' :: rest)) = sortQuery sz ('?' :: rest) ∧
    (sortQuery sz ('?' :: rest)).length ≤ rest.length + 1 ∧
    (sortQuery sz ('?' :: rest)).length ≤ sz.AM_URI_SIZE ∧
    (sortQuery sz ('?' :: rest) = [] ∨ (sortQuery sz ('?' :: rest)).head? = some '?') ∧
    (∀ c ∈ sortQuery sz ('?' :: rest), c = '?' ∨ c ∈ rest) := by
  rcases Nat.eq_zero_or_pos sz.AM_URI_SIZE with h0 | hpos
  · rw [sortQuery_zero sz h0, sortQuery_zero sz h0]
    exact ⟨rfl, by simp, by simp, Or.inl rfl, by simp⟩
  · obtain ⟨n, hn⟩ : ∃ n, sz.AM_URI_SIZE = n + 1 := ⟨sz.AM_URI_SIZE - 1, by omega⟩
    have hln : (rest.take n).length ≤ n := by
      rw [List.length_take]
      exact Nat.min_le_left _ _
    have hlr : (rest.take n).length ≤ rest.length := by
      rw [List.length_take]
      exact Nat.min_le_right _ _
    rw [sortQuery_cons sz n hn rest]
    by_cases hc : char_count (rest.take n) '&' > 0
    · rw [if_pos hc]
      obtain ⟨T, hperm, hT, hmap⟩ := rebuilt_tokens (rest.take n)
      have hS : rebuildQuery (qsort ((strtok_r "&".toList (rest.take n)).map mkAttribute)) =
          '?' :: "&".toList.intercalate T := by
        unfold rebuildQuery
        rw [hT]
      have hlenJ : ("&".toList.intercalate T).length ≤ (rest.take n).length := by
        by_cases hTn : T = []
        · subst hTn
          simp [List.intercalate]
        · have a1 := intercalate_length_sep "&".toList rfl T hTn
          have a2 := segWeight_perm _ _ hperm
          have a3 : segWeight (strtok_r "&".toList (rest.take n)) ≤
              segWeight (am_strsep "&".toList (rest.take n)) := segWeight_filter_le _ _
          have a4 := segWeight_am_strsep "&".toList (rest.take n)
          omega
      have hamp : ∀ t ∈ T, '&' ∉ t ∧ t ≠ [] := fun t ht =>
        strtok_r_no_delim '&' (rest.take n) t (hperm.mem_iff.1 ht)
      rw [hS]
      refine ⟨?_, by simp only [List.length_cons]; omega,
        by simp only [List.length_cons]; omega, Or.inr rfl, ?_⟩
      · rw [sortQuery_cons sz n hn, List.take_of_length_le (by omega)]
        by_cases hc2 : char_count ("&".toList.intercalate T) '&' > 0
        · rw [if_pos hc2]
          have hTn : T ≠ [] := by
            intro h0
            rw [h0] at hc2
            simp [List.intercalate, char_count] at hc2
          have hf : T.filter (fun t => !t.isEmpty) = T := by
            rw [List.filter_eq_self]
            intro t ht
            have := (hamp t ht).2
            cases t with
            | nil => exact absurd rfl this
            | cons _ _ => rfl
          rw [strtok_r_intercalate T hTn (fun t ht => (hamp t ht).1), hf, hmap,
            ← qsort_unique _ _ (List.Perm.refl _) (qsort_sorted _), hS]
        · rw [if_neg hc2]
      · intro c hcm
        rcases List.mem_cons.1 hcm with h1 | h1
        · exact Or.inl h1
        · right
          rcases mem_intercalate _ T c h1 with h2 | ⟨t, ht, hct⟩
          · have : c = '&' := by simpa using h2
            rw [this]
            apply List.mem_of_mem_take (n := n)
            unfold char_count at hc
            exact List.count_pos_iff.1 hc
          · apply List.mem_of_mem_take (n := n)
            have ht2 := hperm.mem_iff.1 ht
            unfold strtok_r at ht2
            exact am_strsep_mem_chars _ _ t (List.mem_filter.1 ht2).1 c hct
    · rw [if_neg hc]
      refine ⟨?_, by simp only [List.length_cons]; omega,
        by simp only [List.length_cons]; omega, Or.inr rfl, ?_⟩
      · rw [sortQuery_cons sz n hn, List.take_of_length_le hln, if_neg hc]
      · intro c hcm
        rcases List.mem_cons.1 hcm with h1 | h1
        · exact Or.inl h1
        · exact Or.inr (List.mem_of_mem_take h1)

theorem scanStr_no_space_mem (w : Nat) (inp tok rest : List Char)
    (h : scanStr w inp = some (tok, rest)) : ∀ c ∈ tok, isspace c = false := by
  unfold scanStr at h
  simp only [] at h
  split_ifs at h with h1
  simp only [Option.some.injEq, Prod.mk.injEq] at h
  intro c hc
  rw [← h.1] at hc
  have := List.mem_takeWhile_imp (List.mem_of_mem_take hc)
  simpa using this

theorem pathPart_no_space (sz : Sizes) (r path : List Char) (h : pathPart sz r = some path) :
    ∀ c ∈ path, isspace c = false := by
  unfold pathPart at h
  cases hl : scanLit "/".toList r with
  | none => rw [hl] at h; cases h
  | some r1 =>
    rw [hl] at h
    simp only [] at h
    cases hs : scanStr sz.AM_URI_SIZE r1 with
    | none => rw [hs] at h; cases h
    | some t =>
      obtain ⟨tok, rest⟩ := t
      rw [hs] at h
      simp only [Option.map_some', Option.some.injEq] at h
      rw [← h]
      exact scanStr_no_space_mem _ _ _ _ hs

/-- The scheme and the host read by `headParts` have 1 to `AM_PROTO_SIZE` scheme
letters and 1 to `AM_HOST_SIZE` host characters. -/
theorem headParts_spec (sz : Sizes) (u pr ho r3 : List Char)
    (h : headParts sz u = some (pr, ho, r3)) :
    pr ≠ [] ∧ pr.length ≤ sz.AM_PROTO_SIZE ∧ (∀ x ∈ pr, inProtoSet x = true) ∧
    ho ≠ [] ∧ ho.length ≤ sz.AM_HOST_SIZE ∧ (∀ x ∈ ho, inHostSet x = true) := by
  unfold headParts at h
  cases h1 : scanSet sz.AM_PROTO_SIZE inProtoSet u with
  | none => rw [h1] at h; cases h
  | some p1 =>
    obtain ⟨pr1, r1⟩ := p1
    rw [h1] at h
    simp only [] at h
    cases h2 : scanLit "://".toList r1 with
    | none => rw [h2] at h; cases h
    | some r2 =>
      rw [h2] at h
      simp only [] at h
      cases h3 : scanSet sz.AM_HOST_SIZE inHostSet r2 with
      | none => rw [h3] at h; cases h
      | some p3 =>
        obtain ⟨ho1, r31⟩ := p3
        rw [h3] at h
        simp only [Option.some.injEq, Prod.mk.injEq] at h
        obtain ⟨_, a2, a3, a4⟩ := scanSet_spec _ _ _ _ _ h1
        obtain ⟨_, c2, c3, c4⟩ := scanSet_spec _ _ _ _ _ h3
        rw [← h.1, ← h.2.1]
        exact ⟨a2, a3, a4, c2, c3, c4⟩

/-- The variables of a successful scan: a well-formed scheme and host, a port of at
most six digits, and a path without white space. -/
theorem scanUrl_spec (sz : Sizes) (u : List Char) (v : ScanVars)
    (h : scanUrl sz u = some v) :
    v.proto ≠ [] ∧ v.proto.length ≤ sz.AM_PROTO_SIZE ∧ (∀ x ∈ v.proto, inProtoSet x = true) ∧
    v.host ≠ [] ∧ v.host.length ≤ sz.AM_HOST_SIZE ∧ (∀ x ∈ v.host, inHostSet x = true) ∧
    v.port.natAbs < 1000000 ∧ (∀ c ∈ v.path, isspace c = false) := by
  rw [scanUrl_eq] at h
  cases hh : headParts sz u with
  | none => rw [hh] at h; cases h
  | some t =>
    obtain ⟨pr, ho, r3⟩ := t
    rw [hh] at h
    simp only [] at h
    obtain ⟨a1, a2, a3, a4, a5, a6⟩ := headParts_spec sz u pr ho r3 hh
    cases hp : portPart r3 with
    | none =>
      rw [hp] at h
      simp only [] at h
      cases hq : pathPart sz r3 with
      | none =>
        rw [hq] at h
        simp only [Option.some.injEq] at h
        subst h
        exact ⟨a1, a2, a3, a4, a5, a6, show (0 : Int).natAbs < 1000000 by decide, by simp⟩
      | some path =>
        rw [hq] at h
        simp only [Option.some.injEq] at h
        subst h
        exact ⟨a1, a2, a3, a4, a5, a6, show (0 : Int).natAbs < 1000000 by decide,
          pathPart_no_space sz r3 path hq⟩
    | some pp =>
      obtain ⟨port, r5⟩ := pp
      rw [hp] at h
      simp only [] at h
      have hlt := portPart_natAbs_lt r3 r5 port hp
      cases hq : pathPart sz r5 with
      | none =>
        rw [hq] at h
        simp only [Option.some.injEq] at h
        subst h
        exact ⟨a1, a2, a3, a4, a5, a6, hlt, by simp⟩
      | some path =>
        rw [hq] at h
        simp only [Option.some.injEq] at h
        subst h
        exact ⟨a1, a2, a3, a4, a5, a6, hlt, pathPart_no_space sz r5 path hq⟩

/-- On success `parseScanned` has run `parseTail` on a path with a leading slash
that fits the path buffer and holds only characters of the scanned path. -/
theorem parseScanned_success_mem (sz : Sizes) (v : ScanVars) (r : url)
    (hv : v.path.length ≤ sz.AM_URI_SIZE) (h : parseScanned sz v = .success r) :
    ∃ p : List Char, parseTail sz v (sslOf v) (portOf v) ('/' :: p) = .success r ∧
      (0 < sz.AM_URI_SIZE → p.length + 1 ≤ sz.AM_URI_SIZE) ∧ (∀ c ∈ p, c ∈ v.path) := by
  unfold parseScanned at h
  split_ifs at h with h1 h2 h3
  · exact ⟨[], h, fun h0 => by simpa using h0, by simp⟩
  · exact ⟨v.path, h, fun _ => by omega, fun c hc => hc⟩
  · cases hp : v.path with
    | nil => simp [ISVALID, hp] at h1
    | cons c p =>
      rw [hp] at h2 h hv
      simp only [List.head?_cons, bne_iff_ne, ne_eq, Option.some.injEq, not_not] at h2
      subst h2
      exact ⟨p, h, fun _ => by simpa using hv, fun c hc => List.mem_cons_of_mem _ hc⟩

theorem collapseSlashes_mem : ∀ (l : List Char) (last : Char),
    ∀ x ∈ collapseSlashes last l, x ∈ l := by
  intro l
  induction l with
  | nil => intro last x hx; simp [collapseSlashes] at hx
  | cons c cs ih =>
    intro last x hx
    unfold collapseSlashes at hx
    split_ifs at hx
    · rcases List.mem_cons.1 hx with h | h
      · rw [h]
        exact List.mem_cons_self _ _
      · exact List.mem_cons_of_mem _ (ih c x h)
    · exact List.mem_cons_of_mem _ (ih c x hx)

theorem cstr_no_nul (l : List Char) : NUL ∉ cstr l := by
  intro h
  unfold cstr at h
  have := List.mem_takeWhile_imp h
  simp at this

theorem stackWalk_mem_strong : ∀ (segs st : List (List Char)),
    ∀ x ∈ stackWalk segs st, x ∈ st ∨ (x ∈ segs ∧ x ≠ "..".toList) := by
  intro segs
  induction segs with
  | nil => intro st x hx; exact Or.inl hx
  | cons s rest ih =>
    intro st x hx
    unfold stackWalk at hx
    split_ifs at hx with h1 h2
    · rcases ih _ x hx with h | h
      · exact Or.inl h
      · exact Or.inr ⟨List.mem_cons_of_mem _ h.1, h.2⟩
    · rcases ih _ x hx with h | h
      · exact Or.inl (List.mem_of_mem_dropLast h)
      · exact Or.inr ⟨List.mem_cons_of_mem _ h.1, h.2⟩
    · rcases ih _ x hx with h | h
      · rcases List.mem_append.1 h with h3 | h3
        · exact Or.inl h3
        · simp only [List.mem_singleton] at h3
          subst h3
          exact Or.inr ⟨List.mem_cons_self _ _, h1⟩
      · exact Or.inr ⟨List.mem_cons_of_mem _ h.1, h.2⟩

theorem stackWalk_append : ∀ (segs st : List (List Char)),
    (∀ s ∈ segs, s ≠ "..".toList) → stackWalk segs st = st ++ segs := by
  intro segs
  induction segs with
  | nil => intro st _; simp [stackWalk]
  | cons s rest ih =>
    intro st h
    unfold stackWalk
    rw [if_neg (h s (List.mem_cons_self _ _)),
      ih _ (fun x hx => h x (List.mem_cons_of_mem _ hx))]
    simp

theorem dropWhile_question (p : List Char) :
    (p.dropWhile (fun c => c != '?') = [] ∧ p.takeWhile (fun c => c != '?') = p) ∨
    ∃ rest, p.dropWhile (fun c => c != '?') = '?' :: rest ∧ (∀ c ∈ rest, c ∈ p) ∧
      (p.takeWhile (fun c => c != '?')).length + 1 + rest.length = p.length := by
  induction p with
  | nil => exact Or.inl ⟨rfl, rfl⟩
  | cons x xs ih =>
    by_cases hx : x = '?'
    · subst hx
      refine Or.inr ⟨xs, by simp, fun c hc => List.mem_cons_of_mem _ hc, by simp; omega⟩
    · have hb : (x != '?') = true := by simpa using hx
      rw [List.dropWhile_cons_of_pos (p := fun c => c != '?') hb,
        List.takeWhile_cons_of_pos (p := fun c => c != '?') hb]
      rcases ih with ⟨h1, h2⟩ | ⟨rest, h1, h2, h3⟩
      · exact Or.inl ⟨h1, by rw [h2]⟩
      · refine Or.inr ⟨rest, h1, fun c hc => List.mem_cons_of_mem _ (h2 c hc), ?_⟩
        simp only [List.length_cons]
        omega

/-- The fields of the result of `parseTail` on a path with a leading slash, with
the decoded and collapsed path written out. -/
theorem parseTail_fields (sz : Sizes) (v : ScanVars) (ssl port : Nat) (p : List Char)
    (r : url) (h : parseTail sz v ssl port ('/' :: p) = .success r) :
    r.error = AM_SUCCESS ∧ r.ssl = ssl ∧ r.port = port ∧ r.proto = v.proto ∧
    r.host = v.host ∧
    r.path = strncpy (uri_normalize sz ('/' :: collapseSlashes '/'
      (cstr (url_decode_bytes (p.takeWhile (fun c => c != '?')))))) sz.AM_URI_SIZE ∧
    r.query = if (p.dropWhile (fun c => c != '?')).isEmpty then []
      else sortQuery sz (p.dropWhile (fun c => c != '?')) := by
  unfold parseTail at h
  simp only [parse_result.success.injEq] at h
  subst h
  have e0 : ('/' :: p).dropWhile (fun c => c != '?') = p.dropWhile (fun c => c != '?') := by
    rw [List.dropWhile_cons_of_pos]
    decide
  have e1 : ('/' :: p).takeWhile (fun c => c != '?') = '/' :: p.takeWhile (fun c => c != '?') := by
    rw [List.takeWhile_cons_of_pos]
    decide
  have e2 : url_decode ('/' :: p.takeWhile (fun c => c != '?')) =
      '/' :: cstr (url_decode_bytes (p.takeWhile (fun c => c != '?'))) := by
    unfold url_decode
    rw [url_decode_bytes]
    · simp only [show ('/' = '+') = False from by decide, if_false]
      unfold cstr
      rw [List.takeWhile_cons_of_pos]
      decide
    · intro h1 h2 rest hh
      cases hh
  have e3 : ∀ d, collapseSlashes NUL ('/' :: d) = '/' :: collapseSlashes '/' d := by
    intro d
    rw [collapseSlashes, if_pos (by decide)]
  refine ⟨rfl, rfl, rfl, rfl, rfl, ?_, ?_⟩
  · show strncpy (uri_normalize sz (collapseSlashes NUL
      (url_decode (('/' :: p).takeWhile (fun c => c != '?'))))) sz.AM_URI_SIZE = _
    rw [e1, e2, e3]
  · show (if (('/' :: p).dropWhile (fun c => c != '?')).isEmpty then []
      else sortQuery sz (('/' :: p).dropWhile (fun c => c != '?'))) = _
    rw [e0]

/-- The segments kept for a decoded and collapsed path: after the leading empty
segment come segments without a slash or a NUL, none of them a single or a double
dot, and only the last of them may be empty. -/
theorem kept_shape (c : List Char) (hchain : List.Chain noSlashPair '/' c) (hnul : NUL ∉ c) :
    ∃ t2, stackWalk ((am_strsep "/".toList c).filter (fun s => s != ".".toList)) [[]] =
        [] :: t2 ∧ InteriorNonempty t2 ∧
      (∀ x ∈ t2, '/' ∉ x ∧ x ≠ ".".toList ∧ x ≠ "..".toList ∧ NUL ∉ x) ∧
      ("/".toList.intercalate ([] :: t2)).length ≤ c.length + 1 := by
  have hc1 : List.Chain' noSlashPair ('/' :: c) := hchain
  have hc2 : List.Chain' noSlashPair c := hc1.tail
  have hhead : c.head? ≠ some '/' := by
    cases c with
    | nil => simp
    | cons y ys =>
      simp only [List.head?_cons, ne_eq, Option.some.injEq]
      intro hy
      exact (List.chain'_cons.1 hc1).1 ⟨rfl, hy⟩
  have hin := interiorNonempty_filter (fun s => s != ".".toList) _
    ((am_strsep_interior c hc2).2 hhead)
  obtain ⟨t2, ht2, hin2⟩ := stackWalk_interior _ [] (by simp) hin
  refine ⟨t2, ht2, hin2, ?_, ?_⟩
  · intro x hx
    have hx2 : x ∈ stackWalk ((am_strsep "/".toList c).filter (fun s => s != ".".toList))
        [[]] := by
      rw [ht2]
      exact List.mem_cons_of_mem _ hx
    rcases stackWalk_mem_strong _ _ x hx2 with h | ⟨h, hdd⟩
    · simp only [List.mem_singleton] at h
      subst h
      exact ⟨by simp, by decide, by decide, by simp⟩
    · rw [List.mem_filter] at h
      refine ⟨fun hc => ?_, by simpa using h.2, hdd, fun hc => ?_⟩
      · have := am_strsep_no_delim "/".toList c x h.1 '/' hc
        simp at this
      · exact hnul (am_strsep_mem_chars _ c x h.1 NUL hc)
  · rw [← ht2]
    have h1 := intercalate_length _ (stackWalk_ne_nil
      ((am_strsep "/".toList c).filter (fun s => s != ".".toList)) [[]] (by simp))
    have h2 := segWeight_stackWalk_le
      ((am_strsep "/".toList c).filter (fun s => s != ".".toList)) [[]]
    have h3 := segWeight_filter_le (fun s => s != ".".toList) (am_strsep "/".toList c)
    have h4 := segWeight_am_strsep "/".toList c
    have h5 : segWeight [[]] = 1 := rfl
    omega

/-- The result of an accepted URL with a non-empty path: the scanned variables it
comes from, the path as a slash followed by the segments joined by slashes, and
the query as a canonical query of a text without white space; path and query
together fit the path buffer. -/
theorem accepted_shape (sz : Sizes) (u : List Char) (r : url)
    (h : parse_url sz (some u) = .success r) (hne : r.path ≠ []) :
    ∃ (v : ScanVars) (t2 : List (List Char)), scanUrl sz u = some v ∧
      r.error = AM_SUCCESS ∧ r.ssl = sslOf v ∧ r.port = portOf v ∧ r.proto = v.proto ∧
      r.host = v.host ∧ 0 < sz.AM_URI_SIZE ∧ t2 ≠ [] ∧
      r.path = '/' :: "/".toList.intercalate t2 ∧
      (∀ x ∈ t2, '/' ∉ x ∧ x ≠ ".".toList ∧ x ≠ "..".toList ∧ NUL ∉ x) ∧
      InteriorNonempty t2 ∧ r.path.length + r.query.length ≤ sz.AM_URI_SIZE ∧
      (r.query = [] ∨ ∃ rest, r.query = sortQuery sz ('?' :: rest) ∧
        ∀ c ∈ rest, isspace c = false) := by
  obtain ⟨v, hv, hps, _⟩ := parse_url_scanned sz u r h
  obtain ⟨p, hp, hplen, hpmem⟩ :=
    parseScanned_success_mem sz v r (scanUrl_path_length sz u v hv) hps
  obtain ⟨f1, f2, f3, f4, f5, f6, f7⟩ := parseTail_fields sz v _ _ p r hp
  have hU : 0 < sz.AM_URI_SIZE := by
    by_contra h0
    have : sz.AM_URI_SIZE = 0 := by omega
    rw [this] at f6
    apply hne
    rw [f6]
    simp [strncpy]
  have hpl := hplen hU
  have hns := (scanUrl_spec sz u v hv).2.2.2.2.2.2.2
  have a1 := collapseSlashes_length_le
    (cstr (url_decode_bytes (p.takeWhile (fun c => c != '?')))) '/'
  have a2 := cstr_length_le (url_decode_bytes (p.takeWhile (fun c => c != '?')))
  have a3 := url_decode_bytes_length_le (p.takeWhile (fun c => c != '?'))
  have a4 : (p.takeWhile (fun c => c != '?')).length ≤ p.length :=
    (List.takeWhile_sublist _).length_le
  rw [normalized_path_eq sz _ (by omega)] at f6
  obtain ⟨t2, ht2, hin2, hmem, hlen⟩ := kept_shape
    (collapseSlashes '/' (cstr (url_decode_bytes (p.takeWhile (fun c => c != '?')))))
    (collapseSlashes_chain _ '/')
    (fun hc => cstr_no_nul _ (collapseSlashes_mem _ _ NUL hc))
  rw [ht2] at f6
  have ht2ne : t2 ≠ [] := by
    intro h0
    rw [h0, intercalate_single] at f6
    exact hne f6
  obtain ⟨b, t3, hb⟩ := List.exists_cons_of_ne_nil ht2ne
  have hpath : r.path = '/' :: "/".toList.intercalate t2 := by
    rw [f6, hb, intercalate_cons_cons]
    rfl
  have hplen2 : r.path.length ≤ (p.takeWhile (fun c => c != '?')).length + 1 := by
    rw [f6]
    omega
  refine ⟨v, t2, hv, f1, f2, f3, f4, f5, hU, ht2ne, hpath, hmem, hin2, ?_, ?_⟩
  · rcases dropWhile_question p with ⟨h1, h2⟩ | ⟨rest, h1, h2, h3⟩
    · rw [h1] at f7
      rw [f7]
      simp only [List.isEmpty_nil, if_true, List.length_nil]
      omega
    · rw [h1] at f7
      simp only [List.isEmpty_cons, Bool.false_eq_true, if_false] at f7
      have := (sortQuery_idem sz rest).2.1
      rw [f7]
      omega
  · rcases dropWhile_question p with ⟨h1, h2⟩ | ⟨rest, h1, h2, h3⟩
    · rw [h1] at f7
      exact Or.inl f7
    · rw [h1] at f7
      simp only [List.isEmpty_cons, Bool.false_eq_true, if_false] at f7
      exact Or.inr ⟨rest, f7, fun c hc => hns c (hpmem c (h2 c hc))⟩

theorem scanInt_decimal6 (n : Nat) (hn : n < 1000000) (rest : List Char)
    (hr : ∀ x ∈ rest.head?, isdigit x = false) :
    scanInt 6 (Nat.toDigits 10 n ++ rest) = some ((n : Int), rest) := by
  obtain ⟨hne, hdig, hval, hlen⟩ := toDigits_spec n
  have hl : (Nat.toDigits 10 n).length ≤ 6 := hlen 6 (by decide) (by omega)
  obtain ⟨c, cs, hc⟩ := List.exists_cons_of_ne_nil hne
  have hcd := isdigit_plain c (hdig c (by rw [hc]; exact List.mem_cons_self _ _))
  have e : scanDigits 6 (Nat.toDigits 10 n ++ rest) = some (n, rest) := by
    unfold scanDigits
    simp only [takeWhile_append_all isdigit _ rest hdig hr, List.take_of_length_le hl]
    rw [if_neg (by simpa using hne), hval]
    simp
  rw [hc] at e ⊢
  rw [List.cons_append] at e ⊢
  rw [scanInt_of_plain_head 6 c _ hcd.1 hcd.2.1 hcd.2.2.1, e]
  rfl

theorem url_decode_bytes_id (l : List Char) (h : ∀ c ∈ l, c ≠ '%' ∧ c ≠ '+') :
    url_decode_bytes l = l := by
  induction l using url_decode_bytes.induct with
  | case1 h1 h2 rest hx ih => exact absurd rfl (h '%' (List.mem_cons_self _ _)).1
  | case2 h1 h2 rest hx ih => exact absurd rfl (h '%' (List.mem_cons_self _ _)).1
  | case3 c rest hne ih =>
    rw [url_decode_bytes, ih (fun x hx => h x (List.mem_cons_of_mem _ hx)),
      if_neg (h c (List.mem_cons_self _ _)).2]
    exact hne
  | case4 => rfl

theorem url_decode_id (l : List Char) (h : ∀ c ∈ l, c ≠ '%' ∧ c ≠ '+') (hnul : NUL ∉ l) :
    url_decode l = l := by
  unfold url_decode cstr
  rw [url_decode_bytes_id l h, List.takeWhile_eq_self_iff]
  intro c hc
  simp only [bne_iff_ne, ne_eq]
  intro h0
  exact hnul (h0 ▸ hc)

theorem collapseSlashes_id : ∀ (l : List Char) (last : Char),
    List.Chain noSlashPair last l → collapseSlashes last l = l := by
  intro l
  induction l with
  | nil => intro last _; rfl
  | cons c cs ih =>
    intro last hch
    rw [List.chain_cons] at hch
    unfold collapseSlashes
    have hcond : (c != '/' || (c == '/' && last != '/')) = true := by
      by_cases hc : c = '/'
      · have hl : last ≠ '/' := fun hl => hch.1 ⟨hl, hc⟩
        simp [hc, hl]
      · simp [hc]
    rw [if_pos hcond, ih c hch.2]

/-- Normalising a normalised path again leaves it as it is. -/
theorem normalized_path_id (sz : Sizes) (t2 : List (List Char)) (hne : t2 ≠ [])
    (hmem : ∀ x ∈ t2, '/' ∉ x ∧ x ≠ ".".toList ∧ x ≠ "..".toList ∧ NUL ∉ x)
    (hlen : ("/".toList.intercalate t2).length + 1 ≤ sz.AM_URI_SIZE) :
    strncpy (uri_normalize sz ('/' :: "/".toList.intercalate t2)) sz.AM_URI_SIZE =
      '/' :: "/".toList.intercalate t2 := by
  rw [normalized_path_eq sz _ hlen]
  have e : "/".toList = ['/'] := rfl
  have hsp : am_strsep "/".toList ("/".toList.intercalate t2) = t2 := by
    rw [e, am_strsep_eq_splitOn, List.splitOn_intercalate _ '/' (fun l hl => (hmem l hl).1) hne]
  have hf : t2.filter (fun s => s != ".".toList) = t2 := by
    rw [List.filter_eq_self]
    intro x hx
    simpa using (hmem x hx).2.1
  rw [hsp, hf, stackWalk_append t2 [[]] (fun x hx => (hmem x hx).2.2.1)]
  obtain ⟨b, t3, hb⟩ := List.exists_cons_of_ne_nil hne
  rw [hb, List.singleton_append, intercalate_cons_cons]
  rfl

theorem split_at_question (a Q : List Char) (ha : ∀ c ∈ a, c ≠ '?')
    (hQ : Q = [] ∨ Q.head? = some '?') :
    (a ++ Q).takeWhile (fun c => c != '?') = a ∧ (a ++ Q).dropWhile (fun c => c != '?') = Q := by
  have h1 : a.takeWhile (fun c => c != '?') = a := by
    rw [List.takeWhile_eq_self_iff]
    intro c hc
    simpa using ha c hc
  have h2 : a.dropWhile (fun c => c != '?') = [] := by
    rw [List.dropWhile_eq_nil_iff]
    intro c hc
    simpa using ha c hc
  rcases hQ with h0 | h0
  · subst h0
    rw [List.append_nil]
    exact ⟨h1, h2⟩
  · cases Q with
    | nil => cases h0
    | cons x rest =>
      simp only [List.head?_cons, Option.some.injEq] at h0
      subst h0
      rw [takeWhile_append_stop _ a '?' rest (by decide),
        dropWhile_append_stop _ a '?' rest (by decide), h1, h2]
      exact ⟨rfl, rfl⟩

/-- The tail of `parse_url` on a normalised path followed by a canonical query
gives back that path and that query. -/
theorem parseTail_rebuilt (sz : Sizes) (v : ScanVars) (ssl port : Nat)
    (t2 : List (List Char)) (Q : List Char) (hne : t2 ≠ [])
    (hmem : ∀ x ∈ t2, '/' ∉ x ∧ x ≠ ".".toList ∧ x ≠ "..".toList ∧ NUL ∉ x)
    (hin : InteriorNonempty t2)
    (hpc : ∀ c ∈ "/".toList.intercalate t2, c ≠ '%' ∧ c ≠ '+' ∧ c ≠ '?')
    (hlen : ("/".toList.intercalate t2).length + 1 ≤ sz.AM_URI_SIZE)
    (hQ1 : Q = [] ∨ Q.head? = some '?') (hQ2 : Q ≠ [] → sortQuery sz Q = Q) :
    parseTail sz v ssl port ('/' :: ("/".toList.intercalate t2 ++ Q)) =
      .success ⟨AM_SUCCESS, ssl, port, v.proto, v.host,
        '/' :: "/".toList.intercalate t2, Q⟩ := by
  have hall : ∀ c ∈ '/' :: "/".toList.intercalate t2, c ≠ '%' ∧ c ≠ '+' ∧ c ≠ '?' := by
    intro c hc
    rcases List.mem_cons.1 hc with h0 | h0
    · rw [h0]
      exact ⟨by decide, by decide, by decide⟩
    · exact hpc c h0
  have hnul : NUL ∉ '/' :: "/".toList.intercalate t2 := by
    intro hc
    rcases List.mem_cons.1 hc with h0 | h0
    · exact absurd h0 (by decide)
    · rcases mem_intercalate _ t2 NUL h0 with h1 | ⟨x, hx, hcx⟩
      · exact absurd h1 (by decide)
      · exact (hmem x hx).2.2.2 hcx
  obtain ⟨hs1, hs2⟩ := split_at_question ('/' :: "/".toList.intercalate t2) Q
    (fun c hc => (hall c hc).2.2) hQ1
  have hchain : List.Chain noSlashPair NUL ('/' :: "/".toList.intercalate t2) := by
    rw [List.chain_cons]
    refine ⟨fun hc => absurd hc.1 (by decide), ?_⟩
    exact chain_slash_intercalate t2 hne (fun x hx => (hmem x hx).1) hin
  have hdec := url_decode_id ('/' :: "/".toList.intercalate t2)
    (fun c hc => ⟨(hall c hc).1, (hall c hc).2.1⟩) hnul
  have hcol := collapseSlashes_id _ NUL hchain
  have hnorm := normalized_path_id sz t2 hne hmem hlen
  unfold parseTail
  rw [← List.cons_append, hs1, hs2]
  simp only [hdec, hcol, hnorm, parse_result.success.injEq, url.mk.injEq, true_and]
  cases Q with
  | nil => rfl
  | cons x rest =>
    simp only [List.isEmpty_cons, Bool.false_eq_true, if_false]
    exact hQ2 (by simp)

/-- The scan of a rebuilt URL: scheme, host and port are read back, and the path
read after the slash is the rest of the path followed by the query. -/
theorem scanUrl_rebuilt (sz : Sizes) (s h q Q : List Char) (n : Nat)
    (hs1 : s ≠ []) (hs2 : s.length ≤ sz.AM_PROTO_SIZE) (hs3 : ∀ c ∈ s, inProtoSet c = true)
    (hh1 : h ≠ []) (hh2 : h.length ≤ sz.AM_HOST_SIZE) (hh3 : ∀ c ∈ h, inHostSet c = true)
    (hn : n < 1000000) (hns : ∀ c ∈ q ++ Q, isspace c = false)
    (hfit : (q ++ Q).length ≤ sz.AM_URI_SIZE) :
    scanUrl sz (s ++ ("://".toList ++ (h ++ (":".toList ++
      (Nat.toDigits 10 n ++ '/' :: (q ++ Q)))))) = some ⟨s, h, (n : Int), q ++ Q⟩ := by
  have hhead := headParts_exact sz s h (":".toList ++ (Nat.toDigits 10 n ++ '/' :: (q ++ Q)))
    hs1 hs2 hs3 hh1 hh2 hh3 (by
      intro x hx
      have : x = ':' := by
        simpa [eq_comm] using hx
      rw [this]
      decide)
  have hpp : portPart (":".toList ++ (Nat.toDigits 10 n ++ '/' :: (q ++ Q))) =
      some ((n : Int), '/' :: (q ++ Q)) := by
    unfold portPart
    rw [scanLit_exact]
    simp only []
    exact scanInt_decimal6 n hn _ (by
      intro x hx
      have : x = '/' := by
        simpa [eq_comm] using hx
      rw [this]
      decide)
  rw [scanUrl_eq, hhead]
  simp only [hpp]
  by_cases he : q ++ Q = []
  · have hpath : pathPart sz ('/' :: (q ++ Q)) = none := by
      rw [he]
      simp [pathPart, scanLit, scanStr]
    rw [hpath, he]
  · have hpath : pathPart sz ('/' :: (q ++ Q)) = some (q ++ Q) := by
      unfold pathPart
      simp only [scanLit, if_true]
      have hU : 0 < sz.AM_URI_SIZE := by
        have := List.length_pos.2 he
        omega
      rw [scanStr_no_space sz.AM_URI_SIZE (q ++ Q) hU he hns, List.take_of_length_le hfit]
    rw [hpath]

theorem portOf_rebuilt (v : ScanVars) (h p : List Char) :
    portOf ⟨v.proto, h, ((portOf v : Nat) : Int), p⟩ = portOf v := by
  unfold portOf
  simp only [Int.natAbs_ofNat]
  split_ifs <;> simp_all

theorem portOf_lt (v : ScanVars) (h : v.port.natAbs < 1000000) : portOf v < 1000000 := by
  unfold portOf
  simp only []
  split_ifs <;> omega

/-- C11 (as amended): for every URL accepted by `parse_url` with a result `r` whose
path is not empty and holds no white space, percent sign, plus sign or question
mark, the URL rebuilt as scheme, `://`, host, colon, port in decimal, path and
query is accepted too and gives the very result `r`, provided the rebuilt URL is
no longer than `AM_PROTO_SIZE + AM_HOST_SIZE + 6 + AM_URI_SIZE` characters. -/
theorem parse_url_rebuild (sz : Sizes) (u : List Char) (r : url)
    (h : parse_url sz (some u) = .success r)
    (hne : r.path ≠ [])
    (hpath : ∀ c ∈ r.path, isspace c = false ∧ c ≠ '%' ∧ c ≠ '+' ∧ c ≠ '?')
    (hlen : (rebuildUrl r).length ≤
      sz.AM_PROTO_SIZE + sz.AM_HOST_SIZE + 6 + sz.AM_URI_SIZE) :
    parse_url sz (some (rebuildUrl r)) = .success r := by
  obtain ⟨v, t2, hv, f1, f2, f3, f4, f5, hU, ht2, hp, hmem, hin, hl, hq⟩ :=
    accepted_shape sz u r h hne
  obtain ⟨s1, s2, s3, s4, s5, s6, s7, _⟩ := scanUrl_spec sz u v hv
  have hQ : (r.query = [] ∨ r.query.head? = some '?') ∧
      (∀ c ∈ r.query, isspace c = false) ∧ (r.query ≠ [] → sortQuery sz r.query = r.query) := by
    rcases hq with h0 | ⟨rest, h0, hrest⟩
    · rw [h0]
      exact ⟨Or.inl rfl, by simp, fun hc => absurd rfl hc⟩
    · obtain ⟨i1, _, _, i4, i5⟩ := sortQuery_idem sz rest
      rw [h0]
      refine ⟨i4, fun c hc => ?_, fun _ => i1⟩
      rcases i5 c hc with h1 | h1
      · rw [h1]
        decide
      · exact hrest c h1
  have hR : rebuildUrl r = v.proto ++ ("://".toList ++ (v.host ++ (":".toList ++
      (Nat.toDigits 10 (portOf v) ++ '/' :: ("/".toList.intercalate t2 ++ r.query))))) := by
    unfold rebuildUrl
    rw [hp, f3, f4, f5]
    simp only [List.append_assoc, List.cons_append]
  have hpc : ∀ c ∈ "/".toList.intercalate t2, isspace c = false ∧ c ≠ '%' ∧ c ≠ '+' ∧ c ≠ '?' :=
    fun c hc => hpath c (by rw [hp]; exact List.mem_cons_of_mem _ hc)
  have hfit : ("/".toList.intercalate t2 ++ r.query).length + 1 ≤ sz.AM_URI_SIZE := by
    rw [hp] at hl
    simp only [List.length_cons, List.length_append] at hl ⊢
    omega
  have hscan := scanUrl_rebuilt sz v.proto v.host ("/".toList.intercalate t2) r.query
    (portOf v) s1 s2 s3 s4 s5 s6 (portOf_lt v s7)
    (fun c hc => by
      rcases List.mem_append.1 hc with h1 | h1
      · exact (hpc c h1).1
      · exact hQ.2.1 c h1)
    (by omega)
  have htail := parseTail_rebuilt sz ⟨v.proto, v.host, ((portOf v : Nat) : Int),
      "/".toList.intercalate t2 ++ r.query⟩
    (sslOf ⟨v.proto, v.host, ((portOf v : Nat) : Int), "/".toList.intercalate t2 ++ r.query⟩)
    (portOf ⟨v.proto, v.host, ((portOf v : Nat) : Int), "/".toList.intercalate t2 ++ r.query⟩)
    t2 r.query ht2 hmem hin (fun c hc => (hpc c hc).2)
    (by
      simp only [List.length_append] at hfit
      omega)
    hQ.1 hQ.2.2
  have hres : (⟨AM_SUCCESS, sslOf ⟨v.proto, v.host, ((portOf v : Nat) : Int),
        "/".toList.intercalate t2 ++ r.query⟩,
      portOf ⟨v.proto, v.host, ((portOf v : Nat) : Int),
        "/".toList.intercalate t2 ++ r.query⟩, v.proto, v.host,
      '/' :: "/".toList.intercalate t2, r.query⟩ : url) = r := by
    rw [portOf_rebuilt]
    cases r
    simp only [url.mk.injEq] at *
    exact ⟨f1.symm, f2.symm, f3.symm, f4.symm, f5.symm, hp.symm, trivial⟩
  have htail2 := htail.trans (congrArg parse_result.success hres)
  rw [hR] at hlen ⊢
  rw [parse_url_in_bound sz _ hlen, hscan]
  simp only []
  unfold parseScanned
  by_cases he : "/".toList.intercalate t2 ++ r.query = []
  · have e : '/' :: ("/".toList.intercalate t2 ++ r.query) = "/".toList := by
      rw [he]
      rfl
    rw [e] at htail2
    rw [if_pos (by
      show (!ISVALID ("/".toList.intercalate t2 ++ r.query)) = true
      rw [he]
      rfl)]
    exact htail2
  · have hhead : ("/".toList.intercalate t2 ++ r.query).head? ≠ some '/' := by
      have hch := chain_slash_intercalate t2 ht2 (fun x hx => (hmem x hx).1) hin
      cases hq2 : "/".toList.intercalate t2 with
      | nil =>
        rw [List.nil_append]
        rcases hQ.1 with h0 | h0
        · rw [h0]
          simp
        · rw [h0]
          simp
      | cons y ys =>
        rw [hq2] at hch
        rw [List.cons_append, List.head?_cons]
        intro hy
        simp only [Option.some.injEq] at hy
        exact (List.chain'_cons.1 hch).1 ⟨rfl, hy⟩
    rw [if_neg (by simpa [ISVALID] using he), if_pos (by simpa using hhead),
      if_neg (by
        simp only [List.length_append] at hfit ⊢
        omega)]
    exact htail2

/-- Witness of C11 as amended: `http://h/a/b?y=2&x=1` is accepted with the path
`/a/b` and the query `?x=1&y=2`; the rebuilt URL `http://h:80/a/b?x=1&y=2` is
accepted with the same result. -/
theorem parse_url_rebuild_witness :
    parse_url amSizes (some "http://h/a/b?y=2&x=1".toList) =
      .success ⟨AM_SUCCESS, 0, 80, "http".toList, "h".toList, "/a/b".toList,
        "?x=1&y=2".toList⟩ ∧
    rebuildUrl ⟨AM_SUCCESS, 0, 80, "http".toList, "h".toList, "/a/b".toList,
        "?x=1&y=2".toList⟩ = "http://h:80/a/b?x=1&y=2".toList ∧
    parse_url amSizes (some (rebuildUrl ⟨AM_SUCCESS, 0, 80, "http".toList, "h".toList,
        "/a/b".toList, "?x=1&y=2".toList⟩)) =
      .success ⟨AM_SUCCESS, 0, 80, "http".toList, "h".toList, "/a/b".toList,
        "?x=1&y=2".toList⟩ :=
  ⟨by decide, by decide, parse_url_rebuild amSizes "http://h/a/b?y=2&x=1".toList
    ⟨AM_SUCCESS, 0, 80, "http".toList, "h".toList, "/a/b".toList, "?x=1&y=2".toList⟩
    (by decide) (by decide) (by decide) (by decide)⟩

/-- Counterexample to C11 as stated: `http://h/a+b` is accepted with the path
`/a b` (the plus sign is decoded to a blank); the rebuilt URL `http://h:80/a b` is
accepted with the path `/a`, because the path is read up to the first white space. -/
theorem parse_url_rebuild_counterexample :
    parse_url amSizes (some "http://h/a+b".toList) =
      .success ⟨AM_SUCCESS, 0, 80, "http".toList, "h".toList, "/a b".toList, []⟩ ∧
    rebuildUrl ⟨AM_SUCCESS, 0, 80, "http".toList, "h".toList, "/a b".toList, []⟩ =
      "http://h:80/a b".toList ∧
    parse_url amSizes (some (rebuildUrl
        ⟨AM_SUCCESS, 0, 80, "http".toList, "h".toList, "/a b".toList, []⟩)) =
      .success ⟨AM_SUCCESS, 0, 80, "http".toList, "h".toList, "/a".toList, []⟩ := by
  decide

/-! ## Path normaliser on any path -/

theorem head_set_succ (l : List (Option (List Char))) (k : Nat) (x : Option (List Char))
    (hk : 1 ≤ k) : (l.set k x).head? = l.head? := by
  obtain ⟨k1, rfl⟩ : ∃ k1, k = k1 + 1 := ⟨k - 1, by omega⟩
  cases l <;> rfl

theorem normLoop_head_none : ∀ (segs : List (List Char)) (m : Nat)
    (norm : List (Option (List Char))), 1 ≤ m → norm.head? = some none →
    (normLoop segs m norm).2.head? = some none := by
  intro segs
  induction segs with
  | nil => intro m norm _ h; exact h
  | cons s rest ih =>
    intro m norm hm h
    unfold normLoop
    split_ifs with h1 h2
    · exact ih 1 norm (le_refl _) h
    · exact ih (m - 1) _ (by omega) (by rw [head_set_succ _ _ _ (by omega)]; exact h)
    · exact ih (m + 1) _ (by omega) (by rw [head_set_succ _ _ _ hm]; exact h)

theorem uri_normalize_nil (sz : Sizes) : uri_normalize sz [] = [] := by
  unfold uri_normalize
  simp [am_strsep, normLoop, joinLoop, strncpy]

/-- A path whose segments are all single dots is left as it is. -/
theorem uri_normalize_no_segment (sz : Sizes) (p : List Char)
    (h : (am_strsep "/".toList p).filter (fun s => s != ".".toList) = []) :
    uri_normalize sz p = p := by
  unfold uri_normalize
  simp only [h]
  rfl

/-- A path whose first segment other than a single dot is a double dot becomes
empty: slot 0 of the normalised list stays NULL and the join loop stops there. -/
theorem uri_normalize_leading_dotdot (sz : Sizes) (p : List Char) (rest : List (List Char))
    (h : (am_strsep "/".toList p).filter (fun s => s != ".".toList) = "..".toList :: rest) :
    uri_normalize sz p = [] := by
  unfold uri_normalize
  simp only [h]
  rw [if_neg (by simp)]
  have h1 : normLoop ("..".toList :: rest) 0
      (List.replicate ("..".toList :: rest).length none) =
      normLoop rest 1 (List.replicate ("..".toList :: rest).length none) := by
    rw [normLoop, if_pos rfl, if_pos (by decide)]
  rw [h1]
  have h2 := normLoop_head_none rest 1 (List.replicate ("..".toList :: rest).length none)
    (le_refl _) (by simp [List.replicate_succ])
  cases hn : (normLoop rest 1 (List.replicate ("..".toList :: rest).length none)).2 with
  | nil => rfl
  | cons x xs =>
    rw [hn] at h2
    simp only [List.head?_cons, Option.some.injEq] at h2
    subst h2
    rfl

/-- The result of `uri_normalize` for a path whose first segment other than a
single dot is not a double dot: the kept segments joined by slashes. -/
theorem uri_normalize_walk (sz : Sizes) (p s : List Char) (rest : List (List Char))
    (hlen : p.length ≤ sz.AM_URI_SIZE)
    (h : (am_strsep "/".toList p).filter (fun s => s != ".".toList) = s :: rest)
    (hs : s ≠ "..".toList) :
    uri_normalize sz p = "/".toList.intercalate (stackWalk rest [s]) := by
  rcases Nat.eq_zero_or_pos sz.AM_URI_SIZE with h0 | hpos
  · have hp : p = [] := List.length_eq_zero.1 (by omega)
    subst hp
    have e : (am_strsep "/".toList []).filter (fun s => s != ".".toList) = [[]] := by decide
    rw [e] at h
    simp only [List.cons.injEq] at h
    rw [uri_normalize_nil, ← h.1, ← h.2]
    rfl
  · have hmem : ∀ x ∈ s :: rest, x.length ≤ sz.AM_URI_SIZE := by
      intro x hx
      rw [← h] at hx
      have := am_strsep_length_le "/".toList p x (List.mem_filter.1 hx).1
      omega
    unfold uri_normalize
    simp only [h]
    rw [if_neg (by simp)]
    have h1 : normLoop (s :: rest) 0 (List.replicate (s :: rest).length none) =
        normLoop rest ([s] : List (List Char)).length
          (([s] : List (List Char)).map some ++ List.replicate rest.length none) := by
      rw [normLoop, if_neg hs]
      simp [List.replicate_succ]
    simp only [h1]
    rw [normLoop_eq rest [s] rest.length (by simp) (le_refl _)]
    simp only []
    apply (joinLoop_eq sz.AM_URI_SIZE hpos _ _ true [] (stackWalk_ne_nil _ _ (by simp))
      (fun _ => rfl) _).trans
    · simp
    · intro x hx
      rcases stackWalk_mem _ _ x hx with h2 | h2
      · exact hmem x (by
          simp only [List.mem_singleton] at h2
          rw [h2]
          exact List.mem_cons_self _ _)
      · exact hmem x (List.mem_cons_of_mem _ h2)

/-- A path made of segments without a slash, none of them a single or a double
dot, joined by slashes is left as it is. -/
theorem uri_normalize_fixed (sz : Sizes) (K : List (List Char)) (hne : K ≠ [])
    (hmem : ∀ x ∈ K, '/' ∉ x ∧ x ≠ ".".toList ∧ x ≠ "..".toList)
    (hlen : ("/".toList.intercalate K).length ≤ sz.AM_URI_SIZE) :
    uri_normalize sz ("/".toList.intercalate K) = "/".toList.intercalate K := by
  have e : "/".toList = ['/'] := rfl
  have hsp : am_strsep "/".toList ("/".toList.intercalate K) = K := by
    rw [e, am_strsep_eq_splitOn, List.splitOn_intercalate _ '/' (fun l hl => (hmem l hl).1) hne]
  have hf : K.filter (fun s => s != ".".toList) = K := by
    rw [List.filter_eq_self]
    intro x hx
    simpa using (hmem x hx).2.1
  obtain ⟨k0, K1, hK⟩ := List.exists_cons_of_ne_nil hne
  have hseg : (am_strsep "/".toList ("/".toList.intercalate K)).filter
      (fun s => s != ".".toList) = k0 :: K1 := by
    rw [hsp, hf, hK]
  have hk0 : k0 ≠ "..".toList := (hmem k0 (by rw [hK]; exact List.mem_cons_self _ _)).2.2
  rw [uri_normalize_walk sz _ k0 K1 hlen hseg hk0,
    stackWalk_append K1 [k0] (fun x hx => (hmem x (by
      rw [hK]
      exact List.mem_cons_of_mem _ hx)).2.2), hK]
  rfl

/-- C21: `uri_normalize` is idempotent: for every path of at most `AM_URI_SIZE`
characters, normalising the normalised path gives the normalised path again. -/
theorem uri_normalize_idempotent (sz : Sizes) (p : List Char)
    (hlen : p.length ≤ sz.AM_URI_SIZE) :
    uri_normalize sz (uri_normalize sz p) = uri_normalize sz p := by
  cases hseg : (am_strsep "/".toList p).filter (fun s => s != ".".toList) with
  | nil =>
    have e := uri_normalize_no_segment sz p hseg
    rw [e]
    exact e
  | cons s rest =>
    by_cases hs : s = "..".toList
    · subst hs
      rw [uri_normalize_leading_dotdot sz p rest hseg]
      exact uri_normalize_nil sz
    · rw [uri_normalize_walk sz p s rest hlen hseg hs]
      have hseg_mem : ∀ x ∈ s :: rest, '/' ∉ x ∧ x ≠ ".".toList := by
        intro x hx
        rw [← hseg, List.mem_filter] at hx
        refine ⟨fun hc => ?_, by simpa using hx.2⟩
        have := am_strsep_no_delim "/".toList p x hx.1 '/' hc
        simp at this
      have hK : ∀ x ∈ stackWalk rest [s], '/' ∉ x ∧ x ≠ ".".toList ∧ x ≠ "..".toList := by
        intro x hx
        rcases stackWalk_mem_strong _ _ x hx with h1 | ⟨h1, h2⟩
        · simp only [List.mem_singleton] at h1
          subst h1
          have := hseg_mem x (List.mem_cons_self _ _)
          exact ⟨this.1, this.2, hs⟩
        · have := hseg_mem x (List.mem_cons_of_mem _ h1)
          exact ⟨this.1, this.2, h2⟩
      have hne : stackWalk rest [s] ≠ [] := stackWalk_ne_nil _ _ (by simp)
      apply uri_normalize_fixed sz _ hne hK
      have h1 := intercalate_length _ hne
      have h2 := segWeight_stackWalk_le rest [s]
      have h3 := segWeight_filter_le (fun s => s != ".".toList) (am_strsep "/".toList p)
      have h4 := segWeight_am_strsep "/".toList p
      rw [hseg, segWeight_cons] at h3
      have h5 : segWeight [s] = s.length + 1 := by simp [segWeight]
      omega

/-- Witness of C21: `a/b/../../c` normalises to `a/c` and `/a/./b/../c` to `/a/c`,
and normalising `/a/c` again changes nothing. -/
theorem uri_normalize_idempotent_witness :
    uri_normalize amSizes "a/b/../../c".toList = "a/c".toList ∧
    uri_normalize amSizes "/a/./b/../c".toList = "/a/c".toList ∧
    uri_normalize amSizes (uri_normalize amSizes "/a/./b/../c".toList) =
      uri_normalize amSizes "/a/./b/../c".toList :=
  ⟨by decide, by decide,
    uri_normalize_idempotent amSizes "/a/./b/../c".toList (by decide)⟩

/-- C22: for the empty path and for every path all of whose slash-separated
segments are single dots, `uri_normalize` leaves the path as it is and stores
`AM_SUCCESS` in `url->error`. -/
theorem uri_normalize_dots_unchanged (sz : Sizes) (p : List Char)
    (h : p = [] ∨ ∀ s ∈ p.splitOn '/', s = ".".toList) :
    uri_normalize_url sz (some p) = (AM_SUCCESS, some p) := by
  unfold uri_normalize_url
  simp only [Prod.mk.injEq, Option.some.injEq, true_and]
  rcases h with h0 | h0
  · rw [h0]
    exact uri_normalize_nil sz
  · apply uri_normalize_no_segment
    rw [show "/".toList = ['/'] from rfl, am_strsep_eq_splitOn, List.filter_eq_nil_iff]
    intro s hs
    simp [h0 s hs]

/-- Witness of C22: the paths `./.`, `.` and the empty path. -/
theorem uri_normalize_dots_unchanged_witness :
    uri_normalize_url amSizes (some "./.".toList) = (AM_SUCCESS, some "./.".toList) ∧
    uri_normalize_url amSizes (some ".".toList) = (AM_SUCCESS, some ".".toList) ∧
    uri_normalize_url amSizes (some []) = (AM_SUCCESS, some []) :=
  ⟨uri_normalize_dots_unchanged amSizes "./.".toList (Or.inr (by decide)),
    by decide, by decide⟩

/-! ## The tokens of the canonical query -/

/-- The query of an accepted URL whose scanned path has a question mark: the
canonical form of the text from the first question mark on. -/
theorem parseScanned_query (sz : Sizes) (v : ScanVars) (r : url) (x q : List Char)
    (h : parseScanned sz v = .success r) (hv : v.path = x ++ '?' :: q) (hx : '?' ∉ x) :
    r.query = sortQuery sz ('?' :: q) := by
  have hd : ∀ y : List Char, '?' ∉ y →
      (y ++ '?' :: q).dropWhile (fun c => c != '?') = '?' :: q := by
    intro y hy
    rw [dropWhile_append_stop _ y '?' q (by decide)]
    have : y.dropWhile (fun c => c != '?') = [] := by
      rw [List.dropWhile_eq_nil_iff]
      intro c hc
      simp only [bne_iff_ne, ne_eq, decide_eq_true_eq]
      intro h0
      exact hy (h0 ▸ hc)
    rw [this]
    rfl
  unfold parseScanned at h
  split_ifs at h with h1 h2 h3
  · rw [hv] at h1
    cases x <;> simp [ISVALID] at h1
  · have := parseTail_query sz v _ _ _ r h
    rw [hv, ← List.cons_append, hd ('/' :: x) (by
      intro hc
      rcases List.mem_cons.1 hc with h0 | h0
      · exact absurd h0 (by decide)
      · exact hx h0)] at this
    simpa using this
  · have := parseTail_query sz v _ _ _ r h
    rw [hv, hd x hx] at this
    simpa using this

/-- C23 (as amended): for every accepted URL without white space and of at most
`AM_URI_SIZE` characters whose text after the first question mark consists of two
or more tokens separated by ampersands, and whose result has a query, the tokens
of the resulting query are a rearrangement of the non-empty tokens of the raw
query text: every non-empty token, repeated ones included, appears in the output
as often as in the input and with the same text, and the empty tokens are left
out.  The resulting query is the question mark followed by those tokens joined by
ampersands. -/
theorem parse_url_query_tokens (sz : Sizes) (pre : List Char) (ts : List (List Char))
    (r : url)
    (hq : '?' ∉ pre) (h2 : 2 ≤ ts.length) (hamp : ∀ t ∈ ts, '&' ∉ t)
    (hns : ∀ c ∈ pre ++ '?' :: "&".toList.intercalate ts, isspace c = false)
    (hlen : (pre ++ '?' :: "&".toList.intercalate ts).length ≤ sz.AM_URI_SIZE)
    (h : parse_url sz (some (pre ++ '?' :: "&".toList.intercalate ts)) = .success r)
    (hrq : r.query ≠ []) :
    ∃ T : List (List Char), T.Perm (ts.filter (fun t => !t.isEmpty)) ∧
      r.query = '?' :: "&".toList.intercalate T ∧
      (T ≠ [] → (r.query.drop 1).splitOn '&' = T) := by
  obtain ⟨v, hv, hps, _⟩ := parse_url_scanned sz _ r h
  have hne : ts ≠ [] := by
    intro h0
    rw [h0] at h2
    simp at h2
  have hU : ("&".toList.intercalate ts).length + 1 ≤ sz.AM_URI_SIZE := by
    simp only [List.length_append, List.length_cons] at hlen
    omega
  obtain ⟨n, hn⟩ : ∃ n, sz.AM_URI_SIZE = n + 1 := ⟨sz.AM_URI_SIZE - 1, by omega⟩
  have hmem : '&' ∈ "&".toList.intercalate ts := by
    cases ts with
    | nil => exact absurd rfl hne
    | cons a t =>
      cases t with
      | nil => simp at h2
      | cons b t2 =>
        rw [intercalate_cons_cons]
        simp
  have hsq : sortQuery sz ('?' :: "&".toList.intercalate ts) =
      rebuildQuery (qsort ((ts.filter (fun t => !t.isEmpty)).map mkAttribute)) := by
    rw [sortQuery_cons sz n hn, List.take_of_length_le (by omega), if_pos (by
      unfold char_count
      exact List.count_pos_iff.2 hmem), strtok_r_intercalate ts hne hamp]
  have hquery : r.query = sortQuery sz ('?' :: "&".toList.intercalate ts) := by
    rw [scanUrl_sentinel sz pre _ hns hlen] at hv
    cases hh : headParts sz pre with
    | none => rw [hh] at hv; cases hv
    | some t =>
      obtain ⟨pr, ho, r3⟩ := t
      have s3 := headParts_suffix sz pre pr ho r3 hh
      rw [hh] at hv
      simp only [] at hv
      have hnopath : ∀ port : Int, v = ⟨pr, ho, port, []⟩ → False := by
        intro port hv0
        rw [hv0] at hps
        have hU0 : 0 < sz.AM_URI_SIZE := by omega
        rw [parseScanned_no_path sz hU0] at hps
        simp only [parse_result.success.injEq] at hps
        rw [← hps] at hrq
        exact hrq rfl
      cases hp : portPart r3 with
      | some pp =>
        obtain ⟨port, r5⟩ := pp
        have s5 := (portPart_suffix r3 r5 port hp).trans s3
        rw [hp] at hv
        simp only [] at hv
        cases h1 : scanLit "/".toList r5 with
        | none =>
          rw [h1] at hv
          simp only [Option.some.injEq] at hv
          exact absurd hv.symm (hnopath port)
        | some r1 =>
          rw [h1] at hv
          simp only [Option.some.injEq] at hv
          exact parseScanned_query sz v r r1 _ hps (by rw [← hv]) (fun hc =>
            hq (s5.subset ((scanLit_suffix _ _ _ h1).subset hc)))
      | none =>
        rw [hp] at hv
        simp only [] at hv
        cases h1 : scanLit "/".toList r3 with
        | none =>
          rw [h1] at hv
          simp only [Option.some.injEq] at hv
          exact absurd hv.symm (hnopath 0)
        | some r1 =>
          rw [h1] at hv
          simp only [Option.some.injEq] at hv
          exact parseScanned_query sz v r r1 _ hps (by rw [← hv]) (fun hc =>
            hq (s3.subset ((scanLit_suffix _ _ _ h1).subset hc)))
  refine ⟨(qsort ((ts.filter (fun t => !t.isEmpty)).map mkAttribute)).map
    (fun e => e.key_value), ?_, ?_, ?_⟩
  · have := (qsort_perm ((ts.filter (fun t => !t.isEmpty)).map mkAttribute)).map
      (fun e => e.key_value)
    rw [mkAttribute_key_value] at this
    exact this
  · rw [hquery, hsq]
    rfl
  · intro hT
    rw [hquery, hsq]
    unfold rebuildQuery
    rw [List.drop_succ_cons, List.drop_zero]
    have hperm := (qsort_perm ((ts.filter (fun t => !t.isEmpty)).map mkAttribute)).map
      (fun e => e.key_value)
    rw [mkAttribute_key_value] at hperm
    exact List.splitOn_intercalate _ '&' (fun l hl =>
      hamp l (List.mem_filter.1 (hperm.mem_iff.1 hl)).1) hT

/-- Witness of C23 as amended: `http://h/p?b&&a&b` has the raw tokens `b`, the empty
token, `a` and `b`; the resulting query `?a&b&b` holds `a` once and `b` twice. -/
theorem parse_url_query_tokens_witness :
    parse_url amSizes (some ("http://h/p".toList ++ '?' :: "&".toList.intercalate
        ["b".toList, [], "a".toList, "b".toList])) =
      .success ⟨AM_SUCCESS, 0, 80, "http".toList, "h".toList, "/p".toList,
        "?a&b&b".toList⟩ ∧
    ∃ T : List (List Char),
      T.Perm (["b".toList, [], "a".toList, "b".toList].filter (fun t => !t.isEmpty)) ∧
      "?a&b&b".toList = '?' :: "&".toList.intercalate T ∧
      (T ≠ [] → ("?a&b&b".toList.drop 1).splitOn '&' = T) :=
  ⟨by decide, parse_url_query_tokens amSizes "http://h/p".toList
    ["b".toList, [], "a".toList, "b".toList]
    ⟨AM_SUCCESS, 0, 80, "http".toList, "h".toList, "/p".toList, "?a&b&b".toList⟩
    (by decide) (by decide) (by decide) (by decide) (by decide) (by decide) (by decide)⟩

/-- Counterexample to C23 as stated: the raw query text of `http://h/p?b&&a` splits
into the three tokens `b`, the empty token and `a`; the resulting query `?a&b`
splits into the two tokens `a` and `b`, so the empty token is lost and the two
lists are no rearrangement of one another. -/
theorem parse_url_query_tokens_counterexample :
    parse_url amSizes (some "http://h/p?b&&a".toList) =
      .success ⟨AM_SUCCESS, 0, 80, "http".toList, "h".toList, "/p".toList, "?a&b".toList⟩ ∧
    "b&&a".toList.splitOn '&' = ["b".toList, [], "a".toList] ∧
    ("?a&b".toList.drop 1).splitOn '&' = ["a".toList, "b".toList] ∧
    ¬ (("?a&b".toList.drop 1).splitOn '&').Perm ("b&&a".toList.splitOn '&') :=
  ⟨by decide, by decide, by decide, fun h => absurd h.length_eq (by decide)⟩

/-! ## Cookie value extractor: argument checks and single cookies -/

/-- C24: `get_cookie_value` checks the cookie name first: a NULL or empty name
gives `AM_EINVAL` whatever the header is; with a name that is neither, a NULL or
empty header gives `AM_NOT_FOUND`; both returns come before the first assignment
to `*value`, which keeps the content it had. -/
theorem get_cookie_value_argument_checks (separator : List Char)
    (cookie_name cookie_header_val old : Option (List Char)) :
    ((cookie_name = none ∨ cookie_name = some []) →
      (get_cookie_value separator cookie_name cookie_header_val).1 = AM_EINVAL ∧
      get_cookie_value_checks cookie_name cookie_header_val old = some (AM_EINVAL, old)) ∧
    (¬ (cookie_name = none ∨ cookie_name = some []) →
      (cookie_header_val = none ∨ cookie_header_val = some []) →
      (get_cookie_value separator cookie_name cookie_header_val).1 = AM_NOT_FOUND ∧
      get_cookie_value_checks cookie_name cookie_header_val old =
        some (AM_NOT_FOUND, old)) := by
  refine ⟨fun h => ?_, fun h1 h2 => ?_⟩
  · rcases h with h | h <;> subst h <;> exact ⟨rfl, rfl⟩
  · cases cookie_name with
    | none => exact absurd (Or.inl rfl) h1
    | some name =>
      cases name with
      | nil => exact absurd (Or.inr rfl) h1
      | cons c cs =>
        rcases h2 with h | h <;> subst h <;> exact ⟨rfl, rfl⟩

/-- Witness of C24: an empty name with a NULL header gives `AM_EINVAL`, the name
`sid` with an empty header gives `AM_NOT_FOUND`, and `*value` keeps its content. -/
theorem get_cookie_value_argument_checks_witness :
    ((get_cookie_value ";".toList (some []) none).1 = AM_EINVAL ∧
      get_cookie_value_checks (some []) none (some "old".toList) =
        some (AM_EINVAL, some "old".toList)) ∧
    ((get_cookie_value ";".toList (some "sid".toList) (some [])).1 = AM_NOT_FOUND ∧
      get_cookie_value_checks (some "sid".toList) (some []) (some "old".toList) =
        some (AM_NOT_FOUND, some "old".toList)) :=
  ⟨(get_cookie_value_argument_checks ";".toList (some []) none (some "old".toList)).1
      (Or.inr rfl),
    (get_cookie_value_argument_checks ";".toList (some "sid".toList) (some [])
      (some "old".toList)).2 (by decide) (Or.inr rfl)⟩

theorem strtok_r_single (d : Char) (x : List Char) (hne : x ≠ []) (hx : d ∉ x) :
    strtok_r [d] x = [x] := by
  unfold strtok_r
  have e : x.splitOn d = [x] := by
    unfold List.splitOn
    apply List.splitOnP_eq_single
    intro c hc hcd
    rw [eq_of_beq hcd] at hc
    exact hx hc
  rw [am_strsep_eq_splitOn, e, List.filter_cons_of_pos (by simpa using hne)]
  rfl

theorem strtok_r_two (d : Char) (x v : List Char) (hx1 : x ≠ []) (hv1 : v ≠ [])
    (hx : d ∉ x) (hv : d ∉ v) :
    strtok_r [d] (x ++ d :: v) = [x, v] := by
  unfold strtok_r
  have e2 : x ++ d :: v = [d].intercalate [x, v] := by
    simp [List.intercalate, List.intersperse]
  rw [am_strsep_eq_splitOn, e2, List.splitOn_intercalate _ d (by
    intro l hl
    simp only [List.mem_cons, List.mem_singleton, List.not_mem_nil, or_false] at hl
    rcases hl with h | h
    · rw [h]; exact hx
    · rw [h]; exact hv) (by simp)]
  rw [List.filter_cons_of_pos (by simpa using hx1), List.filter_cons_of_pos (by simpa using hv1)]
  rfl

theorem tildeFirstEq_append (x v : List Char) (hx : '=' ∉ x) :
    tildeFirstEq (x ++ '=' :: v) = x ++ '~' :: v := by
  induction x with
  | nil => simp [tildeFirstEq]
  | cons c cs ih =>
    have hc : c ≠ '=' := fun h0 => hx (by rw [h0]; exact List.mem_cons_self _ _)
    rw [List.cons_append, tildeFirstEq, if_neg hc,
      ih (fun h0 => hx (List.mem_cons_of_mem _ h0))]
    rfl

theorem trim_no_space (x : List Char) (h : ∀ c ∈ x, isspace c = false) : trim x ' ' = x := by
  apply trim_of_all_false
  intro c hc
  unfold TRIM_TEST
  rw [if_pos (by decide)]
  exact h c hc

theorem trim_no_quote (x : List Char) (h : ∀ c ∈ x, c ≠ '"') : trim x '"' = x := by
  apply trim_of_all_false
  intro c hc
  unfold TRIM_TEST
  rw [if_neg (by decide)]
  simpa using h c hc

/-- The paired loop on a name token followed by one value token. -/
theorem pairedLoop_name_value (name value : List Char) (hn : ∀ c ∈ name, isalnum c = true)
    (hv1 : value ≠ []) (hv2 : ∀ c ∈ value, isspace c = false ∧ c ≠ '"') :
    pairedLoop name [name, value] AM_NOT_FOUND none = (AM_SUCCESS, some value) := by
  unfold pairedLoop
  simp only [trim_alnum_space _ hn]
  have hz : strcmp name name = 0 := (strcmp_eq_zero_iff _ _).2 rfl
  rw [if_pos (by simp [hz])]
  unfold pairedLoop
  simp only [trim_no_space _ (fun c hc => (hv2 c hc).1)]
  rw [if_neg (by simp), if_pos (by simpa using hv1)]
  simp only [trim_no_quote _ (fun c hc => (hv2 c hc).2)]
  rfl

/-- C25: for every header that is a single cookie `name=value`, the name a
non-empty string of letters and digits, the value non-empty, with one or more
equals signs (so different from the name) and without semicolon, tilde, white
space or double quote, `get_cookie_value` with the separator `;` returns
`AM_SUCCESS` and the complete value text with all of its equals signs. -/
theorem get_cookie_value_value_with_equals (name value : List Char)
    (hn1 : name ≠ []) (hn2 : ∀ c ∈ name, isalnum c = true)
    (hv1 : value ≠ []) (hv3 : '=' ∈ value)
    (hv4 : ∀ c ∈ value, c ≠ ';' ∧ c ≠ '~' ∧ isspace c = false ∧ c ≠ '"') :
    get_cookie_value ";".toList (some name) (some (name ++ '=' :: value)) =
      (AM_SUCCESS, some value) := by
  have hnc : ∀ d : Char, isalnum d = false → d ∉ name := fun d hd hm =>
    isalnum_ne d d (hn2 d hm) hd rfl
  have hsemi : ';' ∉ name ++ '=' :: value := by
    intro hm
    rcases List.mem_append.1 hm with h | h
    · exact hnc ';' (by decide) h
    · rcases List.mem_cons.1 h with h0 | h0
      · exact absurd h0 (by decide)
      · exact (hv4 ';' h0).1 rfl
  have htok := strtok_r_single ';' (name ++ '=' :: value) (by simp) hsemi
  have hstr : strstr name (name ++ '=' :: value) = true := by
    have := strstr_infix name hn1 [] ('=' :: value)
    simpa using this
  have hec : (name ++ '=' :: value).count '=' > 1 := by
    have := List.count_pos_iff.2 hv3
    simp only [List.count_append, List.count_cons_self]
    omega
  have hpair : get_cookie_value_paired "~".toList name (tildeFirstEq (name ++ '=' :: value)) =
      (AM_SUCCESS, some value) := by
    rw [tildeFirstEq_append name value (hnc '=' (by decide))]
    unfold get_cookie_value_paired
    rw [if_neg (by simpa using hn1), if_neg (by simp)]
    rw [show "~".toList = ['~'] from rfl,
      strtok_r_two '~' name value hn1 hv1 (hnc '~' (by decide)) (fun hm => (hv4 '~' hm).2.1 rfl)]
    exact pairedLoop_name_value name value hn2 hv1 (fun c hc => ⟨(hv4 c hc).2.2.1, (hv4 c hc).2.2.2⟩)
  unfold get_cookie_value
  simp only []
  rw [if_neg (by simpa using hn1), if_neg (by simp), if_neg (by decide),
    show ";".toList = [';'] from rfl, htok]
  unfold outerLoop
  rw [if_neg (by simp [hstr])]
  simp only []
  rw [if_pos hec, hpair]
  rfl

/-- Witness of C25 and its example: `sid=abc=def==` gives `abc=def==`. -/
theorem get_cookie_value_value_with_equals_witness :
    get_cookie_value ";".toList (some "sid".toList) (some ("sid".toList ++ '=' ::
      "abc=def==".toList)) = (AM_SUCCESS, some "abc=def==".toList) :=
  get_cookie_value_value_with_equals "sid".toList "abc=def==".toList (by decide) (by decide)
    (by decide) (by decide) (by decide)

/-! ## Cookie value extractor: what the paired loop returns -/

theorem strtok_r_tokens (d : Char) (ts : List (List Char)) (hne : ts ≠ [])
    (hts : ∀ t ∈ ts, t ≠ [] ∧ d ∉ t) :
    strtok_r [d] ([d].intercalate ts) = ts := by
  unfold strtok_r
  rw [am_strsep_eq_splitOn, List.splitOn_intercalate _ d (fun t ht => (hts t ht).2) hne,
    List.filter_eq_self]
  intro t ht
  have := (hts t ht).1
  cases t with
  | nil => exact absurd rfl this
  | cons _ _ => rfl

/-- Once the name is found, the paired loop stores every further non-empty token
in `*value`, so the last one is what stays. -/
theorem pairedLoop_found (name : List Char) : ∀ (vs : List (List Char))
    (value : Option (List Char)), (∀ v ∈ vs, v ≠ [] ∧ ∀ c ∈ v, isalnum c = true) →
    pairedLoop name vs AM_SUCCESS value = (AM_SUCCESS, (value.toList ++ vs).getLast?) := by
  intro vs
  induction vs with
  | nil =>
    intro value _
    cases value <;> rfl
  | cons v rest ih =>
    intro value hvs
    obtain ⟨hv1, hv2⟩ := hvs v (List.mem_cons_self _ _)
    unfold pairedLoop
    simp only [trim_alnum_space _ hv2, trim_alnum_quote _ hv2]
    rw [if_neg (by simp), if_pos (by simpa using hv1),
      ih (some v) (fun x hx => hvs x (List.mem_cons_of_mem _ hx))]
    have e2 : (value.toList ++ v :: rest).getLast? = (v :: rest).getLast? :=
      List.getLast?_append_of_ne_nil _ (by simp)
    rw [e2]
    rfl

/-- C26 (fails on the code): in paired mode the loop has no `break`, so every
non-empty token after the name token is stored in `*value` in turn and the value
returned is the last of them, not the first.  With the separator `=`, the header
`sid=abc=def` gives `def` for the name `sid`; through a call with the separator
`;`, the header `sid=a~b=c` gives `b=c`; and for every name and every list of
tokens made of letters and digits, the header of the name and the tokens joined
by `=` gives the last token. -/
theorem get_cookie_value_keeps_last_token :
    get_cookie_value "=".toList (some "sid".toList) (some "sid=abc=def".toList) =
      (AM_SUCCESS, some "def".toList) ∧
    get_cookie_value ";".toList (some "sid".toList) (some "sid=a~b=c".toList) =
      (AM_SUCCESS, some "b=c".toList) ∧
    (∀ (name : List Char) (vs : List (List Char)),
      name ≠ [] → (∀ c ∈ name, isalnum c = true) →
      (∀ v ∈ vs, v ≠ [] ∧ ∀ c ∈ v, isalnum c = true) →
      get_cookie_value "=".toList (some name) (some ("=".toList.intercalate (name :: vs))) =
        (AM_SUCCESS, vs.getLast?)) := by
  refine ⟨by decide, by decide, fun name vs hn1 hn2 hvs => ?_⟩
  have hnoeq : ∀ x : List Char, (∀ c ∈ x, isalnum c = true) → '=' ∉ x := fun x hx hm =>
    isalnum_ne '=' '=' (hx _ hm) (by decide) rfl
  have htok := strtok_r_tokens '=' (name :: vs) (by simp) (by
    intro t ht
    rcases List.mem_cons.1 ht with h | h
    · rw [h]
      exact ⟨hn1, hnoeq name hn2⟩
    · exact ⟨(hvs t h).1, hnoeq t (hvs t h).2⟩)
  have hne : "=".toList.intercalate (name :: vs) ≠ [] := by
    obtain ⟨c, cs, hc⟩ := List.exists_cons_of_ne_nil hn1
    rw [hc, intercalate_cons_head]
    simp
  unfold get_cookie_value
  simp only []
  rw [if_neg (by simpa using hn1), if_neg (by simpa using hne), if_pos (by decide)]
  rw [show "=".toList = ['='] from rfl, htok]
  unfold pairedLoop
  simp only [trim_alnum_space _ hn2]
  have hz : strcmp name name = 0 := (strcmp_eq_zero_iff _ _).2 rfl
  rw [if_pos (by simp [hz]), pairedLoop_found name vs none hvs]
  rfl

/-- C27 (fails on the code): `found` is set to `AM_SUCCESS` as soon as a token
equals the name, before any value is stored, and is returned as it is.  The
header `foo=sid` gives `AM_SUCCESS` for the name `sid` with `*value` left NULL, and
so does the header `sid`; in general every header `x=name`, with `x` and the name
different non-empty strings of letters and digits, gives `AM_SUCCESS` and a NULL
`*value`. -/
theorem get_cookie_value_success_without_value :
    get_cookie_value ";".toList (some "sid".toList) (some "foo=sid".toList) =
      (AM_SUCCESS, none) ∧
    get_cookie_value ";".toList (some "sid".toList) (some "sid".toList) =
      (AM_SUCCESS, none) ∧
    (∀ (name x : List Char), name ≠ [] → (∀ c ∈ name, isalnum c = true) →
      x ≠ [] → (∀ c ∈ x, isalnum c = true) → x ≠ name →
      get_cookie_value ";".toList (some name) (some (x ++ '=' :: name)) =
        (AM_SUCCESS, none)) := by
  refine ⟨by decide, by decide, fun name x hn1 hn2 hx1 hx2 hxn => ?_⟩
  have hnc : ∀ (y : List Char), (∀ c ∈ y, isalnum c = true) →
      ∀ d : Char, isalnum d = false → d ∉ y := fun y hy d hd hm =>
    isalnum_ne d d (hy d hm) hd rfl
  have hsemi : ';' ∉ x ++ '=' :: name := by
    intro hm
    rcases List.mem_append.1 hm with h | h
    · exact hnc x hx2 ';' (by decide) h
    · rcases List.mem_cons.1 h with h0 | h0
      · exact absurd h0 (by decide)
      · exact hnc name hn2 ';' (by decide) h0
  have htok := strtok_r_single ';' (x ++ '=' :: name) (by simp) hsemi
  have hstr : strstr name (x ++ '=' :: name) = true := by
    have := strstr_infix name hn1 (x ++ ['=']) []
    simpa using this
  have hec : ¬ (x ++ '=' :: name).count '=' > 1 := by
    have h1 : x.count '=' = 0 := List.count_eq_zero.2 (hnc x hx2 '=' (by decide))
    have h2 : name.count '=' = 0 := List.count_eq_zero.2 (hnc name hn2 '=' (by decide))
    simp only [List.count_append, List.count_cons_self, h1, h2]
    omega
  have hpair : get_cookie_value_paired "=".toList name (x ++ '=' :: name) =
      (AM_SUCCESS, none) := by
    unfold get_cookie_value_paired
    rw [if_neg (by simpa using hn1), if_neg (by simp)]
    rw [show "=".toList = ['='] from rfl,
      strtok_r_two '=' x name hx1 hn1 (hnc x hx2 '=' (by decide)) (hnc name hn2 '=' (by decide))]
    unfold pairedLoop
    simp only [trim_alnum_space _ hx2]
    have hz : ¬ strcmp x name = 0 := fun h => hxn ((strcmp_eq_zero_iff _ _).1 h)
    rw [if_neg (by simp [hz]), if_neg (by simp)]
    unfold pairedLoop
    simp only [trim_alnum_space _ hn2]
    have hz2 : strcmp name name = 0 := (strcmp_eq_zero_iff _ _).2 rfl
    rw [if_pos (by simp [hz2])]
    rfl
  unfold get_cookie_value
  simp only []
  rw [if_neg (by simpa using hn1), if_neg (by simp), if_neg (by decide),
    show ";".toList = [';'] from rfl, htok]
  unfold outerLoop
  rw [if_neg (by simp [hstr])]
  simp only []
  rw [if_neg hec, hpair]
  rfl

/-! ## Cookie value extractor: the nesting of calls -/

/-- With the separator `=` or `~` the loop makes no nested call: it is the paired
loop, whatever `call` is, and the depth is left as it was. -/
theorem cookieLoop_paired
    (call : List Char → List Char → Option (am_status × Option (List Char) × Nat))
    (separator name : List Char) (hsep : isPairSeparator separator = true) :
    ∀ (toks : List (List Char)) (found : am_status) (value : Option (List Char))
      (depth : Nat),
    cookieLoop call separator name toks found value depth =
      some ((pairedLoop name toks found value).1, (pairedLoop name toks found value).2,
        depth) := by
  intro toks
  induction toks with
  | nil => intro found value depth; rfl
  | cons a rest ih =>
    intro found value depth
    unfold cookieLoop pairedLoop
    rw [if_pos hsep]
    simp only []
    split_ifs
    · exact ih _ _ _
    · exact ih _ _ _
    · exact ih _ _ _

/-- A call with the separator `=` or `~`, a non-empty name and any header returns
with one call active, at nesting depth 0. -/
theorem get_cookie_value_rec_paired (fuel : Nat) (separator name header : List Char)
    (hsep : isPairSeparator separator = true) :
    get_cookie_value_rec (fuel + 1) separator (some name) (some header) =
      some ((get_cookie_value_paired separator name header).1,
        (get_cookie_value_paired separator name header).2, 0) := by
  unfold get_cookie_value_rec get_cookie_value_paired
  simp only []
  split_ifs
  · rfl
  · rfl
  · exact cookieLoop_paired _ separator name hsep _ _ _ _

/-- With any other separator the loop is the outer loop of the model, and the
nested calls, which have the separator `=` or `~`, add one level of nesting. -/
theorem cookieLoop_outer (fuel : Nat) (separator name : List Char)
    (hsep : isPairSeparator separator = false) :
    ∀ (toks : List (List Char)) (found : am_status) (value : Option (List Char))
      (depth : Nat), depth ≤ 1 →
    ∃ d, d ≤ 1 ∧
      cookieLoop (fun sep h => get_cookie_value_rec (fuel + 1) sep (some name) (some h))
        separator name toks found value depth =
      some ((outerLoop name toks found value).1, (outerLoop name toks found value).2, d) := by
  intro toks
  induction toks with
  | nil => intro found value depth hd; exact ⟨depth, hd, rfl⟩
  | cons a rest ih =>
    intro found value depth hd
    unfold cookieLoop outerLoop
    rw [if_neg (by simp [hsep])]
    by_cases hstr : (!strstr name a) = true
    · rw [if_pos hstr, if_pos hstr]
      exact ih _ _ _ hd
    · rw [if_neg hstr, if_neg hstr]
      simp only []
      have e1 := get_cookie_value_rec_paired fuel "~".toList name (tildeFirstEq a) (by decide)
      have e2 := get_cookie_value_rec_paired fuel "=".toList name a (by decide)
      by_cases hec : a.count '=' > 1
      · rw [if_pos hec, if_pos hec, e1]
        simp only []
        split_ifs with hs
        · exact ⟨max depth (0 + 1), by omega, rfl⟩
        · exact ih _ _ _ (by omega)
      · rw [if_neg hec, if_neg hec, e2]
        simp only []
        split_ifs with hs
        · exact ⟨max depth (0 + 1), by omega, rfl⟩
        · exact ih _ _ _ (by omega)

/-- C28: `get_cookie_value` returns on every input, whatever the number of equals
signs in the header: with room for two active calls (or more) the function with
its recursion written out returns the result of the model at a nesting depth of
at most one, and a call whose separator is `=` or `~` returns with room for a
single active call, that is, without calling itself. -/
theorem get_cookie_value_nesting (fuel : Nat) (separator : List Char)
    (cookie_name cookie_header_val : Option (List Char)) (hfuel : 2 ≤ fuel) :
    (∃ d, d ≤ 1 ∧ get_cookie_value_rec fuel separator cookie_name cookie_header_val =
      some ((get_cookie_value separator cookie_name cookie_header_val).1,
        (get_cookie_value separator cookie_name cookie_header_val).2, d)) ∧
    (isPairSeparator separator = true →
      get_cookie_value_rec 1 separator cookie_name cookie_header_val =
        some ((get_cookie_value separator cookie_name cookie_header_val).1,
          (get_cookie_value separator cookie_name cookie_header_val).2, 0)) := by
  obtain ⟨k, rfl⟩ : ∃ k, fuel = k + 2 := ⟨fuel - 2, by omega⟩
  cases cookie_name with
  | none => exact ⟨⟨0, by omega, rfl⟩, fun _ => rfl⟩
  | some name =>
    by_cases hn : name.isEmpty = true
    · have e : ∀ f, get_cookie_value_rec (f + 1) separator (some name) cookie_header_val =
          some (AM_EINVAL, none, 0) := by
        intro f
        unfold get_cookie_value_rec
        simp only []
        rw [if_pos hn]
      have e2 : get_cookie_value separator (some name) cookie_header_val = (AM_EINVAL, none) := by
        unfold get_cookie_value
        simp only []
        rw [if_pos hn]
      rw [e2]
      exact ⟨⟨0, by omega, e (k + 1)⟩, fun _ => e 0⟩
    · cases cookie_header_val with
      | none =>
        have e : ∀ f, get_cookie_value_rec (f + 1) separator (some name) none =
            some (AM_NOT_FOUND, none, 0) := by
          intro f
          unfold get_cookie_value_rec
          simp only []
          rw [if_neg hn]
        have e2 : get_cookie_value separator (some name) none = (AM_NOT_FOUND, none) := by
          unfold get_cookie_value
          simp only []
          rw [if_neg hn]
        rw [e2]
        exact ⟨⟨0, by omega, e (k + 1)⟩, fun _ => e 0⟩
      | some header =>
        by_cases hh : header.isEmpty = true
        · have e : ∀ f, get_cookie_value_rec (f + 1) separator (some name) (some header) =
              some (AM_NOT_FOUND, none, 0) := by
            intro f
            unfold get_cookie_value_rec
            simp only []
            rw [if_neg hn, if_pos hh]
          have e2 : get_cookie_value separator (some name) (some header) =
              (AM_NOT_FOUND, none) := by
            unfold get_cookie_value
            simp only []
            rw [if_neg hn, if_pos hh]
          rw [e2]
          exact ⟨⟨0, by omega, e (k + 1)⟩, fun _ => e 0⟩
        · by_cases hsep : isPairSeparator separator = true
          · have e2 : get_cookie_value separator (some name) (some header) =
                get_cookie_value_paired separator name header := by
              unfold get_cookie_value get_cookie_value_paired
              simp only []
              rw [if_neg hn, if_neg hh, if_pos hsep, if_neg hn, if_neg hh]
            rw [e2]
            exact ⟨⟨0, by omega, get_cookie_value_rec_paired (k + 1) separator name header hsep⟩,
              fun _ => get_cookie_value_rec_paired 0 separator name header hsep⟩
          · refine ⟨?_, fun h => absurd h hsep⟩
            have e2 : get_cookie_value separator (some name) (some header) =
                outerLoop name (strtok_r separator header) AM_NOT_FOUND none := by
              unfold get_cookie_value
              simp only []
              rw [if_neg hn, if_neg hh, if_neg hsep]
            rw [e2]
            unfold get_cookie_value_rec
            simp only []
            rw [if_neg hn, if_neg hh]
            exact cookieLoop_outer k separator name (by simpa using hsep) _ _ _ 0 (by omega)

/-- Witness of C28: with room for two active calls the header `sid=a=b=c=d=e`, with
five equals signs, is handled at nesting depth one, and the call with the
separator `=` on `sid=abc` returns with room for one call. -/
theorem get_cookie_value_nesting_witness :
    get_cookie_value_rec 2 ";".toList (some "sid".toList) (some "sid=a=b=c=d=e".toList) =
      some (AM_SUCCESS, some "a=b=c=d=e".toList, 1) ∧
    get_cookie_value_rec 1 "=".toList (some "sid".toList) (some "sid=abc".toList) =
      some (AM_SUCCESS, some "abc".toList, 0) ∧
    (∃ d, d ≤ 1 ∧ get_cookie_value_rec 2 ";".toList (some "sid".toList)
        (some "sid=a=b=c=d=e".toList) =
      some ((get_cookie_value ";".toList (some "sid".toList)
          (some "sid=a=b=c=d=e".toList)).1,
        (get_cookie_value ";".toList (some "sid".toList) (some "sid=a=b=c=d=e".toList)).2,
        d)) :=
  ⟨by decide, by decide,
    (get_cookie_value_nesting 2 ";".toList (some "sid".toList)
      (some "sid=a=b=c=d=e".toList) (by decide)).1⟩

/-! ## Session token decoder: the c66 step and the markers -/

theorem c66decode_length : ∀ (l : List Char) (first : Bool),
    (c66decode first l).length = l.length := by
  intro l
  induction l with
  | nil => intro first; rfl
  | cons x xs ih =>
    intro first
    unfold c66decode
    split_ifs <;> simp [ih]

/-- The c66 loop position by position: `off` is the position of the head of `l`
in the token, and `fs` the position of the first asterisk of the token, which is
still ahead when `first` is set and has been passed when it is not. -/
theorem c66decode_getElem : ∀ (l : List Char) (first : Bool) (off fs : Nat),
    (first = true → fs = off + l.indexOf '*') → (first = false → fs < off) →
    ∀ (i : Nat) (c : Char), l[i]? = some c →
      (c66decode first l)[i]? = some (c66Char fs (off + i) c) := by
  intro l
  induction l with
  | nil => intro first off fs _ _ i c h; simp at h
  | cons x xs ih =>
    intro first off fs h1 h2 i c h
    have hidx : x ≠ '*' → (x :: xs).indexOf '*' = xs.indexOf '*' + 1 := by
      intro hx
      simp [List.indexOf_cons, hx]
    have hstep : ∀ (first2 : Bool), (first2 = true → first = true ∧ x ≠ '*') →
        (first2 = false → first = false ∨ x = '*') →
        ∀ j, xs[j]? = some c → (c66decode first2 xs)[j]? = some (c66Char fs (off + (j + 1)) c) := by
      intro first2 a1 a2 j hj
      have := ih first2 (off + 1) fs (by
        intro hf
        obtain ⟨b1, b2⟩ := a1 hf
        rw [h1 b1, hidx b2]
        omega) (by
        intro hf
        rcases a2 hf with b | b
        · have := h2 b
          omega
        · cases hfirst : first with
          | true =>
            rw [h1 hfirst, b, List.indexOf_cons_self]
            omega
          | false =>
            have := h2 hfirst
            omega) j c hj
      rw [this]
      congr 2
      omega
    cases i with
    | zero =>
      simp only [List.getElem?_cons_zero, Option.some.injEq] at h
      subst h
      unfold c66decode c66Char
      by_cases e1 : x = '-'
      · rw [if_pos e1, if_pos e1]
        simp
      · rw [if_neg e1, if_neg e1]
        by_cases e2 : x = '_'
        · rw [if_pos e2, if_pos e2]
          simp
        · rw [if_neg e2, if_neg e2]
          by_cases e3 : x = '.'
          · rw [if_pos e3, if_pos e3]
            simp
          · rw [if_neg e3, if_neg e3]
            by_cases e4 : x = '*'
            · rw [if_pos e4, if_pos e4]
              cases hfirst : first with
              | true =>
                rw [if_pos rfl, if_pos (by
                  rw [h1 hfirst, e4, List.indexOf_cons_self])]
                simp
              | false =>
                have := h2 hfirst
                rw [if_neg (by simp), if_neg (by omega)]
                simp
            · rw [if_neg e4, if_neg e4]
              simp
    | succ j =>
      simp only [List.getElem?_cons_succ] at h
      unfold c66decode
      by_cases e1 : x = '-'
      · rw [if_pos e1, List.getElem?_cons_succ]
        exact hstep first (fun hf => ⟨hf, by rw [e1]; decide⟩) (fun hf => Or.inl hf) j h
      · rw [if_neg e1]
        by_cases e2 : x = '_'
        · rw [if_pos e2, List.getElem?_cons_succ]
          exact hstep first (fun hf => ⟨hf, by rw [e2]; decide⟩) (fun hf => Or.inl hf) j h
        · rw [if_neg e2]
          by_cases e3 : x = '.'
          · rw [if_pos e3, List.getElem?_cons_succ]
            exact hstep first (fun hf => ⟨hf, by rw [e3]; decide⟩) (fun hf => Or.inl hf) j h
          · rw [if_neg e3]
            by_cases e4 : x = '*'
            · rw [if_pos e4]
              cases hfirst : first with
              | true =>
                rw [if_pos rfl, List.getElem?_cons_succ]
                exact hstep false (fun hf => by cases hf) (fun _ => Or.inr e4) j h
              | false =>
                rw [if_neg (by simp), List.getElem?_cons_succ]
                exact hstep false (fun hf => by cases hf) (fun _ => Or.inr e4) j h
            · rw [if_neg e4, List.getElem?_cons_succ]
              exact hstep first (fun hf => ⟨hf, e4⟩) (fun hf => Or.inl hf) j h

/-- C29: the c66 step of `am_session_decode` keeps the length of the token; when
the token has an asterisk, each position holds `+` for `-`, `/` for `_`, `=` for
`.`, `@` at the first asterisk, `#` at every later asterisk, and the input
character everywhere else; when it has none, the token is left as it is, its
`-`, `_` and `.` included. -/
theorem sessionToken_positions (t : List Char) :
    (sessionToken t).length = t.length ∧
    ('*' ∈ t → ∀ (i : Nat) (c : Char), t[i]? = some c →
      (sessionToken t)[i]? = some (c66Char (t.indexOf '*') i c)) ∧
    ('*' ∉ t → sessionToken t = t) := by
  unfold sessionToken
  refine ⟨?_, fun hm i c h => ?_, fun hm => ?_⟩
  · split_ifs
    · exact c66decode_length t true
    · rfl
  · rw [if_pos (by simpa using hm)]
    have := c66decode_getElem t true 0 (t.indexOf '*') (fun _ => by omega)
      (fun hf => by cases hf) i c h
    rw [this]
    congr 2
    omega
  · rw [if_neg (by simpa using hm)]

/-- Witness of C29: `a-b_c.d*e*f*` becomes `a+b/c=d@e#f#`, and `a-b_c.d`, which has
no asterisk, stays as it is. -/
theorem sessionToken_positions_witness :
    sessionToken "a-b_c.d*e*f*".toList = "a+b/c=d@e#f#".toList ∧
    sessionToken "a-b_c.d".toList = "a-b_c.d".toList ∧
    (sessionToken "a-b_c.d*e*f*".toList)[9]? =
      some (c66Char ("a-b_c.d*e*f*".toList.indexOf '*') 9 '*') :=
  ⟨by decide, (sessionToken_positions "a-b_c.d".toList).2.2 (by decide),
    (sessionToken_positions "a-b_c.d*e*f*".toList).2.1 (by decide) 9 '*' (by decide)⟩

theorem dropWhile_at (m : Char) (pre post : List Char) (hpre : m ∉ pre) :
    (pre ++ m :: post).dropWhile (fun c => c != m) = m :: post := by
  induction pre with
  | nil =>
    rw [List.nil_append, List.dropWhile_cons_of_neg]
    simp
  | cons x xs ih =>
    have hx : x ≠ m := fun h0 => hpre (by rw [h0]; exact List.mem_cons_self _ _)
    rw [List.cons_append, List.dropWhile_cons_of_pos (by simpa using hx)]
    exact ih (fun h0 => hpre (List.mem_cons_of_mem _ h0))

/-- The token has no span to decode when it has no `@`, no `#` after its first
`@`, or a `#` right after its first `@`. -/
theorem sessionSpan_none (tok : List Char)
    (h : '@' ∉ tok ∨
      (∃ pre post, tok = pre ++ '@' :: post ∧ '@' ∉ pre ∧ '#' ∉ post) ∨
      (∃ pre post, tok = pre ++ '@' :: '#' :: post ∧ '@' ∉ pre)) :
    sessionSpan tok = none := by
  unfold sessionSpan
  rcases h with h | ⟨pre, post, h1, h2, h3⟩ | ⟨pre, post, h1, h2⟩
  · have : tok.dropWhile (fun c => c != '@') = [] := by
      rw [List.dropWhile_eq_nil_iff]
      intro c hc
      simp only [bne_iff_ne, ne_eq, decide_eq_true_eq]
      intro h0
      exact h (h0 ▸ hc)
    rw [this]
  · rw [h1, dropWhile_at '@' pre post h2]
    simp only []
    have : post.dropWhile (fun c => c != '#') = [] := by
      rw [List.dropWhile_eq_nil_iff]
      intro c hc
      simp only [bne_iff_ne, ne_eq, decide_eq_true_eq]
      intro h0
      exact h3 (h0 ▸ hc)
    rw [this]
    rfl
  · rw [h1, dropWhile_at '@' pre ('#' :: post) h2]
    simp only []
    rw [List.dropWhile_cons_of_neg (by simp), List.takeWhile_cons_of_neg (by simp)]
    rfl

/-- C30: for every non-empty token that after the c66 step has no `@`, or has no
`#` after its first `@`, or has a `#` right after its first `@`,
`am_session_decode` returns `AM_SUCCESS` with `si`, `sk` and `s1` NULL and
`session_info.error` zero (`AM_SUCCESS`), whatever the heap holds and without
running the record loop. -/
theorem am_session_decode_no_span (heap : Nat → Nat) (fuel : Nat) (t : List Char)
    (hne : t ≠ [])
    (h : '@' ∉ sessionToken t ∨
      (∃ pre post, sessionToken t = pre ++ '@' :: post ∧ '@' ∉ pre ∧ '#' ∉ post) ∨
      (∃ pre post, sessionToken t = pre ++ '@' :: '#' :: post ∧ '@' ∉ pre)) :
    am_session_decode heap fuel (some t) =
      some (AM_SUCCESS, ⟨none, none, none, AM_SUCCESS⟩) := by
  unfold am_session_decode
  simp only []
  rw [if_neg (by simpa using hne), sessionSpan_none _ h]
  rfl

/-- Witness of C30: the token `x**y` becomes `x@#y` in the c66 step, with the `#`
right after the `@`; the tokens `abc` and `@abc` have no `@` and no `#`. -/
theorem am_session_decode_no_span_witness :
    sessionToken "x**y".toList = "x@#y".toList ∧
    am_session_decode (fun _ => 0) 0 (some "x**y".toList) =
      some (AM_SUCCESS, ⟨none, none, none, AM_SUCCESS⟩) ∧
    am_session_decode (fun _ => 0) 0 (some "abc".toList) =
      some (AM_SUCCESS, ⟨none, none, none, AM_SUCCESS⟩) ∧
    am_session_decode (fun _ => 0) 0 (some "@abc".toList) =
      some (AM_SUCCESS, ⟨none, none, none, AM_SUCCESS⟩) :=
  ⟨by decide,
    am_session_decode_no_span (fun _ => 0) 0 "x**y".toList (by decide)
      (Or.inr (Or.inr ⟨"x".toList, "y".toList, by decide, by decide⟩)),
    am_session_decode_no_span (fun _ => 0) 0 "abc".toList (by decide) (Or.inl (by decide)),
    am_session_decode_no_span (fun _ => 0) 0 "@abc".toList (by decide)
      (Or.inr (Or.inl ⟨[], "abc".toList, by decide, by decide, by decide⟩))⟩

/-! ## Session token decoder: status, unrecognised tags and declared tag lengths -/

theorem be16_eq (n : Nat) (hn : n < 65536) :
    (n % 256 ||| (n / 256) <<< 8) % 2 ^ 16 = n := by
  rw [Nat.lor_comm, shift_or_eq _ _ 8 (by norm_num; omega)]
  norm_num
  omega

/-- A tag record is accepted on its first two body bytes, whatever its declared
length. -/
theorem walkStep_tag_len (payload : List Nat) (heap : Nat → Nat) (l raw nv : Nat)
    (ty : session_type) (info : am_session_info) (reads : List (Nat × Nat))
    (a b : Nat) (t : session_type) (ht : t ≠ AM_NA) (hnv : nv % 2 = 0)
    (h0 : bufByte payload heap raw = a) (h1 : bufByte payload heap (raw + 1) = b)
    (h2 : bufBytes payload heap (raw + 2) 2 = tagBytes t) :
    walkStep payload heap ⟨l, raw, nv, ty, info, reads⟩ =
      (⟨sizeSub (sizeSub l 2) ((b ||| a <<< 8) % 2 ^ 16),
        raw + 2 + (b ||| a <<< 8) % 2 ^ 16, nv + 1, t, info,
        reads ++ [(raw, 2)] ++ [(raw + 2, 2)]⟩, true) := by
  unfold walkStep
  simp only [h0, h1, h2, hnv, if_true]
  cases t with
  | AM_NA => exact absurd rfl ht
  | AM_SI => rfl
  | AM_SK => rfl
  | AM_S1 => rfl

/-- A record in tag position whose first two body bytes are no tag ends the loop. -/
theorem walkStep_unknown (payload : List Nat) (heap : Nat → Nat) (l raw nv : Nat)
    (ty : session_type) (info : am_session_info) (reads : List (Nat × Nat))
    (hnv : nv % 2 = 0)
    (hSI : bufBytes payload heap (raw + 2) 2 ≠ tagBytes AM_SI)
    (hSK : bufBytes payload heap (raw + 2) 2 ≠ tagBytes AM_SK)
    (hS1 : bufBytes payload heap (raw + 2) 2 ≠ tagBytes AM_S1) :
    walkStep payload heap ⟨l, raw, nv, ty, info, reads⟩ =
      (⟨sizeSub l 2, raw + 2, nv, ty, info, reads ++ [(raw, 2)] ++ [(raw + 2, 2)]⟩, false) := by
  unfold walkStep
  simp only [hnv, if_true]
  have e1 : List.map Char.toNat "SI".toList = tagBytes AM_SI := rfl
  have e2 : List.map Char.toNat "SK".toList = tagBytes AM_SK := rfl
  have e3 : List.map Char.toNat "S1".toList = tagBytes AM_S1 := rfl
  rw [e1, e2, e3, if_neg hSI, if_neg hSK, if_neg hS1]

/-- The record loop on a tag record whose body starts with a tag and goes on with
`extra`, followed by a value record: two iterations store the value in the field
of the tag. -/
theorem walkLoop_record_pair (heap : Nat → Nat) (pre extra v post : List Nat)
    (t : session_type) (ht : t ≠ AM_NA) (hb : 2 + extra.length < 65536)
    (hv : v.length < 65536) (hl : 6 + extra.length + v.length + post.length < 2 ^ 64)
    (nv : Nat) (hnv : nv % 2 = 0) (ty : session_type) (info : am_session_info)
    (reads : List (Nat × Nat)) (f : Nat) :
    ∃ reads2,
      walkLoop (pre ++ (encodeRecord (tagBytes t ++ extra) ++ (encodeRecord v ++ post))) heap
          (f + 2) ⟨6 + extra.length + v.length + post.length, pre.length, nv, ty, info, reads⟩ =
        walkLoop (pre ++ (encodeRecord (tagBytes t ++ extra) ++ (encodeRecord v ++ post))) heap f
          ⟨post.length, pre.length + (6 + extra.length + v.length), nv + 2, t,
            setField info (t, v), reads2⟩ := by
  obtain ⟨_, ltag⟩ := tagBytes_spec t ht
  have hn : (tagBytes t ++ extra).length = 2 + extra.length := by
    rw [List.length_append, ltag]
  have hpay : encodeRecord (tagBytes t ++ extra) ++ (encodeRecord v ++ post) =
      (2 + extra.length) / 256 :: (2 + extra.length) % 256 :: (tagBytes t ++ (extra ++
        (v.length / 256 :: v.length % 256 :: (v ++ post)))) := by
    simp [encodeRecord, hn]
  rw [hpay]
  have a0 : bufByte (pre ++ (2 + extra.length) / 256 :: (2 + extra.length) % 256 ::
      (tagBytes t ++ (extra ++ (v.length / 256 :: v.length % 256 :: (v ++ post))))) heap
      pre.length = (2 + extra.length) / 256 := bufByte_head _ _ _ _
  have a1 : bufByte (pre ++ (2 + extra.length) / 256 :: (2 + extra.length) % 256 ::
      (tagBytes t ++ (extra ++ (v.length / 256 :: v.length % 256 :: (v ++ post))))) heap
      (pre.length + 1) = (2 + extra.length) % 256 := by
    have := bufByte_head (pre ++ [(2 + extra.length) / 256]) ((2 + extra.length) % 256)
      (tagBytes t ++ (extra ++ (v.length / 256 :: v.length % 256 :: (v ++ post)))) heap
    simpa using this
  have a2 : bufBytes (pre ++ (2 + extra.length) / 256 :: (2 + extra.length) % 256 ::
      (tagBytes t ++ (extra ++ (v.length / 256 :: v.length % 256 :: (v ++ post))))) heap
      (pre.length + 2) 2 = tagBytes t := by
    have := bufBytes_head (pre ++ [(2 + extra.length) / 256, (2 + extra.length) % 256])
      (tagBytes t) (extra ++ (v.length / 256 :: v.length % 256 :: (v ++ post))) heap
    rw [ltag] at this
    simpa using this
  have s1 := walkStep_tag_len _ heap (6 + extra.length + v.length + post.length) pre.length nv
    ty info reads _ _ t ht hnv a0 a1 a2
  rw [be16_eq _ hb] at s1
  have i1 : sizeSub (6 + extra.length + v.length + post.length) 2 =
      4 + extra.length + v.length + post.length := by
    rw [sizeSub_eq _ _ (by omega) hl]
    omega
  have l1 : sizeSub (sizeSub (6 + extra.length + v.length + post.length) 2)
      (2 + extra.length) = 2 + v.length + post.length := by
    rw [i1, sizeSub_eq _ _ (by omega) (by omega)]
    omega
  rw [l1] at s1
  rw [walkLoop_continue _ _ _ _ _ (by simp only []; omega) s1]
  have b0 : bufByte (pre ++ (2 + extra.length) / 256 :: (2 + extra.length) % 256 ::
      (tagBytes t ++ (extra ++ (v.length / 256 :: v.length % 256 :: (v ++ post))))) heap
      (pre.length + 2 + (2 + extra.length)) = v.length / 256 := by
    have := bufByte_head (pre ++ (2 + extra.length) / 256 :: (2 + extra.length) % 256 ::
      (tagBytes t ++ extra)) (v.length / 256) (v.length % 256 :: (v ++ post)) heap
    simp only [List.length_append, List.length_cons, ltag, List.append_assoc,
      List.cons_append] at this
    rw [show pre.length + 2 + (2 + extra.length) = pre.length + (2 + extra.length + 1 + 1) by
      omega]
    exact this
  have b1 : bufByte (pre ++ (2 + extra.length) / 256 :: (2 + extra.length) % 256 ::
      (tagBytes t ++ (extra ++ (v.length / 256 :: v.length % 256 :: (v ++ post))))) heap
      (pre.length + 2 + (2 + extra.length) + 1) = v.length % 256 := by
    have := bufByte_head (pre ++ (2 + extra.length) / 256 :: (2 + extra.length) % 256 ::
      (tagBytes t ++ (extra ++ [v.length / 256]))) (v.length % 256) (v ++ post) heap
    simp only [List.length_append, List.length_cons, ltag, List.append_assoc,
      List.cons_append, List.length_nil, List.nil_append] at this
    rw [show pre.length + 2 + (2 + extra.length) + 1 =
      pre.length + (2 + (extra.length + (0 + 1)) + 1 + 1) by omega]
    exact this
  have b2 : bufBytes (pre ++ (2 + extra.length) / 256 :: (2 + extra.length) % 256 ::
      (tagBytes t ++ (extra ++ (v.length / 256 :: v.length % 256 :: (v ++ post))))) heap
      (pre.length + 2 + (2 + extra.length) + 2) v.length = v := by
    have := bufBytes_head (pre ++ (2 + extra.length) / 256 :: (2 + extra.length) % 256 ::
      (tagBytes t ++ (extra ++ [v.length / 256, v.length % 256]))) v post heap
    simp only [List.length_append, List.length_cons, ltag, List.append_assoc,
      List.cons_append, List.length_nil, List.nil_append] at this
    rw [show pre.length + 2 + (2 + extra.length) + 2 =
      pre.length + (2 + (extra.length + (0 + 1 + 1)) + 1 + 1) by omega]
    exact this
  have s2 := walkStep_value _ heap (2 + v.length + post.length)
    (pre.length + 2 + (2 + extra.length)) (nv + 1) info
    (reads ++ [(pre.length, 2)] ++ [(pre.length + 2, 2)]) t ht (by omega) v hv b0 b1 b2
  have i2 : sizeSub (2 + v.length + post.length) 2 = v.length + post.length := by
    rw [sizeSub_eq _ _ (by omega) (by omega)]
    omega
  have l2 : sizeSub (sizeSub (2 + v.length + post.length) 2) v.length = post.length := by
    rw [i2, sizeSub_eq _ _ (by omega) (by omega)]
    omega
  rw [l2] at s2
  rw [walkLoop_continue _ _ _ _ _ (by simp only []; omega) s2]
  rw [show pre.length + 2 + (2 + extra.length) + 2 + v.length =
    pre.length + (6 + extra.length + v.length) by omega]
  exact ⟨_, rfl⟩

/-- The record loop on a payload that continues with the records of `ps` and then
with `tail`: two iterations per pair set the field of each pair in turn and
leave the loop at the first byte of `tail`. -/
theorem walkLoop_pairs_tail (heap : Nat → Nat) : ∀ (ps : List (session_type × List Nat))
    (pre tail : List Nat) (nv : Nat) (ty : session_type) (info : am_session_info)
    (reads : List (Nat × Nat)) (f : Nat),
    nv % 2 = 0 → (encodePairs ps).length + tail.length < 2 ^ 64 →
    (∀ p ∈ ps, p.1 ≠ AM_NA ∧ p.2.length < 65536) →
    ∃ (nv2 : Nat) (ty2 : session_type) (reads2 : List (Nat × Nat)), nv2 % 2 = 0 ∧
      walkLoop (pre ++ (encodePairs ps ++ tail)) heap (2 * ps.length + f)
          ⟨(encodePairs ps).length + tail.length, pre.length, nv, ty, info, reads⟩ =
        walkLoop (pre ++ (encodePairs ps ++ tail)) heap f
          ⟨tail.length, pre.length + (encodePairs ps).length, nv2, ty2,
            ps.foldl setField info, reads2⟩ := by
  intro ps
  induction ps with
  | nil =>
    intro pre tail nv ty info reads f hnv _ _
    exact ⟨nv, ty, reads, hnv, by simp [encodePairs]⟩
  | cons p ps ih =>
    intro pre tail nv ty info reads f hnv hlen hp
    obtain ⟨t, v⟩ := p
    obtain ⟨ht, hv⟩ := hp (t, v) (List.mem_cons_self _ _)
    simp only [] at ht hv
    obtain ⟨_, ltag⟩ := tagBytes_spec t ht
    have hpay : encodePairs ((t, v) :: ps) =
        encodeRecord (tagBytes t ++ []) ++ (encodeRecord v ++ encodePairs ps) := by
      show encodeRecord (tagBytes t) ++ encodeRecord v ++ encodePairs ps = _
      rw [List.append_nil, List.append_assoc]
    have hL : (encodePairs ((t, v) :: ps)).length = 6 + v.length + (encodePairs ps).length := by
      rw [hpay]
      simp only [encodeRecord, List.length_cons, List.length_append, ltag, List.length_nil]
      omega
    obtain ⟨r1, h1⟩ := walkLoop_record_pair heap pre [] v (encodePairs ps ++ tail) t ht
      (by simp) hv (by
        rw [hL] at hlen
        simp only [List.length_nil, List.length_append]
        omega) nv hnv ty info reads (2 * ps.length + f)
    have hpre : pre ++ (encodePairs ((t, v) :: ps) ++ tail) =
        pre ++ (encodeRecord (tagBytes t ++ []) ++ (encodeRecord v ++ (encodePairs ps ++ tail))) := by
      rw [hpay]
      simp only [List.append_assoc]
    have hl0 : (encodePairs ((t, v) :: ps)).length + tail.length =
        6 + ([] : List Nat).length + v.length + (encodePairs ps ++ tail).length := by
      rw [hL]
      simp only [List.length_nil, List.length_append]
      omega
    have hfuel : 2 * ((t, v) :: ps).length + f = 2 * ps.length + f + 2 := by
      simp only [List.length_cons]
      omega
    rw [hpre, hl0, hfuel, h1]
    have hpre2 : pre ++ (encodeRecord (tagBytes t ++ []) ++ (encodeRecord v ++
        (encodePairs ps ++ tail))) =
        (pre ++ (encodeRecord (tagBytes t ++ []) ++ encodeRecord v)) ++
          (encodePairs ps ++ tail) := by
      simp only [List.append_assoc]
    have hraw : pre.length + (6 + ([] : List Nat).length + v.length) =
        (pre ++ (encodeRecord (tagBytes t ++ []) ++ encodeRecord v)).length := by
      simp only [encodeRecord, List.length_cons, List.length_append, ltag, List.length_nil]
      omega
    obtain ⟨nv2, ty2, r2, hnv2, h2⟩ := ih (pre ++ (encodeRecord (tagBytes t ++ []) ++
      encodeRecord v)) tail (nv + 2) t (setField info (t, v)) r1 f (by omega)
      (by rw [hL] at hlen; omega) (fun q hq => hp q (List.mem_cons_of_mem _ hq))
    refine ⟨nv2, ty2, r2, hnv2, ?_⟩
    rw [hpre2, hraw, @List.length_append _ (encodePairs ps) tail, h2, List.foldl_cons]
    congr 2
    simp only [encodeRecord, List.length_cons, List.length_append, ltag, List.length_nil, hL]
    omega

/-- The token made of an at sign, the standard base64 of `payload` and a hash sign
is decoded by walking `payload`. -/
theorem am_session_decode_payload (heap : Nat → Nat) (fuel : Nat) (payload : List Nat)
    (hne : payload ≠ []) (hb : ∀ b ∈ payload, b < 256) :
    am_session_decode heap fuel (some ('@' :: (stdBase64 payload ++ ['#']))) =
      (sessionWalk payload heap fuel).map (fun s => (AM_SUCCESS, s.info)) := by
  have hmem := stdBase64_mem _ payload rfl
  have hne2 : stdBase64 payload ≠ [] := fun h0 => hne (stdBase64_eq_nil _ h0)
  unfold am_session_decode
  simp only []
  rw [if_neg (by simp), sessionToken_pairsToken _ hmem, sessionSpan_pairsToken _ hne2 hmem]
  simp only []
  rw [base64_decode_stdBase64 _ hb []]

/-- C31: `am_session_decode` does fail, with `AM_EINVAL`, when the token is NULL or
empty.  For a non-empty token the only status it returns is `AM_SUCCESS`: a run
whose record loop has ended within `fuel` iterations returned `AM_SUCCESS`, and
when the token has no span to decode (no `@`) the call returns `AM_SUCCESS` with
every field absent without entering the loop. -/
theorem am_session_decode_status (heap : Nat → Nat) (fuel : Nat) (t : List Char)
    (hne : t ≠ []) :
    am_session_decode heap fuel none = some (AM_EINVAL, emptyInfo) ∧
    am_session_decode heap fuel (some []) = some (AM_EINVAL, emptyInfo) ∧
    (∀ res, am_session_decode heap fuel (some t) = some res → res.1 = AM_SUCCESS) ∧
    ('@' ∉ sessionToken t →
      am_session_decode heap fuel (some t) = some (AM_SUCCESS, ⟨none, none, none, AM_SUCCESS⟩)) := by
  refine ⟨rfl, rfl, ?_, ?_⟩
  · intro res h
    unfold am_session_decode at h
    simp only [] at h
    rw [if_neg (by simpa using hne)] at h
    cases hs : sessionSpan (sessionToken t) with
    | none =>
      rw [hs] at h
      simp only [Option.some.injEq] at h
      rw [← h]
    | some span =>
      rw [hs] at h
      simp only [] at h
      cases hw : sessionWalk (base64_decode span) heap fuel with
      | none =>
        rw [hw] at h
        cases h
      | some s =>
        rw [hw] at h
        simp only [Option.map_some', Option.some.injEq] at h
        rw [← h]
  · intro hat
    unfold am_session_decode
    simp only []
    rw [if_neg (by simpa using hne), sessionSpan_none _ (Or.inl hat)]
    rfl

/-- Witness of C31: the token `abc` has no `@` and gives `AM_SUCCESS` with no field. -/
theorem am_session_decode_status_witness :
    am_session_decode (fun _ => 0) 0 (some "abc".toList) =
      some (AM_SUCCESS, ⟨none, none, none, AM_SUCCESS⟩) :=
  (am_session_decode_status (fun _ => 0) 0 "abc".toList (by decide)).2.2.2 (by decide)

/-- Counterexample to C31 as stated: on the empty token `am_session_decode` returns
`AM_EINVAL`, not `AM_SUCCESS`. -/
theorem am_session_decode_status_counterexample :
    am_session_decode (fun _ => 0) 0 (some []) = some (AM_EINVAL, emptyInfo) ∧
    AM_EINVAL ≠ AM_SUCCESS := by
  decide

/-- C32: when the decoded payload is a sequence of well-formed (tag, value) record
pairs with tags among `SI`, `SK`, `S1`, followed by a record in tag position
with length bytes `a`, `b` whose first two body bytes `c`, `d` are none of `SI`, `SK`,
`S1`, and then by any bytes `rest`, `am_session_decode` returns `AM_SUCCESS` with
the fields set by the pairs in turn, whatever `rest` and the heap hold, as soon
as the loop may run twice per pair and once more. -/
theorem am_session_decode_unknown_tag (pairs : List (session_type × List Nat))
    (a b c d : Nat) (rest : List Nat)
    (htag : ∀ p ∈ pairs, p.1 ≠ AM_NA)
    (hval : ∀ p ∈ pairs, p.2.length < 65536 ∧ ∀ x ∈ p.2, x < 256)
    (hbytes : ∀ x ∈ a :: b :: c :: d :: rest, x < 256)
    (hunk : [c, d] ≠ tagBytes AM_SI ∧ [c, d] ≠ tagBytes AM_SK ∧ [c, d] ≠ tagBytes AM_S1)
    (hlen : (encodePairs pairs).length + (a :: b :: c :: d :: rest).length < 2 ^ 64)
    (heap : Nat → Nat) (fuel : Nat) (hfuel : 2 * pairs.length + 1 ≤ fuel) :
    am_session_decode heap fuel
        (some ('@' :: (stdBase64 (encodePairs pairs ++ a :: b :: c :: d :: rest) ++ ['#']))) =
      some (AM_SUCCESS, pairs.foldl setField emptyInfo) := by
  have hall : ∀ p ∈ pairs, p.1 ≠ AM_NA ∧ p.2.length < 65536 ∧ ∀ b ∈ p.2, b < 256 :=
    fun p hp => ⟨htag p hp, (hval p hp).1, (hval p hp).2⟩
  have hb : ∀ x ∈ encodePairs pairs ++ a :: b :: c :: d :: rest, x < 256 := by
    intro x hx
    rcases List.mem_append.1 hx with h | h
    · exact encodePairs_bytes pairs hall x h
    · exact hbytes x h
  rw [am_session_decode_payload heap fuel _ (by simp) hb]
  obtain ⟨f, rfl⟩ : ∃ f, fuel = 2 * pairs.length + (f + 1) :=
    ⟨fuel - (2 * pairs.length + 1), by omega⟩
  obtain ⟨nv2, ty2, r2, hnv2, h2⟩ := walkLoop_pairs_tail heap pairs [] (a :: b :: c :: d :: rest)
    0 AM_NA emptyInfo [] (f + 1) rfl hlen (fun p hp => ⟨htag p hp, (hval p hp).1⟩)
  unfold sessionWalk
  rw [List.length_append, Nat.mod_eq_of_lt hlen]
  simp only [List.nil_append, List.length_nil, Nat.zero_add] at h2
  rw [h2]
  have htagb : bufBytes (encodePairs pairs ++ a :: b :: c :: d :: rest) heap
      ((encodePairs pairs).length + 2) 2 = [c, d] := by
    have := bufBytes_head (encodePairs pairs ++ [a, b]) [c, d] rest heap
    simpa using this
  have hstep := walkStep_unknown (encodePairs pairs ++ a :: b :: c :: d :: rest) heap
    (a :: b :: c :: d :: rest).length (encodePairs pairs).length nv2 ty2
    (pairs.foldl setField emptyInfo) r2 hnv2 (by rw [htagb]; exact hunk.1)
    (by rw [htagb]; exact hunk.2.1) (by rw [htagb]; exact hunk.2.2)
  rw [walkLoop_break _ _ _ _ _ (by simp) hstep]
  rfl

/-- Witness of C32: the pair (`SI`, `abc`), a record `XY` in tag position and the
bytes `00 02 'S' 'K' 00 01 'k'` after it. -/
theorem am_session_decode_unknown_tag_witness :
    am_session_decode (fun _ => 0) 3
        (some ('@' :: (stdBase64 (encodePairs [(AM_SI, [97, 98, 99])] ++
          0 :: 2 :: 88 :: 89 :: [0, 2, 83, 75, 0, 1, 107]) ++ ['#']))) =
      some (AM_SUCCESS, [(AM_SI, [97, 98, 99])].foldl setField emptyInfo) :=
  am_session_decode_unknown_tag [(AM_SI, [97, 98, 99])] 0 2 88 89 [0, 2, 83, 75, 0, 1, 107]
    (by decide) (by decide) (by decide) (by decide) (by decide) (fun _ => 0) 3 (by decide)

/-- C36 (fails on the code): the declared length of a record in tag position is
never compared with 2.  A tag record whose body is a tag followed by any bytes
`extra` is accepted as that tag, and the value record after it is stored in the
field of the tag. -/
theorem am_session_decode_tag_length_unchecked (t : session_type) (ht : t ≠ AM_NA)
    (extra v : List Nat) (hb : 2 + extra.length < 65536) (hv : v.length < 65536)
    (hbytes : ∀ x ∈ extra ++ v, x < 256)
    (heap : Nat → Nat) (fuel : Nat) (hfuel : 2 ≤ fuel) :
    am_session_decode heap fuel
        (some ('@' :: (stdBase64 (encodeRecord (tagBytes t ++ extra) ++ encodeRecord v) ++
          ['#']))) =
      some (AM_SUCCESS, setField emptyInfo (t, v)) := by
  obtain ⟨_, ltag⟩ := tagBytes_spec t ht
  have hn : (tagBytes t ++ extra).length = 2 + extra.length := by
    rw [List.length_append, ltag]
  have hbb : ∀ x ∈ encodeRecord (tagBytes t ++ extra) ++ encodeRecord v, x < 256 := by
    intro x hx
    simp only [encodeRecord, List.cons_append, List.mem_cons, List.mem_append] at hx
    rcases hx with h | h | (h | h) | h | h | h
    · rw [hn] at h
      omega
    · omega
    · exact tagBytes_lt _ x h
    · exact hbytes x (List.mem_append_left _ h)
    · omega
    · omega
    · exact hbytes x (List.mem_append_right _ h)
  rw [am_session_decode_payload heap fuel _ (by simp [encodeRecord]) hbb]
  obtain ⟨f, rfl⟩ : ∃ f, fuel = f + 2 := ⟨fuel - 2, by omega⟩
  obtain ⟨r2, h2⟩ := walkLoop_record_pair heap [] extra v [] t ht hb hv (by
    simp only [List.length_nil]
    omega) 0 rfl AM_NA emptyInfo [] f
  have hL : (encodeRecord (tagBytes t ++ extra) ++ encodeRecord v).length =
      6 + extra.length + v.length := by
    simp only [encodeRecord, List.length_cons, List.length_append, ltag]
    omega
  unfold sessionWalk
  rw [hL, Nat.mod_eq_of_lt (by omega)]
  simp only [List.nil_append, List.length_nil, Nat.add_zero, List.append_nil, Nat.zero_add]
    at h2
  rw [h2, walkLoop_done _ _ _ _ rfl]
  rfl

/-- Witness of C36: the tag record of declared length 3 with body `SIx`, followed
by the value record `v`, makes the token `@AANTSXgAAXY=#`; the call stores `v` in
`si`. -/
theorem am_session_decode_tag_length_unchecked_witness :
    '@' :: (stdBase64 (encodeRecord (tagBytes AM_SI ++ [120]) ++ encodeRecord [118]) ++ ['#']) =
      "@AANTSXgAAXY=#".toList ∧
    encodeRecord (tagBytes AM_SI ++ [120]) ++ encodeRecord [118] =
      [0, 3, 83, 73, 120, 0, 1, 118] ∧
    am_session_decode (fun _ => 0) 2
        (some ('@' :: (stdBase64 (encodeRecord (tagBytes AM_SI ++ [120]) ++
          encodeRecord [118]) ++ ['#']))) =
      some (AM_SUCCESS, setField emptyInfo (AM_SI, [118])) :=
  ⟨by decide, by decide,
    am_session_decode_tag_length_unchecked AM_SI (by decide) [120] [118] (by decide)
      (by decide) (by decide) (fun _ => 0) 2 (by decide)⟩

/-! ## URL parser: double-dot segments -/

theorem url_decode_cons (c : Char) (l : List Char) (h1 : c ≠ '%') (h2 : c ≠ '+')
    (h3 : c ≠ NUL) : url_decode (c :: l) = c :: url_decode l := by
  unfold url_decode
  have e : url_decode_bytes (c :: l) = c :: url_decode_bytes l := by
    rw [url_decode_bytes]
    · rw [if_neg h2]
    · intro a b r h _
      exact h1 h
  rw [e]
  unfold cstr
  rw [List.takeWhile_cons_of_pos (by simpa using h3)]

/-- The scanned variables of a URL made of a scheme, a host and a path text. -/
theorem scanUrl_path_text (sz : Sizes) (s h P : List Char)
    (hs1 : s ≠ []) (hs2 : s.length ≤ sz.AM_PROTO_SIZE) (hs3 : ∀ c ∈ s, inProtoSet c = true)
    (hh1 : h ≠ []) (hh2 : h.length ≤ sz.AM_HOST_SIZE) (hh3 : ∀ c ∈ h, inHostSet c = true)
    (hP : ∀ c ∈ P, isspace c = false) (hlen : P.length ≤ sz.AM_URI_SIZE) :
    scanUrl sz (s ++ ("://".toList ++ (h ++ '/' :: P))) = some ⟨s, h, 0, P⟩ := by
  rw [scanUrl_eq, headParts_exact sz s h ('/' :: P) hs1 hs2 hs3 hh1 hh2 hh3 (by
    intro x hx
    simp only [List.head?_cons, Option.mem_def, Option.some.injEq] at hx
    subst hx
    decide)]
  have hport : portPart ('/' :: P) = none := by
    unfold portPart
    rw [show ":".toList = [':'] from rfl, scanLit_head_ne ':' '/' P (by decide)]
  have hpath : pathPart sz ('/' :: P) = (scanStr sz.AM_URI_SIZE P).map (fun p => p.1) := by
    unfold pathPart
    have := scanLit_exact "/".toList P
    rw [show "/".toList ++ P = '/' :: P from rfl] at this
    rw [this]
  simp only [hport, hpath]
  by_cases hnil : P = []
  · subst hnil
    have : scanStr sz.AM_URI_SIZE [] = none := by simp [scanStr]
    rw [this]
    rfl
  · have hU : 0 < sz.AM_URI_SIZE := by
      have := List.length_pos.2 hnil
      omega
    rw [scanStr_no_space _ P hU hnil hP, List.take_of_length_le hlen]

/-- A leading double-dot segment of the path does not change the result. -/
theorem parseTail_climb (sz : Sizes) (v : ScanVars) (ssl port : Nat) (X : List Char)
    (hlen : X.length + 4 ≤ sz.AM_URI_SIZE) :
    parseTail sz v ssl port ('/' :: '.' :: '.' :: '/' :: X) =
      parseTail sz v ssl port ('/' :: X) := by
  have hd : ∀ l : List Char, url_decode ('/' :: l) = '/' :: url_decode l :=
    fun l => url_decode_cons '/' l (by decide) (by decide) (by decide)
  have hdot : ∀ l : List Char, url_decode ('.' :: l) = '.' :: url_decode l :=
    fun l => url_decode_cons '.' l (by decide) (by decide) (by decide)
  have hq1 : ('/' :: '.' :: '.' :: '/' :: X).dropWhile (fun c => c != '?') =
      X.dropWhile (fun c => c != '?') := by
    simp [List.dropWhile_cons]
  have hq2 : ('/' :: X).dropWhile (fun c => c != '?') = X.dropWhile (fun c => c != '?') := by
    simp [List.dropWhile_cons]
  have ht1 : ('/' :: '.' :: '.' :: '/' :: X).takeWhile (fun c => c != '?') =
      '/' :: '.' :: '.' :: '/' :: X.takeWhile (fun c => c != '?') := by
    simp [List.takeWhile_cons]
  have ht2 : ('/' :: X).takeWhile (fun c => c != '?') =
      '/' :: X.takeWhile (fun c => c != '?') := by
    simp [List.takeWhile_cons]
  have hc1 : ∀ D : List Char, collapseSlashes NUL ('/' :: '.' :: '.' :: '/' :: D) =
      '/' :: '.' :: '.' :: '/' :: collapseSlashes '/' D := by
    intro D
    simp [collapseSlashes, NUL]
  have hc2 : ∀ D : List Char, collapseSlashes NUL ('/' :: D) =
      '/' :: collapseSlashes '/' D := by
    intro D
    simp [collapseSlashes, NUL]
  have hE : (collapseSlashes '/' (url_decode (X.takeWhile (fun c => c != '?')))).length ≤
      X.length := by
    have h1 := collapseSlashes_length_le (url_decode (X.takeWhile (fun c => c != '?'))) '/'
    have h2 := cstr_length_le (url_decode_bytes (X.takeWhile (fun c => c != '?')))
    have h3 := url_decode_bytes_length_le (X.takeWhile (fun c => c != '?'))
    have h4 : (X.takeWhile (fun c => c != '?')).length ≤ X.length :=
      (List.takeWhile_sublist _).length_le
    unfold url_decode at h1 ⊢
    omega
  have hsep : ∀ E : List Char, am_strsep "/".toList ('.' :: '.' :: '/' :: E) =
      "..".toList :: am_strsep "/".toList E := by
    intro E
    have e1 : am_strsep "/".toList ('/' :: E) = [] :: am_strsep "/".toList E := by
      rw [am_strsep, if_pos (by decide)]
    have e2 : am_strsep "/".toList ('.' :: '/' :: E) = ['.'] :: am_strsep "/".toList E := by
      rw [am_strsep, if_neg (by decide), e1]
    rw [am_strsep, if_neg (by decide), e2]
    rfl
  unfold parseTail
  simp only [hq1, hq2, ht1, ht2, hd, hdot, hc1, hc2]
  rw [uri_normalize_eq sz _ (by simp only [List.length_cons]; omega),
    uri_normalize_eq sz _ (by omega), hsep]
  have hw : ∀ segs : List (List Char),
      stackWalk (("..".toList :: segs).filter (fun s => s != ".".toList)) [[]] =
        stackWalk (segs.filter (fun s => s != ".".toList)) [[]] := by
    intro segs
    rw [List.filter_cons_of_pos (by decide), stackWalk, if_pos rfl, if_pos (by simp)]
  rw [hw]

/-- A path that starts with two slashes gives the result of the path without
the first of them. -/
theorem parseTail_double_slash (sz : Sizes) (v : ScanVars) (ssl port : Nat) (X : List Char) :
    parseTail sz v ssl port ('/' :: '/' :: X) = parseTail sz v ssl port ('/' :: X) := by
  have hd : ∀ l : List Char, url_decode ('/' :: l) = '/' :: url_decode l :=
    fun l => url_decode_cons '/' l (by decide) (by decide) (by decide)
  have hq1 : ('/' :: '/' :: X).dropWhile (fun c => c != '?') =
      X.dropWhile (fun c => c != '?') := by
    simp [List.dropWhile_cons]
  have hq2 : ('/' :: X).dropWhile (fun c => c != '?') = X.dropWhile (fun c => c != '?') := by
    simp [List.dropWhile_cons]
  have ht1 : ('/' :: '/' :: X).takeWhile (fun c => c != '?') =
      '/' :: '/' :: X.takeWhile (fun c => c != '?') := by
    simp [List.takeWhile_cons]
  have ht2 : ('/' :: X).takeWhile (fun c => c != '?') =
      '/' :: X.takeWhile (fun c => c != '?') := by
    simp [List.takeWhile_cons]
  have hc1 : ∀ D : List Char, collapseSlashes NUL ('/' :: '/' :: D) =
      '/' :: collapseSlashes '/' D := by
    intro D
    simp [collapseSlashes, NUL]
  have hc2 : ∀ D : List Char, collapseSlashes NUL ('/' :: D) =
      '/' :: collapseSlashes '/' D := by
    intro D
    simp [collapseSlashes, NUL]
  unfold parseTail
  simp only [hq1, hq2, ht1, ht2, hd, hc1, hc2]

/-- C35: for every URL accepted by `parse_url`, no slash-separated segment of the
resulting path equals the double dot, wherever the dots came from (the path is
percent-decoded before the segments are walked).  A double dot right after the
host is dropped: for every scheme `s`, host `h` and text `X` free of white space
with `X.length + 4 ≤ AM_URI_SIZE`, the URLs `s://h/../X` and `s://h/X` are both
accepted, with the same result. -/
theorem parse_url_no_dotdot_segment (sz : Sizes) :
    (∀ (u : List Char) (r : url), parse_url sz (some u) = .success r →
      ∀ seg ∈ r.path.splitOn '/', seg ≠ "..".toList) ∧
    (∀ (s h X : List Char), s ≠ [] → s.length ≤ sz.AM_PROTO_SIZE →
      (∀ c ∈ s, inProtoSet c = true) → h ≠ [] → h.length ≤ sz.AM_HOST_SIZE →
      (∀ c ∈ h, inHostSet c = true) → (∀ c ∈ X, isspace c = false) →
      X.length + 4 ≤ sz.AM_URI_SIZE →
      ∃ r : url, parse_url sz (some (s ++ ("://".toList ++ (h ++ '/' :: X)))) = .success r ∧
        parse_url sz (some (s ++ ("://".toList ++ (h ++ '/' :: '.' :: '.' :: '/' :: X)))) =
          .success r) := by
  constructor
  · intro u r h
    obtain ⟨v, p, _, hp, hlen⟩ := parse_url_success sz u r h
    rcases parseTail_path sz v _ _ p r hp hlen with h0 | ⟨c, _, hc⟩
    · rw [h0]
      intro s hs
      simp only [List.splitOn_nil, List.mem_singleton] at hs
      subst hs
      decide
    · rw [hc]
      have hsp := List.splitOn_intercalate _ '/' (fun l hl => (kept_segments_spec c l hl).1)
        (stackWalk_ne_nil ((am_strsep "/".toList c).filter (fun s => s != ".".toList)) [[]]
          (by simp))
      intro s hs
      have hs2 : s ∈ stackWalk ((am_strsep "/".toList c).filter (fun s => s != ".".toList))
          [[]] := by
        rw [← hsp]
        exact hs
      rcases stackWalk_mem_strong _ _ s hs2 with h1 | h1
      · simp only [List.mem_singleton] at h1
        subst h1
        decide
      · exact h1.2
  · intro s h X hs1 hs2 hs3 hh1 hh2 hh3 hX hlen
    have hX2 : ∀ c ∈ '.' :: '.' :: '/' :: X, isspace c = false := by
      intro c hc
      simp only [List.mem_cons] at hc
      rcases hc with h0 | h0 | h0 | h0
      · subst h0; decide
      · subst h0; decide
      · subst h0; decide
      · exact hX c h0
    have b1 : (s ++ ("://".toList ++ (h ++ '/' :: X))).length ≤
        sz.AM_PROTO_SIZE + sz.AM_HOST_SIZE + 6 + sz.AM_URI_SIZE := by
      simp only [List.length_append, List.length_cons]
      have : "://".toList.length = 3 := rfl
      omega
    have b2 : (s ++ ("://".toList ++ (h ++ '/' :: '.' :: '.' :: '/' :: X))).length ≤
        sz.AM_PROTO_SIZE + sz.AM_HOST_SIZE + 6 + sz.AM_URI_SIZE := by
      simp only [List.length_append, List.length_cons]
      have : "://".toList.length = 3 := rfl
      omega
    rw [parse_url_in_bound sz _ b1, parse_url_in_bound sz _ b2,
      scanUrl_path_text sz s h X hs1 hs2 hs3 hh1 hh2 hh3 hX (by omega),
      scanUrl_path_text sz s h ('.' :: '.' :: '/' :: X) hs1 hs2 hs3 hh1 hh2 hh3 hX2
        (by simp only [List.length_cons]; omega)]
    simp only []
    have e2 : parseScanned sz ⟨s, h, 0, '.' :: '.' :: '/' :: X⟩ =
        parseTail sz ⟨s, h, 0, '.' :: '.' :: '/' :: X⟩ (sslOf ⟨s, h, 0, X⟩) (portOf ⟨s, h, 0, X⟩)
          ('/' :: X) := by
      unfold parseScanned
      rw [if_neg (by simp [ISVALID]), if_pos (by simp),
        if_neg (by simp only [List.length_cons]; omega)]
      exact parseTail_climb sz _ _ _ X hlen
    have e1 : parseScanned sz ⟨s, h, 0, X⟩ =
        parseTail sz ⟨s, h, 0, X⟩ (sslOf ⟨s, h, 0, X⟩) (portOf ⟨s, h, 0, X⟩) ('/' :: X) := by
      unfold parseScanned
      cases X with
      | nil => rw [if_pos (by simp [ISVALID])]; rfl
      | cons x xs =>
        rw [if_neg (by simp [ISVALID])]
        by_cases hx : x = '/'
        · subst hx
          rw [if_neg (by simp)]
          exact (parseTail_double_slash sz _ _ _ xs).symm
        · rw [if_pos (by simpa using hx), if_neg (by simp only [List.length_cons] at hlen ⊢; omega)]
    rw [e1, e2]
    exact ⟨_, rfl, rfl⟩

/-- Witness of C35: `http://h/a/%2e%2e/b` is accepted with the path `/b`, and
`http://h/../x` with the path `/x` of `http://h/x`. -/
theorem parse_url_no_dotdot_segment_witness :
    parse_url amSizes (some "http://h/a/%2e%2e/b".toList) =
      .success ⟨AM_SUCCESS, 0, 80, "http".toList, "h".toList, "/b".toList, []⟩ ∧
    (∀ seg ∈ "/b".toList.splitOn '/', seg ≠ "..".toList) ∧
    parse_url amSizes (some "http://h/../x".toList) =
      .success ⟨AM_SUCCESS, 0, 80, "http".toList, "h".toList, "/x".toList, []⟩ ∧
    parse_url amSizes (some "http://h/x".toList) =
      .success ⟨AM_SUCCESS, 0, 80, "http".toList, "h".toList, "/x".toList, []⟩ ∧
    (∃ r : url, parse_url amSizes (some ("http".toList ++ ("://".toList ++
        ("h".toList ++ '/' :: "x".toList)))) = .success r ∧
      parse_url amSizes (some ("http".toList ++ ("://".toList ++
        ("h".toList ++ '/' :: '.' :: '.' :: '/' :: "x".toList)))) = .success r) :=
  ⟨by decide,
    (parse_url_no_dotdot_segment amSizes).1 "http://h/a/%2e%2e/b".toList
      ⟨AM_SUCCESS, 0, 80, "http".toList, "h".toList, "/b".toList, []⟩ (by decide),
    by decide, by decide,
    (parse_url_no_dotdot_segment amSizes).2 "http".toList "h".toList "x".toList (by decide)
      (by decide) (by decide) (by decide) (by decide) (by decide) (by decide) (by decide)⟩

/-! ## URL encoding -/

set_option maxRecDepth 100000 in
theorem hex_chars_spec : ∀ n, n < 256 →
    isxdigit (hex_chars.getD ((n >>> 4) &&& 0xF) NUL) = true ∧
    isxdigit (hex_chars.getD (n &&& 0xF) NUL) = true ∧
    (BASE16_TO_BASE10 (hex_chars.getD ((n >>> 4) &&& 0xF) NUL) * 16 +
      BASE16_TO_BASE10 (hex_chars.getD (n &&& 0xF) NUL)) % 256 = n := by
  decide

theorem hex_chars_mem (i : Nat) : hex_chars.getD (i &&& 0xF) NUL ∈ hex_chars := by
  have hlt : i &&& 0xF < 16 := by
    have := Nat.and_pow_two_sub_one_eq_mod i 4
    norm_num at this
    rw [this]
    omega
  have : ∀ k, k < 16 → hex_chars.getD k NUL ∈ hex_chars := by decide
  exact this _ hlt

/-- The characters `url_encode` copies unchanged. -/
theorem url_encode_char_kept (rfc3986 : Bool) (c : Char)
    (h : (isalnum c || c = '-' || c = '_' || c = '.' || c = (if rfc3986 then '~' else '*')) = true) :
    c ≠ '%' ∧ c ≠ '+' ∧ c ≠ ' ' ∧ c ≠ '/' ∧ c ≠ '?' ∧ c ≠ '&' ∧ c ≠ '=' := by
  simp only [Bool.or_eq_true, decide_eq_true_eq] at h
  rcases h with (((h | h) | h) | h) | h
  · exact ⟨isalnum_ne c _ h (by decide), isalnum_ne c _ h (by decide),
      isalnum_ne c _ h (by decide), isalnum_ne c _ h (by decide), isalnum_ne c _ h (by decide),
      isalnum_ne c _ h (by decide), isalnum_ne c _ h (by decide)⟩
  · subst h; decide
  · subst h; decide
  · subst h; decide
  · cases rfc3986
    · simp only [Bool.false_eq_true, if_false] at h
      subst h; decide
    · simp only [if_true] at h
      subst h; decide

/-- Decoding the bytes written for one character gives the character back. -/
theorem url_decode_bytes_encode_char (rfc3986 : Bool) (c : Char) (rest : List Char)
    (hc : c.toNat < 256) :
    url_decode_bytes (url_encode_char rfc3986 c ++ rest) = c :: url_decode_bytes rest := by
  unfold url_encode_char
  by_cases h : (isalnum c || c = '-' || c = '_' || c = '.' ||
      c = (if rfc3986 then '~' else '*')) = true
  · rw [if_pos h]
    obtain ⟨h1, h2, _⟩ := url_encode_char_kept rfc3986 c h
    show url_decode_bytes (c :: rest) = _
    rw [url_decode_bytes]
    · rw [if_neg h2]
    · intro a b r h0 _
      exact h1 h0
  · rw [if_neg h]
    by_cases hs : c = ' '
    · rw [if_pos hs]
      subst hs
      show url_decode_bytes ('%' :: '2' :: '0' :: rest) = _
      rw [url_decode_bytes, if_pos (by decide)]
      rfl
    · rw [if_neg hs]
      obtain ⟨x1, x2, x3⟩ := hex_chars_spec c.toNat hc
      show url_decode_bytes ('%' :: hex_chars.getD ((c.toNat >>> 4) &&& 0xF) NUL ::
        hex_chars.getD (c.toNat &&& 0xF) NUL :: rest) = _
      rw [url_decode_bytes, if_pos (by rw [x1, x2]; rfl), x3, Char.ofNat_toNat]

theorem url_decode_bytes_url_encode (rfc3986 : Bool) (s : List Char)
    (hbyte : ∀ c ∈ s, c.toNat < 256) : url_decode_bytes (url_encode rfc3986 s) = s := by
  induction s with
  | nil => rfl
  | cons c cs ih =>
    unfold url_encode at ih ⊢
    rw [List.flatMap_cons, url_decode_bytes_encode_char rfc3986 c _
      (hbyte c (List.mem_cons_self _ _)), ih (fun x hx => hbyte x (List.mem_cons_of_mem _ hx))]

/-- The bytes written for one character, with `AM_URL_ENCODE_RFC3986` not defined:
the character itself when it is a letter, a digit or one of `-`, `_`, `.`, `*`, else a
percent sign and two characters of `hex_chars`. -/
theorem url_encode_char_shape (c : Char) :
    (url_encode_char false c = [c] ∧ (isalnum c = true ∨ c ∈ ['-', '_', '.', '*'])) ∨
    ∃ h1 h2, url_encode_char false c = ['%', h1, h2] ∧ h1 ∈ hex_chars ∧ h2 ∈ hex_chars := by
  unfold url_encode_char
  by_cases h : (isalnum c || c = '-' || c = '_' || c = '.' ||
      c = (if false then '~' else '*')) = true
  · rw [if_pos h]
    left
    refine ⟨rfl, ?_⟩
    simp only [Bool.or_eq_true, decide_eq_true_eq, Bool.false_eq_true, if_false] at h
    rcases h with (((h | h) | h) | h) | h
    · exact Or.inl h
    · right; subst h; decide
    · right; subst h; decide
    · right; subst h; decide
    · right; subst h; decide
  · rw [if_neg h]
    right
    by_cases hs : c = ' '
    · rw [if_pos hs]
      exact ⟨'2', '0', rfl, by decide, by decide⟩
    · rw [if_neg hs]
      exact ⟨_, _, rfl, hex_chars_mem _, hex_chars_mem _⟩

/-- C38: for every NUL-free string `s` of bytes, `url_decode(url_encode(s))` is `s`,
with the macro `AM_URL_ENCODE_RFC3986` defined or not.  With the macro not defined,
`url_encode` writes for each character either the character itself, when it is a
letter, a digit or one of `-`, `_`, `.`, `*`, or a percent sign followed by two
characters of `0123456789ABCDEF`; so the result consists of letters, digits and
`-`, `_`, `.`, `*`, `%` only and holds none of `+`, blank, `/`, `?`, `&`, `=`. -/
theorem url_decode_url_encode (rfc3986 : Bool) (s : List Char) (hnul : NUL ∉ s)
    (hbyte : ∀ c ∈ s, c.toNat < 256) :
    url_decode (url_encode rfc3986 s) = s ∧
    url_encode false s = (s.map (url_encode_char false)).flatten ∧
    (∀ c ∈ s,
      (url_encode_char false c = [c] ∧ (isalnum c = true ∨ c ∈ ['-', '_', '.', '*'])) ∨
      ∃ h1 h2, url_encode_char false c = ['%', h1, h2] ∧
        h1 ∈ "0123456789ABCDEF".toList ∧ h2 ∈ "0123456789ABCDEF".toList) ∧
    (∀ x ∈ url_encode false s, isalnum x = true ∨ x ∈ ['-', '_', '.', '*', '%']) ∧
    (∀ x ∈ url_encode false s, x ∉ ['+', ' ', '/', '?', '&', '=']) := by
  have hset : ∀ x ∈ url_encode false s, isalnum x = true ∨ x ∈ ['-', '_', '.', '*', '%'] := by
    intro x hx
    unfold url_encode at hx
    rw [List.mem_flatMap] at hx
    obtain ⟨c, _, hxc⟩ := hx
    rcases url_encode_char_shape c with ⟨e, h | h⟩ | ⟨h1, h2, e, m1, m2⟩
    · rw [e, List.mem_singleton] at hxc
      subst hxc
      exact Or.inl h
    · rw [e, List.mem_singleton] at hxc
      subst hxc
      right
      simp only [List.mem_cons, List.mem_singleton, List.not_mem_nil, or_false] at h ⊢
      tauto
    · rw [e] at hxc
      simp only [List.mem_cons, List.mem_singleton, List.not_mem_nil, or_false] at hxc
      have hal : ∀ y ∈ hex_chars, isalnum y = true := by decide
      rcases hxc with h | h | h
      · right; subst h; decide
      · left; subst h; exact hal _ m1
      · left; subst h; exact hal _ m2
  refine ⟨?_, ?_, fun c _ => url_encode_char_shape c, hset, ?_⟩
  · unfold url_decode cstr
    rw [url_decode_bytes_url_encode rfc3986 s hbyte, List.takeWhile_eq_self_iff]
    intro c hc
    simp only [bne_iff_ne, ne_eq]
    intro h0
    exact hnul (h0 ▸ hc)
  · unfold url_encode
    rw [List.flatMap_def]
  · intro x hx hbad
    have hna : ∀ y ∈ ['+', ' ', '/', '?', '&', '='],
        isalnum y = false ∧ y ∉ ['-', '_', '.', '*', '%'] := by decide
    obtain ⟨n1, n2⟩ := hna x hbad
    rcases hset x hx with h | h
    · rw [n1] at h
      cases h
    · exact n2 h

/-- Witness of C38: `a b/c?d=e&f+g*` is encoded as `a%20b%2Fc%3Fd%3De%26f%2Bg*` and
decoded back. -/
theorem url_decode_url_encode_witness :
    url_encode false "a b/c?d=e&f+g*".toList = "a%20b%2Fc%3Fd%3De%26f%2Bg*".toList ∧
    url_decode (url_encode false "a b/c?d=e&f+g*".toList) = "a b/c?d=e&f+g*".toList :=
  ⟨by decide,
    (url_decode_url_encode false "a b/c?d=e&f+g*".toList (by decide) (by decide)).1⟩

/-! ## Trimming -/

theorem dropWhile_head_false (p : Char → Bool) (l : List Char) :
    ∀ c ∈ (l.dropWhile p).head?, p c = false := by
  induction l with
  | nil => intro c hc; simp at hc
  | cons x xs ih =>
    intro c hc
    by_cases hx : p x = true
    · rw [List.dropWhile_cons_of_pos hx] at hc
      exact ih c hc
    · rw [List.dropWhile_cons_of_neg hx] at hc
      simp only [List.head?_cons, Option.mem_def, Option.some.injEq] at hc
      subst hc
      simpa using hx

theorem dropWhile_getLast_false (p : Char → Bool) (l : List Char)
    (h : ∀ c ∈ l.getLast?, p c = false) : ∀ c ∈ (l.dropWhile p).getLast?, p c = false := by
  induction l with
  | nil => intro c hc; simp at hc
  | cons x xs ih =>
    intro c hc
    by_cases hx : p x = true
    · rw [List.dropWhile_cons_of_pos hx] at hc
      cases xs with
      | nil => simp at hc
      | cons y ys =>
        apply ih _ c hc
        intro d hd
        apply h
        rw [List.getLast?_cons_cons]
        exact hd
    · rw [List.dropWhile_cons_of_neg hx] at hc
      exact h c hc

/-- The string left by `trim` sits in the old one between a run of trim characters
and another, and neither starts nor ends with a trim character. -/
theorem trim_shape (s : List Char) (w : Char) :
    s = s.takeWhile (TRIM_TEST w) ++ (trim s w ++
      (((s.dropWhile (TRIM_TEST w)).reverse.takeWhile (TRIM_TEST w)).reverse)) ∧
    (∀ c ∈ (trim s w).head?, TRIM_TEST w c = false) ∧
    (∀ c ∈ (trim s w).getLast?, TRIM_TEST w c = false) := by
  have h1 : s = s.takeWhile (TRIM_TEST w) ++ s.dropWhile (TRIM_TEST w) :=
    (List.takeWhile_append_dropWhile _ _).symm
  have h2 : (s.dropWhile (TRIM_TEST w)).reverse =
      (s.dropWhile (TRIM_TEST w)).reverse.takeWhile (TRIM_TEST w) ++
        (s.dropWhile (TRIM_TEST w)).reverse.dropWhile (TRIM_TEST w) :=
    (List.takeWhile_append_dropWhile _ _).symm
  have h3 : s.dropWhile (TRIM_TEST w) = trim s w ++
      ((s.dropWhile (TRIM_TEST w)).reverse.takeWhile (TRIM_TEST w)).reverse := by
    have := congrArg List.reverse h2
    rw [List.reverse_reverse, List.reverse_append] at this
    exact this
  refine ⟨?_, ?_, ?_⟩
  · rw [← h3]
    exact h1
  · intro c hc
    unfold trim at hc
    rw [List.head?_reverse] at hc
    apply dropWhile_getLast_false (TRIM_TEST w) _ _ c hc
    intro d hd
    rw [List.getLast?_reverse] at hd
    exact dropWhile_head_false _ _ d hd
  · intro c hc
    unfold trim at hc
    rw [List.getLast?_reverse] at hc
    exact dropWhile_head_false _ _ c hc

theorem trim_idempotent (s : List Char) (w : Char) : trim (trim s w) w = trim s w := by
  obtain ⟨_, hh, hl⟩ := trim_shape s w
  have e1 : (trim s w).dropWhile (TRIM_TEST w) = trim s w := by
    cases ht : trim s w with
    | nil => rfl
    | cons c cs =>
      rw [ht] at hh
      rw [List.dropWhile_cons_of_neg]
      simp [hh c (by simp)]
  have e2 : (trim s w).reverse.dropWhile (TRIM_TEST w) = (trim s w).reverse := by
    cases hr : (trim s w).reverse with
    | nil => rfl
    | cons c cs =>
      rw [List.dropWhile_cons_of_neg]
      have : (trim s w).getLast? = some c := by
        rw [← List.head?_reverse, hr]
        rfl
      simp [hl c this]
  show (((trim s w).dropWhile (TRIM_TEST w)).reverse.dropWhile (TRIM_TEST w)).reverse = _
  rw [e1, e2, List.reverse_reverse]

/-- C39 (fails on the code for some strings): the content `trim` leaves is the old
string without its longest prefix and its longest suffix of trim characters,
where the trim characters are the white space characters when `w` is 0 or a
white space character and `w` alone otherwise: what is cut off in front and
behind consists of trim characters, what is left neither starts nor ends with
one, a string of trim characters becomes empty, and `trim` is idempotent.  But
the call `memmove(str, in, in - str)` made on the way reads as many bytes from
the first kept character on as there are leading trim characters: for the
string of three blanks and `a`, three bytes from offset 3 of a string that takes
five bytes with its terminating NUL. -/
theorem trim_reads_past_string :
    (∀ w c : Char, TRIM_TEST w c =
      if w = NUL ∨ isspace w = true then isspace c else decide (c = w)) ∧
    (∀ (s : List Char) (w : Char), ∃ pre suf, s = pre ++ (trim s w ++ suf) ∧
      (∀ c ∈ pre, TRIM_TEST w c = true) ∧ (∀ c ∈ suf, TRIM_TEST w c = true) ∧
      (∀ c ∈ (trim s w).head?, TRIM_TEST w c = false) ∧
      (∀ c ∈ (trim s w).getLast?, TRIM_TEST w c = false)) ∧
    (∀ (s : List Char) (w : Char), (∀ c ∈ s, TRIM_TEST w c = true) → trim s w = []) ∧
    (∀ (s : List Char) (w : Char), trim (trim s w) w = trim s w) ∧
    (∀ (s : List Char) (w : Char) (o n : Nat), trim_memmove s w = some (o, n) →
      o = (s.takeWhile (TRIM_TEST w)).length ∧ n = (s.takeWhile (TRIM_TEST w)).length) ∧
    trim_memmove "   a".toList ' ' = some (3, 3) ∧ "   a".toList.length + 1 < 3 + 3 ∧
    trim "   a".toList ' ' = "a".toList := by
  refine ⟨?_, ?_, ?_, trim_idempotent, ?_, by decide, by decide, by decide⟩
  · intro w c
    unfold TRIM_TEST
    by_cases h : w = NUL ∨ isspace w = true
    · rw [if_pos h, if_pos (by simpa using h)]
    · rw [if_neg h, if_neg (by simpa using h)]
  · intro s w
    obtain ⟨h1, h2, h3⟩ := trim_shape s w
    refine ⟨_, _, h1, ?_, ?_, h2, h3⟩
    · intro c hc
      exact List.mem_takeWhile_imp hc
    · intro c hc
      rw [List.mem_reverse] at hc
      exact List.mem_takeWhile_imp hc
  · intro s w h
    unfold trim
    have : s.dropWhile (TRIM_TEST w) = [] := by
      rw [List.dropWhile_eq_nil_iff]
      exact h
    rw [this]
    rfl
  · intro s w o n h
    unfold trim_memmove at h
    simp only [] at h
    split_ifs at h
    simp only [Option.some.injEq, Prod.mk.injEq] at h
    exact ⟨h.1.symm, h.2.symm⟩

/-! ## Base64 encoding -/

set_option maxRecDepth 100000 in
theorem byte_bits : ∀ a, a < 256 →
    (a >>> 2) &&& 0x3F = a / 4 ∧ (a &&& 0x3) <<< 4 = a % 4 * 16 ∧
    (a &&& 0xF0) >>> 4 = a / 16 ∧ (a &&& 0xF) <<< 2 = a % 16 * 4 ∧
    (a &&& 0xC0) >>> 6 = a / 64 ∧ a &&& 0x3F = a % 64 := by
  decide

theorem encodeLoop_succ (src : Nat → Nat) (sz cap fuel i : Nat) (out : List Char) :
    encodeLoop src sz cap (fuel + 1) i out =
      if i < sizeSub sz 2 then
        if cap < out.length + 4 then .overflow
        else
          encodeLoop src sz cap fuel ((i + 3) % 2 ^ 64)
            (out ++ [b64char (((src i % 256) >>> 2) &&& 0x3F),
              b64char ((((src i % 256) &&& 0x3) <<< 4) ||| (((src (i + 1) % 256) &&& 0xF0) >>> 4)),
              b64char ((((src (i + 1) % 256) &&& 0xF) <<< 2) |||
                (((src (i + 2) % 256) &&& 0xC0) >>> 6)),
              b64char ((src (i + 2) % 256) &&& 0x3F)])
      else
        if cap < (encodeTail src sz i out).length + 1 then .overflow
        else .text (encodeTail src sz i out) := rfl

theorem range_map_three (f : Nat → Nat) (m : Nat) :
    (List.range (m + 3)).map f =
      f 0 :: f 1 :: f 2 :: (List.range m).map (fun k => f (k + 3)) := by
  rw [List.range_succ_eq_map, List.range_succ_eq_map, List.range_succ_eq_map]
  simp [Function.comp_def]

/-- The standard base64 text of `n` bytes has `4 * ceil(n / 3)` characters. -/
theorem stdBase64_length : ∀ (n : Nat) (bs : List Nat), bs.length = n →
    (stdBase64 bs).length = 4 * ((bs.length + 2) / 3) := by
  intro n
  induction n using Nat.strong_induction_on with
  | _ n ih =>
    intro bs hn
    match bs, hn with
    | [], _ => rfl
    | [a], _ => simp [stdBase64]
    | [a, b], _ => simp [stdBase64]
    | a :: b :: c :: rest, hn =>
      have := ih rest.length (by simp at hn; omega) rest rfl
      simp only [stdBase64, List.length_cons, this]
      omega

theorem base64_decode_stdBase64_text (bs : List Nat) (hb : ∀ b ∈ bs, b < 256) :
    base64_decode (stdBase64 bs) = bs := by
  have h := base64_decode_stdBase64 bs hb []
  unfold base64_decode at h ⊢
  rw [takeWhile_append_stop _ _ '#' [] (by decide)] at h
  exact h

/-- The closing statements of `base64_encode` when fewer than three bytes are left. -/
theorem encodeTail_eq (src : Nat → Nat) (sz : Nat) (hsz : sz < 2 ^ 64) (m i : Nat)
    (out : List Char) (him : i + m = sz) (hm : m < 3) :
    encodeTail src sz i out =
      out ++ stdBase64 ((List.range m).map (fun k => src (i + k) % 256)) := by
  obtain ⟨a1, a2, _, _, _, _⟩ := byte_bits (src i % 256) (Nat.mod_lt _ (by norm_num))
  obtain ⟨_, _, b3, b4, _, _⟩ := byte_bits (src (i + 1) % 256) (Nat.mod_lt _ (by norm_num))
  have hb16 : src (i + 1) % 256 / 16 < 2 ^ 4 := by
    have := Nat.mod_lt (src (i + 1)) (show 0 < 256 by norm_num)
    norm_num
    omega
  have e2 : (((src i % 256) &&& 0x3) <<< 4) ||| (((src (i + 1) % 256) &&& 0xF0) >>> 4) =
      src i % 256 % 4 * 16 + src (i + 1) % 256 / 16 := by
    rw [b3, shift_or_eq _ _ 4 hb16, Nat.and_pow_two_sub_one_eq_mod _ 2]
    norm_num
  unfold encodeTail
  match m, hm, him with
  | 0, _, him =>
    rw [if_neg (by omega)]
    simp [stdBase64]
  | 1, _, him =>
    have hs1 : sizeSub sz 1 = sz - 1 := sizeSub_eq sz 1 (by omega) hsz
    rw [hs1, if_pos (by omega)]
    simp only []
    rw [if_pos (by omega), a1, a2]
    simp [stdBase64]
  | 2, _, him =>
    have hs1 : sizeSub sz 1 = sz - 1 := sizeSub_eq sz 1 (by omega) hsz
    rw [hs1, if_pos (by omega)]
    simp only []
    rw [if_neg (by omega), a1, e2, b4]
    simp [stdBase64]

/-- The loop and the closing statements of `base64_encode` from index `i`, when `m`
bytes are left and the buffer has room for their text: the standard base64 text of
the bytes left is appended. -/
theorem encodeLoop_text (src : Nat → Nat) (sz cap : Nat) (h2 : 2 ≤ sz) (hsz : sz < 2 ^ 64) :
    ∀ (m i fuel : Nat) (out : List Char), i + m = sz → m / 3 + 1 ≤ fuel →
      out.length + 4 * ((m + 2) / 3) + 1 ≤ cap →
      encodeLoop src sz cap fuel i out =
        .text (out ++ stdBase64 ((List.range m).map (fun k => src (i + k) % 256))) := by
  have hs2 : sizeSub sz 2 = sz - 2 := sizeSub_eq sz 2 h2 hsz
  intro m
  induction m using Nat.strong_induction_on with
  | _ m ih =>
    intro i fuel out him hfuel hcap
    obtain ⟨f, rfl⟩ : ∃ f, fuel = f + 1 := ⟨fuel - 1, by omega⟩
    rw [encodeLoop_succ, hs2]
    by_cases hm : 3 ≤ m
    · obtain ⟨m2, rfl⟩ : ∃ m2, m = m2 + 3 := ⟨m - 3, by omega⟩
      rw [if_pos (by omega), if_neg (by omega), Nat.mod_eq_of_lt (by omega),
        ih m2 (by omega) (i + 3) f _ (by omega) (by omega) (by
          simp only [List.length_append, List.length_cons, List.length_nil]
          omega)]
      rw [range_map_three]
      obtain ⟨a1, a2, _, _, _, _⟩ := byte_bits (src i % 256) (Nat.mod_lt _ (by norm_num))
      obtain ⟨_, _, b3, b4, _, _⟩ := byte_bits (src (i + 1) % 256) (Nat.mod_lt _ (by norm_num))
      obtain ⟨_, _, _, _, c5, c6⟩ := byte_bits (src (i + 2) % 256) (Nat.mod_lt _ (by norm_num))
      have hb16 : src (i + 1) % 256 / 16 < 2 ^ 4 := by
        have := Nat.mod_lt (src (i + 1)) (show 0 < 256 by norm_num)
        norm_num
        omega
      have hc64 : src (i + 2) % 256 / 64 < 2 ^ 2 := by
        have := Nat.mod_lt (src (i + 2)) (show 0 < 256 by norm_num)
        norm_num
        omega
      have e2 : (((src i % 256) &&& 0x3) <<< 4) ||| (((src (i + 1) % 256) &&& 0xF0) >>> 4) =
          src i % 256 % 4 * 16 + src (i + 1) % 256 / 16 := by
        rw [b3, shift_or_eq _ _ 4 hb16, Nat.and_pow_two_sub_one_eq_mod _ 2]
        norm_num
      have e3 : (((src (i + 1) % 256) &&& 0xF) <<< 2) ||| (((src (i + 2) % 256) &&& 0xC0) >>> 6) =
          src (i + 1) % 256 % 16 * 4 + src (i + 2) % 256 / 64 := by
        rw [c5, shift_or_eq _ _ 2 hc64, Nat.and_pow_two_sub_one_eq_mod _ 4]
        norm_num
      rw [a1, e2, e3, c6]
      simp only [Nat.add_zero, stdBase64, List.append_assoc, List.cons_append, List.nil_append]
      have : (fun k => src (i + 3 + k) % 256) = (fun k => src (i + (k + 3)) % 256) := by
        funext k
        rw [show i + 3 + k = i + (k + 3) by omega]
      rw [this]
    · have hm3 : m < 3 := by omega
      have ht := encodeTail_eq src sz hsz m i out him hm3
      rw [if_neg (by omega), ht, if_neg (by
        have hl := stdBase64_length _ ((List.range m).map (fun k => src (i + k) % 256)) rfl
        rw [List.length_map, List.length_range] at hl
        rw [List.length_append, hl]
        omega)]

/-- The text `base64_encode` returns for at least two bytes. -/
theorem base64_encode_text (src : Nat → Nat) (sz : Nat) (h2 : 2 ≤ sz) (hsz : sz < 2 ^ 64) :
    base64_encode src sz = .text (stdBase64 ((List.range sz).map (fun k => src k % 256))) := by
  unfold base64_encode
  rw [encodeLoop_text src sz _ h2 hsz sz 0 (sz + 2) [] (by omega) (by omega) (by
    simp only [List.length_nil]
    omega)]
  simp

/-- C33 (fails on the code for one byte): for every sequence of `sz` bytes at `in`
with `2 ≤ sz`, `base64_encode` returns the standard base64 text of the bytes, of
length `4 * ceil(sz / 3)`, and `base64_decode` of that text gives the bytes back
and reports `sz` of them.  For `sz = 1` the bound `*sz - 2` of the loop wraps
around, the loop is entered and its second iteration writes past the five bytes
allocated for the result, whatever the bytes at `in` are; for `sz = 0` the first
iteration does. -/
theorem base64_encode_one_byte_overflow :
    (∀ (src : Nat → Nat) (sz : Nat), 2 ≤ sz → sz < 2 ^ 64 →
      base64_encode src sz = .text (stdBase64 ((List.range sz).map (fun k => src k % 256))) ∧
      (stdBase64 ((List.range sz).map (fun k => src k % 256))).length = 4 * ((sz + 2) / 3) ∧
      base64_decode (stdBase64 ((List.range sz).map (fun k => src k % 256))) =
        (List.range sz).map (fun k => src k % 256) ∧
      (base64_decode (stdBase64 ((List.range sz).map (fun k => src k % 256)))).length = sz) ∧
    (∀ src : Nat → Nat, base64_encode src 1 = .overflow) ∧
    (∀ src : Nat → Nat, base64_encode src 0 = .overflow) := by
  refine ⟨?_, ?_, ?_⟩
  · intro src sz h2 hsz
    have hb : ∀ b ∈ (List.range sz).map (fun k => src k % 256), b < 256 := by
      intro b hb
      rw [List.mem_map] at hb
      obtain ⟨k, _, rfl⟩ := hb
      exact Nat.mod_lt _ (by norm_num)
    have hl := stdBase64_length _ ((List.range sz).map (fun k => src k % 256)) rfl
    rw [List.length_map, List.length_range] at hl
    refine ⟨base64_encode_text src sz h2 hsz, hl, base64_decode_stdBase64_text _ hb, ?_⟩
    rw [base64_decode_stdBase64_text _ hb, List.length_map, List.length_range]
  · intro src
    have e : sizeSub 1 2 = 2 ^ 64 - 1 := by decide
    show encodeLoop src 1 5 3 0 [] = _
    rw [encodeLoop_succ, e, if_pos (by norm_num), if_neg (by simp), encodeLoop_succ, e,
      if_pos (by norm_num), if_pos (by simp)]
  · intro src
    have e : sizeSub 0 2 = 2 ^ 64 - 2 := by decide
    show encodeLoop src 0 1 2 0 [] = _
    rw [encodeLoop_succ, e, if_pos (by norm_num), if_pos (by simp)]

/-- Witness of C33: the two bytes `M`, `a` are encoded as `TWE=` and decoded back;
for the single byte `M` the call is undefined. -/
theorem base64_encode_one_byte_overflow_witness :
    base64_encode (fun k => [77, 97].getD k 0) 2 = .text "TWE=".toList ∧
    base64_decode "TWE=".toList = [77, 97] ∧
    base64_encode (fun k => [77].getD k 0) 1 = .overflow :=
  ⟨by decide, by decide, base64_encode_one_byte_overflow.2.1 (fun k => [77].getD k 0)⟩

/-! ## Password encryption -/

theorem xor_byte_cancel (b k : Nat) (hb : b < 256) : ((b ^^^ k) % 256 ^^^ k) % 256 = b := by
  apply Nat.eq_of_testBit_eq
  intro i
  rw [show 256 = 2 ^ 8 from rfl, Nat.testBit_mod_two_pow, Nat.testBit_xor,
    Nat.testBit_mod_two_pow, Nat.testBit_xor]
  by_cases hi : i < 8
  · simp [hi]
  · have h2 : b.testBit i = false := by
      apply Nat.testBit_lt_two_pow
      calc b < 2 ^ 8 := hb
        _ ≤ 2 ^ i := Nat.pow_le_pow_right (by norm_num) (by omega)
    simp [hi, h2]

/-- The output loop of `rc4` undoes itself: the bytes it xors in depend on the
state only. -/
theorem rc4_stream_involution : ∀ (input : List Nat) (box : List Nat) (j i : Nat),
    (∀ b ∈ input, b < 256) → rc4_stream box j i (rc4_stream box j i input) = input := by
  intro input
  induction input with
  | nil => intro box j i _; rfl
  | cons b rest ih =>
    intro box j i hb
    simp only [rc4_stream]
    rw [xor_byte_cancel _ _ (hb b (List.mem_cons_self _ _)),
      ih _ _ _ (fun x hx => hb x (List.mem_cons_of_mem _ hx))]

theorem rc4_stream_length : ∀ (input : List Nat) (box : List Nat) (j i : Nat),
    (rc4_stream box j i input).length = input.length := by
  intro input
  induction input with
  | nil => intro box j i; rfl
  | cons b rest ih =>
    intro box j i
    simp only [rc4_stream, List.length_cons, ih]

theorem rc4_stream_bytes : ∀ (input : List Nat) (box : List Nat) (j i : Nat),
    ∀ x ∈ rc4_stream box j i input, x < 256 := by
  intro input
  induction input with
  | nil => intro box j i x hx; simp [rc4_stream] at hx
  | cons b rest ih =>
    intro box j i x hx
    simp only [rc4_stream, List.mem_cons] at hx
    rcases hx with h | h
    · rw [h]
      exact Nat.mod_lt _ (by norm_num)
    · exact ih _ _ _ x h

theorem charValue_nonneg (char_signed : Bool) (b : Nat)
    (h : char_signed = false ∨ b < 128) : 0 ≤ charValue char_signed b := by
  unfold charValue
  rcases h with h | h
  · rw [h]
    simp only [Bool.false_and, Bool.false_eq_true, if_false]
    exact Int.ofNat_nonneg _
  · rw [if_neg (by
      simp only [Bool.and_eq_true, decide_eq_true_eq, not_and, not_le]
      intro _
      omega)]
    exact Int.ofNat_nonneg _

/-- The key loop of `rc4` runs through when no key byte is a negative `char`. -/
theorem rc4_key_loop_defined (char_signed : Bool) (key : List Nat)
    (h : char_signed = false ∨ ∀ b ∈ key, b < 128) (hne : key ≠ []) :
    ∀ (l : List Nat) (box : List Nat) (j : Nat),
      ∃ box2 j2, l.foldl (rc4_key_step char_signed key) (some (box, j)) = some (box2, j2) := by
  intro l
  induction l with
  | nil => intro box j; exact ⟨box, j, rfl⟩
  | cons i rest ih =>
    intro box j
    rw [List.foldl_cons]
    have hk : 0 ≤ charValue char_signed (key.getD (i % key.length) 0) := by
      apply charValue_nonneg
      rcases h with h | h
      · exact Or.inl h
      · right
        apply h
        have hlt : i % key.length < key.length := Nat.mod_lt _ (List.length_pos.2 hne)
        rw [List.getD_eq_getElem?_getD, List.getElem?_eq_getElem hlt]
        exact List.getElem_mem _
    have hs : 0 ≤ Int.tmod (charValue char_signed (key.getD (i % key.length) 0) +
        (box.getD i 0 : Nat) + (j : Nat)) 256 := by
      apply Int.tmod_nonneg
      have h1 : (0 : Int) ≤ (box.getD i 0 : Nat) := Int.ofNat_nonneg _
      have h2 : (0 : Int) ≤ (j : Nat) := Int.ofNat_nonneg _
      omega
    have e : rc4_key_step char_signed key (some (box, j)) i =
        some (boxSwap box i (Int.tmod (charValue char_signed (key.getD (i % key.length) 0) +
          (box.getD i 0 : Nat) + (j : Nat)) 256).toNat,
          (Int.tmod (charValue char_signed (key.getD (i % key.length) 0) +
          (box.getD i 0 : Nat) + (j : Nat)) 256).toNat) := by
      unfold rc4_key_step
      simp only []
      rw [if_neg (by omega)]
    rw [e]
    exact ih _ _

theorem rc4_key_loop_none (char_signed : Bool) (key : List Nat) :
    ∀ l : List Nat, l.foldl (rc4_key_step char_signed key) none = none := by
  intro l
  induction l with
  | nil => rfl
  | cons i rest ih =>
    rw [List.foldl_cons]
    exact ih

/-- With a key free of negative `char` values `rc4` is the output loop run from the
state the key loop leaves. -/
theorem rc4_defined (char_signed : Bool) (key : List Nat)
    (h : char_signed = false ∨ ∀ b ∈ key, b < 128) (hne : key ≠ []) :
    ∃ box j, ∀ input : List Nat, input.length < 2 ^ 31 →
      rc4 char_signed input key = some (rc4_stream box j 0 input) := by
  obtain ⟨box, j, hbj⟩ := rc4_key_loop_defined char_signed key h hne (List.range 256)
    (List.range 256) 0
  refine ⟨box, j, ?_⟩
  intro input hlen
  unfold rc4
  rw [if_neg (by simpa using hne), if_neg (by omega), hbj]

set_option maxRecDepth 100000 in
theorem tmod_negative_char : ∀ b : Nat, b < 256 → 128 ≤ b →
    Int.tmod ((b : Int) - 256 + ((0 : Nat) : Int) + ((0 : Nat) : Int)) 256 < 0 := by
  decide

/-- Where plain `char` is signed, a key whose first byte is 128 or more makes the
first iteration of the key loop compute a negative `j`. -/
theorem rc4_negative_index (input key : List Nat) (b : Nat) (rest : List Nat)
    (hk : key = b :: rest) (hb1 : 128 ≤ b) (hb2 : b < 256) : rc4 true input key = none := by
  unfold rc4
  rw [if_neg (by rw [hk]; simp)]
  split_ifs
  · rfl
  · have hr : List.range 256 = 0 :: (List.range 255).map Nat.succ :=
      List.range_succ_eq_map 255
    have e0 : (List.range 256).getD 0 0 = 0 := by
      rw [hr]
      rfl
    have e : rc4_key_step true key (some (List.range 256, 0)) 0 = none := by
      unfold rc4_key_step
      simp only []
      rw [e0, hk]
      have e1 : (b :: rest).getD (0 % (b :: rest).length) 0 = b := by
        rw [Nat.zero_mod]
        rfl
      rw [e1]
      have e2 : charValue true b = (b : Int) - 256 := by
        unfold charValue
        rw [Nat.mod_eq_of_lt hb2, if_pos (by simpa using hb1)]
        omega
      rw [e2, if_pos (tmod_negative_char b hb2 hb1)]
    have hfold : ∀ st, (List.range 256).foldl (rc4_key_step true key) st =
        ((List.range 255).map Nat.succ).foldl (rc4_key_step true key)
          (rc4_key_step true key st 0) := by
      intro st
      rw [hr, List.foldl_cons]
    rw [hfold, e, rc4_key_loop_none]

theorem range_map_getD (l : List Nat) (h : ∀ b ∈ l, b < 256) :
    (List.range l.length).map (fun k => l.getD k 0 % 256) = l := by
  apply List.ext_getElem
  · simp
  · intro n h1 h2
    simp only [List.getElem_map, List.getElem_range]
    rw [List.getD_eq_getElem?_getD, List.getElem?_eq_getElem h2]
    exact Nat.mod_eq_of_lt (h _ (List.getElem_mem _))

theorem encrypt_password_of_rc4 (char_signed : Bool) (key p : List Char) (enc : List Nat)
    (t : List Char) (hv : ISVALID p = true) (h2 : 2 ≤ p.length)
    (hrc : rc4 char_signed (p.map Char.toNat) (base64_decode key) = some enc)
    (henc : base64_encode (fun k => enc.getD k 0) enc.length = .text t) :
    encrypt_password char_signed key p = .done t t.length := by
  unfold encrypt_password
  rw [if_neg (by simp [hv]), if_neg (by omega), hrc]
  simp only []
  rw [henc]
  rfl

/-- C34 (fails on the code where plain `char` is a signed type): `rc4` reads the key
through a `const char *` and uses `(key[...] + box[i] + j) % 256` as an index into
`box`.  Where plain `char` is unsigned, or when every byte of the decoded key is
below 128, for every key whose base64 decoding has at least one byte and every
password `p` of at least 2 bytes, `encrypt_password` returns a text `t` with its
length, and `decrypt_password` on `t` gives the bytes of `p` back and returns the
length of `p`.  Where plain `char` is signed and the decoded key starts with a byte
of 128 or more, the first iteration of the key loop makes `j` negative and
`box[j]` lies before the array: the behaviour of both functions is undefined. -/
theorem encrypt_password_signed_key_byte :
    (∀ (char_signed : Bool) (key p : List Char),
      (char_signed = false ∨ ∀ b ∈ base64_decode key, b < 128) → base64_decode key ≠ [] →
      2 ≤ p.length → p.length < 2 ^ 31 → (∀ c ∈ p, c.toNat < 256) →
      ∃ t : List Char, encrypt_password char_signed key p = .done t t.length ∧
        decrypt_password char_signed key t = .done (p.map Char.toNat) p.length) ∧
    (∀ (key p : List Char) (b : Nat) (rest : List Nat), base64_decode key = b :: rest →
      128 ≤ b → b < 256 → 2 ≤ p.length →
      encrypt_password true key p = .undefined ∧ decrypt_password true key p = .undefined) ∧
    base64_decode "gA==".toList = [128] := by
  refine ⟨?_, ?_, by decide⟩
  · intro char_signed key p hk hne h2 h31 hbytes
    obtain ⟨box, j, hrc⟩ := rc4_defined char_signed (base64_decode key) hk hne
    have hpb : ∀ b ∈ p.map Char.toNat, b < 256 := by
      intro b hb
      rw [List.mem_map] at hb
      obtain ⟨c, hc, rfl⟩ := hb
      exact hbytes c hc
    have hlen : (rc4_stream box j 0 (p.map Char.toNat)).length = p.length := by
      rw [rc4_stream_length, List.length_map]
    have h64 : (rc4_stream box j 0 (p.map Char.toNat)).length < 2 ^ 64 := by
      rw [hlen]
      have : (2 : Nat) ^ 31 < 2 ^ 64 := by norm_num
      omega
    have h2b : 2 ≤ (rc4_stream box j 0 (p.map Char.toNat)).length := by
      rw [hlen]
      exact h2
    have henc := base64_encode_text
      (fun k => (rc4_stream box j 0 (p.map Char.toNat)).getD k 0)
      (rc4_stream box j 0 (p.map Char.toNat)).length h2b h64
    rw [range_map_getD _ (rc4_stream_bytes _ _ _ _)] at henc
    have htl := stdBase64_length _ (rc4_stream box j 0 (p.map Char.toNat)) rfl
    rw [hlen] at htl
    have hvp : ISVALID p = true := by
      cases p with
      | nil => simp at h2
      | cons c cs => simp [ISVALID]
    have hvt : ISVALID (stdBase64 (rc4_stream box j 0 (p.map Char.toNat))) = true := by
      cases ht : stdBase64 (rc4_stream box j 0 (p.map Char.toNat)) with
      | nil =>
        rw [ht] at htl
        simp only [List.length_nil] at htl
        omega
      | cons c cs => simp [ISVALID]
    refine ⟨stdBase64 (rc4_stream box j 0 (p.map Char.toNat)), ?_, ?_⟩
    · exact encrypt_password_of_rc4 char_signed key p _ _ hvp h2
        (hrc _ (by rw [List.length_map]; exact h31)) henc
    · unfold decrypt_password
      rw [if_neg (by simp [hvt]), if_neg (by omega),
        base64_decode_stdBase64_text _ (rc4_stream_bytes _ _ _ _),
        hrc _ (by rw [hlen]; exact h31), rc4_stream_involution _ _ _ _ hpb, hlen]
  · intro key p b rest hk hb1 hb2 h2
    have hv : ISVALID p = true := by
      cases p with
      | nil => simp at h2
      | cons c cs => simp [ISVALID]
    constructor
    · unfold encrypt_password
      rw [if_neg (by simp [hv]), if_neg (by omega), rc4_negative_index _ _ b rest hk hb1 hb2]
    · unfold decrypt_password
      rw [if_neg (by simp [hv]), if_neg (by omega), rc4_negative_index _ _ b rest hk hb1 hb2]

/-- Witness of C34: with the key `a2V5` (the bytes of `key`) the password `secret`
is restored, with plain `char` signed or not; with the key `gA==` and plain
`char` signed both calls are undefined. -/
theorem encrypt_password_signed_key_byte_witness :
    (∃ t : List Char, encrypt_password true "a2V5".toList "secret".toList = .done t t.length ∧
      decrypt_password true "a2V5".toList t =
        .done ("secret".toList.map Char.toNat) "secret".toList.length) ∧
    encrypt_password true "gA==".toList "secret".toList = .undefined :=
  ⟨encrypt_password_signed_key_byte.1 true "a2V5".toList "secret".toList
      (Or.inr (by decide)) (by decide) (by decide) (by decide) (by decide),
    (encrypt_password_signed_key_byte.2.1 "gA==".toList "secret".toList 128 []
      (by decide) (by decide) (by decide) (by decide)).1⟩

/-! ## Session token in the query -/

theorem strstr_after_eq : ∀ (s v : List Char), strstr_after "=".toList s = some v →
    ∃ name, s = name ++ '=' :: v ∧ '=' ∉ name := by
  intro s
  induction s with
  | nil =>
    intro v h
    simp [strstr_after] at h
  | cons c cs ih =>
    intro v h
    unfold strstr_after at h
    by_cases hc : c = '='
    · subst hc
      have e : "=".toList.isPrefixOf ('=' :: cs) = true := by
        show (['='] : List Char).isPrefixOf ('=' :: cs) = true
        simp [List.isPrefixOf]
      rw [if_pos e] at h
      simp only [Option.some.injEq] at h
      refine ⟨[], ?_, by simp⟩
      rw [← h]
      rfl
    · have e : "=".toList.isPrefixOf (c :: cs) = false := by
        show (['='] : List Char).isPrefixOf (c :: cs) = false
        have : ('=' == c) = false := by simpa using fun h0 => hc h0.symm
        simp [List.isPrefixOf, this]
      rw [if_neg (by rw [e]; decide)] at h
      obtain ⟨name, h1, h2⟩ := ih v h
      refine ⟨c :: name, by rw [h1]; rfl, ?_⟩
      simp only [List.mem_cons, not_or]
      exact ⟨fun h0 => hc h0.symm, h2⟩

/-- The token the loop of `get_token_from_url` leaves is the one it started with or
the text after the first equals sign of a parameter that starts with the cookie
name. -/
theorem tokenLoop_token (cn : List Char) : ∀ (toks : List (List Char))
    (token query : Option (List Char)) (t : List Char),
    (tokenLoop cn toks token query).1 = some t →
    token = some t ∨ ∃ param ∈ toks, param.take cn.length = cn ∧
      strstr_after "=".toList param = some t := by
  intro toks
  induction toks with
  | nil =>
    intro token query t h
    exact Or.inl h
  | cons tok rest ih =>
    intro token query t h
    unfold tokenLoop at h
    by_cases hcond : (!ISVALID_ptr token && decide (tok.take cn.length = cn)) = true
    · rw [if_pos hcond] at h
      simp only [Bool.and_eq_true, decide_eq_true_eq] at hcond
      cases hv : strstr_after "=".toList tok with
      | none =>
        rw [hv] at h
        simp only [] at h
        rcases ih _ _ t h with h1 | ⟨param, hp, h2⟩
        · exact Or.inl h1
        · exact Or.inr ⟨param, List.mem_cons_of_mem _ hp, h2⟩
      | some v1 =>
        rw [hv] at h
        simp only [] at h
        by_cases hnl : (v1.head? != some '\n') = true
        · rw [if_pos hnl] at h
          rcases ih _ _ t h with h1 | ⟨param, hp, h2⟩
          · right
            refine ⟨tok, List.mem_cons_self _ _, hcond.2, ?_⟩
            rw [hv, h1]
          · exact Or.inr ⟨param, List.mem_cons_of_mem _ hp, h2⟩
        · rw [if_neg hnl] at h
          rcases ih _ _ t h with h1 | ⟨param, hp, h2⟩
          · exact Or.inl h1
          · exact Or.inr ⟨param, List.mem_cons_of_mem _ hp, h2⟩
    · rw [if_neg hcond] at h
      cases query with
      | none =>
        simp only [] at h
        rcases ih _ _ t h with h1 | ⟨param, hp, h2⟩
        · exact Or.inl h1
        · exact Or.inr ⟨param, List.mem_cons_of_mem _ hp, h2⟩
      | some q =>
        simp only [] at h
        rcases ih _ _ t h with h1 | ⟨param, hp, h2⟩
        · exact Or.inl h1
        · exact Or.inr ⟨param, List.mem_cons_of_mem _ hp, h2⟩

/-- C37 (fails on the code): `get_token_from_url` compares each parameter with the
cookie name by `strncmp` over the length of the cookie name, so it takes the
token from a parameter that merely starts with the cookie name.  With no token
set beforehand and `cdsso_enable` off, a token the call returns is the text after
the first equals sign of a parameter of which the cookie name is a prefix; with
the cookie name `sid` the query `?sidx=abc&y=1` gives the token `abc` of the
parameter named `sidx`, and the parameter `sid` of `?sid&x=1`, which has no equals
sign, is dropped from the rewritten query though no token is taken from it. -/
theorem get_token_from_url_prefix_match :
    (∀ (sz : Sizes) (query cn t q1 : List Char),
      get_token_from_url sz query none (some cn) = (AM_SUCCESS, some t, q1) →
      ∃ param ∈ am_strsep "&".toList (query.drop 1), ∃ name,
        cn <+: param ∧ param = name ++ '=' :: t ∧ '=' ∉ name) ∧
    get_token_from_url amSizes "?sidx=abc&y=1".toList none (some "sid".toList) =
      (AM_SUCCESS, some "abc".toList, "?y=1".toList) ∧
    "sidx".toList ≠ "sid".toList ∧
    get_token_from_url amSizes "?sid&x=1".toList none (some "sid".toList) =
      (AM_NOT_FOUND, none, "?x=1".toList) := by
  refine ⟨?_, by decide, by decide, by decide⟩
  intro sz query cn t q1 h
  unfold get_token_from_url at h
  by_cases hq : (!ISVALID query) = true
  · rw [if_pos hq] at h
    simp only [Prod.mk.injEq] at h
    exact absurd h.1 (by decide)
  · rw [if_neg hq] at h
    simp only [] at h
    by_cases hc : (!ISVALID cn) = true
    · rw [if_pos hc] at h
      simp only [Prod.mk.injEq] at h
      exact absurd h.1 (by decide)
    · rw [if_neg hc] at h
      simp only [Prod.mk.injEq] at h
      rcases tokenLoop_token cn _ none none t h.2.1 with h1 | ⟨param, hp, h2, h3⟩
      · cases h1
      · obtain ⟨name, e1, e2⟩ := strstr_after_eq param t h3
        refine ⟨param, hp, name, ?_, e1, e2⟩
        rw [← h2]
        exact List.take_prefix _ _

/-- Witness of C37: the token `abc` returned for `?sidx=abc&y=1` comes from the
parameter `sidx=abc`. -/
theorem get_token_from_url_prefix_match_witness :
    ∃ param ∈ am_strsep "&".toList ("?sidx=abc&y=1".toList.drop 1), ∃ name,
      "sid".toList <+: param ∧ param = name ++ '=' :: "abc".toList ∧ '=' ∉ name :=
  get_token_from_url_prefix_match.1 amSizes "?sidx=abc&y=1".toList "sid".toList "abc".toList
    "?y=1".toList (by decide)

/-! ## Replacing a pattern in a string -/

theorem replaceScan_skip (pat rep : List Char) : ∀ (l : List Char) (n : Nat),
    replaceScan pat rep n l = replaceScan pat rep 0 (l.drop n) := by
  intro l
  induction l with
  | nil =>
    intro n
    cases n <;> rfl
  | cons c cs ih =>
    intro n
    cases n with
    | zero => rfl
    | succ m =>
      rw [List.drop_succ_cons, ← ih m]
      rfl

theorem occurrences_skip (pat : List Char) : ∀ (l : List Char) (n : Nat),
    occurrences pat n l = occurrences pat 0 (l.drop n) := by
  intro l
  induction l with
  | nil =>
    intro n
    cases n <;> rfl
  | cons c cs ih =>
    intro n
    cases n with
    | zero => rfl
    | succ m =>
      rw [List.drop_succ_cons, ← ih m]
      rfl

/-- The first occurrence `strstr` finds splits the string, and the scan of the
specification replaces it and goes on behind it. -/
theorem strstr_pos_some (pat rep : List Char) (hpat : pat ≠ []) : ∀ (s : List Char) (k : Nat),
    strstr_pos pat s = some k →
    ∃ a b, s = a ++ (pat ++ b) ∧ a.length = k ∧
      replaceScan pat rep 0 s = a ++ (rep ++ replaceScan pat rep 0 b) ∧
      occurrences pat 0 s = occurrences pat 0 b + 1 := by
  intro s
  induction s with
  | nil =>
    intro k h
    unfold strstr_pos at h
    rw [if_neg (by simpa using hpat)] at h
    cases h
  | cons c cs ih =>
    intro k h
    unfold strstr_pos at h
    by_cases hp : pat.isPrefixOf (c :: cs) = true
    · rw [if_pos hp] at h
      simp only [Option.some.injEq] at h
      have hpre : pat ++ (c :: cs).drop pat.length = c :: cs :=
        List.prefix_iff_eq_append.1 (List.isPrefixOf_iff_prefix.1 hp)
      have hlen : 0 < pat.length := List.length_pos.2 hpat
      have hdrop : cs.drop (pat.length - 1) = (c :: cs).drop pat.length := by
        obtain ⟨m, hm⟩ : ∃ m, pat.length = m + 1 := ⟨pat.length - 1, by omega⟩
        rw [hm, List.drop_succ_cons]
        rfl
      refine ⟨[], (c :: cs).drop pat.length, ?_, h, ?_, ?_⟩
      · rw [List.nil_append, hpre]
      · rw [replaceScan, if_pos hp, replaceScan_skip, hdrop, List.nil_append]
      · rw [occurrences, if_pos hp, occurrences_skip, hdrop]
    · rw [if_neg hp] at h
      cases hk : strstr_pos pat cs with
      | none =>
        rw [hk] at h
        cases h
      | some k2 =>
        rw [hk] at h
        simp only [Option.map_some', Option.some.injEq] at h
        obtain ⟨a, b, h1, h2, h3, h4⟩ := ih k2 hk
        refine ⟨c :: a, b, ?_, ?_, ?_, ?_⟩
        · rw [h1]
          rfl
        · rw [List.length_cons, h2, h]
        · rw [replaceScan, if_neg hp, h3]
          rfl
        · rw [occurrences, if_neg hp, h4]

/-- Where `strstr` finds nothing the scan of the specification changes nothing. -/
theorem strstr_pos_none (pat rep : List Char) : ∀ (s : List Char),
    strstr_pos pat s = none →
    replaceScan pat rep 0 s = s ∧ occurrences pat 0 s = 0 := by
  intro s
  induction s with
  | nil => intro _; exact ⟨rfl, rfl⟩
  | cons c cs ih =>
    intro h
    unfold strstr_pos at h
    by_cases hp : pat.isPrefixOf (c :: cs) = true
    · rw [if_pos hp] at h
      cases h
    · rw [if_neg hp] at h
      cases hk : strstr_pos pat cs with
      | some k2 =>
        rw [hk] at h
        cases h
      | none =>
        obtain ⟨h1, h2⟩ := ih hk
        constructor
        · rw [replaceScan, if_neg hp, h1]
        · rw [occurrences, if_neg hp, h2]

theorem strstr_pos_not_found (pat : List Char) : ∀ (s : List Char),
    strstr_pos pat s = none → ¬ pat <:+: s := by
  intro s
  induction s with
  | nil =>
    intro h hin
    unfold strstr_pos at h
    have : pat = [] := List.eq_nil_of_infix_nil hin
    rw [this] at h
    simp at h
  | cons c cs ih =>
    intro h hin
    unfold strstr_pos at h
    by_cases hp : pat.isPrefixOf (c :: cs) = true
    · rw [if_pos hp] at h
      cases h
    · rw [if_neg hp] at h
      cases hk : strstr_pos pat cs with
      | some k2 =>
        rw [hk] at h
        cases h
      | none =>
        rcases List.infix_cons_iff.1 hin with h1 | h1
        · exact hp (List.isPrefixOf_iff_prefix.2 h1)
        · exact ih hk h1

/-- The length of the scanned string: each occurrence trades the length of the
pattern for the length of the replacement. -/
theorem replaceScan_length (pat rep : List Char) (hpat : pat ≠ []) : ∀ (n : Nat) (s : List Char),
    s.length = n →
    (replaceScan pat rep 0 s).length + occurrences pat 0 s * pat.length =
      s.length + occurrences pat 0 s * rep.length := by
  intro n
  induction n using Nat.strong_induction_on with
  | _ n ih =>
    intro s hn
    cases hk : strstr_pos pat s with
    | none =>
      obtain ⟨h1, h2⟩ := strstr_pos_none pat rep s hk
      rw [h1, h2, Nat.zero_mul, Nat.zero_mul]
    | some k =>
      obtain ⟨a, b, h1, _, h3, h4⟩ := strstr_pos_some pat rep hpat s k hk
      have hlen : 0 < pat.length := List.length_pos.2 hpat
      have hb : b.length < n := by
        rw [← hn, h1]
        simp only [List.length_append]
        omega
      have := ih b.length hb b rfl
      rw [h3, h4, h1]
      simp only [List.length_append]
      rw [Nat.add_mul, Nat.add_mul]
      omega

theorem mem_replaceScan (pat rep : List Char) : ∀ (s : List Char) (n : Nat) (x : Char),
    x ∈ replaceScan pat rep n s → x ∈ rep ∨ x ∈ s := by
  intro s
  induction s with
  | nil =>
    intro n x hx
    cases n <;> simp [replaceScan] at hx
  | cons c cs ih =>
    intro n x hx
    cases n with
    | succ m =>
      rw [replaceScan] at hx
      rcases ih m x hx with h | h
      · exact Or.inl h
      · exact Or.inr (List.mem_cons_of_mem _ h)
    | zero =>
      rw [replaceScan] at hx
      split_ifs at hx
      · rcases List.mem_append.1 hx with h | h
        · exact Or.inl h
        · rcases ih _ x h with h2 | h2
          · exact Or.inl h2
          · exact Or.inr (List.mem_cons_of_mem _ h2)
      · rcases List.mem_cons.1 hx with h | h
        · exact Or.inr (h ▸ List.mem_cons_self _ _)
        · rcases ih _ x h with h2 | h2
          · exact Or.inl h2
          · exact Or.inr (List.mem_cons_of_mem _ h2)

/-- The counting loop of `string_replace` counts the occurrences of the scan. -/
theorem countLoop_eq (pat : List Char) (hpat : pat ≠ []) : ∀ (fuel : Nat) (s : List Char),
    s.length ≤ fuel → countLoop pat fuel s = some (occurrences pat 0 s) := by
  intro fuel
  induction fuel with
  | zero =>
    intro s hs
    have : s = [] := List.length_eq_zero.1 (by omega)
    subst this
    have e : strstr_pos pat [] = none := by
      unfold strstr_pos
      rw [if_neg (by simpa using hpat)]
    unfold countLoop
    rw [e]
    rfl
  | succ f ih =>
    intro s hs
    unfold countLoop
    cases hk : strstr_pos pat s with
    | none =>
      simp only []
      rw [(strstr_pos_none pat [] s hk).2]
    | some k =>
      simp only []
      obtain ⟨a, b, h1, h2, _, h4⟩ := strstr_pos_some pat [] hpat s k hk
      have hlen : 0 < pat.length := List.length_pos.2 hpat
      have hd : s.drop (k + pat.length) = b := by
        rw [h1, ← List.append_assoc]
        apply List.drop_left'
        rw [List.length_append, h2]
      rw [hd, ih b (by
        rw [h1] at hs
        simp only [List.length_append] at hs
        omega), h4]
      rfl

theorem replaceScan_grows (pat rep : List Char) (hpat : pat ≠ []) (h : pat.length ≤ rep.length)
    (s : List Char) : s.length ≤ (replaceScan pat rep 0 s).length := by
  have h1 := replaceScan_length pat rep hpat s.length s rfl
  have h2 : occurrences pat 0 s * pat.length ≤ occurrences pat 0 s * rep.length :=
    Nat.mul_le_mul_left _ h
  omega

theorem cstr_append_nul (rest J : List Char) (h : NUL ∉ rest) :
    cstr (rest ++ NUL :: J) = rest := by
  unfold cstr
  rw [takeWhile_append_stop _ _ NUL J (by simp), List.takeWhile_eq_self_iff]
  intro c hc
  simp only [bne_iff_ne, ne_eq]
  intro h0
  exact h (h0 ▸ hc)

theorem replaceLoop_stop (pat rep : List Char) (fuel : Nat) (buf : List Char) (p e : Nat)
    (h : strstr_pos pat (cstr (buf.drop p)) = none) :
    replaceLoop pat rep fuel buf p e = some buf := by
  cases fuel with
  | zero =>
    unfold replaceLoop
    rw [h]
    rfl
  | succ f =>
    unfold replaceLoop
    rw [h]

theorem replaceLoop_step (pat rep : List Char) (f : Nat) (buf buf1 buf2 : List Char)
    (p e k : Nat) (h : strstr_pos pat (cstr (buf.drop p)) = some k)
    (h1 : memmove buf (p + k + rep.length) (p + k + pat.length)
      (sizeSub e (p + k + pat.length)) = some buf1)
    (h2 : memcpy buf1 (p + k) rep = some buf2) :
    replaceLoop pat rep (f + 1) buf p e =
      replaceLoop pat rep f buf2 (p + k + rep.length)
        ((e + sizeSub rep.length pat.length) % 2 ^ 64) := by
  rw [replaceLoop]
  simp only [h, h1, h2]

/-- One replacement in the buffer: the bytes behind the occurrence are moved to
their new place and the replacement is copied in front of them. -/
theorem replace_in_buffer (done a pat rep b J : List Char) (n : Nat)
    (hn : n = b.length + 1)
    (hcap : done.length + a.length + rep.length + b.length + 1 ≤
      (done ++ ((a ++ (pat ++ b)) ++ NUL :: J)).length) :
    ∃ buf1 J2, memmove (done ++ ((a ++ (pat ++ b)) ++ NUL :: J))
        (done.length + a.length + rep.length) (done.length + a.length + pat.length) n =
          some buf1 ∧
      memcpy buf1 (done.length + a.length) rep =
        some ((done ++ (a ++ rep)) ++ (b ++ NUL :: J2)) ∧
      ((done ++ (a ++ rep)) ++ (b ++ NUL :: J2)).length =
        (done ++ ((a ++ (pat ++ b)) ++ NUL :: J)).length := by
  have hbuf : done ++ ((a ++ (pat ++ b)) ++ NUL :: J) =
      (done ++ (a ++ pat)) ++ (b ++ NUL :: J) := by
    simp only [List.append_assoc]
  have hbuf2 : done ++ ((a ++ (pat ++ b)) ++ NUL :: J) =
      (done ++ a) ++ (pat ++ (b ++ NUL :: J)) := by
    simp only [List.append_assoc]
  have hL : (done ++ ((a ++ (pat ++ b)) ++ NUL :: J)).length =
      done.length + a.length + pat.length + b.length + 1 + J.length := by
    simp only [List.length_append, List.length_cons]
    omega
  have hsrc : (done ++ ((a ++ (pat ++ b)) ++ NUL :: J)).drop
      (done.length + a.length + pat.length) = b ++ NUL :: J := by
    rw [hbuf]
    apply List.drop_left'
    simp only [List.length_append]
    omega
  have htk : (b ++ NUL :: J).take n = b ++ [NUL] := by
    rw [hn, List.take_append]
    rfl
  have hX : ((done ++ ((a ++ (pat ++ b)) ++ NUL :: J)).take
      (done.length + a.length + rep.length)).length = done.length + a.length + rep.length := by
    rw [List.length_take]
    omega
  have hXp : ((done ++ ((a ++ (pat ++ b)) ++ NUL :: J)).take
      (done.length + a.length + rep.length)).take (done.length + a.length) = done ++ a := by
    rw [List.take_take, Nat.min_eq_left (by omega), hbuf2]
    apply List.take_left'
    rw [List.length_append]
  refine ⟨(done ++ ((a ++ (pat ++ b)) ++ NUL :: J)).take (done.length + a.length + rep.length) ++
      ((b ++ [NUL]) ++ (done ++ ((a ++ (pat ++ b)) ++ NUL :: J)).drop
        (done.length + a.length + rep.length + n)),
    (done ++ ((a ++ (pat ++ b)) ++ NUL :: J)).drop (done.length + a.length + rep.length + n),
    ?_, ?_, ?_⟩
  · unfold memmove
    rw [if_pos ⟨by omega, by omega⟩, hsrc, htk]
  · unfold memcpy
    rw [if_pos (by
      simp only [List.length_append, hX, List.length_drop, List.length_cons, List.length_nil]
      omega)]
    rw [List.take_append_of_le_length (by omega), hXp]
    have hd : (List.take (done.length + a.length + rep.length)
        (done ++ ((a ++ (pat ++ b)) ++ NUL :: J)) ++
        ((b ++ [NUL]) ++ List.drop (done.length + a.length + rep.length + n)
          (done ++ ((a ++ (pat ++ b)) ++ NUL :: J)))).drop
        (done.length + a.length + rep.length) =
        (b ++ [NUL]) ++ List.drop (done.length + a.length + rep.length + n)
          (done ++ ((a ++ (pat ++ b)) ++ NUL :: J)) :=
      List.drop_left' hX
    rw [hd]
    simp only [List.append_assoc, List.cons_append, List.nil_append]
  · simp only [List.length_append, List.length_cons, List.length_drop, List.length_nil] at hcap ⊢
    omega

theorem size_step (e r p : Nat) (hp : p ≤ e) (hr : e + r - p < 2 ^ 64)
    (hr2 : r < 2 ^ 64) : (e + sizeSub r p) % 2 ^ 64 = e + r - p := by
  unfold sizeSub
  omega

/-- The replacing loop of `string_replace` on a buffer that holds the text `done`
already treated, the text `rest` still to scan, the terminating NUL and spare
bytes: with room for the result the loop ends with the scan of `rest` in place
of `rest`, and no access leaves the buffer. -/
theorem replaceLoop_spec (pat rep : List Char) (hpat : pat ≠ []) (hnr : NUL ∉ rep) :
    ∀ (fuel : Nat) (done rest J : List Char), NUL ∉ done → NUL ∉ rest → rest.length ≤ fuel →
      done.length + rest.length + 1 < 2 ^ 64 →
      done.length + (replaceScan pat rep 0 rest).length + 1 < 2 ^ 64 →
      done.length + (replaceScan pat rep 0 rest).length + 1 ≤
        (done ++ (rest ++ NUL :: J)).length →
      ∃ J2, replaceLoop pat rep fuel (done ++ (rest ++ NUL :: J)) done.length
          (done.length + rest.length + 1) =
        some (done ++ (replaceScan pat rep 0 rest ++ NUL :: J2)) := by
  intro fuel
  induction fuel with
  | zero =>
    intro done rest J _ _ hfuel _ _ _
    have : rest = [] := List.length_eq_zero.1 (by omega)
    subst this
    have e : strstr_pos pat (cstr ((done ++ ([] ++ NUL :: J)).drop done.length)) = none := by
      rw [List.drop_left, cstr_append_nul _ _ (by simp)]
      unfold strstr_pos
      rw [if_neg (by simpa using hpat)]
    rw [replaceLoop_stop _ _ _ _ _ _ e]
    exact ⟨J, rfl⟩
  | succ f ih =>
    intro done rest J hnd hnrest hfuel h64 h64b hcap
    have hdrop : cstr ((done ++ (rest ++ NUL :: J)).drop done.length) = rest := by
      rw [List.drop_left, cstr_append_nul _ _ hnrest]
    cases hk : strstr_pos pat rest with
    | none =>
      rw [replaceLoop_stop _ _ _ _ _ _ (by rw [hdrop]; exact hk),
        (strstr_pos_none pat rep rest hk).1]
      exact ⟨J, rfl⟩
    | some k =>
      obtain ⟨a, b, h1, h2, h3, _⟩ := strstr_pos_some pat rep hpat rest k hk
      subst h1
      have hlen : 0 < pat.length := List.length_pos.2 hpat
      rw [h3] at h64b hcap
      simp only [List.length_append] at h64 h64b hfuel
      have hgrow : pat.length ≤ rep.length → b.length ≤ (replaceScan pat rep 0 b).length :=
        fun h => replaceScan_grows pat rep hpat h b
      have hcap2 : done.length + a.length + rep.length + b.length + 1 ≤
          (done ++ ((a ++ (pat ++ b)) ++ NUL :: J)).length := by
        simp only [List.length_append, List.length_cons] at hcap ⊢
        by_cases hc : pat.length ≤ rep.length
        · have := hgrow hc
          omega
        · omega
      obtain ⟨buf1, J2, m1, m2, m3⟩ := replace_in_buffer done a pat rep b J
        (sizeSub (done.length + (a.length + (pat.length + b.length)) + 1)
          (done.length + k + pat.length))
        (by
          rw [sizeSub_eq _ _ (by omega) (by omega)]
          omega) hcap2
      rw [← h2] at hk
      have hstep := replaceLoop_step pat rep f (done ++ ((a ++ (pat ++ b)) ++ NUL :: J)) buf1
        ((done ++ (a ++ rep)) ++ (b ++ NUL :: J2)) done.length
        (done.length + (a ++ (pat ++ b)).length + 1) a.length
        (by rw [hdrop]; exact hk)
        (by
          simp only [List.length_append]
          rw [← h2] at m1
          exact m1) m2
      rw [hstep]
      have he : (done.length + (a ++ (pat ++ b)).length + 1 + sizeSub rep.length pat.length) %
          2 ^ 64 = (done ++ (a ++ rep)).length + b.length + 1 := by
        simp only [List.length_append]
        rw [size_step _ _ _ (by omega) (by
          by_cases hc : pat.length ≤ rep.length
          · have := hgrow hc
            omega
          · omega) (by omega)]
        omega
      have hp : done.length + a.length + rep.length = (done ++ (a ++ rep)).length := by
        simp only [List.length_append]
        omega
      rw [he, hp]
      obtain ⟨J3, hJ⟩ := ih (done ++ (a ++ rep)) b J2
        (by
          simp only [List.mem_append, not_or] at hnrest ⊢
          exact ⟨hnd, hnrest.1, hnr⟩)
        (by
          simp only [List.mem_append, not_or] at hnrest
          exact hnrest.2.2)
        (by omega)
        (by
          simp only [List.length_append]
          by_cases hc : pat.length ≤ rep.length
          · have := hgrow hc
            omega
          · omega)
        (by
          simp only [List.length_append] at h64b ⊢
          omega)
        (by
          rw [m3]
          simp only [List.length_append, List.length_cons] at hcap ⊢
          omega)
      refine ⟨J3, ?_⟩
      rw [hJ, h3]
      simp only [List.append_assoc]

theorem new_size (sz k r p n : Nat) (hp : p < 2 ^ 64) (hr : r < 2 ^ 64)
    (hn : n + k * p = sz + k * r) (hn64 : n < 2 ^ 64) :
    (sz + k * sizeSub r p) % 2 ^ 64 = n := by
  by_cases h : p ≤ r
  · rw [sizeSub_eq r p h hr, Nat.mul_sub]
    have h2 : k * p ≤ k * r := Nat.mul_le_mul_left _ h
    rw [Nat.mod_eq_of_lt (by omega)]
    omega
  · have hd : sizeSub r p = 2 ^ 64 - (p - r) := by
      unfold sizeSub
      omega
    have h2 : k * r ≤ k * p := Nat.mul_le_mul_left _ (by omega)
    have h3 : k * (p - r) ≤ k * 2 ^ 64 := Nat.mul_le_mul_left _ (by omega)
    have h4 : k * (p - r) = k * p - k * r := Nat.mul_sub _ _ _
    have e : sz + k * sizeSub r p = n + k * 2 ^ 64 := by
      rw [hd, Nat.mul_sub]
      omega
    rw [e, Nat.add_mul_mod_self_right, Nat.mod_eq_of_lt hn64]

theorem replaceCounted_of (s pat rep : List Char) (junk : Nat → Char) (k n : Nat)
    (buf : List Char) (hk : k ≠ 0)
    (hn : (s.length + k * sizeSub rep.length pat.length) % 2 ^ 64 = n)
    (hloop : replaceLoop pat rep s.length
      (s ++ NUL :: (if s.length < n then (List.range (n - s.length)).map junk else [])) 0
      ((s.length + 1) % 2 ^ 64) = some buf) :
    replaceCounted s pat rep junk k = .replaced (cstr buf) n := by
  unfold replaceCounted
  rw [if_neg hk]
  simp only [hn, hloop]

/-- C40: for every string `s` (with `*sz` equal to its length), every non-empty
pattern `p` and every replacement `r`: when `p` occurs in `s`, `string_replace`
returns `AM_SUCCESS`, leaves the string obtained from `s` by replacing each
non-overlapping occurrence of `p` found scanning left to right by `r`, the
inserted text not being scanned again, and sets `*sz` to `|s| + k * |r| - k * |p|`
for the `k` occurrences, the length of the new string, whether `r` is longer or
shorter than `p`; no access leaves the buffer, whatever the bytes added by
`realloc` hold.  When `p` is empty or does not occur, it returns `AM_NOT_FOUND`
and changes nothing.  (The lengths involved are taken to fit a `size_t`.) -/
theorem string_replace_spec (s pat rep : List Char) (junk : Nat → Char)
    (hs : NUL ∉ s) (hr : NUL ∉ rep) (h64 : s.length + 1 < 2 ^ 64)
    (h64b : (replaceScan pat rep 0 s).length + 1 < 2 ^ 64) :
    (pat ≠ [] → pat <:+: s →
      string_replace s pat rep junk = .replaced (replaceScan pat rep 0 s)
        (s.length + occurrences pat 0 s * rep.length - occurrences pat 0 s * pat.length) ∧
      0 < occurrences pat 0 s ∧
      (replaceScan pat rep 0 s).length =
        s.length + occurrences pat 0 s * rep.length - occurrences pat 0 s * pat.length) ∧
    ((pat = [] ∨ ¬ pat <:+: s) → string_replace s pat rep junk = .status AM_NOT_FOUND) := by
  constructor
  · intro hpat hin
    have hlenp : 0 < pat.length := List.length_pos.2 hpat
    obtain ⟨k0, hk0⟩ : ∃ k0, strstr_pos pat s = some k0 := by
      cases h : strstr_pos pat s with
      | none => exact absurd hin (strstr_pos_not_found pat s h)
      | some k0 => exact ⟨k0, rfl⟩
    obtain ⟨a, b, h1, _, h3, h4⟩ := strstr_pos_some pat rep hpat s k0 hk0
    have hlen := replaceScan_length pat rep hpat s.length s rfl
    have hocc : 0 < occurrences pat 0 s := by omega
    have hplen : pat.length ≤ s.length := by
      rw [h1]
      simp only [List.length_append]
      omega
    have hrlen : rep.length ≤ (replaceScan pat rep 0 s).length := by
      rw [h3]
      simp only [List.length_append]
      omega
    have hRS : (replaceScan pat rep 0 s).length =
        s.length + occurrences pat 0 s * rep.length - occurrences pat 0 s * pat.length := by
      omega
    have hn := new_size s.length (occurrences pat 0 s) rep.length pat.length
      (replaceScan pat rep 0 s).length (by omega) (by omega) hlen (by omega)
    obtain ⟨J2, hJ⟩ := replaceLoop_spec pat rep hpat hr s.length [] s
      (if s.length < (replaceScan pat rep 0 s).length then
        (List.range ((replaceScan pat rep 0 s).length - s.length)).map junk else [])
      (by simp) hs (le_refl _) (by simpa using h64) (by simpa using h64b) (by
        simp only [List.length_nil, List.nil_append, List.length_append, List.length_cons,
          Nat.zero_add]
        split_ifs with hlt
        · rw [List.length_map, List.length_range]
          omega
        · simp only [List.length_nil]
          omega)
    simp only [List.nil_append, List.length_nil, Nat.zero_add] at hJ
    have he : (s.length + 1) % 2 ^ 64 = s.length + 1 := Nat.mod_eq_of_lt h64
    rw [← he] at hJ
    have hres := replaceCounted_of s pat rep junk (occurrences pat 0 s)
      (replaceScan pat rep 0 s).length _ (by omega) hn hJ
    have hnul : NUL ∉ replaceScan pat rep 0 s := by
      intro h0
      rcases mem_replaceScan pat rep s 0 NUL h0 with h | h
      · exact hr h
      · exact hs h
    rw [cstr_append_nul _ _ hnul] at hres
    refine ⟨?_, hocc, hRS⟩
    unfold string_replace
    rw [if_neg (by omega), countLoop_eq pat hpat s.length s (le_refl _)]
    simp only []
    rw [hres, hRS]
  · intro h
    unfold string_replace
    by_cases hp : pat = []
    · rw [if_pos (by rw [hp]; rfl)]
    · have hlenp : 0 < pat.length := List.length_pos.2 hp
      rcases h with h | h
      · exact absurd h hp
      · have hnone : strstr_pos pat s = none := by
          cases hk : strstr_pos pat s with
          | none => rfl
          | some k0 =>
            obtain ⟨a, b, h1, _, _, _⟩ := strstr_pos_some pat rep hp s k0 hk
            exact absurd ⟨a, b, by rw [h1, List.append_assoc]⟩ h
        rw [if_neg (by omega), countLoop_eq pat hp s.length s (le_refl _),
          (strstr_pos_none pat rep s hnone).2]
        rfl

/-- Witness of C40: in `hello world hello` the pattern `hello` is replaced twice, by
a longer and by a shorter text; the pattern `xyz` does not occur. -/
theorem string_replace_spec_witness :
    string_replace "hello world hello".toList "hello".toList "HELLO!!".toList (fun _ => 'j') =
      .replaced "HELLO!! world HELLO!!".toList 21 ∧
    string_replace "hello world hello".toList "hello".toList "h".toList (fun _ => 'j') =
      .replaced "h world h".toList 9 ∧
    string_replace "hello world hello".toList "xyz".toList "h".toList (fun _ => 'j') =
      .status AM_NOT_FOUND ∧
    (string_replace "aaa".toList "aa".toList "b".toList (fun _ => 'j') =
      .replaced (replaceScan "aa".toList "b".toList 0 "aaa".toList)
        ("aaa".toList.length + occurrences "aa".toList 0 "aaa".toList * "b".toList.length -
          occurrences "aa".toList 0 "aaa".toList * "aa".toList.length) ∧
      0 < occurrences "aa".toList 0 "aaa".toList ∧
      (replaceScan "aa".toList "b".toList 0 "aaa".toList).length =
        "aaa".toList.length + occurrences "aa".toList 0 "aaa".toList * "b".toList.length -
          occurrences "aa".toList 0 "aaa".toList * "aa".toList.length) ∧
    replaceScan "aa".toList "b".toList 0 "aaa".toList = "ba".toList :=
  ⟨by decide, by decide, by decide,
    (string_replace_spec "aaa".toList "aa".toList "b".toList (fun _ => 'j') (by decide)
      (by decide) (by decide) (by decide)).1 (by decide) ⟨"".toList, "a".toList, by decide⟩,
    by decide⟩

end WebAgents
